import Mathlib

/-!
# Touch detection prototype: convolution, kernels, Hessian and Gaussian fitting

A shallow embedding of the numerical core of the touch detection prototype
(`algorithm/convolution.hpp`, `kernels.hpp`, `algorithms/hessian.opt.hpp`,
`algorithms/gaussian_fitting.hpp`) and of stages of its pipeline
(`main.cpp`).  Floating point numbers are replaced by an arbitrary (ordered)
field, so every statement below is a statement in exact arithmetic;
`std::exp`, `std::log` and the square root are passed to the definitions as
functions.  Indices (`index_t`) are integers.
-/

set_option autoImplicit false

namespace TouchDetection

/-! ## Indices, images and kernels -/

/-- Pair of indices `index2_t`, used for pixel positions and image shapes. -/
structure index2 where
  x : Int
  y : Int
deriving DecidableEq, Repr

/-- Modelled from the spec: `container::image<T>`, a dense 2-D grid of shape
`(w, h)` stored in row-major order (`container/image.hpp` is not part of the
sources at hand).  The buffer is the list `data`, of length `w * h` for an
allocated image. -/
structure image (T : Type) where
  shape : index2
  data : List T

/-- Modelled from the spec: `container::kernel<S, Nx, Ny>`, a fixed-size
array of `Nx * Ny` weights in row-major order. -/
structure kernel (S : Type) (Nx Ny : Nat) where
  data : List S

/-- The integers `lo, lo + 1, ..., hi - 1`: the values taken by the running
index of `for (index_t i = lo; i < hi; ++i)`. -/
def irange (lo hi : Int) : List Int :=
  (List.range (hi - lo).toNat).map (fun (n : Nat) => lo + (n : Int))

namespace image

variable {T : Type}

/-- An image whose buffer has been allocated for its shape. -/
def allocated (img : image T) : Prop :=
  0 ≤ img.shape.x ∧ 0 ≤ img.shape.y ∧ img.data.length = (img.shape.x * img.shape.y).toNat

/-- Linear index of the 2-D index `p`: `i = y * w + x`. -/
def ravel (shape : index2) (p : index2) : Int :=
  p.y * shape.x + p.x

/-- Read by linear index, `img[i]`.  An access outside of the buffer is
undefined in the source; here it reads zero. -/
def get [Zero T] (img : image T) (i : Int) : T :=
  if 0 ≤ i then img.data.getD i.toNat 0 else 0

/-- Write by linear index, `img[i] = v`.  An access outside of the buffer is
undefined in the source; here it leaves the image unchanged. -/
def set (img : image T) (i : Int) (v : T) : image T :=
  if 0 ≤ i then { img with data := img.data.set i.toNat v } else img

/-- Read by 2-D index, `img[{x, y}]`. -/
def get2 [Zero T] (img : image T) (p : index2) : T :=
  img.get (ravel img.shape p)

/-- Write by 2-D index, `img[{x, y}] = v`. -/
def set2 (img : image T) (p : index2) (v : T) : image T :=
  img.set (ravel img.shape p) v

/-- Two images of the same shape and buffer size. -/
def same_layout (a b : image T) : Prop :=
  a.shape = b.shape ∧ a.data.length = b.data.length

/-- The position `p` lies inside an image of the given shape. -/
def inside (shape : index2) (p : index2) : Prop :=
  0 ≤ p.x ∧ p.x < shape.x ∧ 0 ≤ p.y ∧ p.y < shape.y

instance (shape p : index2) : Decidable (inside shape p) := by
  unfold inside; infer_instance

end image

namespace kernel

variable {S : Type} {Nx Ny : Nat}

/-- The buffer of a kernel seen as an image of shape `(Nx, Ny)`: both are
row-major, `k[{i, j}]` is the entry `j * Nx + i`. -/
def toImage (k : kernel S Nx Ny) : image S :=
  { shape := ⟨(Nx : Int), (Ny : Int)⟩, data := k.data }

/-- Read by linear index, `k[i]`. -/
def get [Zero S] (k : kernel S Nx Ny) (i : Int) : S :=
  k.toImage.get i

/-- Read by 2-D index, `k[{i, j}]`, row-major: `k[j * Nx + i]`. -/
def get2 [Zero S] (k : kernel S Nx Ny) (p : index2) : S :=
  k.toImage.get2 p

/-- Write by 2-D index, `k[{i, j}] = v`. -/
def set2 (k : kernel S Nx Ny) (p : index2) (v : S) : kernel S Nx Ny :=
  { data := (k.toImage.set2 p v).data }

/-- Modelled from the spec: `transform_inplace(k, f)` (not part of the
sources at hand) replaces every entry `x` of the kernel by `f x`. -/
def transform_inplace (k : kernel S Nx Ny) (f : S → S) : kernel S Nx Ny :=
  { data := k.data.map f }

/-- The value-initialised kernel `kernel<T, Nx, Ny>{}`: all entries zero. -/
def zeroed [Zero S] : kernel S Nx Ny :=
  { data := List.replicate (Nx * Ny) 0 }

end kernel

/-! ## Border policies -/

/-- A border policy `B`: the capability `B::value(image, {x, y})` the
convolution is polymorphic over. -/
structure border (T : Type) where
  value : image T → index2 → T

/-- Clamp `v` to the interval `[lo, hi]`. -/
def clamp (v lo hi : Int) : Int :=
  if v < lo then lo else if hi < v then hi else v

namespace border

variable {T : Type}

/-- Modelled from the spec: `border::extend` (`algorithm/border.hpp` is not
part of the sources at hand), out-of-range coordinates are clamped to the
nearest edge pixel. -/
def extend [Zero T] : border T where
  value img p :=
    img.get2 ⟨clamp p.x 0 (img.shape.x - 1), clamp p.y 0 (img.shape.y - 1)⟩

/-- Modelled from the spec: `border::zero` (`algorithm/border.hpp` is not
part of the sources at hand), out-of-range reads contribute nothing. -/
def zero [Zero T] : border T where
  value img p := if image.inside img.shape p then img.get2 p else 0

end border

/-! ## Generic convolution (`algorithm/convolution.hpp`) -/

namespace impl

/-- Kernel offset `(N - 1) / 2` (integer division of the source). -/
def half (N : Nat) : Int := Int.tdiv ((N : Int) - 1) 2

/-- The function `impl::conv_generic<B, T, S, Nx, Ny>`.  The four nested
loops of the source; `out` is threaded through them. -/
def conv_generic {T S : Type} {Nx Ny : Nat} [Zero T] [Add T] [HMul T S T] [Zero S]
    (B : border T) (out : image T) (inp : image T) (k : kernel S Nx Ny) : image T :=
  let dx := half Nx
  let dy := half Ny
  (irange 0 inp.shape.y).foldl (fun out cy =>
    (irange 0 inp.shape.x).foldl (fun out cx =>
      let out := out.set2 ⟨cx, cy⟩ 0
      (irange 0 Ny).foldl (fun out iy =>
        (irange 0 Nx).foldl (fun out ix =>
          out.set2 ⟨cx, cy⟩
            (out.get2 ⟨cx, cy⟩ + B.value inp ⟨cx - dx + ix, cy - dy + iy⟩ * k.get2 ⟨ix, iy⟩))
          out) out) out) out

end impl

/-! ## Small vectors and matrices -/

/-- Pair `vec2<T>`. -/
structure vec2 (T : Type) where
  x : T
  y : T
deriving DecidableEq

/-- Symmetric 2x2 matrix `mat2s<T>` with entries `(xx, xy, yy)`. -/
structure mat2s (T : Type) where
  xx : T
  xy : T
  yy : T
deriving DecidableEq

instance {T : Type} [Zero T] : Zero (mat2s T) := ⟨⟨0, 0, 0⟩⟩

/-- Modelled from the spec: `l2norm` (`math.hpp` is not part of the sources
at hand), the Euclidean norm of a pair; `sqrt` is the square root. -/
def l2norm {T : Type} [Add T] [Mul T] (sqrt : T → T) (v : vec2 T) : T :=
  sqrt (v.x * v.x + v.y * v.y)

/-- Modelled from the spec: `det` of a symmetric 2x2 matrix (`math.hpp` is
not part of the sources at hand), `d = xx * yy - xy^2`. -/
def det {T : Type} [Ring T] (m : mat2s T) : T :=
  m.xx * m.yy - m.xy * m.xy

/-- Modelled from the spec: `xtmx`, the quadratic form `x^T M x` of a
symmetric 2x2 matrix (`math.hpp` is not part of the sources at hand). -/
def xtmx {T : Type} [Ring T] (m : mat2s T) (v : vec2 T) : T :=
  m.xx * v.x * v.x + 2 * m.xy * v.x * v.y + m.yy * v.y * v.y

/-! ## Kernels (`kernels.hpp`) -/

namespace kernels

variable {T : Type}

/-- The kernel `sobel3_x`. -/
def sobel3_x [Ring T] : kernel T 3 3 :=
  { data := [
     1, 0, -1,
     2, 0, -2,
     1, 0, -1] }

/-- The kernel `sobel3_y`. -/
def sobel3_y [Ring T] : kernel T 3 3 :=
  { data := [
     1,  2,  1,
     0,  0,  0,
    -1, -2, -1] }

/-- The kernel `sobel3_xx`. -/
def sobel3_xx [Ring T] : kernel T 3 3 :=
  { data := [
    1, -2, 1,
    2, -4, 2,
    1, -2, 1] }

/-- The kernel `sobel3_yy`. -/
def sobel3_yy [Ring T] : kernel T 3 3 :=
  { data := [
     1,  2,  1,
    -2, -4, -2,
     1,  2,  1] }

/-- The kernel `sobel3_xy`. -/
def sobel3_xy [Ring T] : kernel T 3 3 :=
  { data := [
     1, 0, -1,
     0, 0,  0,
    -1, 0,  1] }

/-- The function `kernels::gaussian<T, Nx, Ny>(sigma)`; `exp` stands for
`std::exp` and `norm` for `l2norm<T>`.  The loop state is the pair
`(k, sum)`. -/
def gaussian [Field T] (exp : T → T) (norm : vec2 T → T) (Nx Ny : Nat) (sigma : T) :
    kernel T Nx Ny :=
  let k : kernel T Nx Ny := kernel.zeroed
  let sum : T := 0
  let ks := (irange 0 Ny).foldl (fun ks j =>
    (irange 0 Nx).foldl (fun (ks : kernel T Nx Ny × T) i =>
      let x := norm ⟨((i - impl.half Nx : Int) : T), ((j - impl.half Ny : Int) : T)⟩ / sigma
      let v := exp (-(1 / 2 : T) * x * x)
      (ks.1.set2 ⟨i, j⟩ v, ks.2 + v)) ks) (k, sum)
  ks.1.transform_inplace (fun x => x / ks.2)

end kernels

/-- Modelled from the spec: `average` (not part of the sources at hand),
the mean of the pixels of an image. -/
def average {T : Type} [Field T] (img : image T) : T :=
  img.data.sum / (img.data.length : T)

/-- The image of the given shape whose pixels all hold `c`. -/
def image.const {T : Type} (shape : index2) (c : T) : image T :=
  { shape := shape, data := List.replicate (shape.x * shape.y).toNat c }

/-! ## Optimised Hessian (`algorithms/hessian.opt.hpp`) -/

/-- Modelled from the spec: `stride(shape)` (not part of the sources at
hand), the distance between two rows of a row-major image, `i = y * w + x`. -/
def stride (shape : index2) : Int := shape.x

/-- Modelled from the spec: `prod(shape)` (not part of the sources at hand),
the number of pixels `w * h`. -/
def prod (shape : index2) : Int := shape.x * shape.y

namespace hessian_opt

variable {T : Type}

/-- Strides for data access. -/
def s_left : Int := -1
/-- Stride of the pixel itself. -/
def s_center : Int := 0
/-- Stride to the right neighbour. -/
def s_right : Int := 1
/-- Stride to the neighbour above. -/
def s_top (shape : index2) : Int := -stride shape
/-- Stride to the upper left neighbour. -/
def s_top_left (shape : index2) : Int := s_top shape + s_left
/-- Stride to the upper right neighbour. -/
def s_top_right (shape : index2) : Int := s_top shape + s_right
/-- Stride to the neighbour below. -/
def s_bot (shape : index2) : Int := -s_top shape
/-- Stride to the lower left neighbour. -/
def s_bot_left (shape : index2) : Int := s_bot shape + s_left
/-- Stride to the lower right neighbour. -/
def s_bot_right (shape : index2) : Int := s_bot shape + s_right

/-- Strides for kernel access. -/
def k_top_left : Int := 0
/-- Kernel index of the top entry. -/
def k_top : Int := 1
/-- Kernel index of the top right entry. -/
def k_top_right : Int := 2
/-- Kernel index of the left entry. -/
def k_left : Int := 3
/-- Kernel index of the centre entry. -/
def k_center : Int := 4
/-- Kernel index of the right entry. -/
def k_right : Int := 5
/-- Kernel index of the bottom left entry. -/
def k_bot_left : Int := 6
/-- Kernel index of the bottom entry. -/
def k_bot : Int := 7
/-- Kernel index of the bottom right entry. -/
def k_bot_right : Int := 8

/-- One group of three statements of the source,
`h.xx += in[i + s] * kxx[k]; h.xy += in[i + s] * kxy[k]; h.yy += in[i + s] * kyy[k];`
for the data stride `s = sk.1` and the kernel index `k = sk.2`. -/
def tap [Ring T] (inp : image T) (i : Int) (h : mat2s T) (sk : Int × Int) : mat2s T :=
  { xx := h.xx + inp.get (i + sk.1) * (kernels.sobel3_xx : kernel T 3 3).get sk.2
    xy := h.xy + inp.get (i + sk.1) * (kernels.sobel3_xy : kernel T 3 3).get sk.2
    yy := h.yy + inp.get (i + sk.1) * (kernels.sobel3_yy : kernel T 3 3).get sk.2 }

/-- One block of the source: `h = {0, 0, 0}`, the groups listed in `taps` in
order, then `out[i] = h`. -/
def block [Ring T] (inp : image T) (taps : List (Int × Int)) (out : image (mat2s T)) (i : Int) :
    image (mat2s T) :=
  out.set i (taps.foldl (tap inp i) ⟨0, 0, 0⟩)

/-- Groups of the block `x = 0, y = 0`. -/
def taps_top_left (shape : index2) : List (Int × Int) :=
  [(s_center, k_center), (s_right, k_right), (s_bot shape, k_bot), (s_bot_right shape, k_bot_right)]

/-- Groups of the block `0 < x < n - 1, y = 0`. -/
def taps_top (shape : index2) : List (Int × Int) :=
  [(s_left, k_left), (s_center, k_center), (s_right, k_right),
   (s_bot_left shape, k_bot_left), (s_bot shape, k_bot), (s_bot_right shape, k_bot_right)]

/-- Groups of the block `x = n - 1, y = 0`. -/
def taps_top_right (shape : index2) : List (Int × Int) :=
  [(s_left, k_left), (s_center, k_center), (s_bot_left shape, k_bot_left), (s_bot shape, k_bot)]

/-- Groups of the block `x = 0` of the rows `0 < y < n - 1`. -/
def taps_left (shape : index2) : List (Int × Int) :=
  [(s_top shape, k_top), (s_top_right shape, k_top_right), (s_center, k_center),
   (s_right, k_right), (s_bot shape, k_bot), (s_bot_right shape, k_bot_right)]

/-- Groups of the block `0 < x < n - 1` of the rows `0 < y < n - 1`. -/
def taps_center (shape : index2) : List (Int × Int) :=
  [(s_top_left shape, k_top_left), (s_top shape, k_top), (s_top_right shape, k_top_right),
   (s_left, k_left), (s_center, k_center), (s_right, k_right),
   (s_bot_left shape, k_bot_left), (s_bot shape, k_bot), (s_bot_right shape, k_bot_right)]

/-- Groups of the block `x = n - 1` of the rows `0 < y < n - 1`. -/
def taps_right (shape : index2) : List (Int × Int) :=
  [(s_top_left shape, k_top_left), (s_top shape, k_top), (s_left, k_left),
   (s_center, k_center), (s_bot_left shape, k_bot_left), (s_bot shape, k_bot)]

/-- Groups of the block `x = 0, y = n - 1`. -/
def taps_bot_left (shape : index2) : List (Int × Int) :=
  [(s_top shape, k_top), (s_top_right shape, k_top_right), (s_center, k_center),
   (s_right, k_right)]

/-- Groups of the block `0 < x < n - 1, y = n - 1`. -/
def taps_bot (shape : index2) : List (Int × Int) :=
  [(s_top_left shape, k_top_left), (s_top shape, k_top), (s_top_right shape, k_top_right),
   (s_left, k_left), (s_center, k_center), (s_right, k_right)]

/-- Groups of the block `x = n - 1, y = n - 1`. -/
def taps_bot_right (shape : index2) : List (Int × Int) :=
  [(s_top_left shape, k_top_left), (s_top shape, k_top), (s_left, k_left),
   (s_center, k_center)]

/-- The loop `while (i < in.shape().x * (in.shape().y - 1))` over the rows
`0 < y < n - 1`; the state is the output image and the running index `i`.
Every round advances `i` by at least two, `fuel` bounds the number of
rounds. -/
def rows [Ring T] (inp : image T) : Nat → image (mat2s T) × Int → image (mat2s T) × Int
  | 0, s => s
  | fuel + 1, (out, i) =>
    if i < inp.shape.x * (inp.shape.y - 1) then
      -- x = 0
      let out := block inp (taps_left inp.shape) out i
      let i := i + 1
      -- 0 < x < n - 1
      let limit := i + inp.shape.x - 2
      let out := (irange i limit).foldl (block inp (taps_center inp.shape)) out
      let i := max i limit
      -- x = n - 1
      let out := block inp (taps_right inp.shape) out i
      let i := i + 1
      rows inp fuel (out, i)
    else (out, i)

end hessian_opt

/-- The function `hessian<border::zero, f32>(out, in)`: nine blocks visited
with the running index `i`.  After a `for (; i < n; ++i)` loop entered with
`i = i0` the index is `max i0 n`. -/
def hessian {T : Type} [Ring T] (out : image (mat2s T)) (inp : image T) : image (mat2s T) :=
  let i : Int := 0
  -- x = 0, y = 0
  let out := hessian_opt.block inp (hessian_opt.taps_top_left inp.shape) out i
  let i := i + 1
  -- 0 < x < n - 1, y = 0
  let out := (irange i (inp.shape.x - 1)).foldl
    (hessian_opt.block inp (hessian_opt.taps_top inp.shape)) out
  let i := max i (inp.shape.x - 1)
  -- x = n - 1, y = 0
  let out := hessian_opt.block inp (hessian_opt.taps_top_right inp.shape) out i
  let i := i + 1
  -- 0 < y < n - 1
  let s := hessian_opt.rows inp (inp.shape.x * (inp.shape.y - 1)).toNat (out, i)
  let out := s.1
  let i := s.2
  -- x = 0, y = n - 1
  let out := hessian_opt.block inp (hessian_opt.taps_bot_left inp.shape) out i
  let i := i + 1
  -- 0 < x < n - 1, y = n - 1
  let out := (irange i (prod inp.shape - 1)).foldl
    (hessian_opt.block inp (hessian_opt.taps_bot inp.shape)) out
  let i := max i (prod inp.shape - 1)
  -- x = n - 1, y = n - 1
  hessian_opt.block inp (hessian_opt.taps_bot_right inp.shape) out i

/-- Reference value of the Hessian stage at the pixel `(x, y)`, following
the words of the specification: the three 3x3 zero-border correlations
`sum over i, j in {0,1,2} of z(x-1+i, y-1+j) * K[j*3+i]` with
`K = sobel3_xx, sobel3_xy, sobel3_yy`, where `z` reads the input inside of
the image and is zero outside. -/
def hessian_reference {T : Type} [Ring T] (inp : image T) (x y : Int) : mat2s T :=
  { xx := ∑ i ∈ Finset.range 3, ∑ j ∈ Finset.range 3,
      (border.zero : border T).value inp ⟨x - 1 + i, y - 1 + j⟩ *
        (kernels.sobel3_xx : kernel T 3 3).get ((j : Int) * 3 + i)
    xy := ∑ i ∈ Finset.range 3, ∑ j ∈ Finset.range 3,
      (border.zero : border T).value inp ⟨x - 1 + i, y - 1 + j⟩ *
        (kernels.sobel3_xy : kernel T 3 3).get ((j : Int) * 3 + i)
    yy := ∑ i ∈ Finset.range 3, ∑ j ∈ Finset.range 3,
      (border.zero : border T).value inp ⟨x - 1 + i, y - 1 + j⟩ *
        (kernels.sobel3_yy : kernel T 3 3).get ((j : Int) * 3 + i) }

/-- The pixels of linear index below `i` of `out` hold their reference
value, and `out` has the layout of `out0`: the state of the optimised
Hessian when its running index is `i`. -/
def hessian_opt.scanned {T : Type} [Ring T] (out0 : image (mat2s T)) (inp : image T)
    (out : image (mat2s T)) (i : Int) : Prop :=
  image.same_layout out out0 ∧
  ∀ q, image.inside inp.shape q → image.ravel inp.shape q < i →
    out.get2 q = hessian_reference inp q.x q.y

/-! ## Gaussian fitting (`algorithms/gaussian_fitting.hpp`) -/

instance {T : Type} [Sub T] : Sub (vec2 T) := ⟨fun a b => ⟨a.x - b.x, a.y - b.y⟩⟩

namespace gfit

/-- Modelled from the spec: `math::vec6_t<T>` (`math/vec6.hpp` is not part of
the sources at hand), a vector of 6 elements, `v[i]`. -/
abbrev vec6_t (T : Type) := Fin 6 → T

/-- Modelled from the spec: `math::mat6_t<T>` (`math/mat6.hpp` is not part of
the sources at hand), a dense 6x6 matrix; `m i j` is the entry `m[{i, j}]`. -/
abbrev mat6_t (T : Type) := Fin 6 → Fin 6 → T

/-- The statement `v[i] += a`. -/
def vec6_add {T : Type} [Add T] (v : vec6_t T) (i : Fin 6) (a : T) : vec6_t T :=
  fun k => if k = i then v k + a else v k

/-- The statement `m[{i, j}] += a`. -/
def mat6_add {T : Type} [Add T] (m : mat6_t T) (i j : Fin 6) (a : T) : mat6_t T :=
  fun r c => if r = i ∧ c = j then m r c + a else m r c

/-- The statement `m[{i, j}] *= a`. -/
def mat6_mul {T : Type} [Mul T] (m : mat6_t T) (i j : Fin 6) (a : T) : mat6_t T :=
  fun r c => if r = i ∧ c = j then m r c * a else m r c

/-- The constant `range<T> = {1, 1}`. -/
def range {T : Type} [One T] : vec2 T := ⟨1, 1⟩

/-- The struct `bbox`, an inclusive bounding box. -/
structure bbox where
  xmin : Int
  xmax : Int
  ymin : Int
  ymax : Int
deriving DecidableEq

/-- The struct `parameters<T>` of one Gaussian. -/
structure parameters (T : Type) where
  valid : Bool
  scale : T
  mean : vec2 T
  prec : mat2s T
  bounds : bbox
  weights : image T

namespace impl

variable {T : Type}

/-- The function `gaussian_like(x, mean, prec)`; `exp` stands for `std::exp`. -/
def gaussian_like [Field T] (exp : T → T) (x mean : vec2 T) (prec : mat2s T) : T :=
  exp (-xtmx prec (x - mean) / 2)

/-- The statements of the loop body of `assemble_system` for the pixel of
scaled position `(x, y)`, with `d = w * data` and `v = log(d + eps) * d * d`. -/
def assemble_pixel [Field T] (s : mat6_t T × vec6_t T) (x y d v : T) : mat6_t T × vec6_t T :=
  let m := s.1
  let rhs := s.2
  let rhs := vec6_add rhs 0 (v * x * x)
  let rhs := vec6_add rhs 1 (v * x * y)
  let rhs := vec6_add rhs 2 (v * y * y)
  let rhs := vec6_add rhs 3 (v * x)
  let rhs := vec6_add rhs 4 (v * y)
  let rhs := vec6_add rhs 5 v

  let m := mat6_add m 0 0 (d * d * x * x * x * x)
  let m := mat6_add m 0 1 (d * d * x * x * x * y)
  let m := mat6_add m 0 2 (d * d * x * x * y * y)
  let m := mat6_add m 0 3 (d * d * x * x * x)
  let m := mat6_add m 0 4 (d * d * x * x * y)
  let m := mat6_add m 0 5 (d * d * x * x)

  let m := mat6_add m 1 0 (d * d * x * x * x * y)
  let m := mat6_add m 1 1 (d * d * x * x * y * y)
  let m := mat6_add m 1 2 (d * d * x * y * y * y)
  let m := mat6_add m 1 3 (d * d * x * x * y)
  let m := mat6_add m 1 4 (d * d * x * y * y)
  let m := mat6_add m 1 5 (d * d * x * y)

  let m := mat6_add m 2 0 (d * d * x * x * y * y)
  let m := mat6_add m 2 1 (d * d * x * y * y * y)
  let m := mat6_add m 2 2 (d * d * y * y * y * y)
  let m := mat6_add m 2 3 (d * d * x * y * y)
  let m := mat6_add m 2 4 (d * d * y * y * y)
  let m := mat6_add m 2 5 (d * d * y * y)

  let m := mat6_add m 3 0 (d * d * x * x * x)
  let m := mat6_add m 3 1 (d * d * x * x * y)
  let m := mat6_add m 3 2 (d * d * x * y * y)
  let m := mat6_add m 3 3 (d * d * x * x)
  let m := mat6_add m 3 4 (d * d * x * y)
  let m := mat6_add m 3 5 (d * d * x)

  let m := mat6_add m 4 0 (d * d * x * x * y)
  let m := mat6_add m 4 1 (d * d * x * y * y)
  let m := mat6_add m 4 2 (d * d * y * y * y)
  let m := mat6_add m 4 3 (d * d * x * y)
  let m := mat6_add m 4 4 (d * d * y * y)
  let m := mat6_add m 4 5 (d * d * y)

  let m := mat6_add m 5 0 (d * d * x * x)
  let m := mat6_add m 5 1 (d * d * x * y)
  let m := mat6_add m 5 2 (d * d * y * y)
  let m := mat6_add m 5 3 (d * d * x)
  let m := mat6_add m 5 4 (d * d * y)
  let m := mat6_add m 5 5 (d * d)
  (m, rhs)

/-- The function `assemble_system(m, rhs, b, data, w)`; `log` stands for
`std::log` and `eps` for `std::numeric_limits<S>::epsilon()`.  The matrix and
the right-hand side are zeroed first, so only their final values are
returned. -/
def assemble_system [Field T] (log : T → T) (eps : T) (b : bbox) (data : image T)
    (w : image T) : mat6_t T × vec6_t T :=
  let scale : vec2 T := ⟨2 * (range : vec2 T).x / (data.shape.x : T),
                         2 * (range : vec2 T).y / (data.shape.y : T)⟩
  let m : mat6_t T := fun _ _ => 0
  let rhs : vec6_t T := fun _ => 0
  let s := (irange b.ymin (b.ymax + 1)).foldl (fun s (iy : Int) =>
    (irange b.xmin (b.xmax + 1)).foldl (fun s (ix : Int) =>
      let x := (ix : T) * scale.x - (range : vec2 T).x
      let y := (iy : T) * scale.y - (range : vec2 T).y
      let d := w.get2 ⟨ix - b.xmin, iy - b.ymin⟩ * data.get2 ⟨ix, iy⟩
      let v := log (d + eps) * d * d
      assemble_pixel s x y d v) s) (m, rhs)
  let m := s.1
  let rhs := s.2
  let m := mat6_mul m 0 1 2
  let m := mat6_mul m 1 1 2
  let m := mat6_mul m 2 1 2
  let m := mat6_mul m 3 1 2
  let m := mat6_mul m 4 1 2
  let m := mat6_mul m 5 1 2
  (m, rhs)

/-- Outputs of `extract_params`: the returned flag and the values left in
the reference parameters `scale`, `mean` and `prec`. -/
structure extracted (T : Type) where
  ok : Bool
  scale : T
  mean : vec2 T
  prec : mat2s T

/-- The function `extract_params(chi, scale, mean, prec, eps)`; `exp` stands
for `std::exp`. -/
def extract_params [LinearOrderedField T] (exp : T → T) (chi : vec6_t T) (scale : T)
    (mean : vec2 T) (prec : mat2s T) (eps : T) : extracted T :=
  let prec := { prec with xx := -2 * chi 0 }
  let prec := { prec with xy := -2 * chi 1 }
  let prec := { prec with yy := -2 * chi 2 }
  -- mu = sigma * b = prec^-1 * B
  let d := det prec
  if |d| ≤ eps then
    { ok := false, scale := scale, mean := mean, prec := prec }
  else
    let mean := { mean with x := (prec.yy * chi 3 - prec.xy * chi 4) / d }
    let mean := { mean with y := (prec.xx * chi 4 - prec.xy * chi 3) / d }
    let scale := exp (chi 5 + xtmx prec mean / 2)
    { ok := true, scale := scale, mean := mean, prec := prec }

/-- The function `update_weight_maps(params, total)`; returns the parameters
(with their weight images rewritten) and the image `total`. -/
def update_weight_maps [LinearOrderedField T] (exp : T → T) (params : List (parameters T))
    (total : image T) : List (parameters T) × image T :=
  let scale : vec2 T := ⟨2 * (range : vec2 T).x / (total.shape.x : T),
                         2 * (range : vec2 T).y / (total.shape.y : T)⟩
  let total : image T := { total with data := total.data.map (fun _ => 0) }
  -- compute individual Gaussians in sample windows
  let params := params.map (fun p =>
    if !p.valid then p else
      { p with weights :=
        (irange p.bounds.ymin (p.bounds.ymax + 1)).foldl (fun w (iy : Int) =>
          (irange p.bounds.xmin (p.bounds.xmax + 1)).foldl (fun w (ix : Int) =>
            let x := (ix : T) * scale.x - (range : vec2 T).x
            let y := (iy : T) * scale.y - (range : vec2 T).y
            let v := p.scale * gaussian_like exp ⟨x, y⟩ p.mean p.prec
            w.set2 ⟨ix - p.bounds.xmin, iy - p.bounds.ymin⟩ v) w) p.weights })
  -- sum up total
  let total := params.foldl (fun total p =>
    if !p.valid then total else
      (irange p.bounds.ymin (p.bounds.ymax + 1)).foldl (fun total y =>
        (irange p.bounds.xmin (p.bounds.xmax + 1)).foldl (fun total x =>
          total.set2 ⟨x, y⟩
            (total.get2 ⟨x, y⟩ + p.weights.get2 ⟨x - p.bounds.xmin, y - p.bounds.ymin⟩))
          total) total) total
  -- normalize weights
  let params := params.map (fun p =>
    if !p.valid then p else
      { p with weights :=
        (irange p.bounds.ymin (p.bounds.ymax + 1)).foldl (fun w y =>
          (irange p.bounds.xmin (p.bounds.xmax + 1)).foldl (fun w x =>
            if total.get2 ⟨x, y⟩ > 0 then
              w.set2 ⟨x - p.bounds.xmin, y - p.bounds.ymin⟩
                (w.get2 ⟨x - p.bounds.xmin, y - p.bounds.ymin⟩ / total.get2 ⟨x, y⟩)
            else w) w) p.weights })
  (params, total)

end impl

/-- The function `reserve(params, n, shape)`.  The slots appended by
`resize` are copies of one fresh slot; the pixels of its weight image
`image<T> { shape }` are taken to be zero. -/
def reserve {T : Type} [Field T] (params : List (parameters T)) (n : Nat) (shape : index2) :
    List (parameters T) :=
  let params :=
    if n > params.length then
      params ++ List.replicate (n - params.length)
        { valid := false
          scale := 1
          mean := ⟨0, 0⟩
          prec := ⟨1, 0, 1⟩
          bounds := ⟨0, -1, 0, -1⟩
          weights := image.const shape 0 }
    else params
  params.map (fun p => { p with valid := false })

/-- The down-scaling loop of `fit`. -/
def fit_down {T : Type} [Field T] (scale : vec2 T) (params : List (parameters T)) :
    List (parameters T) :=
  params.map (fun p =>
    if !p.valid then p else
      -- scale and center mean
      let p := { p with mean := { p.mean with x := p.mean.x * scale.x - (range : vec2 T).x } }
      let p := { p with mean := { p.mean with y := p.mean.y * scale.y - (range : vec2 T).y } }
      -- scale precision matrix
      let p := { p with prec := { p.prec with xx := p.prec.xx / (scale.x * scale.x) } }
      let p := { p with prec := { p.prec with xy := p.prec.xy / (scale.x * scale.y) } }
      let p := { p with prec := { p.prec with yy := p.prec.yy / (scale.y * scale.y) } }
      p)

/-- The loop undoing the down-scaling at the end of `fit`. -/
def fit_up {T : Type} [Field T] (scale : vec2 T) (params : List (parameters T)) :
    List (parameters T) :=
  params.map (fun p =>
    if !p.valid then p else
      -- un-scale and re-adjust mean
      let p := { p with mean := { p.mean with x := (p.mean.x + (range : vec2 T).x) / scale.x } }
      let p := { p with mean := { p.mean with y := (p.mean.y + (range : vec2 T).y) / scale.y } }
      -- un-scale precision matrix
      let p := { p with prec := { p.prec with xx := p.prec.xx * scale.x * scale.x } }
      let p := { p with prec := { p.prec with xy := p.prec.xy * scale.x * scale.y } }
      let p := { p with prec := { p.prec with yy := p.prec.yy * scale.y * scale.y } }
      p)

/-- The body of the loop `fit individual parameters` of `fit` for one slot.
`ge_solve sys rhs eps` stands for `math::ge_solve(sys, rhs, chi, eps)`
(`math/sle6.hpp` is not part of the sources at hand): it returns the flag
and the solution `chi`. -/
def fit_slot {T : Type} [LinearOrderedField T]
    (ge_solve : mat6_t T → vec6_t T → T → Bool × vec6_t T) (exp log : T → T) (meps : T)
    (data : image T) (eps : T) (p : parameters T) : parameters T :=
  if !p.valid then p else
    -- assemble system of linear equations
    let s := impl.assemble_system log meps p.bounds data p.weights
    -- solve systems
    let r := ge_solve s.1 s.2 eps
    let p := { p with valid := r.1 }
    if !p.valid then p else
      -- get parameters
      let e := impl.extract_params exp r.2 p.scale p.mean p.prec eps
      { p with valid := e.ok, scale := e.scale, mean := e.mean, prec := e.prec }

/-- One round of the loop `perform iterations` of `fit`. -/
def fit_step {T : Type} [LinearOrderedField T]
    (ge_solve : mat6_t T → vec6_t T → T → Bool × vec6_t T) (exp log : T → T) (meps : T)
    (data : image T) (eps : T) (s : List (parameters T) × image T) :
    List (parameters T) × image T :=
  -- update weights
  let s := impl.update_weight_maps exp s.1 s.2
  -- fit individual parameters
  (s.1.map (fit_slot ge_solve exp log meps data eps), s.2)

/-- The function `fit(params, data, tmp, n_iter, eps)`; returns the
parameters and the scratch image `tmp`.  `meps` stands for
`std::numeric_limits<S>::epsilon()`. -/
def fit {T : Type} [LinearOrderedField T]
    (ge_solve : mat6_t T → vec6_t T → T → Bool × vec6_t T) (exp log : T → T) (meps : T)
    (params : List (parameters T)) (data : image T) (tmp : image T) (n_iter : Nat) (eps : T) :
    List (parameters T) × image T :=
  let scale : vec2 T := ⟨2 * (range : vec2 T).x / (data.shape.x : T),
                         2 * (range : vec2 T).y / (data.shape.y : T)⟩
  -- down-scaling
  let params := fit_down scale params
  -- perform iterations
  let s := (List.range n_iter).foldl (fun s _ => fit_step ge_solve exp log meps data eps s)
    (params, tmp)
  -- undo down-scaling
  (fit_up scale s.1, s.2)

end gfit

/-- The monomials `phi = (x^2, x y, y^2, x, y, 1)` of the log-quadratic
model of the Gaussian fit. -/
def gfit.phi {T : Type} [Field T] (x y : T) : gfit.vec6_t T :=
  ![x * x, x * y, y * y, x, y, 1]

/-- The model `a x^2 + 2 b x y + c y^2 + d x + e y + f` of the log-intensity
for the coefficient vector `chi = (a, b, c, d, e, f)`. -/
def gfit.log_model {T : Type} [Field T] (chi : gfit.vec6_t T) (x y : T) : T :=
  chi 0 * (x * x) + 2 * chi 1 * (x * y) + chi 2 * (y * y) + chi 3 * x + chi 4 * y + chi 5

/-- The image of the given shape whose pixel `(x, y)` holds `f x y`. -/
def image.ofFn {T : Type} (shape : index2) (f : Int → Int → T) : image T :=
  { shape := shape
    data := (List.range (shape.x * shape.y).toNat).map
      (fun (i : Nat) => f ((i : Int) % shape.x) ((i : Int) / shape.x)) }

/-- The fields of a slot other than its weight image:
`(valid, scale, mean, prec, bounds)`. -/
def gfit.parameters.core {T : Type} (p : gfit.parameters T) :
    Bool × T × vec2 T × mat2s T × gfit.bbox :=
  (p.valid, p.scale, p.mean, p.prec, p.bounds)

/-- A solver that reports success with the solution `chi`: the behaviour
of `math::ge_solve` on a system of which `chi` is the solution. -/
def gfit.ge_solve_const {T : Type} (chi : gfit.vec6_t T) :
    gfit.mat6_t T → gfit.vec6_t T → T → Bool × gfit.vec6_t T :=
  fun _ _ _ => (true, chi)

/-- Coefficients `(a, b, c, d, e, f) = (1, 0, -1, 0, 0, 0)` of the saddle
`log g = x^2 - y^2`. -/
def gfit.saddle_chi {T : Type} [Field T] : gfit.vec6_t T := ![1, 0, -1, 0, 0, 0]

/-- A 3x3 test image: the pixel `(ix, iy)` holds `exp(x^2 - y^2) - meps` at
the scaled position `(x, y) = (ix * 2/3 - 1, iy * 2/3 - 1)`. -/
def gfit.saddle_data {T : Type} [Field T] (exp : T → T) (meps : T) : image T :=
  image.ofFn ⟨3, 3⟩ (fun ix iy =>
    exp (gfit.log_model gfit.saddle_chi ((ix : T) * (2 / ((3 : Int) : T)) - 1)
      ((iy : T) * (2 / ((3 : Int) : T)) - 1)) - meps)

/-- A slot initialised the way the pipeline initialises the slot of a
candidate at `(1, 1)` of a 3x3 image: unit scale, mean `(1, 1)`, unit
precision, the window clamped to the image and an 11x11 weight image. -/
def gfit.saddle_slot {T : Type} [Field T] : gfit.parameters T :=
  { valid := true
    scale := 1
    mean := ⟨1, 1⟩
    prec := ⟨1, 0, 1⟩
    bounds := ⟨0, 2, 0, 2⟩
    weights := image.const ⟨11, 11⟩ 0 }

/-! ## Notions used to state the E-step and the M-step of the Gaussian fit -/

/-- The pixel `(x, y)` lies in the (inclusive) bounding box `b`. -/
def gfit.covers (b : gfit.bbox) (x y : Int) : Prop :=
  b.xmin ≤ x ∧ x ≤ b.xmax ∧ b.ymin ≤ y ∧ y ≤ b.ymax

instance (b : gfit.bbox) (x y : Int) : Decidable (gfit.covers b x y) := by
  unfold gfit.covers; infer_instance

/-- The window of the slot `p` lies inside an image of the given shape and
is no larger than the (allocated) weight image of the slot. -/
def gfit.slot_fits {T : Type} (shape : index2) (p : gfit.parameters T) : Prop :=
  0 ≤ p.bounds.xmin ∧ p.bounds.xmax < shape.x ∧ 0 ≤ p.bounds.ymin ∧ p.bounds.ymax < shape.y ∧
  p.weights.allocated ∧ p.bounds.xmax - p.bounds.xmin < p.weights.shape.x ∧
  p.bounds.ymax - p.bounds.ymin < p.weights.shape.y

/-- The term `alpha * exp(-(1/2) (X - mu)^T prec (X - mu))` of the slot `p`
at the pixel `(x, y)` of an image of the given shape, `X` being the scaled
coordinate `(x * 2/w - 1, y * 2/h - 1)` of the pixel. -/
def gfit.mixture_term {T : Type} [Field T] (exp : T → T) (shape : index2)
    (p : gfit.parameters T) (x y : Int) : T :=
  p.scale * exp (-(1 / 2) * xtmx p.prec
    ((⟨(x : T) * (2 / (shape.x : T)) - 1, (y : T) * (2 / (shape.y : T)) - 1⟩ : vec2 T) - p.mean))

/-- The first loop of `update_weight_maps` for one valid slot: the weight
image after `compute individual Gaussians in sample windows`. -/
def gfit.impl.weights_loop {T : Type} [Field T] (exp : T → T) (shape : index2)
    (p : gfit.parameters T) : image T :=
  (irange p.bounds.ymin (p.bounds.ymax + 1)).foldl (fun w (iy : Int) =>
    (irange p.bounds.xmin (p.bounds.xmax + 1)).foldl (fun w (ix : Int) =>
      w.set2 ⟨ix - p.bounds.xmin, iy - p.bounds.ymin⟩
        (p.scale * gfit.impl.gaussian_like exp
          ⟨(ix : T) * (2 * (gfit.range : vec2 T).x / (shape.x : T)) - (gfit.range : vec2 T).x,
           (iy : T) * (2 * (gfit.range : vec2 T).y / (shape.y : T)) - (gfit.range : vec2 T).y⟩
          p.mean p.prec)) w) p.weights

/-- The second loop of `update_weight_maps` for one slot: `sum up total`. -/
def gfit.impl.total_loop {T : Type} [Field T] (total : image T) (p : gfit.parameters T) :
    image T :=
  if !p.valid then total else
    (irange p.bounds.ymin (p.bounds.ymax + 1)).foldl (fun total y =>
      (irange p.bounds.xmin (p.bounds.xmax + 1)).foldl (fun total x =>
        total.set2 ⟨x, y⟩
          (total.get2 ⟨x, y⟩ + p.weights.get2 ⟨x - p.bounds.xmin, y - p.bounds.ymin⟩))
        total) total

/-- The third loop of `update_weight_maps` for one valid slot:
`normalize weights`. -/
def gfit.impl.normalize_loop {T : Type} [LinearOrderedField T] (total : image T)
    (p : gfit.parameters T) : image T :=
  (irange p.bounds.ymin (p.bounds.ymax + 1)).foldl (fun w y =>
    (irange p.bounds.xmin (p.bounds.xmax + 1)).foldl (fun w x =>
      if total.get2 ⟨x, y⟩ > 0 then
        w.set2 ⟨x - p.bounds.xmin, y - p.bounds.ymin⟩
          (w.get2 ⟨x - p.bounds.xmin, y - p.bounds.ymin⟩ / total.get2 ⟨x, y⟩)
      else w) w) p.weights

/-- The sum of `f ix iy` over the pixels `(ix, iy)` of the inclusive window
`b`, rows outermost, as the loops over a window visit them. -/
def gfit.window_sum {M : Type} [AddCommMonoid M] (b : gfit.bbox) (f : Int → Int → M) : M :=
  ((irange b.ymin (b.ymax + 1)).map (fun (iy : Int) =>
    ((irange b.xmin (b.xmax + 1)).map (fun (ix : Int) => f ix iy)).sum)).sum

/-- The weighted least-squares objective of the Gaussian fit, as the
specification words it: `J(chi) = sum over the window of
d^2 * (log(d + eps) - (a x^2 + 2 b x y + c y^2 + d' x + e y + f))^2`
with `d = w * I` and `(x, y)` the scaled position of the pixel. -/
def gfit.objective {T : Type} [Field T] (log : T → T) (eps : T) (b : gfit.bbox)
    (data w : image T) (chi : gfit.vec6_t T) : T :=
  gfit.window_sum b (fun ix iy =>
    (w.get2 ⟨ix - b.xmin, iy - b.ymin⟩ * data.get2 ⟨ix, iy⟩) ^ 2 *
      (log (w.get2 ⟨ix - b.xmin, iy - b.ymin⟩ * data.get2 ⟨ix, iy⟩ + eps) -
        gfit.log_model chi ((ix : T) * (2 / (data.shape.x : T)) - 1)
          ((iy : T) * (2 / (data.shape.y : T)) - 1)) ^ 2)

/-! ## Pipeline stages (`main.cpp`) -/

instance {T : Type} [Zero T] : Zero (vec2 T) := ⟨⟨0, 0⟩⟩

/-- Modelled from the spec: the heatmap dimension descriptor
`(width, height, z_min, z_max)` latched by the parser (`ipts_heatmap_dim`;
the parser headers are not part of the sources at hand).  The fields are
unsigned bytes, held as natural numbers. -/
structure ipts_heatmap_dim where
  width : Nat
  height : Nat
  z_min : Nat
  z_max : Nat
deriving DecidableEq

/-- The members `m_data` and `m_dim` of the class `parser`. -/
structure parser (T : Type) where
  m_data : List (image T)
  m_dim : ipts_heatmap_dim

/-- The function `parser::on_heatmap_dim(dim)`. -/
def parser.on_heatmap_dim {T : Type} (p : parser T) (dim : ipts_heatmap_dim) : parser T :=
  { p with m_dim := dim }

/-- The function `parser::on_heatmap(data)`.  The payload is a list of
bytes; `v - m_dim.z_min` and `m_dim.z_max - m_dim.z_min` are differences of
integers (the bytes are promoted to `int`), converted to the float type
afterwards.  `std::transform` writes the result for the byte at position `i`
to `img[i]`; the fresh image is zero-initialised. -/
def parser.on_heatmap {T : Type} [Field T] (p : parser T) (data : List Nat) : parser T :=
  let img : image T := image.const ⟨(p.m_dim.width : Int), (p.m_dim.height : Int)⟩ 0
  let img := (irange 0 (data.length : Int)).foldl (fun img (i : Int) =>
    let v : Nat := data.getD i.toNat 0
    img.set i (1 - (((v : Int) - (p.m_dim.z_min : Int) : Int) : T) /
      ((((p.m_dim.z_max : Int) - (p.m_dim.z_min : Int) : Int)) : T))) img
  { p with m_data := p.m_data ++ [img] }

/-- The struct `component_stats`; the `u32` fields are natural numbers
below `2^32`. -/
structure component_stats (T : Type) where
  size : Nat
  volume : T
  incoherence : T
  maximas : Nat

/-- The update `v.at(k) = f(v.at(k))` of a `std::vector`; `none` stands for
the exception `std::out_of_range`. -/
def vector_at_update {α : Type} (v : List α) (k : Nat) (f : α → α) : Option (List α) :=
  match v[k]? with
  | some a => some (v.set k (f a))
  | none => none

namespace main

variable {T : Type}

/-- The body of the first loop of the component score stage, for the pixel
`i`: the three statements `cstats.at(label - 1).field += ...`. -/
def cstats_pixel [LinearOrderedField T] (img_lbl : image Nat) (img_pp : image T)
    (img_stev : image (vec2 T)) (cstats : List (component_stats T)) (i : Int) :
    Option (List (component_stats T)) :=
  let label := img_lbl.get i
  if label = 0 then some cstats else
    let value := img_pp.get i
    let ev1 := (img_stev.get i).x
    let ev2 := (img_stev.get i).y
    let coherence := if ev1 + ev2 ≠ 0 then (ev1 - ev2) / (ev1 + ev2) else 1
    vector_at_update cstats (label - 1) (fun s =>
      { size := (s.size + 1) % 2 ^ 32
        volume := s.volume + value
        incoherence := s.incoherence + (1 - coherence * coherence)
        maximas := s.maximas })

/-- The body of the loop over the maximas of the component score stage. -/
def cstats_maxima (img_lbl : image Nat) (cstats : List (component_stats T)) (m : Int) :
    Option (List (component_stats T)) :=
  if img_lbl.get m > 0 then
    vector_at_update cstats (img_lbl.get m - 1) (fun s =>
      { s with maximas := (s.maximas + 1) % 2 ^ 32 })
  else some cstats

/-- The score `v / (1 + v)` the last loop of the component score stage
computes from the statistics of a component; the product
`stats.size * stats.size` is a product of `u32` values. -/
def cscore_of [Field T] (stats : component_stats T) : T :=
  let c : T := 100
  let v := c * (stats.incoherence / (((stats.size * stats.size) % 2 ^ 32 : Nat) : T)) *
    (if stats.maximas > 0 then 1 / (stats.maximas : T) else 0)
  v / (1 + v)

/-- The component score stage of `main`: returns `(cstats, cscore)`, or
`none` when an access `at` is out of range. -/
def component_score [LinearOrderedField T] (img_lbl : image Nat) (img_pp : image T)
    (img_stev : image (vec2 T)) (maximas : List Int) (num_labels : Nat) :
    Option (List (component_stats T) × List T) :=
  let cstats : List (component_stats T) := List.replicate num_labels ⟨0, 0, 0, 0⟩
  let cstats := (irange 0 (prod img_pp.shape)).foldl (fun (acc : Option (List (component_stats T))) i =>
    acc.bind (fun cstats => cstats_pixel img_lbl img_pp img_stev cstats i)) (some cstats)
  let cstats := maximas.foldl (fun (acc : Option (List (component_stats T))) m =>
    acc.bind (fun cstats => cstats_maxima img_lbl cstats m)) cstats
  cstats.bind (fun cstats =>
    let cscore : List T := List.replicate num_labels 0
    let cscore := (List.range num_labels).foldl (fun (acc : Option (List T)) (i : Nat) =>
      acc.bind (fun cscore =>
        match cstats[i]? with
        | some stats => vector_at_update cscore i (fun _ => cscore_of stats)
        | none => none)) (some cscore)
    cscore.map (fun cscore => (cstats, cscore)))

/-- The constant `th_inc = 0.6f` of the distance transform stage. -/
def th_inc [Field T] : T := 6 / 10

/-- The lambda `wdt_mask` of the distance transform stage. -/
def wdt_mask [LinearOrderedField T] (img_pp : image T) (img_lbl : image Nat) (i : Int) : Bool :=
  decide (img_pp.get i > 0) && decide (img_lbl.get i = 0)

/-- The lambda `wdt_inc_bin` of the distance transform stage; `none` when
`cscore.at` is out of range. -/
def wdt_inc_bin [LinearOrderedField T] (img_lbl : image Nat) (cscore : List T) (i : Int) :
    Option Bool :=
  if img_lbl.get i > 0 then
    (cscore[img_lbl.get i - 1]?).map (fun c => decide (c > th_inc))
  else some false

/-- The lambda `wdt_exc_bin` of the distance transform stage; `none` when
`cscore.at` is out of range. -/
def wdt_exc_bin [LinearOrderedField T] (img_lbl : image Nat) (cscore : List T) (i : Int) :
    Option Bool :=
  if img_lbl.get i > 0 then
    (cscore[img_lbl.get i - 1]?).map (fun c => decide (c ≤ th_inc))
  else some false

/-- The value `std::exp(-w * w)` for `w = d / sigma`, for a distance `d`
that is finite or infinite (`⊤`): for an infinite distance `-w * w` is minus
infinity and the exponential is zero. -/
def filter_weight [Field T] (exp : T → T) (sigma : T) (d : WithTop T) : T :=
  match d with
  | none => 0
  | some d => exp (-(d / sigma) * (d / sigma))

/-- The blending weight `w` of the filter stage for the distances
`(d_in, d_ex)` of a pixel. -/
def filter_w [LinearOrderedField T] (exp : T → T) (d_in d_ex : WithTop T) : T :=
  let sigma : T := 1
  let w_inc := filter_weight exp sigma d_in
  let w_exc := filter_weight exp sigma d_ex
  let w_total := w_inc + w_exc
  if w_total > 0 then w_inc / w_total else 0

/-- The filter stage of `main`: the loop that writes `img_flt`. -/
def filter [LinearOrderedField T] (exp : T → T) (img_flt img_pp : image T)
    (img_dm1 img_dm2 : image (WithTop T)) : image T :=
  (irange 0 (prod img_pp.shape)).foldl (fun img_flt i =>
    img_flt.set i (img_pp.get i * filter_w exp (img_dm1.get i) (img_dm2.get i))) img_flt

end main

instance {T : Type} [Add T] : Add (mat2s T) :=
  ⟨fun a b => ⟨a.xx + b.xx, a.xy + b.xy, a.yy + b.yy⟩⟩

instance {T : Type} [Mul T] : HMul (mat2s T) T (mat2s T) :=
  ⟨fun a s => ⟨a.xx * s, a.xy * s, a.yy * s⟩⟩

/-- Modelled from the spec: `structure_tensor_prep(out, in)` (not part of
the sources at hand): per pixel the gradient `(Gx, Gy)` by the 3x3 Sobel
kernels, stored as `mat2s{xx = Gx^2, xy = Gx Gy, yy = Gy^2}`. -/
def structure_tensor_prep {T : Type} [Field T] (out : image (mat2s T)) (inp : image T) :
    image (mat2s T) :=
  let gx := impl.conv_generic border.extend (image.const inp.shape (0 : T)) inp
    (kernels.sobel3_x : kernel T 3 3)
  let gy := impl.conv_generic border.extend (image.const inp.shape (0 : T)) inp
    (kernels.sobel3_y : kernel T 3 3)
  image.ofFn out.shape (fun x y =>
    ⟨gx.get2 ⟨x, y⟩ * gx.get2 ⟨x, y⟩, gx.get2 ⟨x, y⟩ * gy.get2 ⟨x, y⟩,
     gy.get2 ⟨x, y⟩ * gy.get2 ⟨x, y⟩⟩)

/-- Modelled from the spec: `eigenvalues` of a symmetric 2x2 matrix
(`math.hpp` is not part of the sources at hand),
`(t ± sqrt(t^2 - 4 d)) / 2` with `t = xx + yy` and `d = xx yy - xy^2`. -/
def eigenvalues {T : Type} [Field T] (sqrt : T → T) (m : mat2s T) : T × T :=
  let t := m.xx + m.yy
  let d := det m
  ((t + sqrt (t * t - 4 * d)) / 2, (t - sqrt (t * t - 4 * d)) / 2)

instance {T : Type} [AddCommMonoid T] : AddCommMonoid (mat2s T) :=
  { (inferInstance : Zero (mat2s T)), (inferInstance : Add (mat2s T)) with
    add_assoc := fun a b c => by
      show (⟨a.xx + b.xx + c.xx, a.xy + b.xy + c.xy, a.yy + b.yy + c.yy⟩ : mat2s T) =
        ⟨a.xx + (b.xx + c.xx), a.xy + (b.xy + c.xy), a.yy + (b.yy + c.yy)⟩
      simp only [add_assoc]
    zero_add := fun a => by
      show (⟨_, _, _⟩ : mat2s T) = a
      cases a
      simp only [mat2s.mk.injEq]
      exact ⟨zero_add _, zero_add _, zero_add _⟩
    add_zero := fun a => by
      show (⟨_, _, _⟩ : mat2s T) = a
      cases a
      simp only [mat2s.mk.injEq]
      exact ⟨add_zero _, add_zero _, add_zero _⟩
    add_comm := fun a b => by
      show (⟨_, _, _⟩ : mat2s T) = ⟨_, _, _⟩
      simp only [mat2s.mk.injEq]
      exact ⟨add_comm _ _, add_comm _ _, add_comm _ _⟩
    nsmul := nsmulRec }

/-- The ridge measure stage of `main`: `std::transform` over the blurred
Hessian `img_m2_2` writes `max(ev1, 0) + max(ev2, 0)` to `img_rdg`; `sqrt`
stands for the square root used by `eigenvalues`. -/
def main.ridge_measure {T : Type} [LinearOrderedField T] (sqrt : T → T) (img_rdg : image T)
    (img_m2_2 : image (mat2s T)) : image T :=
  (irange 0 (img_m2_2.data.length : Int)).foldl (fun img_rdg i =>
    img_rdg.set i
      (max (eigenvalues sqrt (img_m2_2.get i)).1 0 + max (eigenvalues sqrt (img_m2_2.get i)).2 0))
    img_rdg

/-- The stage `objective for labeling` of `main`, with `wr = 0.9` and
`wh = 1.1`. -/
def main.objective {T : Type} [Field T] (img_obj img_pp img_rdg : image T) : image T :=
  let wr : T := 9 / 10
  let wh : T := 11 / 10
  (irange 0 (prod img_pp.shape)).foldl (fun img_obj i =>
    img_obj.set i (wh * img_pp.get i - wr * img_rdg.get i)) img_obj

/-- Modelled from the spec: `unravel(shape, i)` (not part of the sources at
hand), the position `(i mod w, i div w)` of the linear index `i` of a
row-major image. -/
def unravel (shape : index2) (i : Int) : index2 := ⟨i % shape.x, i / shape.x⟩

/-- The constant `gfwindow = {11, 11}` of `main`. -/
def main.gfwindow : index2 := ⟨11, 11⟩

/-- The sampling window `bounds` that `main` computes for a maximum at the
pixel `(x, y)`; `(gfwindow.x - 1) / 2` is a division of integers. -/
def main.window (shape : index2) (x y : Int) : gfit.bbox :=
  { xmin := max (x - Int.tdiv (main.gfwindow.x - 1) 2) 0
    xmax := min (x + Int.tdiv (main.gfwindow.x - 1) 2) (shape.x - 1)
    ymin := max (y - Int.tdiv (main.gfwindow.y - 1) 2) 0
    ymax := min (y + Int.tdiv (main.gfwindow.y - 1) 2) (shape.y - 1) }

/-- The five assignments `gfparams[i].field = ...` of the initialisation
loop of the Gaussian fitting stage, for the maximum of linear index `m`. -/
def main.init_slot {T : Type} [Field T] (shape : index2) (m : Int) (p : gfit.parameters T) :
    gfit.parameters T :=
  let x := (unravel shape m).x
  let y := (unravel shape m).y
  let bounds := main.window shape x y
  let p := { p with valid := true }
  let p := { p with scale := 1 }
  let p := { p with mean := ⟨(x : T), (y : T)⟩ }
  let p := { p with prec := ⟨1, 0, 1⟩ }
  let p := { p with bounds := bounds }
  p

/-- The first part of the Gaussian fitting stage of `main`: `reserve` and
the initialisation of one slot per maximum.  An access `gfparams[i]` outside
of the vector is undefined in the source; here it leaves the vector
unchanged. -/
def main.gaussian_fitting_init {T : Type} [Field T] (gfparams : List (gfit.parameters T))
    (maximas : List Int) (shape : index2) : List (gfit.parameters T) :=
  let gfparams := gfit.reserve gfparams maximas.length main.gfwindow
  (List.range maximas.length).foldl (fun (g : List (gfit.parameters T)) (i : Nat) =>
    match g[i]? with
    | some p => g.set i (main.init_slot shape (maximas.getD i 0) p)
    | none => g) gfparams

/-- The Gaussian fitting stage of `main`: `reserve`, the initialisation of
one slot per maximum, and `fit` with three iterations. -/
def main.gaussian_fitting {T : Type} [LinearOrderedField T]
    (ge_solve : gfit.mat6_t T → gfit.vec6_t T → T → Bool × gfit.vec6_t T) (exp log : T → T)
    (meps : T) (gfparams : List (gfit.parameters T)) (maximas : List Int)
    (img_pp img_flt img_gftmp : image T) (eps : T) : List (gfit.parameters T) × image T :=
  gfit.fit ge_solve exp log meps (main.gaussian_fitting_init gfparams maximas img_pp.shape)
    img_flt img_gftmp 3 eps

/-- The output collection of `main`: the pairs `(mean, prec)` of the valid
slots, in order. -/
def main.fitted_gaussians {T : Type} (gfparams : List (gfit.parameters T)) :
    List (vec2 T × mat2s T) :=
  (gfparams.filter (fun p => p.valid)).map (fun p => (p.mean, p.prec))

/-- The accesses of one block of the optimised Hessian: the linear indices
at which `in` is read and the linear index at which `out` is written. -/
structure hessian_opt.access where
  reads : List Int
  write : Int
deriving DecidableEq

/-- The loop `while (i < in.shape().x * (in.shape().y - 1))` of the
optimised Hessian for an arbitrary action `blk taps s i` of a block with the
groups `taps` run at the index `i` on a state `s`; the function
`hessian_opt.rows` is the instance `blk = block inp`. -/
def hessian_opt.rows_run {σ : Type} (blk : List (Int × Int) → σ → Int → σ) (shape : index2) :
    Nat → σ × Int → σ × Int
  | 0, s => s
  | fuel + 1, (s, i) =>
    if i < shape.x * (shape.y - 1) then
      -- x = 0
      let s := blk (hessian_opt.taps_left shape) s i
      let i := i + 1
      -- 0 < x < n - 1
      let limit := i + shape.x - 2
      let s := (irange i limit).foldl (blk (hessian_opt.taps_center shape)) s
      let i := max i limit
      -- x = n - 1
      let s := blk (hessian_opt.taps_right shape) s i
      let i := i + 1
      hessian_opt.rows_run blk shape fuel (s, i)
    else (s, i)

/-- The nine regions of the optimised Hessian, visited with the running
index `i`, for an arbitrary action `blk` of a block; the function `hessian`
is the instance `blk = block inp`. -/
def hessian_opt.run {σ : Type} (blk : List (Int × Int) → σ → Int → σ) (shape : index2)
    (s : σ) : σ :=
  let i : Int := 0
  -- x = 0, y = 0
  let s := blk (hessian_opt.taps_top_left shape) s i
  let i := i + 1
  -- 0 < x < n - 1, y = 0
  let s := (irange i (shape.x - 1)).foldl (blk (hessian_opt.taps_top shape)) s
  let i := max i (shape.x - 1)
  -- x = n - 1, y = 0
  let s := blk (hessian_opt.taps_top_right shape) s i
  let i := i + 1
  -- 0 < y < n - 1
  let r := hessian_opt.rows_run blk shape (shape.x * (shape.y - 1)).toNat (s, i)
  let s := r.1
  let i := r.2
  -- x = 0, y = n - 1
  let s := blk (hessian_opt.taps_bot_left shape) s i
  let i := i + 1
  -- 0 < x < n - 1, y = n - 1
  let s := (irange i (prod shape - 1)).foldl (blk (hessian_opt.taps_bot shape)) s
  let i := max i (prod shape - 1)
  -- x = n - 1, y = n - 1
  blk (hessian_opt.taps_bot_right shape) s i

/-- The accesses of the optimised Hessian on an image of the given shape, in
the order of the blocks: a block with the groups `taps` run at the index `i`
reads `in[i + s]` for every stride `s` of its groups and writes `out[i]`. -/
def hessian_opt.access_log (shape : index2) : List hessian_opt.access :=
  hessian_opt.run (fun taps log i => log ++ [⟨taps.map (fun sk => i + sk.1), i⟩]) shape []

/-- The groups `taps` are those of the block that the optimised Hessian runs
at the pixel `(x, y)` of an image of the given shape. -/
def hessian_opt.region (shape : index2) (x y : Int) (taps : List (Int × Int)) : Prop :=
  (x = 0 ∧ y = 0 ∧ taps = hessian_opt.taps_top_left shape) ∨
  (0 < x ∧ x < shape.x - 1 ∧ y = 0 ∧ taps = hessian_opt.taps_top shape) ∨
  (x = shape.x - 1 ∧ y = 0 ∧ taps = hessian_opt.taps_top_right shape) ∨
  (x = 0 ∧ 0 < y ∧ y < shape.y - 1 ∧ taps = hessian_opt.taps_left shape) ∨
  (0 < x ∧ x < shape.x - 1 ∧ 0 < y ∧ y < shape.y - 1 ∧ taps = hessian_opt.taps_center shape) ∨
  (x = shape.x - 1 ∧ 0 < y ∧ y < shape.y - 1 ∧ taps = hessian_opt.taps_right shape) ∨
  (x = 0 ∧ y = shape.y - 1 ∧ taps = hessian_opt.taps_bot_left shape) ∨
  (0 < x ∧ x < shape.x - 1 ∧ y = shape.y - 1 ∧ taps = hessian_opt.taps_bot shape) ∨
  (x = shape.x - 1 ∧ y = shape.y - 1 ∧ taps = hessian_opt.taps_bot_right shape)

/-- Every valid slot of the vector has its window inside of an image of the
given shape and inside of its weight image. -/
def gfit.fits_all {T : Type} (shape : index2) (ps : List (gfit.parameters T)) : Prop :=
  ∀ p ∈ ps, p.valid = true → gfit.slot_fits shape p

end TouchDetection

namespace TouchDetection

/-! ## Loops -/

theorem irange_of_le {lo hi : Int} (h : hi ≤ lo) : irange lo hi = [] := by
  have : (hi - lo).toNat = 0 := by omega
  simp [irange, this]

theorem irange_succ {lo hi : Int} (h : lo ≤ hi) :
    irange lo (hi + 1) = irange lo hi ++ [hi] := by
  have h1 : (hi + 1 - lo).toNat = (hi - lo).toNat + 1 := by omega
  have h2 : lo + (((hi - lo).toNat : Nat) : Int) = hi := by omega
  unfold irange
  rw [h1, List.range_succ, List.map_append]
  simp only [List.map_cons, List.map_nil, h2]

theorem mem_irange {lo hi i : Int} : i ∈ irange lo hi ↔ lo ≤ i ∧ i < hi := by
  simp only [irange, List.mem_map, List.mem_range]
  constructor
  · rintro ⟨n, hn, rfl⟩
    omega
  · rintro ⟨h1, h2⟩
    exact ⟨(i - lo).toNat, by omega, by omega⟩

theorem length_irange (lo hi : Int) : (irange lo hi).length = (hi - lo).toNat := by
  simp [irange]

/-- Loop invariant rule for `for (i = lo; i < hi; ++i)`. -/
theorem foldl_irange_inv {σ : Type} (P : Int → σ → Prop) (f : σ → Int → σ) (s0 : σ)
    (lo hi : Int) (hle : lo ≤ hi) (h0 : P lo s0)
    (hstep : ∀ i s, lo ≤ i → i < hi → P i s → P (i + 1) (f s i)) :
    P hi ((irange lo hi).foldl f s0) := by
  obtain ⟨n, rfl⟩ : ∃ n : Nat, hi = lo + n := ⟨(hi - lo).toNat, by omega⟩
  clear hle
  induction n with
  | zero => simpa [irange_of_le] using h0
  | succ n ih =>
    have e : lo + ((n + 1 : Nat) : Int) = (lo + n) + 1 := by push_cast; ring
    rw [e, irange_succ (by omega), List.foldl_append]
    simp only [List.foldl_cons, List.foldl_nil]
    apply hstep _ _ (by omega) (by omega)
    apply ih
    intro i s h1 h2 hp
    exact hstep i s h1 (by omega) hp

/-! ## Image access -/

namespace image

variable {T : Type}

@[simp] theorem shape_set (img : image T) (i : Int) (v : T) : (img.set i v).shape = img.shape := by
  unfold set; split <;> rfl

@[simp] theorem length_set (img : image T) (i : Int) (v : T) :
    (img.set i v).data.length = img.data.length := by
  unfold set; split <;> simp

@[simp] theorem shape_set2 (img : image T) (p : index2) (v : T) :
    (img.set2 p v).shape = img.shape := by
  simp [set2]

@[simp] theorem length_set2 (img : image T) (p : index2) (v : T) :
    (img.set2 p v).data.length = img.data.length := by
  simp [set2]

theorem get_set_eq [Zero T] (img : image T) (i : Int) (v : T) (h0 : 0 ≤ i)
    (h1 : i.toNat < img.data.length) : (img.set i v).get i = v := by
  simp [get, set, h0, List.getD_eq_getElem?_getD, List.getElem?_set, h1]

theorem get_set_ne [Zero T] (img : image T) (i j : Int) (v : T) (h : i ≠ j) :
    (img.set i v).get j = img.get j := by
  unfold get set
  by_cases hj : 0 ≤ j
  · by_cases hi : 0 ≤ i
    · have : i.toNat ≠ j.toNat := by omega
      simp [hi, hj, List.getD_eq_getElem?_getD, List.getElem?_set, this]
    · simp [hi, hj]
  · simp [hj]

theorem set_set (img : image T) (i : Int) (a b : T) : (img.set i a).set i b = img.set i b := by
  unfold set
  by_cases hi : 0 ≤ i <;> simp [hi]

theorem set_get_self [Zero T] (img : image T) (i : Int) (h0 : 0 ≤ i)
    (h1 : i.toNat < img.data.length) : img.set i (img.get i) = img := by
  cases img with
  | mk shape data =>
    simp only [set, get, h0, if_true]
    congr 1
    simp only at h1
    rw [List.getD_eq_getElem?_getD, List.getElem?_eq_getElem h1]
    apply List.ext_getElem (by simp)
    intro n hn1 hn2
    simp only [Option.getD_some, List.getElem_set]
    split
    · next h => subst h; rfl
    · rfl

theorem ravel_nonneg {shape p : index2} (h : inside shape p) : 0 ≤ ravel shape p := by
  obtain ⟨h1, h2, h3, h4⟩ := h
  unfold ravel
  have : 0 ≤ p.y * shape.x := mul_nonneg h3 (by omega)
  omega

theorem ravel_lt {shape p : index2} (h : inside shape p) :
    ravel shape p < shape.x * shape.y := by
  obtain ⟨h1, h2, h3, h4⟩ := h
  unfold ravel
  have : (p.y + 1) * shape.x ≤ shape.y * shape.x := Int.mul_le_mul_of_nonneg_right (by omega) (by omega)
  nlinarith

theorem ravel_inj {shape p q : index2} (hp : inside shape p) (hq : inside shape q)
    (h : ravel shape p = ravel shape q) : p = q := by
  obtain ⟨h1, h2, h3, h4⟩ := hp
  obtain ⟨k1, k2, k3, k4⟩ := hq
  unfold ravel at h
  have hy : p.y = q.y := by
    rcases lt_trichotomy p.y q.y with hlt | heq | hgt
    · have : (p.y + 1) * shape.x ≤ q.y * shape.x :=
        Int.mul_le_mul_of_nonneg_right (by omega) (by omega)
      nlinarith
    · exact heq
    · have : (q.y + 1) * shape.x ≤ p.y * shape.x :=
        Int.mul_le_mul_of_nonneg_right (by omega) (by omega)
      nlinarith
  have hx : p.x = q.x := by
    rw [hy] at h
    omega
  cases p; cases q; simp_all

end image

end TouchDetection

namespace TouchDetection

namespace image

variable {T : Type}

theorem same_layout_refl (a : image T) : same_layout a a := ⟨rfl, rfl⟩

theorem same_layout_set2 (a : image T) (p : index2) (v : T) : same_layout (a.set2 p v) a :=
  ⟨shape_set2 a p v, length_set2 a p v⟩

theorem same_layout_trans {a b c : image T} (h1 : same_layout a b) (h2 : same_layout b c) :
    same_layout a c := ⟨h1.1.trans h2.1, h1.2.trans h2.2⟩

theorem allocated_of_same_layout {a b : image T} (h : same_layout a b) (hb : allocated b) :
    allocated a := by
  obtain ⟨h1, h2⟩ := h
  unfold allocated at *
  rw [h1, h2]
  exact hb

theorem ravel_toNat_lt {img : image T} (ha : allocated img) {p : index2}
    (hp : inside img.shape p) : (ravel img.shape p).toNat < img.data.length := by
  have h1 := ravel_nonneg hp
  have h2 := ravel_lt hp
  rw [ha.2.2]
  omega

theorem get2_set2_eq [Zero T] {img : image T} (ha : allocated img) {p : index2}
    (hp : inside img.shape p) (v : T) : (img.set2 p v).get2 p = v := by
  unfold get2 set2
  rw [shape_set]
  exact get_set_eq img _ v (ravel_nonneg hp) (ravel_toNat_lt ha hp)

theorem get2_set2_ne [Zero T] {img : image T} {p q : index2}
    (hp : inside img.shape p) (hq : inside img.shape q) (h : p ≠ q) (v : T) :
    (img.set2 p v).get2 q = img.get2 q := by
  unfold get2 set2
  rw [shape_set]
  exact get_set_ne img _ _ v (fun e => h (ravel_inj hp hq e))

theorem get2_set2 [Zero T] {img : image T} (ha : allocated img) {p q : index2}
    (hp : inside img.shape p) (hq : inside img.shape q) (v : T) :
    (img.set2 p v).get2 q = if p = q then v else img.get2 q := by
  by_cases h : p = q
  · subst h; simp [get2_set2_eq ha hp]
  · simp [h, get2_set2_ne hp hq h]

/-- A loop nest over the window `[x0, x1) x [y0, y1)` whose body rewrites the
pixel it visits: every pixel of the window is rewritten once and the other
pixels keep their value. -/
theorem foldl_window [Zero T] (img : image T) (ha : allocated img)
    (x0 x1 y0 y1 : Int) (hx0 : 0 ≤ x0) (hx1 : x1 ≤ img.shape.x) (hy0 : 0 ≤ y0)
    (hy1 : y1 ≤ img.shape.y)
    (body : image T → Int → Int → image T) (G : Int → Int → T → T)
    (hbody : ∀ acc x y, same_layout acc img → x0 ≤ x → x < x1 → y0 ≤ y → y < y1 →
      body acc x y = acc.set2 ⟨x, y⟩ (G x y (acc.get2 ⟨x, y⟩))) :
    let r := (irange y0 y1).foldl (fun acc y => (irange x0 x1).foldl (fun acc x => body acc x y) acc) img
    same_layout r img ∧ ∀ q, inside img.shape q →
      r.get2 q = if x0 ≤ q.x ∧ q.x < x1 ∧ y0 ≤ q.y ∧ q.y < y1 then G q.x q.y (img.get2 q)
        else img.get2 q := by
  intro r
  by_cases hyle : y0 ≤ y1
  swap
  · have e : r = img := by
      show List.foldl _ img (irange y0 y1) = img
      rw [@irange_of_le y0 y1 (by omega)]; rfl
    rw [e]
    refine ⟨same_layout_refl _, fun q _ => ?_⟩
    rw [if_neg (by omega)]
  by_cases hxle : x0 ≤ x1
  swap
  · have e : r = img := by
      show List.foldl _ img (irange y0 y1) = img
      rw [@irange_of_le x0 x1 (by omega)]
      simp only [List.foldl_nil]
      induction (irange y0 y1) with
      | nil => rfl
      | cons a l ih => simp
    rw [e]
    refine ⟨same_layout_refl _, fun q _ => ?_⟩
    rw [if_neg (by omega)]
  -- the row loop
  have hrow : ∀ (acc0 : image T) (y : Int), same_layout acc0 img → y0 ≤ y → y < y1 →
      let s := (irange x0 x1).foldl (fun acc x => body acc x y) acc0
      same_layout s img ∧ ∀ q, inside img.shape q →
        s.get2 q = if x0 ≤ q.x ∧ q.x < x1 ∧ q.y = y then G q.x q.y (acc0.get2 q)
          else acc0.get2 q := by
    intro acc0 y hl hy0' hy1'
    refine foldl_irange_inv
      (fun i s => same_layout s img ∧ ∀ q, inside img.shape q →
        s.get2 q = if x0 ≤ q.x ∧ q.x < i ∧ q.y = y then G q.x q.y (acc0.get2 q)
          else acc0.get2 q)
      (fun acc x => body acc x y) acc0 x0 x1 hxle ?_ ?_
    · refine ⟨hl, fun q _ => ?_⟩
      rw [if_neg (by omega)]
    · rintro i s hi0 hi1 ⟨hs, hq⟩
      beta_reduce
      rw [hbody s i y hs hi0 hi1 hy0' hy1']
      refine ⟨same_layout_trans (same_layout_set2 _ _ _) hs, fun q hqin => ?_⟩
      have hsa : allocated s := allocated_of_same_layout hs ha
      have hpin : inside s.shape ⟨i, y⟩ := by
        rw [hs.1]; refine ⟨?_, ?_, ?_, ?_⟩ <;> simp only <;> omega
      have hqin' : inside s.shape q := by rw [hs.1]; exact hqin
      rw [get2_set2 hsa hpin hqin']
      by_cases hpq : (⟨i, y⟩ : index2) = q
      · subst hpq
        rw [if_pos rfl, if_pos ⟨hi0, by simp, rfl⟩, hq _ hqin, if_neg (by simp)]
      · rw [if_neg hpq, hq q hqin]
        have : ¬ (q.x = i ∧ q.y = y) := by
          rintro ⟨e1, e2⟩
          apply hpq
          cases q; simp_all
        by_cases c1 : x0 ≤ q.x ∧ q.x < i ∧ q.y = y
        · rw [if_pos c1, if_pos ⟨c1.1, by omega, c1.2.2⟩]
        · rw [if_neg c1, if_neg]
          rintro ⟨d1, d2, d3⟩
          apply c1
          refine ⟨d1, ?_, d3⟩
          by_contra hc
          exact this ⟨by omega, d3⟩
  -- the loop over the rows
  refine foldl_irange_inv
    (fun j s => same_layout s img ∧ ∀ q, inside img.shape q →
      s.get2 q = if x0 ≤ q.x ∧ q.x < x1 ∧ y0 ≤ q.y ∧ q.y < j then G q.x q.y (img.get2 q)
        else img.get2 q)
    (fun acc y => (irange x0 x1).foldl (fun acc x => body acc x y) acc) img y0 y1 hyle ?_ ?_
  · refine ⟨same_layout_refl _, fun q _ => ?_⟩
    rw [if_neg (by omega)]
  · rintro j s hj0 hj1 ⟨hs, hq⟩
    obtain ⟨h1, h2⟩ := hrow s j hs hj0 hj1
    refine ⟨h1, fun q hqin => ?_⟩
    show image.get2 (List.foldl (fun acc x => body acc x j) s (irange x0 x1)) q = _
    rw [h2 q hqin, hq q hqin]
    by_cases c1 : x0 ≤ q.x ∧ q.x < x1 ∧ q.y = j
    · rw [if_pos c1, if_neg (by omega), if_pos ⟨c1.1, c1.2.1, by omega, by omega⟩]
    · rw [if_neg c1]
      by_cases c2 : x0 ≤ q.x ∧ q.x < x1 ∧ y0 ≤ q.y ∧ q.y < j
      · rw [if_pos c2, if_pos ⟨c2.1, c2.2.1, c2.2.2.1, by omega⟩]
      · rw [if_neg c2, if_neg]
        rintro ⟨d1, d2, d3, d4⟩
        by_cases e : q.y = j
        · exact c1 ⟨d1, d2, e⟩
        · exact c2 ⟨d1, d2, d3, by omega⟩

/-- A loop that accumulates into one pixel. -/
theorem foldl_accumulate [AddCommMonoid T] {β : Type} (img : image T) (ha : allocated img)
    (p : index2) (hp : inside img.shape p) (f : image T → β → image T) (g : β → T)
    (hf : ∀ acc b, same_layout acc img → f acc b = acc.set2 p (acc.get2 p + g b))
    (l : List β) :
    l.foldl f img = img.set2 p (img.get2 p + (l.map g).sum) := by
  induction l generalizing img with
  | nil =>
    simp only [List.foldl_nil, List.map_nil, List.sum_nil, add_zero]
    unfold set2 get2
    exact (set_get_self img _ (ravel_nonneg hp) (ravel_toNat_lt ha hp)).symm
  | cons b l ih =>
    simp only [List.foldl_cons, List.map_cons, List.sum_cons]
    rw [hf img b (same_layout_refl _)]
    have hl := same_layout_set2 img p (img.get2 p + g b)
    rw [ih (img.set2 p (img.get2 p + g b)) (allocated_of_same_layout hl ha)
      (by rw [hl.1]; exact hp)
      (fun acc b hacc => hf acc b (same_layout_trans hacc hl))]
    rw [get2_set2_eq ha hp]
    unfold set2
    rw [shape_set, set_set, add_assoc]

end image

theorem sum_map_irange_zero {M : Type} [AddCommMonoid M] (N : Nat) (g : Int → M) :
    ((irange 0 N).map g).sum = ∑ n ∈ Finset.range N, g (n : Int) := by
  induction N with
  | zero => simp [irange_of_le]
  | succ n ih =>
    have e : (((n + 1 : Nat) : Int)) = (n : Int) + 1 := by push_cast; ring
    rw [e, irange_succ (by omega), List.map_append, List.sum_append, ih, Finset.sum_range_succ]
    simp

end TouchDetection

namespace TouchDetection

namespace impl

variable {T S : Type} {Nx Ny : Nat}

/-- The value `conv_generic` leaves in each pixel, and the layout of its
output: the correlation of the bordered input with the kernel. -/
theorem conv_generic_spec [AddCommMonoid T] [HMul T S T] [Zero S]
    (B : border T) (out inp : image T) (k : kernel S Nx Ny)
    (hshape : out.shape = inp.shape) (ha : out.allocated) :
    image.same_layout (conv_generic B out inp k) out ∧
    ∀ p, image.inside inp.shape p →
      (conv_generic B out inp k).get2 p =
        ∑ ix ∈ Finset.range Nx, ∑ iy ∈ Finset.range Ny,
          B.value inp ⟨p.x - half Nx + ix, p.y - half Ny + iy⟩ * k.get2 ⟨ix, iy⟩ := by
  have hw := image.foldl_window out ha 0 inp.shape.x 0 inp.shape.y le_rfl (by rw [hshape])
    le_rfl (by rw [hshape])
    (fun out cx cy =>
      (irange 0 Ny).foldl (fun out iy =>
        (irange 0 Nx).foldl (fun out ix =>
          out.set2 ⟨cx, cy⟩
            (out.get2 ⟨cx, cy⟩ +
              B.value inp ⟨cx - half Nx + ix, cy - half Ny + iy⟩ * k.get2 ⟨ix, iy⟩))
          out) (out.set2 ⟨cx, cy⟩ 0))
    (fun cx cy _ => ∑ iy ∈ Finset.range Ny, ∑ ix ∈ Finset.range Nx,
          B.value inp ⟨cx - half Nx + ix, cy - half Ny + iy⟩ * k.get2 ⟨ix, iy⟩)
    (by
      intro acc x y hacc hx0 hx1 hy0 hy1
      have hacca : acc.allocated := image.allocated_of_same_layout hacc ha
      have hpin : image.inside acc.shape ⟨x, y⟩ := by
        rw [hacc.1, hshape]; exact ⟨hx0, hx1, hy0, hy1⟩
      have hl0 := image.same_layout_set2 acc ⟨x, y⟩ (0 : T)
      have ha0 : (acc.set2 ⟨x, y⟩ (0 : T)).allocated := image.allocated_of_same_layout hl0 hacca
      have hp0 : image.inside (acc.set2 ⟨x, y⟩ (0 : T)).shape ⟨x, y⟩ := by rw [hl0.1]; exact hpin
      beta_reduce
      rw [image.foldl_accumulate (acc.set2 ⟨x, y⟩ 0) ha0 ⟨x, y⟩ hp0 _
        (fun iy => ((irange 0 Nx).map (fun ix =>
          B.value inp ⟨x - half Nx + ix, y - half Ny + iy⟩ * k.get2 ⟨ix, iy⟩)).sum)]
      · rw [image.get2_set2_eq hacca hpin, zero_add]
        unfold image.set2
        rw [image.shape_set, image.set_set, sum_map_irange_zero]
        congr 1
        apply Finset.sum_congr rfl
        intro iy _
        rw [sum_map_irange_zero]
      · intro acc' iy hacc'
        exact image.foldl_accumulate acc' (image.allocated_of_same_layout hacc' ha0) ⟨x, y⟩
          (by rw [hacc'.1]; exact hp0) _ _ (fun _ _ _ => rfl) _)
  obtain ⟨h1, h2⟩ := hw
  refine ⟨h1, fun p hp => ?_⟩
  have hp' : image.inside out.shape p := by rw [hshape]; exact hp
  have := h2 p hp'
  rw [if_pos ⟨hp.1, hp.2.1, hp.2.2.1, hp.2.2.2⟩] at this
  rw [Finset.sum_comm]
  exact this

end impl

end TouchDetection

namespace TouchDetection

/-! ## Constant images -/

theorem clamp_mem {v lo hi : Int} (h : lo ≤ hi) : lo ≤ clamp v lo hi ∧ clamp v lo hi ≤ hi := by
  unfold clamp
  split
  · omega
  · split <;> omega

theorem border_extend_const {T : Type} [Zero T] (inp : image T) (c : T)
    (hw : 0 < inp.shape.x) (hh : 0 < inp.shape.y)
    (hc : ∀ p, image.inside inp.shape p → inp.get2 p = c) (p : index2) :
    (border.extend : border T).value inp p = c := by
  apply hc
  have h1 := @clamp_mem p.x 0 (inp.shape.x - 1) (by omega)
  have h2 := @clamp_mem p.y 0 (inp.shape.y - 1) (by omega)
  refine ⟨?_, ?_, ?_, ?_⟩ <;> simp only <;> omega

/-- Convolution of a constant image with the extend border: every pixel is
the constant times the sum of the kernel entries. -/
theorem conv_generic_extend_const {T : Type} [CommRing T] {Nx Ny : Nat}
    (out inp : image T) (k : kernel T Nx Ny) (c : T)
    (hshape : out.shape = inp.shape) (ha : out.allocated)
    (hw : 0 < inp.shape.x) (hh : 0 < inp.shape.y)
    (hc : ∀ p, image.inside inp.shape p → inp.get2 p = c)
    (p : index2) (hp : image.inside inp.shape p) :
    (impl.conv_generic border.extend out inp k).get2 p =
      c * ∑ ix ∈ Finset.range Nx, ∑ iy ∈ Finset.range Ny, k.get2 ⟨ix, iy⟩ := by
  rw [(impl.conv_generic_spec border.extend out inp k hshape ha).2 p hp, Finset.mul_sum]
  apply Finset.sum_congr rfl
  intro ix _
  rw [Finset.mul_sum]
  apply Finset.sum_congr rfl
  intro iy _
  rw [border_extend_const inp c hw hh hc]

/-- An allocated image is determined by its pixels. -/
theorem image.data_eq_replicate {T : Type} [Zero T] (img : image T) (ha : img.allocated) (c : T)
    (hc : ∀ p, image.inside img.shape p → img.get2 p = c) :
    img.data = List.replicate (img.shape.x * img.shape.y).toNat c := by
  obtain ⟨h1, h2, h3⟩ := ha
  rw [List.eq_replicate_iff]
  refine ⟨h3, ?_⟩
  intro b hb
  obtain ⟨i, hi, rfl⟩ := List.getElem_of_mem hb
  have hwpos : 0 < img.shape.x := by
    by_contra hcon
    have : img.shape.x = 0 := by omega
    rw [this] at h3
    simp at h3
    rw [h3] at hi
    simp at hi
  have hilt : (i : Int) < img.shape.x * img.shape.y := by omega
  have hp : image.inside img.shape ⟨(i : Int) % img.shape.x, (i : Int) / img.shape.x⟩ := by
    refine ⟨?_, ?_, ?_, ?_⟩ <;> simp only
    · exact Int.emod_nonneg _ (by omega)
    · exact Int.emod_lt_of_pos _ hwpos
    · exact Int.ediv_nonneg (by omega) (by omega)
    · apply Int.ediv_lt_of_lt_mul hwpos
      rw [mul_comm]; exact hilt
  have := hc _ hp
  rw [← this]
  unfold image.get2 image.ravel image.get
  simp only
  have e : (i : Int) / img.shape.x * img.shape.x + (i : Int) % img.shape.x = i :=
    Int.ediv_add_emod' _ _
  rw [e]
  simp [List.getD_eq_getElem?_getD, List.getElem?_eq_getElem hi]

end TouchDetection

namespace TouchDetection

/-! ## Gaussian kernel synthesis -/

/-- A loop over a pair of a container and a running sum. -/
theorem foldl_pair_sum {σ β M : Type} [AddCommMonoid M] (F : σ → β → σ) (g : β → M)
    (k0 : σ) (s0 : M) (l : List β) :
    l.foldl (fun (ks : σ × M) b => (F ks.1 b, ks.2 + g b)) (k0, s0) =
      (l.foldl F k0, s0 + (l.map g).sum) := by
  induction l generalizing k0 s0 with
  | nil => simp
  | cons b l ih => simp [ih, add_assoc]

namespace kernel

variable {S : Type} {Nx Ny : Nat}

theorem toImage_set2 (k : kernel S Nx Ny) (p : index2) (v : S) :
    (k.set2 p v).toImage = k.toImage.set2 p v := by
  unfold set2 toImage
  simp only
  generalize hq : ({ shape := { x := (Nx : Int), y := (Ny : Int) }, data := k.data } : image S) = q
  have : (q.set2 p v).shape = ⟨(Nx : Int), (Ny : Int)⟩ := by rw [image.shape_set2, ← hq]
  cases hr : q.set2 p v with
  | mk shape data =>
    rw [hr] at this
    simp only at this
    rw [this]

theorem allocated_zeroed [Zero S] : (zeroed : kernel S Nx Ny).toImage.allocated := by
  refine ⟨?_, ?_, ?_⟩ <;> simp [toImage, zeroed]
  have : ((Nx : Int) * (Ny : Int)) = ((Nx * Ny : Nat) : Int) := by push_cast; ring
  rw [this, Int.toNat_natCast]

theorem get2_transform_inplace [Zero S] (k : kernel S Nx Ny) (f : S → S)
    (ha : k.toImage.allocated) (p : index2) (hp : image.inside ⟨(Nx : Int), (Ny : Int)⟩ p) :
    (k.transform_inplace f).get2 p = f (k.get2 p) := by
  have h0 : 0 ≤ image.ravel k.toImage.shape p := image.ravel_nonneg hp
  have h1 := image.ravel_toNat_lt ha hp
  unfold get2 image.get2 image.get
  have hs : (k.transform_inplace f).toImage.shape = k.toImage.shape := rfl
  rw [hs]
  simp only [h0, if_true]
  have hd : (k.transform_inplace f).toImage.data = k.toImage.data.map f := rfl
  rw [hd, List.getD_eq_getElem?_getD, List.getD_eq_getElem?_getD, List.getElem?_map,
    List.getElem?_eq_getElem h1]
  simp

end kernel

/-- The unnormalised value `v` computed by `kernels::gaussian` at `(i, j)`. -/
theorem gaussian_spec {T : Type} [Field T] (exp : T → T) (norm : vec2 T → T) (Nx Ny : Nat)
    (sigma : T) :
    let v : Int → Int → T := fun i j =>
      exp (-(1 / 2 : T) *
        (norm ⟨((i - impl.half Nx : Int) : T), ((j - impl.half Ny : Int) : T)⟩ / sigma) *
        (norm ⟨((i - impl.half Nx : Int) : T), ((j - impl.half Ny : Int) : T)⟩ / sigma))
    let Z : T := ∑ j ∈ Finset.range Ny, ∑ i ∈ Finset.range Nx, v i j
    ∀ i j : Nat, i < Nx → j < Ny →
      (kernels.gaussian exp norm Nx Ny sigma).get2 ⟨i, j⟩ = v i j / Z := by
  intro v Z i j hi hj
  unfold kernels.gaussian
  simp only
  -- split the loop state
  have hinner : ∀ (ks : kernel T Nx Ny × T) (j : Int),
      (irange 0 Nx).foldl (fun (ks : kernel T Nx Ny × T) i =>
          (ks.1.set2 ⟨i, j⟩ (v i j), ks.2 + v i j)) ks =
        ((irange 0 Nx).foldl (fun k i => k.set2 ⟨i, j⟩ (v i j)) ks.1,
          ks.2 + ((irange 0 Nx).map (fun i => v i j)).sum) := by
    intro ks j
    exact foldl_pair_sum (fun k i => kernel.set2 k ⟨i, j⟩ (v i j)) (fun i => v i j) ks.1 ks.2 _
  have houter : (irange 0 Ny).foldl (fun ks j =>
      (irange 0 Nx).foldl (fun (ks : kernel T Nx Ny × T) i =>
          (ks.1.set2 ⟨i, j⟩ (v i j), ks.2 + v i j)) ks) ((kernel.zeroed : kernel T Nx Ny), (0 : T)) =
      ((irange 0 Ny).foldl (fun k j =>
          (irange 0 Nx).foldl (fun k i => k.set2 ⟨i, j⟩ (v i j)) k) kernel.zeroed,
        0 + ((irange 0 Ny).map (fun j => ((irange 0 Nx).map (fun i => v i j)).sum)).sum) := by
    simp only [hinner]
    exact foldl_pair_sum (fun k j => (irange 0 Nx).foldl (fun k i => kernel.set2 k ⟨i, j⟩ (v i j)) k)
      (fun j => ((irange 0 Nx).map (fun i => v i j)).sum) kernel.zeroed 0 _
  have hZ : (0 : T) + ((irange 0 Ny).map (fun j => ((irange 0 Nx).map (fun i => v i j)).sum)).sum
      = Z := by
    rw [zero_add, sum_map_irange_zero]
    apply Finset.sum_congr rfl
    intro j _
    rw [sum_map_irange_zero]
  show kernel.get2 (kernel.transform_inplace
    ((irange 0 Ny).foldl (fun ks j =>
      (irange 0 Nx).foldl (fun (ks : kernel T Nx Ny × T) i =>
          (ks.1.set2 ⟨i, j⟩ (v i j), ks.2 + v i j)) ks) ((kernel.zeroed : kernel T Nx Ny), (0 : T))).1
    (fun x => x / ((irange 0 Ny).foldl (fun ks j =>
      (irange 0 Nx).foldl (fun (ks : kernel T Nx Ny × T) i =>
          (ks.1.set2 ⟨i, j⟩ (v i j), ks.2 + v i j)) ks) ((kernel.zeroed : kernel T Nx Ny), (0 : T))).2))
    ⟨i, j⟩ = _
  rw [houter, hZ]
  simp only
  -- the kernel part, seen as an image
  have himg : ((irange 0 Ny).foldl (fun k j =>
          (irange 0 Nx).foldl (fun k i => kernel.set2 k ⟨i, j⟩ (v i j)) k)
          (kernel.zeroed : kernel T Nx Ny)).toImage =
      (irange 0 Ny).foldl (fun acc j =>
          (irange 0 Nx).foldl (fun acc i => image.set2 acc ⟨i, j⟩ (v i j)) acc)
          (kernel.zeroed : kernel T Nx Ny).toImage := by
    symm
    apply List.foldl_hom
    intro k j
    apply List.foldl_hom
    intro k i
    exact (kernel.toImage_set2 k _ _).symm
  have hw := image.foldl_window (kernel.zeroed : kernel T Nx Ny).toImage kernel.allocated_zeroed
    0 Nx 0 Ny le_rfl le_rfl le_rfl le_rfl
    (fun acc x y => acc.set2 ⟨x, y⟩ (v x y)) (fun x y _ => v x y) (fun _ _ _ _ _ _ _ _ => rfl)
  simp only at hw
  rw [← himg] at hw
  obtain ⟨hl, hget⟩ := hw
  have hin : image.inside ⟨(Nx : Int), (Ny : Int)⟩ ⟨(i : Int), (j : Int)⟩ := by
    refine ⟨?_, ?_, ?_, ?_⟩ <;> simp only <;> omega
  rw [kernel.get2_transform_inplace _ _ (image.allocated_of_same_layout hl kernel.allocated_zeroed)
    _ hin]
  have := hget ⟨i, j⟩ hin
  rw [if_pos ⟨hin.1, hin.2.1, hin.2.2.1, hin.2.2.2⟩] at this
  show kernel.get2 _ _ / Z = _
  unfold kernel.get2
  rw [this]

end TouchDetection

namespace TouchDetection

/-! ## The optimised Hessian -/

namespace hessian_opt

variable {T : Type}

theorem kernel_get_nat [Zero T] {Nx Ny : Nat} (k : kernel T Nx Ny) (n : Nat) :
    k.get (n : Int) = k.data.getD n 0 := by
  unfold kernel.get image.get kernel.toImage
  simp

/-- The entries of the three second-derivative kernels. -/
theorem sobel3_entries [Ring T] :
    ((kernels.sobel3_xx : kernel T 3 3).get 0 = 1 ∧ (kernels.sobel3_xx : kernel T 3 3).get 1 = -2 ∧
     (kernels.sobel3_xx : kernel T 3 3).get 2 = 1 ∧ (kernels.sobel3_xx : kernel T 3 3).get 3 = 2 ∧
     (kernels.sobel3_xx : kernel T 3 3).get 4 = -4 ∧ (kernels.sobel3_xx : kernel T 3 3).get 5 = 2 ∧
     (kernels.sobel3_xx : kernel T 3 3).get 6 = 1 ∧ (kernels.sobel3_xx : kernel T 3 3).get 7 = -2 ∧
     (kernels.sobel3_xx : kernel T 3 3).get 8 = 1) ∧
    ((kernels.sobel3_xy : kernel T 3 3).get 0 = 1 ∧ (kernels.sobel3_xy : kernel T 3 3).get 1 = 0 ∧
     (kernels.sobel3_xy : kernel T 3 3).get 2 = -1 ∧ (kernels.sobel3_xy : kernel T 3 3).get 3 = 0 ∧
     (kernels.sobel3_xy : kernel T 3 3).get 4 = 0 ∧ (kernels.sobel3_xy : kernel T 3 3).get 5 = 0 ∧
     (kernels.sobel3_xy : kernel T 3 3).get 6 = -1 ∧ (kernels.sobel3_xy : kernel T 3 3).get 7 = 0 ∧
     (kernels.sobel3_xy : kernel T 3 3).get 8 = 1) ∧
    ((kernels.sobel3_yy : kernel T 3 3).get 0 = 1 ∧ (kernels.sobel3_yy : kernel T 3 3).get 1 = 2 ∧
     (kernels.sobel3_yy : kernel T 3 3).get 2 = 1 ∧ (kernels.sobel3_yy : kernel T 3 3).get 3 = -2 ∧
     (kernels.sobel3_yy : kernel T 3 3).get 4 = -4 ∧ (kernels.sobel3_yy : kernel T 3 3).get 5 = -2 ∧
     (kernels.sobel3_yy : kernel T 3 3).get 6 = 1 ∧ (kernels.sobel3_yy : kernel T 3 3).get 7 = 2 ∧
     (kernels.sobel3_yy : kernel T 3 3).get 8 = 1) := by
  refine ⟨⟨?_, ?_, ?_, ?_, ?_, ?_, ?_, ?_, ?_⟩, ⟨?_, ?_, ?_, ?_, ?_, ?_, ?_, ?_, ?_⟩,
    ⟨?_, ?_, ?_, ?_, ?_, ?_, ?_, ?_, ?_⟩⟩ <;>
  simp [kernel.get, image.get, kernel.toImage, kernels.sobel3_xx, kernels.sobel3_xy,
    kernels.sobel3_yy, List.getD]

end hessian_opt

end TouchDetection

namespace TouchDetection

namespace hessian_opt

variable {T : Type}

/-- Value of the zero border inside and outside of the image, by linear index. -/
theorem zero_value_eq [Zero T] (inp : image T) (x y : Int) :
    (border.zero : border T).value inp ⟨x, y⟩ =
      if 0 ≤ x ∧ x < inp.shape.x ∧ 0 ≤ y ∧ y < inp.shape.y then inp.get (y * inp.shape.x + x)
      else 0 := rfl

/-- The zero-border correlation with a 3x3 kernel, written out. -/
theorem corr3_expand [Ring T] (inp : image T) (K : kernel T 3 3) (x y : Int) :
    (∑ i ∈ Finset.range 3, ∑ j ∈ Finset.range 3,
      (border.zero : border T).value inp ⟨x - 1 + i, y - 1 + j⟩ * K.get ((j : Int) * 3 + i)) =
    (border.zero : border T).value inp ⟨x - 1, y - 1⟩ * K.get 0 +
    (border.zero : border T).value inp ⟨x, y - 1⟩ * K.get 1 +
    (border.zero : border T).value inp ⟨x + 1, y - 1⟩ * K.get 2 +
    (border.zero : border T).value inp ⟨x - 1, y⟩ * K.get 3 +
    (border.zero : border T).value inp ⟨x, y⟩ * K.get 4 +
    (border.zero : border T).value inp ⟨x + 1, y⟩ * K.get 5 +
    (border.zero : border T).value inp ⟨x - 1, y + 1⟩ * K.get 6 +
    (border.zero : border T).value inp ⟨x, y + 1⟩ * K.get 7 +
    (border.zero : border T).value inp ⟨x + 1, y + 1⟩ * K.get 8 := by
  simp only [Finset.sum_range_succ, Finset.sum_range_zero, Nat.cast_zero, Nat.cast_one,
    Nat.cast_ofNat, zero_add, add_zero, zero_mul, one_mul]
  have e1 : x - 1 + 1 = x := by ring
  have e2 : x - 1 + 2 = x + 1 := by ring
  have e3 : y - 1 + 1 = y := by ring
  have e4 : y - 1 + 2 = y + 1 := by ring
  have n1 : (3 : Int) + 1 = 4 := by norm_num
  have n2 : (2 : Int) * 3 = 6 := by norm_num
  have n3 : (2 : Int) * 3 + 1 = 7 := by norm_num
  have n4 : (3 : Int) + 2 = 5 := by norm_num
  have n5 : (2 : Int) * 3 + 2 = 8 := by norm_num
  have n6 : (6 : Int) + 1 = 7 := by norm_num
  have n7 : (6 : Int) + 2 = 8 := by norm_num
  simp only [e1, e2, e3, e4, n1, n2, n3, n4, n5, n6, n7]
  abel

/-- Every block of the optimised Hessian computes the reference value of
the pixel it is run on. -/
theorem block_value [CommRing T] (inp : image T) (taps : List (Int × Int)) (x y : Int)
    (hw : 2 ≤ inp.shape.x) (hh : 2 ≤ inp.shape.y)
    (hcase :
      (x = 0 ∧ y = 0 ∧ taps = taps_top_left inp.shape) ∨
      (0 < x ∧ x < inp.shape.x - 1 ∧ y = 0 ∧ taps = taps_top inp.shape) ∨
      (x = inp.shape.x - 1 ∧ y = 0 ∧ taps = taps_top_right inp.shape) ∨
      (x = 0 ∧ 0 < y ∧ y < inp.shape.y - 1 ∧ taps = taps_left inp.shape) ∨
      (0 < x ∧ x < inp.shape.x - 1 ∧ 0 < y ∧ y < inp.shape.y - 1 ∧ taps = taps_center inp.shape) ∨
      (x = inp.shape.x - 1 ∧ 0 < y ∧ y < inp.shape.y - 1 ∧ taps = taps_right inp.shape) ∨
      (x = 0 ∧ y = inp.shape.y - 1 ∧ taps = taps_bot_left inp.shape) ∨
      (0 < x ∧ x < inp.shape.x - 1 ∧ y = inp.shape.y - 1 ∧ taps = taps_bot inp.shape) ∨
      (x = inp.shape.x - 1 ∧ y = inp.shape.y - 1 ∧ taps = taps_bot_right inp.shape)) :
    taps.foldl (tap inp (y * inp.shape.x + x)) ⟨0, 0, 0⟩ = hessian_reference inp x y := by
  obtain ⟨hxx, hxy, hyy⟩ := @sobel3_entries T _
  unfold hessian_reference
  rw [corr3_expand, corr3_expand, corr3_expand]
  simp only [zero_value_eq]
  rcases hcase with ⟨h1, h2, rfl⟩ | ⟨h1, h2, h3, rfl⟩ | ⟨h1, h2, rfl⟩ | ⟨h1, h2, h3, rfl⟩ |
    ⟨h1, h2, h3, h4, rfl⟩ | ⟨h1, h2, h3, rfl⟩ | ⟨h1, h2, rfl⟩ | ⟨h1, h2, h3, rfl⟩ | ⟨h1, h2, rfl⟩ <;>
  · simp (disch := omega) only [if_pos, if_neg]
    simp only [taps_top_left, taps_top, taps_top_right, taps_left, taps_center, taps_right,
      taps_bot_left, taps_bot, taps_bot_right, List.foldl_cons, List.foldl_nil, tap,
      s_left, s_center, s_right, s_top, s_top_left, s_top_right, s_bot, s_bot_left, s_bot_right,
      stride, k_top_left, k_top, k_top_right, k_left, k_center, k_right, k_bot_left, k_bot,
      k_bot_right, hxx, hxy, hyy]
    congr 1 <;> ring_nf

end hessian_opt

end TouchDetection

namespace TouchDetection

namespace hessian_opt

variable {T : Type}

theorem scanned_block [CommRing T] (out0 : image (mat2s T)) (inp : image T)
    (ha : out0.allocated) (hshape : out0.shape = inp.shape)
    (hw : 2 ≤ inp.shape.x) (hh : 2 ≤ inp.shape.y)
    (out : image (mat2s T)) (i : Int) (taps : List (Int × Int)) (x y : Int)
    (hs : scanned out0 inp out i) (hi : i = y * inp.shape.x + x)
    (hin : image.inside inp.shape ⟨x, y⟩)
    (hcase :
      (x = 0 ∧ y = 0 ∧ taps = taps_top_left inp.shape) ∨
      (0 < x ∧ x < inp.shape.x - 1 ∧ y = 0 ∧ taps = taps_top inp.shape) ∨
      (x = inp.shape.x - 1 ∧ y = 0 ∧ taps = taps_top_right inp.shape) ∨
      (x = 0 ∧ 0 < y ∧ y < inp.shape.y - 1 ∧ taps = taps_left inp.shape) ∨
      (0 < x ∧ x < inp.shape.x - 1 ∧ 0 < y ∧ y < inp.shape.y - 1 ∧ taps = taps_center inp.shape) ∨
      (x = inp.shape.x - 1 ∧ 0 < y ∧ y < inp.shape.y - 1 ∧ taps = taps_right inp.shape) ∨
      (x = 0 ∧ y = inp.shape.y - 1 ∧ taps = taps_bot_left inp.shape) ∨
      (0 < x ∧ x < inp.shape.x - 1 ∧ y = inp.shape.y - 1 ∧ taps = taps_bot inp.shape) ∨
      (x = inp.shape.x - 1 ∧ y = inp.shape.y - 1 ∧ taps = taps_bot_right inp.shape)) :
    scanned out0 inp (block inp taps out i) (i + 1) := by
  obtain ⟨hl, hq⟩ := hs
  have hval := block_value inp taps x y hw hh hcase
  rw [← hi] at hval
  have hos : out.shape = inp.shape := hl.1.trans hshape
  have hoa : out.allocated := image.allocated_of_same_layout hl ha
  have hin' : image.inside out.shape ⟨x, y⟩ := by rw [hos]; exact hin
  have hrav : image.ravel out.shape ⟨x, y⟩ = i := by rw [hos, hi]; rfl
  have hblock : block inp taps out i = out.set2 ⟨x, y⟩ (hessian_reference inp x y) := by
    unfold block image.set2
    rw [hrav, hval]
  rw [hblock]
  refine ⟨image.same_layout_trans (image.same_layout_set2 _ _ _) hl, fun q hqin hqlt => ?_⟩
  have hqin' : image.inside out.shape q := by rw [hos]; exact hqin
  rw [image.get2_set2 hoa hin' hqin']
  by_cases hpq : (⟨x, y⟩ : index2) = q
  · subst hpq
    rw [if_pos rfl]
  · rw [if_neg hpq]
    apply hq q hqin
    have hne : image.ravel inp.shape q ≠ i := by
      intro e
      apply hpq
      apply image.ravel_inj hin hqin
      rw [e, hi]; rfl
    omega

/-- A `for (; i < hi; ++i)` loop running one kind of block along a row. -/
theorem scanned_row [CommRing T] (out0 : image (mat2s T)) (inp : image T)
    (ha : out0.allocated) (hshape : out0.shape = inp.shape)
    (hw : 2 ≤ inp.shape.x) (hh : 2 ≤ inp.shape.y)
    (out : image (mat2s T)) (taps : List (Int × Int)) (y : Int) (hy0 : 0 ≤ y)
    (hy1 : y < inp.shape.y)
    (hcase : (y = 0 ∧ taps = taps_top inp.shape) ∨
      (0 < y ∧ y < inp.shape.y - 1 ∧ taps = taps_center inp.shape) ∨
      (y = inp.shape.y - 1 ∧ taps = taps_bot inp.shape))
    (hs : scanned out0 inp out (y * inp.shape.x + 1)) :
    scanned out0 inp
      ((irange (y * inp.shape.x + 1) (y * inp.shape.x + (inp.shape.x - 1))).foldl
        (block inp taps) out)
      (y * inp.shape.x + (inp.shape.x - 1)) := by
  refine foldl_irange_inv (fun i s => scanned out0 inp s i) (block inp taps) out _ _
    (by omega) hs ?_
  intro i s hi0 hi1 hsi
  refine scanned_block out0 inp ha hshape hw hh s i taps (i - y * inp.shape.x) y hsi (by ring)
    ⟨by simp only; omega, by simp only; omega, hy0, hy1⟩ ?_
  rcases hcase with ⟨h1, rfl⟩ | ⟨h1, h2, rfl⟩ | ⟨h1, rfl⟩
  · right; left
    exact ⟨by omega, by omega, h1, rfl⟩
  · right; right; right; right; left
    exact ⟨by omega, by omega, h1, h2, rfl⟩
  · right; right; right; right; right; right; right; left
    exact ⟨by omega, by omega, h1, rfl⟩

end hessian_opt

end TouchDetection

namespace TouchDetection

namespace hessian_opt

variable {T : Type}

theorem rows_spec [CommRing T] (out0 : image (mat2s T)) (inp : image T)
    (ha : out0.allocated) (hshape : out0.shape = inp.shape)
    (hw : 2 ≤ inp.shape.x) (hh : 2 ≤ inp.shape.y) (fuel : Nat) :
    ∀ (out : image (mat2s T)) (y : Int), 1 ≤ y → y ≤ inp.shape.y - 1 →
      (inp.shape.y - 1 - y).toNat ≤ fuel → scanned out0 inp out (y * inp.shape.x) →
      (rows inp fuel (out, y * inp.shape.x)).2 = (inp.shape.y - 1) * inp.shape.x ∧
      scanned out0 inp (rows inp fuel (out, y * inp.shape.x)).1
        ((inp.shape.y - 1) * inp.shape.x) := by
  induction fuel with
  | zero =>
    intro out y hy0 hy1 hf hs
    have hy : y = inp.shape.y - 1 := by omega
    subst hy
    exact ⟨rfl, hs⟩
  | succ fuel ih =>
    intro out y hy0 hy1 hf hs
    by_cases hlast : y = inp.shape.y - 1
    · subst hlast
      have hc : ¬ ((inp.shape.y - 1) * inp.shape.x < inp.shape.x * (inp.shape.y - 1)) := by
        rw [mul_comm]; exact lt_irrefl _
      simp only [rows, if_neg hc]
      exact ⟨trivial, hs⟩
    · have hylt : y < inp.shape.y - 1 := by omega
      have hc : y * inp.shape.x < inp.shape.x * (inp.shape.y - 1) := by
        rw [mul_comm]
        exact Int.mul_lt_mul_of_pos_left hylt (by omega)
      simp only [rows, if_pos hc]
      -- x = 0
      have h1 := scanned_block out0 inp ha hshape hw hh out (y * inp.shape.x)
        (taps_left inp.shape) 0 y hs (by ring)
        ⟨by simp only; omega, by simp only; omega, by simp only; omega, by simp only; omega⟩
        (by right; right; right; left; exact ⟨rfl, by omega, hylt, rfl⟩)
      -- 0 < x < n - 1
      have e1 : y * inp.shape.x + 1 + inp.shape.x - 2 = y * inp.shape.x + (inp.shape.x - 1) := by
        ring
      have h2 := scanned_row out0 inp ha hshape hw hh _ (taps_center inp.shape) y (by omega)
        (by omega) (by right; left; exact ⟨by omega, hylt, rfl⟩) h1
      have e2 : max (y * inp.shape.x + 1) (y * inp.shape.x + (inp.shape.x - 1)) =
          y * inp.shape.x + (inp.shape.x - 1) := max_eq_right (by omega)
      -- x = n - 1
      have h3 := scanned_block out0 inp ha hshape hw hh _ (y * inp.shape.x + (inp.shape.x - 1))
        (taps_right inp.shape) (inp.shape.x - 1) y h2 rfl
        ⟨by simp only; omega, by simp only; omega, by simp only; omega, by simp only; omega⟩
        (by right; right; right; right; right; left; exact ⟨rfl, by omega, hylt, rfl⟩)
      have e3 : y * inp.shape.x + (inp.shape.x - 1) + 1 = (y + 1) * inp.shape.x := by ring
      rw [e1, e2, e3]
      rw [e3] at h3
      exact ih _ (y + 1) (by omega) (by omega) (by omega) h3

/-- The optimised Hessian leaves in every pixel the reference value, and
keeps the layout of the output image. -/
theorem hessian_spec [CommRing T] (out : image (mat2s T)) (inp : image T)
    (ha : out.allocated) (hshape : out.shape = inp.shape)
    (hw : 2 ≤ inp.shape.x) (hh : 2 ≤ inp.shape.y) :
    scanned out inp (hessian out inp) (inp.shape.x * inp.shape.y) := by
  have h0 : scanned out inp out 0 := by
    refine ⟨image.same_layout_refl _, fun q hq hlt => ?_⟩
    have := image.ravel_nonneg hq
    omega
  -- x = 0, y = 0
  have h1 := scanned_block out inp ha hshape hw hh out 0 (taps_top_left inp.shape) 0 0 h0
    (by ring)
    ⟨by simp only; omega, by simp only; omega, by simp only; omega, by simp only; omega⟩
    (by left; exact ⟨rfl, rfl, rfl⟩)
  -- 0 < x < n - 1, y = 0
  have h2 := scanned_row out inp ha hshape hw hh _ (taps_top inp.shape) 0 le_rfl (by omega)
    (by left; exact ⟨rfl, rfl⟩) (by rw [zero_mul]; exact h1)
  simp only [zero_mul, zero_add] at h2
  have e2 : max (1 : Int) (inp.shape.x - 1) = inp.shape.x - 1 := max_eq_right (by omega)
  -- x = n - 1, y = 0
  have h3 := scanned_block out inp ha hshape hw hh _ (inp.shape.x - 1)
    (taps_top_right inp.shape) (inp.shape.x - 1) 0 h2 (by ring)
    ⟨by simp only; omega, by simp only; omega, by simp only; omega, by simp only; omega⟩
    (by right; right; left; exact ⟨rfl, rfl, rfl⟩)
  have e3 : inp.shape.x - 1 + 1 = 1 * inp.shape.x := by ring
  rw [e3] at h3
  -- 0 < y < n - 1
  have hfuel : (inp.shape.y - 1 - 1).toNat ≤ (inp.shape.x * (inp.shape.y - 1)).toNat := by
    have : inp.shape.y - 1 ≤ inp.shape.x * (inp.shape.y - 1) := by nlinarith
    omega
  obtain ⟨h4i, h4⟩ := rows_spec out inp ha hshape hw hh _ _ 1 le_rfl (by omega) hfuel h3
  -- x = 0, y = n - 1
  have h5 := scanned_block out inp ha hshape hw hh _ ((inp.shape.y - 1) * inp.shape.x)
    (taps_bot_left inp.shape) 0 (inp.shape.y - 1) h4 (by ring)
    ⟨by simp only; omega, by simp only; omega, by simp only; omega, by simp only; omega⟩
    (by right; right; right; right; right; right; left; exact ⟨rfl, rfl, rfl⟩)
  -- 0 < x < n - 1, y = n - 1
  have h6 := scanned_row out inp ha hshape hw hh _ (taps_bot inp.shape) (inp.shape.y - 1)
    (by omega) (by omega) (by right; right; exact ⟨rfl, rfl⟩) h5
  have e6 : (inp.shape.y - 1) * inp.shape.x + (inp.shape.x - 1) = prod inp.shape - 1 := by
    unfold prod; ring
  have e6' : max ((inp.shape.y - 1) * inp.shape.x + 1) (prod inp.shape - 1) =
      prod inp.shape - 1 := by
    apply max_eq_right
    rw [← e6]; omega
  rw [e6] at h6
  -- x = n - 1, y = n - 1
  have h7 := scanned_block out inp ha hshape hw hh _ (prod inp.shape - 1)
    (taps_bot_right inp.shape) (inp.shape.x - 1) (inp.shape.y - 1) h6 (by unfold prod; ring)
    ⟨by simp only; omega, by simp only; omega, by simp only; omega, by simp only; omega⟩
    (by right; right; right; right; right; right; right; right; exact ⟨rfl, rfl, rfl⟩)
  have e7 : prod inp.shape - 1 + 1 = inp.shape.x * inp.shape.y := by unfold prod; ring
  rw [e7] at h7
  unfold hessian
  simp only [zero_add, e2, e3, h4i, e6']
  exact h7

end hessian_opt

end TouchDetection

namespace TouchDetection

/-! ## Windows of the Gaussian fit -/

theorem irange_map_add (lo hi c : Int) :
    (irange lo hi).map (fun i => i + c) = irange (lo + c) (hi + c) := by
  unfold irange
  rw [List.map_map]
  have e : (hi + c - (lo + c)).toNat = (hi - lo).toNat := by congr 1; ring
  rw [e]
  apply List.map_congr_left
  intro n _
  simp only [Function.comp]
  ring

/-- The window loop nest of `image.foldl_window`, for a body that addresses
the pixel `(x - cx, y - cy)` of a local image. -/
theorem image.foldl_window_shift {T : Type} [Zero T] (img : image T) (ha : img.allocated)
    (x0 x1 y0 y1 cx cy : Int) (hx0 : cx ≤ x0) (hx1 : x1 - cx ≤ img.shape.x) (hy0 : cy ≤ y0)
    (hy1 : y1 - cy ≤ img.shape.y)
    (body : image T → Int → Int → image T) (G : Int → Int → T → T)
    (hbody : ∀ acc x y, image.same_layout acc img → x0 ≤ x → x < x1 → y0 ≤ y → y < y1 →
      body acc x y = acc.set2 ⟨x - cx, y - cy⟩ (G x y (acc.get2 ⟨x - cx, y - cy⟩))) :
    image.same_layout
      ((irange y0 y1).foldl (fun acc y => (irange x0 x1).foldl (fun acc x => body acc x y) acc) img)
      img ∧
    ∀ x y, x0 ≤ x → x < x1 → y0 ≤ y → y < y1 →
      ((irange y0 y1).foldl (fun acc y => (irange x0 x1).foldl (fun acc x => body acc x y) acc)
        img).get2 ⟨x - cx, y - cy⟩ = G x y (img.get2 ⟨x - cx, y - cy⟩) := by
  have hw := image.foldl_window img ha (x0 - cx) (x1 - cx) (y0 - cy) (y1 - cy) (by omega) hx1
    (by omega) hy1 (fun acc x y => body acc (x + cx) (y + cy))
    (fun x y => G (x + cx) (y + cy))
    (by
      intro acc x y hacc h1 h2 h3 h4
      have := hbody acc (x + cx) (y + cy) hacc (by omega) (by omega) (by omega) (by omega)
      simp only [add_sub_cancel_right] at this
      exact this)
  simp only at hw
  have e : (irange (y0 - cy) (y1 - cy)).foldl (fun acc y =>
        (irange (x0 - cx) (x1 - cx)).foldl (fun acc x => body acc (x + cx) (y + cy)) acc) img =
      (irange y0 y1).foldl (fun acc y => (irange x0 x1).foldl (fun acc x => body acc x y) acc)
        img := by
    have ey := irange_map_add (y0 - cy) (y1 - cy) cy
    have ex := irange_map_add (x0 - cx) (x1 - cx) cx
    simp only [sub_add_cancel] at ey ex
    rw [← ey, List.foldl_map]
    congr 1
    funext acc y
    rw [← ex, List.foldl_map]
  rw [e] at hw
  refine ⟨hw.1, fun x y h1 h2 h3 h4 => ?_⟩
  have := hw.2 ⟨x - cx, y - cy⟩ ⟨by simp only; omega, by simp only; omega, by simp only; omega,
    by simp only; omega⟩
  rw [if_pos (by simp only; omega)] at this
  simp only [sub_add_cancel] at this
  exact this

end TouchDetection

namespace TouchDetection

namespace gfit

/-- The elements of `total` after `std::fill(total.begin(), total.end(), 0)`. -/
theorem filled_zero {T : Type} [Zero T] (total : image T) (ha : total.allocated) :
    ({ total with data := total.data.map (fun _ => (0 : T)) } : image T).allocated ∧
    ∀ q, ({ total with data := total.data.map (fun _ => (0 : T)) } : image T).get2 q = 0 := by
  refine ⟨⟨ha.1, ha.2.1, by simpa using ha.2.2⟩, fun q => ?_⟩
  unfold image.get2 image.get
  simp only
  split
  · rw [List.getD_eq_getElem?_getD, List.getElem?_map]
    cases total.data[(image.ravel total.shape q).toNat]? <;> rfl
  · rfl

/-- The E-step for a single valid slot: inside of the window every weight
is the slot's own term divided by itself, that is 1. -/
theorem update_weight_maps_single {T : Type} [LinearOrderedField T] (exp : T → T)
    (hexp : ∀ t, 0 < exp t) (p : parameters T) (total : image T)
    (hv : p.valid = true) (hs : 0 < p.scale)
    (hat : total.allocated) (haw : p.weights.allocated)
    (hx0 : 0 ≤ p.bounds.xmin) (hx1 : p.bounds.xmax < total.shape.x)
    (hy0 : 0 ≤ p.bounds.ymin) (hy1 : p.bounds.ymax < total.shape.y)
    (hwx : p.bounds.xmax - p.bounds.xmin < p.weights.shape.x)
    (hwy : p.bounds.ymax - p.bounds.ymin < p.weights.shape.y) :
    ∃ (W tot : image T),
      impl.update_weight_maps exp [p] total = ([{ p with weights := W }], tot) ∧
      ∀ x y, p.bounds.xmin ≤ x → x ≤ p.bounds.xmax → p.bounds.ymin ≤ y → y ≤ p.bounds.ymax →
        W.get2 ⟨x - p.bounds.xmin, y - p.bounds.ymin⟩ = 1 := by
  obtain ⟨ha0, hz0⟩ := filled_zero total hat
  -- the individual Gaussian
  have h1 := image.foldl_window_shift p.weights haw p.bounds.xmin (p.bounds.xmax + 1)
    p.bounds.ymin (p.bounds.ymax + 1) p.bounds.xmin p.bounds.ymin le_rfl (by omega) le_rfl
    (by omega)
    (fun w ix iy => w.set2 ⟨ix - p.bounds.xmin, iy - p.bounds.ymin⟩
      (p.scale * impl.gaussian_like exp
        ⟨(ix : T) * (2 * (range : vec2 T).x / (total.shape.x : T)) - (range : vec2 T).x,
         (iy : T) * (2 * (range : vec2 T).y / (total.shape.y : T)) - (range : vec2 T).y⟩
        p.mean p.prec))
    (fun ix iy _ => p.scale * impl.gaussian_like exp
        ⟨(ix : T) * (2 * (range : vec2 T).x / (total.shape.x : T)) - (range : vec2 T).x,
         (iy : T) * (2 * (range : vec2 T).y / (total.shape.y : T)) - (range : vec2 T).y⟩
        p.mean p.prec)
    (fun _ _ _ _ _ _ _ _ => rfl)
  beta_reduce at h1
  obtain ⟨hl1, hg1⟩ := h1
  generalize hW1 : (irange p.bounds.ymin (p.bounds.ymax + 1)).foldl (fun acc y =>
    (irange p.bounds.xmin (p.bounds.xmax + 1)).foldl (fun acc x =>
      acc.set2 ⟨x - p.bounds.xmin, y - p.bounds.ymin⟩
      (p.scale * impl.gaussian_like exp
        ⟨(x : T) * (2 * (range : vec2 T).x / (total.shape.x : T)) - (range : vec2 T).x,
         (y : T) * (2 * (range : vec2 T).y / (total.shape.y : T)) - (range : vec2 T).y⟩
        p.mean p.prec)) acc) p.weights = W1 at hl1 hg1
  have haw1 : W1.allocated := image.allocated_of_same_layout hl1 haw
  -- the total
  have h2 := image.foldl_window ({ total with data := total.data.map (fun _ => (0 : T)) } : image T)
    ha0 p.bounds.xmin (p.bounds.xmax + 1) p.bounds.ymin (p.bounds.ymax + 1) hx0
    (by show p.bounds.xmax + 1 ≤ total.shape.x; omega) hy0
    (by show p.bounds.ymax + 1 ≤ total.shape.y; omega)
    (fun tot x y => tot.set2 ⟨x, y⟩
      (tot.get2 ⟨x, y⟩ + W1.get2 ⟨x - p.bounds.xmin, y - p.bounds.ymin⟩))
    (fun x y old => old + W1.get2 ⟨x - p.bounds.xmin, y - p.bounds.ymin⟩)
    (fun _ _ _ _ _ _ _ _ => rfl)
  simp only at h2
  obtain ⟨hl2, hg2⟩ := h2
  generalize hT1 : (irange p.bounds.ymin (p.bounds.ymax + 1)).foldl (fun acc y =>
    (irange p.bounds.xmin (p.bounds.xmax + 1)).foldl (fun acc x =>
      acc.set2 ⟨x, y⟩ (acc.get2 ⟨x, y⟩ + W1.get2 ⟨x - p.bounds.xmin, y - p.bounds.ymin⟩)) acc)
    ({ total with data := total.data.map (fun _ => (0 : T)) } : image T) = T1 at hl2 hg2
  -- the normalisation
  have h3 := image.foldl_window_shift W1 haw1 p.bounds.xmin (p.bounds.xmax + 1)
    p.bounds.ymin (p.bounds.ymax + 1) p.bounds.xmin p.bounds.ymin le_rfl
    (by rw [hl1.1]; omega) le_rfl (by rw [hl1.1]; omega)
    (fun w x y => if T1.get2 ⟨x, y⟩ > 0 then
        w.set2 ⟨x - p.bounds.xmin, y - p.bounds.ymin⟩
          (w.get2 ⟨x - p.bounds.xmin, y - p.bounds.ymin⟩ / T1.get2 ⟨x, y⟩)
      else w)
    (fun x y old => if T1.get2 ⟨x, y⟩ > 0 then old / T1.get2 ⟨x, y⟩ else old)
    (by
      intro acc x y hacc hx0' hx1' hy0' hy1'
      simp only
      split
      · rfl
      · have hin : image.inside acc.shape ⟨x - p.bounds.xmin, y - p.bounds.ymin⟩ := by
          rw [hacc.1, hl1.1]
          refine ⟨?_, ?_, ?_, ?_⟩ <;> simp only <;> omega
        have haa := image.allocated_of_same_layout hacc haw1
        unfold image.set2 image.get2
        exact (image.set_get_self acc _ (image.ravel_nonneg hin)
          (image.ravel_toNat_lt haa hin)).symm)
  beta_reduce at h3
  obtain ⟨_, hg3⟩ := h3
  generalize hW2 : (irange p.bounds.ymin (p.bounds.ymax + 1)).foldl (fun acc y =>
    (irange p.bounds.xmin (p.bounds.xmax + 1)).foldl (fun acc x =>
      if T1.get2 ⟨x, y⟩ > 0 then
        acc.set2 ⟨x - p.bounds.xmin, y - p.bounds.ymin⟩
          (acc.get2 ⟨x - p.bounds.xmin, y - p.bounds.ymin⟩ / T1.get2 ⟨x, y⟩)
      else acc) acc) W1 = W2 at hg3
  refine ⟨W2, T1, ?_, ?_⟩
  · unfold impl.update_weight_maps
    simp only [List.map_cons, List.map_nil, List.foldl_cons, List.foldl_nil, hv, Bool.not_true,
      Bool.false_eq_true, if_false]
    rw [hW1, hT1, hW2]
  · intro x y hxa hxb hya hyb
    rw [hg3 x y hxa (by omega) hya (by omega)]
    have hin : image.inside total.shape ⟨x, y⟩ := by
      refine ⟨?_, ?_, ?_, ?_⟩ <;> simp only <;> omega
    have hT : T1.get2 ⟨x, y⟩ = W1.get2 ⟨x - p.bounds.xmin, y - p.bounds.ymin⟩ := by
      rw [hg2 ⟨x, y⟩ hin, if_pos ⟨hxa, by simp only; omega, hya, by simp only; omega⟩, hz0,
        zero_add]
    have hW : 0 < W1.get2 ⟨x - p.bounds.xmin, y - p.bounds.ymin⟩ := by
      rw [hg1 x y hxa (by omega) hya (by omega)]
      exact mul_pos hs (hexp _)
    rw [hT, if_pos hW]
    exact div_self (ne_of_gt hW)

end gfit

end TouchDetection

namespace TouchDetection

namespace gfit

theorem phi_apply {T : Type} [Field T] (x y : T) :
    phi x y 0 = x * x ∧ phi x y 1 = x * y ∧ phi x y 2 = y * y ∧ phi x y 3 = x ∧
    phi x y 4 = y ∧ phi x y 5 = 1 := ⟨rfl, rfl, rfl, rfl, rfl, rfl⟩

/-- The loop body of `assemble_system` adds `d^2 phi_i phi_j` to `m[{i, j}]`
and `v phi_i` to `rhs[i]`. -/
theorem assemble_pixel_apply {T : Type} [Field T] (s : mat6_t T × vec6_t T) (x y d v : T) :
    (∀ i j, (impl.assemble_pixel s x y d v).1 i j = s.1 i j + d * d * phi x y i * phi x y j) ∧
    (∀ i, (impl.assemble_pixel s x y d v).2 i = s.2 i + v * phi x y i) := by
  obtain ⟨p0, p1, p2, p3, p4, p5⟩ := phi_apply x y
  constructor
  · intro i j
    fin_cases i <;> fin_cases j <;>
    · simp only [impl.assemble_pixel, mat6_add, Fin.mk_zero, Fin.mk_one, Fin.reduceFinMk,
        Fin.reduceEq, and_true, and_false, true_and, false_and, if_true, if_false,
        Fin.isValue, p0, p1, p2, p3, p4, p5]
      try ring
  · intro i
    fin_cases i <;>
    · simp only [impl.assemble_pixel, vec6_add, Fin.mk_zero, Fin.mk_one, Fin.reduceFinMk,
        Fin.reduceEq, if_true, if_false, Fin.isValue, p0, p1, p2, p3, p4, p5]
      try ring

/-- The six statements `m[{k, 1}] *= 2` at the end of `assemble_system`. -/
theorem assemble_system_eq {T : Type} [Field T] (log : T → T) (eps : T) (b : bbox)
    (data w : image T) :
    ∃ s : mat6_t T × vec6_t T,
      s = (irange b.ymin (b.ymax + 1)).foldl (fun s (iy : Int) =>
        (irange b.xmin (b.xmax + 1)).foldl (fun s (ix : Int) =>
          impl.assemble_pixel s
            ((ix : T) * (2 * (range : vec2 T).x / (data.shape.x : T)) - (range : vec2 T).x)
            ((iy : T) * (2 * (range : vec2 T).y / (data.shape.y : T)) - (range : vec2 T).y)
            (w.get2 ⟨ix - b.xmin, iy - b.ymin⟩ * data.get2 ⟨ix, iy⟩)
            (log (w.get2 ⟨ix - b.xmin, iy - b.ymin⟩ * data.get2 ⟨ix, iy⟩ + eps) *
              (w.get2 ⟨ix - b.xmin, iy - b.ymin⟩ * data.get2 ⟨ix, iy⟩) *
              (w.get2 ⟨ix - b.xmin, iy - b.ymin⟩ * data.get2 ⟨ix, iy⟩))) s)
        ((fun _ _ => 0), (fun _ => 0)) ∧
      (∀ i j, (impl.assemble_system log eps b data w).1 i j =
        s.1 i j * (if j = 1 then 2 else 1)) ∧
      (impl.assemble_system log eps b data w).2 = s.2 := by
  refine ⟨_, rfl, ?_, rfl⟩
  intro i j
  unfold impl.assemble_system
  simp only [mat6_mul]
  fin_cases i <;> fin_cases j <;>
  simp only [Fin.mk_zero, Fin.mk_one, Fin.reduceFinMk, Fin.reduceEq, and_true, and_false,
    true_and, false_and, if_true, if_false, Fin.isValue, mul_one]

/-- When the logarithm of the regularised data `log(w * I + eps)` is exactly
the log-quadratic model of `chi` on the window, `chi` solves the assembled
system: `sum_j m[{i, j}] * chi[j] = rhs[i]`. -/
theorem assemble_system_exact {T : Type} [Field T] (log : T → T) (eps : T) (b : bbox)
    (data w : image T) (chi : vec6_t T)
    (hexact : ∀ ix iy : Int, b.xmin ≤ ix → ix ≤ b.xmax → b.ymin ≤ iy → iy ≤ b.ymax →
      log (w.get2 ⟨ix - b.xmin, iy - b.ymin⟩ * data.get2 ⟨ix, iy⟩ + eps) =
        log_model chi ((ix : T) * (2 / (data.shape.x : T)) - 1)
          ((iy : T) * (2 / (data.shape.y : T)) - 1)) :
    ∀ i, ∑ j, (impl.assemble_system log eps b data w).1 i j * chi j =
      (impl.assemble_system log eps b data w).2 i := by
  obtain ⟨s, hs, hm, hrhs⟩ := assemble_system_eq log eps b data w
  have hinv : ∀ i, ∑ j, s.1 i j * ((if j = 1 then 2 else 1) * chi j) = s.2 i := by
    rw [hs]
    by_cases hyle : b.ymin ≤ b.ymax + 1
    swap
    · rw [@irange_of_le b.ymin (b.ymax + 1) (by omega)]
      intro i
      simp
    by_cases hxle : b.xmin ≤ b.xmax + 1
    swap
    · rw [@irange_of_le b.xmin (b.xmax + 1) (by omega)]
      intro i
      simp only [List.foldl_nil]
      have : ∀ l : List Int, List.foldl (fun (s : mat6_t T × vec6_t T) (_ : Int) => s)
          ((fun _ _ => 0), (fun _ => 0)) l = ((fun _ _ => 0), (fun _ => 0)) := by
        intro l
        induction l with
        | nil => rfl
        | cons a l ih => simp
      rw [this]
      simp
    refine foldl_irange_inv
      (fun _ (s : mat6_t T × vec6_t T) =>
        ∀ i, ∑ j, s.1 i j * ((if j = 1 then 2 else 1) * chi j) = s.2 i) _ _ _ _ hyle
      (by intro i; simp) ?_
    intro iy s0 hy0 hy1 h0
    refine foldl_irange_inv
      (fun _ (s : mat6_t T × vec6_t T) =>
        ∀ i, ∑ j, s.1 i j * ((if j = 1 then 2 else 1) * chi j) = s.2 i) _ _ _ _ hxle h0 ?_
    intro ix s1 hx0 hx1 h1 i
    obtain ⟨ha, hb⟩ := assemble_pixel_apply s1
      ((ix : T) * (2 * (range : vec2 T).x / (data.shape.x : T)) - (range : vec2 T).x)
      ((iy : T) * (2 * (range : vec2 T).y / (data.shape.y : T)) - (range : vec2 T).y)
      (w.get2 ⟨ix - b.xmin, iy - b.ymin⟩ * data.get2 ⟨ix, iy⟩)
      (log (w.get2 ⟨ix - b.xmin, iy - b.ymin⟩ * data.get2 ⟨ix, iy⟩ + eps) *
        (w.get2 ⟨ix - b.xmin, iy - b.ymin⟩ * data.get2 ⟨ix, iy⟩) *
        (w.get2 ⟨ix - b.xmin, iy - b.ymin⟩ * data.get2 ⟨ix, iy⟩))
    have hex := hexact ix iy hx0 (by omega) hy0 (by omega)
    have hi := h1 i
    rw [hb i]
    simp only [ha]
    rw [← hi, hex]
    simp only [Fin.sum_univ_six, log_model, range, mul_one]
    obtain ⟨p0, p1, p2, p3, p4, p5⟩ := phi_apply
      ((ix : T) * (2 / (data.shape.x : T)) - 1) ((iy : T) * (2 / (data.shape.y : T)) - 1)
    simp only [p0, p1, p2, p3, p4, p5, Fin.isValue, Fin.reduceEq, if_true, if_false]
    ring
  intro i
  rw [hrhs, ← hinv i]
  apply Finset.sum_congr rfl
  intro j _
  rw [hm]
  ring

end gfit

end TouchDetection

namespace TouchDetection

theorem image.allocated_ofFn {T : Type} (shape : index2) (f : Int → Int → T)
    (hx : 0 ≤ shape.x) (hy : 0 ≤ shape.y) : (image.ofFn shape f).allocated :=
  ⟨hx, hy, by simp [image.ofFn]⟩

theorem image.get2_ofFn {T : Type} [Zero T] (shape : index2) (f : Int → Int → T) (p : index2)
    (hp : image.inside shape p) : (image.ofFn shape f).get2 p = f p.x p.y := by
  have h0 := image.ravel_nonneg hp
  have h1 := image.ravel_lt hp
  obtain ⟨hx0, hx1, hy0, hy1⟩ := hp
  unfold image.get2 image.get
  simp only [image.ofFn, h0, if_true]
  rw [List.getD_eq_getElem?_getD, List.getElem?_map, List.getElem?_range (by omega)]
  simp only [Option.map_some', Option.getD_some]
  have e : (((image.ravel shape p).toNat : Nat) : Int) = p.y * shape.x + p.x := by
    rw [Int.toNat_of_nonneg h0]; rfl
  rw [e]
  have e1 : (p.y * shape.x + p.x) % shape.x = p.x := by
    rw [Int.add_comm, Int.add_mul_emod_self, Int.emod_eq_of_lt hx0 hx1]
  have e2 : (p.y * shape.x + p.x) / shape.x = p.y := by
    rw [Int.add_comm, Int.add_mul_ediv_right _ _ (by omega), Int.ediv_eq_zero_of_lt hx0 hx1,
      zero_add]
  rw [e1, e2]

namespace gfit

/-- The E-step rewrites the weight images only. -/
theorem update_weight_maps_core {T : Type} [LinearOrderedField T] (exp : T → T)
    (params : List (parameters T)) (total : image T) :
    (impl.update_weight_maps exp params total).1.map parameters.core =
      params.map parameters.core := by
  unfold impl.update_weight_maps
  simp only [List.map_map]
  apply List.map_congr_left
  intro p _
  simp only [Function.comp, parameters.core]
  by_cases h : p.valid = true
  · simp [h]
  · simp only [Bool.not_eq_true] at h
    simp [h]

/-- One slot run through `fit_slot` with a solver that returns `chi`. -/
theorem fit_slot_const {T : Type} [LinearOrderedField T] (chi : vec6_t T) (exp log : T → T)
    (meps : T) (data : image T) (eps : T) (p : parameters T) (hv : p.valid = true) :
    (fit_slot (ge_solve_const chi) exp log meps data eps p).core =
      ((impl.extract_params exp chi p.scale p.mean p.prec eps).ok,
       (impl.extract_params exp chi p.scale p.mean p.prec eps).scale,
       (impl.extract_params exp chi p.scale p.mean p.prec eps).mean,
       (impl.extract_params exp chi p.scale p.mean p.prec eps).prec, p.bounds) := by
  unfold fit_slot ge_solve_const parameters.core
  simp [hv]

end gfit

end TouchDetection

namespace TouchDetection

namespace gfit

/-- The quadratic form of the matrix assembled by the loop of
`assemble_system` dominates the squared weighted model value of every pixel
of the window: the normal equations are positive semi-definite. -/
theorem assemble_system_form {T : Type} [LinearOrderedField T] (log : T → T) (eps : T)
    (b : bbox) (data w : image T) (delta : vec6_t T)
    (s : mat6_t T × vec6_t T)
    (hs : s = (irange b.ymin (b.ymax + 1)).foldl (fun s (iy : Int) =>
        (irange b.xmin (b.xmax + 1)).foldl (fun s (ix : Int) =>
          impl.assemble_pixel s
            ((ix : T) * (2 * (range : vec2 T).x / (data.shape.x : T)) - (range : vec2 T).x)
            ((iy : T) * (2 * (range : vec2 T).y / (data.shape.y : T)) - (range : vec2 T).y)
            (w.get2 ⟨ix - b.xmin, iy - b.ymin⟩ * data.get2 ⟨ix, iy⟩)
            (log (w.get2 ⟨ix - b.xmin, iy - b.ymin⟩ * data.get2 ⟨ix, iy⟩ + eps) *
              (w.get2 ⟨ix - b.xmin, iy - b.ymin⟩ * data.get2 ⟨ix, iy⟩) *
              (w.get2 ⟨ix - b.xmin, iy - b.ymin⟩ * data.get2 ⟨ix, iy⟩))) s)
        ((fun _ _ => 0), (fun _ => 0))) :
    ∀ ix iy : Int, b.xmin ≤ ix → ix ≤ b.xmax → b.ymin ≤ iy → iy ≤ b.ymax →
      (w.get2 ⟨ix - b.xmin, iy - b.ymin⟩ * data.get2 ⟨ix, iy⟩ *
        log_model delta ((ix : T) * (2 / (data.shape.x : T)) - 1)
          ((iy : T) * (2 / (data.shape.y : T)) - 1)) ^ 2 ≤
      ∑ i, ∑ j, ((if i = 1 then 2 else 1) * delta i) * s.1 i j *
        ((if j = 1 then 2 else 1) * delta j) := by
  intro ix0 iy0 hx0 hx1 hy0 hy1
  have hstep : ∀ (s1 : mat6_t T × vec6_t T) (ix iy : Int),
      (∑ i, ∑ j, ((if i = 1 then 2 else 1) * delta i) *
        (impl.assemble_pixel s1
            ((ix : T) * (2 * (range : vec2 T).x / (data.shape.x : T)) - (range : vec2 T).x)
            ((iy : T) * (2 * (range : vec2 T).y / (data.shape.y : T)) - (range : vec2 T).y)
            (w.get2 ⟨ix - b.xmin, iy - b.ymin⟩ * data.get2 ⟨ix, iy⟩)
            (log (w.get2 ⟨ix - b.xmin, iy - b.ymin⟩ * data.get2 ⟨ix, iy⟩ + eps) *
              (w.get2 ⟨ix - b.xmin, iy - b.ymin⟩ * data.get2 ⟨ix, iy⟩) *
              (w.get2 ⟨ix - b.xmin, iy - b.ymin⟩ * data.get2 ⟨ix, iy⟩))).1 i j *
        ((if j = 1 then 2 else 1) * delta j)) =
      (∑ i, ∑ j, ((if i = 1 then 2 else 1) * delta i) * s1.1 i j *
        ((if j = 1 then 2 else 1) * delta j)) +
      (w.get2 ⟨ix - b.xmin, iy - b.ymin⟩ * data.get2 ⟨ix, iy⟩ *
        log_model delta ((ix : T) * (2 / (data.shape.x : T)) - 1)
          ((iy : T) * (2 / (data.shape.y : T)) - 1)) ^ 2 := by
    intro s1 ix iy
    obtain ⟨ha, _⟩ := assemble_pixel_apply s1
      ((ix : T) * (2 * (range : vec2 T).x / (data.shape.x : T)) - (range : vec2 T).x)
      ((iy : T) * (2 * (range : vec2 T).y / (data.shape.y : T)) - (range : vec2 T).y)
      (w.get2 ⟨ix - b.xmin, iy - b.ymin⟩ * data.get2 ⟨ix, iy⟩)
      (log (w.get2 ⟨ix - b.xmin, iy - b.ymin⟩ * data.get2 ⟨ix, iy⟩ + eps) *
        (w.get2 ⟨ix - b.xmin, iy - b.ymin⟩ * data.get2 ⟨ix, iy⟩) *
        (w.get2 ⟨ix - b.xmin, iy - b.ymin⟩ * data.get2 ⟨ix, iy⟩))
    simp only [ha]
    simp only [Fin.sum_univ_six, log_model, range, mul_one]
    obtain ⟨p0, p1, p2, p3, p4, p5⟩ := phi_apply
      ((ix : T) * (2 / (data.shape.x : T)) - 1) ((iy : T) * (2 / (data.shape.y : T)) - 1)
    simp only [p0, p1, p2, p3, p4, p5, Fin.isValue, Fin.reduceEq, if_true, if_false]
    ring
  rw [hs]
  -- the rows below `iy` and the pixels left of `ix` in the row `iy` have been visited
  have houter := foldl_irange_inv
    (fun (iy : Int) (s : mat6_t T × vec6_t T) =>
      0 ≤ (∑ i, ∑ j, ((if i = 1 then 2 else 1) * delta i) * s.1 i j *
        ((if j = 1 then 2 else 1) * delta j)) ∧
      (iy0 < iy →
        (w.get2 ⟨ix0 - b.xmin, iy0 - b.ymin⟩ * data.get2 ⟨ix0, iy0⟩ *
          log_model delta ((ix0 : T) * (2 / (data.shape.x : T)) - 1)
            ((iy0 : T) * (2 / (data.shape.y : T)) - 1)) ^ 2 ≤
        ∑ i, ∑ j, ((if i = 1 then 2 else 1) * delta i) * s.1 i j *
          ((if j = 1 then 2 else 1) * delta j)))
    (fun s (iy : Int) =>
        (irange b.xmin (b.xmax + 1)).foldl (fun s (ix : Int) =>
          impl.assemble_pixel s
            ((ix : T) * (2 * (range : vec2 T).x / (data.shape.x : T)) - (range : vec2 T).x)
            ((iy : T) * (2 * (range : vec2 T).y / (data.shape.y : T)) - (range : vec2 T).y)
            (w.get2 ⟨ix - b.xmin, iy - b.ymin⟩ * data.get2 ⟨ix, iy⟩)
            (log (w.get2 ⟨ix - b.xmin, iy - b.ymin⟩ * data.get2 ⟨ix, iy⟩ + eps) *
              (w.get2 ⟨ix - b.xmin, iy - b.ymin⟩ * data.get2 ⟨ix, iy⟩) *
              (w.get2 ⟨ix - b.xmin, iy - b.ymin⟩ * data.get2 ⟨ix, iy⟩))) s)
    ((fun _ _ => 0), (fun _ => 0)) b.ymin (b.ymax + 1) (by omega)
    ⟨by simp, fun h => absurd h (by omega)⟩
    (by
      intro iy s0 hiy0 hiy1 ⟨hnn, hprev⟩
      have hinner := foldl_irange_inv
        (fun (ix : Int) (s : mat6_t T × vec6_t T) =>
          0 ≤ (∑ i, ∑ j, ((if i = 1 then 2 else 1) * delta i) * s.1 i j *
            ((if j = 1 then 2 else 1) * delta j)) ∧
          ((iy0 < iy ∨ (iy0 = iy ∧ ix0 < ix)) →
            (w.get2 ⟨ix0 - b.xmin, iy0 - b.ymin⟩ * data.get2 ⟨ix0, iy0⟩ *
              log_model delta ((ix0 : T) * (2 / (data.shape.x : T)) - 1)
                ((iy0 : T) * (2 / (data.shape.y : T)) - 1)) ^ 2 ≤
            ∑ i, ∑ j, ((if i = 1 then 2 else 1) * delta i) * s.1 i j *
              ((if j = 1 then 2 else 1) * delta j)))
        (fun s (ix : Int) =>
          impl.assemble_pixel s
            ((ix : T) * (2 * (range : vec2 T).x / (data.shape.x : T)) - (range : vec2 T).x)
            ((iy : T) * (2 * (range : vec2 T).y / (data.shape.y : T)) - (range : vec2 T).y)
            (w.get2 ⟨ix - b.xmin, iy - b.ymin⟩ * data.get2 ⟨ix, iy⟩)
            (log (w.get2 ⟨ix - b.xmin, iy - b.ymin⟩ * data.get2 ⟨ix, iy⟩ + eps) *
              (w.get2 ⟨ix - b.xmin, iy - b.ymin⟩ * data.get2 ⟨ix, iy⟩) *
              (w.get2 ⟨ix - b.xmin, iy - b.ymin⟩ * data.get2 ⟨ix, iy⟩)))
        s0 b.xmin (b.xmax + 1) (by omega)
        ⟨hnn, fun h => by
          rcases h with h | ⟨_, h⟩
          · exact hprev h
          · exact absurd h (by omega)⟩
        (by
          intro ix s1 hix0 hix1 ⟨hnn1, hprev1⟩
          beta_reduce
          rw [hstep s1 ix iy]
          refine ⟨add_nonneg hnn1 (sq_nonneg _), fun h => ?_⟩
          by_cases hcur : iy0 = iy ∧ ix0 = ix
          · obtain ⟨rfl, rfl⟩ := hcur
            exact le_add_of_nonneg_left hnn1
          · have := hprev1 (by
              rcases h with h | ⟨h1, h2⟩
              · exact Or.inl h
              · refine Or.inr ⟨h1, ?_⟩
                by_contra hc
                exact hcur ⟨h1, by omega⟩)
            exact le_trans this (le_add_of_nonneg_right (sq_nonneg _)))
      refine ⟨hinner.1, fun h => hinner.2 ?_⟩
      by_cases hlt : iy0 < iy
      · exact Or.inl hlt
      · exact Or.inr ⟨by omega, by omega⟩)
  exact houter.2 (by omega)

end gfit

end TouchDetection

namespace TouchDetection

theorem image.allocated_const {T : Type} (shape : index2) (c : T) (hx : 0 ≤ shape.x)
    (hy : 0 ≤ shape.y) : (image.const shape c).allocated :=
  ⟨hx, hy, by simp [image.const]⟩

theorem image.get2_const {T : Type} [Zero T] (shape : index2) (c : T) (p : index2)
    (hp : image.inside shape p) : (image.const shape c).get2 p = c := by
  have h0 := image.ravel_nonneg hp
  have h1 := image.ravel_lt hp
  unfold image.get2 image.get
  simp only [image.const, h0, if_true]
  rw [List.getD_eq_getElem?_getD, List.getElem?_replicate, if_pos (by omega)]
  rfl

theorem average_const {T : Type} [Field T] [CharZero T] (img : image T) (ha : img.allocated)
    (c : T) (hw : 0 < img.shape.x) (hh : 0 < img.shape.y)
    (hc : ∀ p, image.inside img.shape p → img.get2 p = c) : average img = c := by
  have hd := image.data_eq_replicate img ha c hc
  have hpos : 0 < img.shape.x * img.shape.y := mul_pos hw hh
  unfold average
  rw [hd]
  simp only [List.sum_replicate, List.length_replicate, nsmul_eq_mul]
  have : ((img.shape.x * img.shape.y).toNat : T) ≠ 0 := by
    have : (img.shape.x * img.shape.y).toNat ≠ 0 := by omega
    exact_mod_cast this
  field_simp

/-- Claim C1: for every border policy `B`, kernel `k` and input image,
`conv_generic` writes into every pixel `(cx, cy)` of the image the sum over
`0 <= ix < Nx`, `0 <= iy < Ny` of
`B.value(in, (cx - dx + ix, cy - dy + iy)) * k[ix, iy]` with
`dx = (Nx - 1) / 2`, `dy = (Ny - 1) / 2` (the kernel is not flipped); the
output image has the shape of the input and is an allocated buffer. -/
theorem conv_generic_correlation {T S : Type} {Nx Ny : Nat} [AddCommMonoid T] [HMul T S T]
    [Zero S] (B : border T) (out inp : image T) (k : kernel S Nx Ny)
    (hshape : out.shape = inp.shape) (ha : out.allocated)
    (cx cy : Int) (hx0 : 0 ≤ cx) (hx1 : cx < inp.shape.x) (hy0 : 0 ≤ cy)
    (hy1 : cy < inp.shape.y) :
    (impl.conv_generic B out inp k).get2 ⟨cx, cy⟩ =
      ∑ ix ∈ Finset.range Nx, ∑ iy ∈ Finset.range Ny,
        B.value inp ⟨cx - Int.tdiv ((Nx : Int) - 1) 2 + ix, cy - Int.tdiv ((Ny : Int) - 1) 2 + iy⟩
          * k.get2 ⟨ix, iy⟩ :=
  (impl.conv_generic_spec B out inp k hshape ha).2 ⟨cx, cy⟩ ⟨hx0, hx1, hy0, hy1⟩

/-- Witness of `conv_generic_correlation`: `sobel3_x` applied with the zero
border to the 2x2 image `[1, 2; 3, 4]`, at the pixel `(1, 0)`. -/
theorem conv_generic_correlation_witness :
    (impl.conv_generic border.zero (image.const ⟨2, 2⟩ (0 : Int)) ⟨⟨2, 2⟩, [1, 2, 3, 4]⟩
        (kernels.sobel3_x : kernel Int 3 3)).get2 ⟨1, 0⟩ =
      ∑ ix ∈ Finset.range 3, ∑ iy ∈ Finset.range 3,
        (border.zero : border Int).value ⟨⟨2, 2⟩, [1, 2, 3, 4]⟩
            ⟨1 - Int.tdiv (((3 : Nat) : Int) - 1) 2 + ix, 0 - Int.tdiv (((3 : Nat) : Int) - 1) 2 + iy⟩
          * (kernels.sobel3_x : kernel Int 3 3).get2 ⟨ix, iy⟩ :=
  conv_generic_correlation border.zero (image.const ⟨2, 2⟩ (0 : Int)) ⟨⟨2, 2⟩, [1, 2, 3, 4]⟩
    kernels.sobel3_x rfl (image.allocated_const _ _ (by decide) (by decide)) 1 0
    (by decide) (by decide) (by decide) (by decide)

end TouchDetection

namespace TouchDetection

theorem kernel_get2_nat {T : Type} [Zero T] {Nx Ny : Nat} (k : kernel T Nx Ny) (ix iy : Nat) :
    k.get2 ⟨(ix : Int), (iy : Int)⟩ = k.data.getD (iy * Nx + ix) 0 := by
  have h : (0 : Int) ≤ (iy : Int) * (Nx : Int) + (ix : Int) := by positivity
  have e : ((iy : Int) * (Nx : Int) + (ix : Int)).toNat = iy * Nx + ix := by
    have : ((iy : Int) * (Nx : Int) + (ix : Int)) = ((iy * Nx + ix : Nat) : Int) := by push_cast; ring
    rw [this, Int.toNat_natCast]
  unfold kernel.get2 image.get2 image.get image.ravel kernel.toImage
  simp only [h, if_true, e]

theorem sobel3_sums {T : Type} [CommRing T] :
    (∑ ix ∈ Finset.range 3, ∑ iy ∈ Finset.range 3, (kernels.sobel3_x : kernel T 3 3).get2 ⟨ix, iy⟩) = 0 ∧
    (∑ ix ∈ Finset.range 3, ∑ iy ∈ Finset.range 3, (kernels.sobel3_y : kernel T 3 3).get2 ⟨ix, iy⟩) = 0 ∧
    (∑ ix ∈ Finset.range 3, ∑ iy ∈ Finset.range 3, (kernels.sobel3_xx : kernel T 3 3).get2 ⟨ix, iy⟩) = 0 ∧
    (∑ ix ∈ Finset.range 3, ∑ iy ∈ Finset.range 3, (kernels.sobel3_yy : kernel T 3 3).get2 ⟨ix, iy⟩) = 0 ∧
    (∑ ix ∈ Finset.range 3, ∑ iy ∈ Finset.range 3, (kernels.sobel3_xy : kernel T 3 3).get2 ⟨ix, iy⟩) = 0 := by
  refine ⟨?_, ?_, ?_, ?_, ?_⟩ <;>
  · simp only [Finset.sum_range_succ, Finset.sum_range_zero, kernel_get2_nat,
      kernels.sobel3_x, kernels.sobel3_y, kernels.sobel3_xx, kernels.sobel3_yy, kernels.sobel3_xy]
    simp [List.getD]
    try ring

/-- Claim C2: for a non-empty image whose pixels all equal `c` and a kernel
whose entries sum to 1, `conv_generic` with the extend border yields an
image whose pixels all equal `c`, hence an image of the same mean. -/
theorem conv_generic_extend_constant {T : Type} [Field T] [CharZero T] {Nx Ny : Nat}
    (out inp : image T) (k : kernel T Nx Ny) (c : T)
    (hshape : out.shape = inp.shape) (hao : out.allocated) (hai : inp.allocated)
    (hw : 0 < inp.shape.x) (hh : 0 < inp.shape.y)
    (hc : ∀ p, image.inside inp.shape p → inp.get2 p = c)
    (hk : ∑ ix ∈ Finset.range Nx, ∑ iy ∈ Finset.range Ny, k.get2 ⟨ix, iy⟩ = 1) :
    (∀ p, image.inside inp.shape p →
      (impl.conv_generic border.extend out inp k).get2 p = c) ∧
    (impl.conv_generic border.extend out inp k).data =
      List.replicate (inp.shape.x * inp.shape.y).toNat c ∧
    average (impl.conv_generic border.extend out inp k) = average inp := by
  have hl := (impl.conv_generic_spec border.extend out inp k hshape hao).1
  have hra := image.allocated_of_same_layout hl hao
  have hrs : (impl.conv_generic border.extend out inp k).shape = inp.shape := hl.1.trans hshape
  have hpix : ∀ p, image.inside inp.shape p →
      (impl.conv_generic border.extend out inp k).get2 p = c := by
    intro p hp
    rw [conv_generic_extend_const out inp k c hshape hao hw hh hc p hp, hk, mul_one]
  refine ⟨hpix, ?_, ?_⟩
  · have := image.data_eq_replicate _ hra c (by rw [hrs]; exact hpix)
    rw [hrs] at this
    exact this
  · rw [average_const _ hra c (by rw [hrs]; exact hw) (by rw [hrs]; exact hh)
      (by rw [hrs]; exact hpix), average_const inp hai c hw hh hc]

/-- Witness of `conv_generic_extend_constant`: the 2x3 image of constant 5
and a 3x3 kernel with entries summing to 1. -/
theorem conv_generic_extend_constant_witness :
    (impl.conv_generic border.extend (image.const ⟨2, 3⟩ (0 : ℚ)) (image.const ⟨2, 3⟩ (5 : ℚ))
        (⟨[1, 2, 1, 2, -11, 2, 1, 2, 1]⟩ : kernel ℚ 3 3)).data =
      List.replicate ((2 : Int) * 3).toNat (5 : ℚ) :=
  (conv_generic_extend_constant (image.const ⟨2, 3⟩ (0 : ℚ)) (image.const ⟨2, 3⟩ (5 : ℚ))
    (⟨[1, 2, 1, 2, -11, 2, 1, 2, 1]⟩ : kernel ℚ 3 3) 5 rfl
    (image.allocated_const _ _ (by decide) (by decide))
    (image.allocated_const _ _ (by decide) (by decide))
    (by decide) (by decide) (fun p hp => image.get2_const _ _ p hp)
    (by simp only [Finset.sum_range_succ, Finset.sum_range_zero, kernel_get2_nat]
        simp [List.getD]
        norm_num)).2.1

/-- Claim C4: each of the five kernels `sobel3_x`, `sobel3_y`, `sobel3_xx`,
`sobel3_yy`, `sobel3_xy` has entries summing to 0, and `conv_generic` with
the extend border maps every non-empty constant image to the zero image. -/
theorem sobel3_constant_image_zero {T : Type} [CommRing T] (k : kernel T 3 3)
    (hk : k ∈ [kernels.sobel3_x, kernels.sobel3_y, kernels.sobel3_xx, kernels.sobel3_yy,
      kernels.sobel3_xy])
    (out inp : image T) (c : T)
    (hshape : out.shape = inp.shape) (hao : out.allocated)
    (hw : 0 < inp.shape.x) (hh : 0 < inp.shape.y)
    (hc : ∀ p, image.inside inp.shape p → inp.get2 p = c) :
    (∑ ix ∈ Finset.range 3, ∑ iy ∈ Finset.range 3, k.get2 ⟨ix, iy⟩) = 0 ∧
    (∀ p, image.inside inp.shape p →
      (impl.conv_generic border.extend out inp k).get2 p = 0) ∧
    (impl.conv_generic border.extend out inp k).data =
      List.replicate (inp.shape.x * inp.shape.y).toNat 0 := by
  have hsum : (∑ ix ∈ Finset.range 3, ∑ iy ∈ Finset.range 3, k.get2 ⟨ix, iy⟩) = 0 := by
    obtain ⟨h1, h2, h3, h4, h5⟩ := @sobel3_sums T _
    simp only [List.mem_cons, List.mem_singleton, List.not_mem_nil, or_false] at hk
    rcases hk with rfl | rfl | rfl | rfl | rfl <;> assumption
  have hl := (impl.conv_generic_spec border.extend out inp k hshape hao).1
  have hra := image.allocated_of_same_layout hl hao
  have hrs : (impl.conv_generic border.extend out inp k).shape = inp.shape := hl.1.trans hshape
  have hpix : ∀ p, image.inside inp.shape p →
      (impl.conv_generic border.extend out inp k).get2 p = 0 := by
    intro p hp
    rw [conv_generic_extend_const out inp k c hshape hao hw hh hc p hp, hsum, mul_zero]
  refine ⟨hsum, hpix, ?_⟩
  have := image.data_eq_replicate _ hra 0 (by rw [hrs]; exact hpix)
  rw [hrs] at this
  exact this

/-- Witness of `sobel3_constant_image_zero`: `sobel3_xy` applied to the 3x2
image of constant 7. -/
theorem sobel3_constant_image_zero_witness :
    (impl.conv_generic border.extend (image.const ⟨3, 2⟩ (1 : Int)) (image.const ⟨3, 2⟩ (7 : Int))
        (kernels.sobel3_xy : kernel Int 3 3)).data =
      List.replicate ((3 : Int) * 2).toNat (0 : Int) :=
  (sobel3_constant_image_zero (kernels.sobel3_xy : kernel Int 3 3) (by simp)
    (image.const ⟨3, 2⟩ (1 : Int)) (image.const ⟨3, 2⟩ (7 : Int)) 7 rfl
    (image.allocated_const _ _ (by decide) (by decide))
    (by decide) (by decide) (fun p hp => image.get2_const _ _ p hp)).2.2

end TouchDetection

namespace TouchDetection

theorem half_odd_cast (N : Nat) (h : N % 2 = 1) :
    ((impl.half N : Int) : ℝ) = ((N : ℝ) - 1) / 2 := by
  obtain ⟨m, rfl⟩ : ∃ m, N = 2 * m + 1 := ⟨N / 2, by omega⟩
  have : impl.half (2 * m + 1) = (m : Int) := by
    unfold impl.half
    have : (((2 * m + 1 : Nat) : Int) - 1) = (m : Int) * 2 := by push_cast; ring
    rw [this, Int.tdiv_eq_ediv (by positivity) (by decide)]
    exact Int.mul_ediv_cancel _ (by decide)
  rw [this]
  push_cast
  ring

/-- Claim C3: for `sigma > 0` and odd sizes `Nx`, `Ny`, the kernel returned
by `kernels::gaussian` has the entries `k[i, j] = exp(-(1/2) (r / sigma)^2) / Z`,
where `r` is the Euclidean norm of `(i - (Nx - 1)/2, j - (Ny - 1)/2)` and `Z`
is the sum of the unnormalised values over all `(i, j)`; its entries sum to
exactly 1. -/
theorem gaussian_kernel_normalised (sigma : ℝ) (hs : 0 < sigma) (Nx Ny : Nat)
    (hNx : Nx % 2 = 1) (hNy : Ny % 2 = 1) :
    (∀ i j : Nat, i < Nx → j < Ny →
      (kernels.gaussian Real.exp (l2norm Real.sqrt) Nx Ny sigma).get2 ⟨i, j⟩ =
        Real.exp (-(1 / 2) *
          (Real.sqrt (((i : ℝ) - ((Nx : ℝ) - 1) / 2) ^ 2 + ((j : ℝ) - ((Ny : ℝ) - 1) / 2) ^ 2)
            / sigma) ^ 2) /
        ∑ i' ∈ Finset.range Nx, ∑ j' ∈ Finset.range Ny,
          Real.exp (-(1 / 2) *
            (Real.sqrt (((i' : ℝ) - ((Nx : ℝ) - 1) / 2) ^ 2 + ((j' : ℝ) - ((Ny : ℝ) - 1) / 2) ^ 2)
              / sigma) ^ 2)) ∧
    ∑ i ∈ Finset.range Nx, ∑ j ∈ Finset.range Ny,
      (kernels.gaussian Real.exp (l2norm Real.sqrt) Nx Ny sigma).get2 ⟨i, j⟩ = 1 := by
  have _hsigma : sigma ≠ 0 := ne_of_gt hs
  have hv : ∀ i j : Nat,
      Real.exp (-(1 / 2 : ℝ) *
        (l2norm Real.sqrt ⟨(((i : Int) - impl.half Nx : Int) : ℝ), (((j : Int) - impl.half Ny : Int) : ℝ)⟩ / sigma) *
        (l2norm Real.sqrt ⟨(((i : Int) - impl.half Nx : Int) : ℝ), (((j : Int) - impl.half Ny : Int) : ℝ)⟩ / sigma))
      = Real.exp (-(1 / 2) *
          (Real.sqrt (((i : ℝ) - ((Nx : ℝ) - 1) / 2) ^ 2 + ((j : ℝ) - ((Ny : ℝ) - 1) / 2) ^ 2)
            / sigma) ^ 2) := by
    intro i j
    unfold l2norm
    simp only
    push_cast
    rw [half_odd_cast Nx hNx, half_odd_cast Ny hNy]
    congr 1
    ring_nf
  have hspec := gaussian_spec Real.exp (l2norm Real.sqrt) Nx Ny sigma
  simp only at hspec
  have hZ : (∑ j ∈ Finset.range Ny, ∑ i ∈ Finset.range Nx,
      Real.exp (-(1 / 2 : ℝ) *
        (l2norm Real.sqrt ⟨(((i : Int) - impl.half Nx : Int) : ℝ), (((j : Int) - impl.half Ny : Int) : ℝ)⟩ / sigma) *
        (l2norm Real.sqrt ⟨(((i : Int) - impl.half Nx : Int) : ℝ), (((j : Int) - impl.half Ny : Int) : ℝ)⟩ / sigma)))
      = ∑ i' ∈ Finset.range Nx, ∑ j' ∈ Finset.range Ny,
          Real.exp (-(1 / 2) *
            (Real.sqrt (((i' : ℝ) - ((Nx : ℝ) - 1) / 2) ^ 2 + ((j' : ℝ) - ((Ny : ℝ) - 1) / 2) ^ 2)
              / sigma) ^ 2) := by
    rw [Finset.sum_comm]
    apply Finset.sum_congr rfl
    intro i _
    apply Finset.sum_congr rfl
    intro j _
    exact hv i j
  have hentry : ∀ i j : Nat, i < Nx → j < Ny →
      (kernels.gaussian Real.exp (l2norm Real.sqrt) Nx Ny sigma).get2 ⟨i, j⟩ =
        Real.exp (-(1 / 2) *
          (Real.sqrt (((i : ℝ) - ((Nx : ℝ) - 1) / 2) ^ 2 + ((j : ℝ) - ((Ny : ℝ) - 1) / 2) ^ 2)
            / sigma) ^ 2) /
        ∑ i' ∈ Finset.range Nx, ∑ j' ∈ Finset.range Ny,
          Real.exp (-(1 / 2) *
            (Real.sqrt (((i' : ℝ) - ((Nx : ℝ) - 1) / 2) ^ 2 + ((j' : ℝ) - ((Ny : ℝ) - 1) / 2) ^ 2)
              / sigma) ^ 2) := by
    intro i j hi hj
    rw [hspec i j hi hj, hZ, hv i j]
  refine ⟨hentry, ?_⟩
  have hNxpos : 0 < Nx := by omega
  have hNypos : 0 < Ny := by omega
  have hpos : 0 < ∑ i' ∈ Finset.range Nx, ∑ j' ∈ Finset.range Ny,
          Real.exp (-(1 / 2) *
            (Real.sqrt (((i' : ℝ) - ((Nx : ℝ) - 1) / 2) ^ 2 + ((j' : ℝ) - ((Ny : ℝ) - 1) / 2) ^ 2)
              / sigma) ^ 2) := by
    apply Finset.sum_pos
    · intro i _
      apply Finset.sum_pos
      · intro j _
        exact Real.exp_pos _
      · exact ⟨0, Finset.mem_range.mpr hNypos⟩
    · exact ⟨0, Finset.mem_range.mpr hNxpos⟩
  have : ∀ i ∈ Finset.range Nx, ∀ j ∈ Finset.range Ny,
      (kernels.gaussian Real.exp (l2norm Real.sqrt) Nx Ny sigma).get2 ⟨i, j⟩ = _ :=
    fun i hi j hj => hentry i j (Finset.mem_range.mp hi) (Finset.mem_range.mp hj)
  rw [Finset.sum_congr rfl (fun i hi => Finset.sum_congr rfl (fun j hj => this i hi j hj))]
  simp only [← Finset.sum_div]
  exact div_self (ne_of_gt hpos)

/-- Witness of `gaussian_kernel_normalised`: the 5x5 kernel of `sigma = 1`
used by the pipeline. -/
theorem gaussian_kernel_normalised_witness :
    ∑ i ∈ Finset.range 5, ∑ j ∈ Finset.range 5,
      (kernels.gaussian Real.exp (l2norm Real.sqrt) 5 5 1).get2 ⟨i, j⟩ = 1 :=
  (gaussian_kernel_normalised 1 (by norm_num) 5 5 (by decide) (by decide)).2

end TouchDetection

namespace TouchDetection

theorem hessian_get2 {T : Type} [CommRing T] (out : image (mat2s T)) (inp : image T)
    (ha : out.allocated) (hshape : out.shape = inp.shape)
    (hw : 2 ≤ inp.shape.x) (hh : 2 ≤ inp.shape.y) (p : index2)
    (hp : image.inside inp.shape p) :
    (hessian out inp).get2 p = hessian_reference inp p.x p.y :=
  (hessian_opt.hessian_spec out inp ha hshape hw hh).2 p hp (image.ravel_lt hp)

theorem conv_generic_zero_sobel {T : Type} [CommRing T] (o inp : image T) (K : kernel T 3 3)
    (ha : o.allocated) (hshape : o.shape = inp.shape) (p : index2)
    (hp : image.inside inp.shape p) :
    (impl.conv_generic border.zero o inp K).get2 p =
      ∑ i ∈ Finset.range 3, ∑ j ∈ Finset.range 3,
        (border.zero : border T).value inp ⟨p.x - 1 + i, p.y - 1 + j⟩ *
          K.get ((j : Int) * 3 + i) := by
  rw [(impl.conv_generic_spec border.zero o inp K hshape ha).2 p hp]
  rfl

/-- Claim C5: for an image of width and height at least 2 and every pixel
`(x, y)`, the optimised `hessian<border::zero, f32>` writes
`out[x, y] = (xx, xy, yy)` where each component is the 3x3 zero-border
correlation `sum over i, j in {0,1,2} of z(x-1+i, y-1+j) * K[j*3+i]` with
`K = sobel3_xx, sobel3_xy, sobel3_yy`; these are the values `conv_generic`
computes with the zero border and the three kernels. -/
theorem hessian_eq_zero_border_conv {T : Type} [CommRing T] (out : image (mat2s T))
    (inp oxx oxy oyy : image T)
    (ha : out.allocated) (hshape : out.shape = inp.shape)
    (haxx : oxx.allocated) (hsxx : oxx.shape = inp.shape)
    (haxy : oxy.allocated) (hsxy : oxy.shape = inp.shape)
    (hayy : oyy.allocated) (hsyy : oyy.shape = inp.shape)
    (hw : 2 ≤ inp.shape.x) (hh : 2 ≤ inp.shape.y)
    (x y : Int) (hx0 : 0 ≤ x) (hx1 : x < inp.shape.x) (hy0 : 0 ≤ y) (hy1 : y < inp.shape.y) :
    (hessian out inp).get2 ⟨x, y⟩ =
      { xx := ∑ i ∈ Finset.range 3, ∑ j ∈ Finset.range 3,
          (if image.inside inp.shape ⟨x - 1 + i, y - 1 + j⟩ then inp.get2 ⟨x - 1 + i, y - 1 + j⟩
            else 0) * (kernels.sobel3_xx : kernel T 3 3).get ((j : Int) * 3 + i)
        xy := ∑ i ∈ Finset.range 3, ∑ j ∈ Finset.range 3,
          (if image.inside inp.shape ⟨x - 1 + i, y - 1 + j⟩ then inp.get2 ⟨x - 1 + i, y - 1 + j⟩
            else 0) * (kernels.sobel3_xy : kernel T 3 3).get ((j : Int) * 3 + i)
        yy := ∑ i ∈ Finset.range 3, ∑ j ∈ Finset.range 3,
          (if image.inside inp.shape ⟨x - 1 + i, y - 1 + j⟩ then inp.get2 ⟨x - 1 + i, y - 1 + j⟩
            else 0) * (kernels.sobel3_yy : kernel T 3 3).get ((j : Int) * 3 + i) } ∧
    (hessian out inp).get2 ⟨x, y⟩ =
      { xx := (impl.conv_generic border.zero oxx inp (kernels.sobel3_xx : kernel T 3 3)).get2 ⟨x, y⟩
        xy := (impl.conv_generic border.zero oxy inp (kernels.sobel3_xy : kernel T 3 3)).get2 ⟨x, y⟩
        yy := (impl.conv_generic border.zero oyy inp (kernels.sobel3_yy : kernel T 3 3)).get2 ⟨x, y⟩ } := by
  have hp : image.inside inp.shape ⟨x, y⟩ := ⟨hx0, hx1, hy0, hy1⟩
  refine ⟨hessian_get2 out inp ha hshape hw hh ⟨x, y⟩ hp, ?_⟩
  rw [hessian_get2 out inp ha hshape hw hh ⟨x, y⟩ hp,
    conv_generic_zero_sobel oxx inp _ haxx hsxx _ hp,
    conv_generic_zero_sobel oxy inp _ haxy hsxy _ hp,
    conv_generic_zero_sobel oyy inp _ hayy hsyy _ hp]
  rfl

/-- Witness of `hessian_eq_zero_border_conv`: the 3x2 image `[1, 2, 3; 4, 5, 6]`
at the pixel `(2, 1)`. -/
theorem hessian_eq_zero_border_conv_witness :
    (hessian (image.const ⟨3, 2⟩ (0 : mat2s Int)) ⟨⟨3, 2⟩, [1, 2, 3, 4, 5, 6]⟩).get2 ⟨2, 1⟩ =
      { xx := (impl.conv_generic border.zero (image.const ⟨3, 2⟩ (0 : Int))
          ⟨⟨3, 2⟩, [1, 2, 3, 4, 5, 6]⟩ (kernels.sobel3_xx : kernel Int 3 3)).get2 ⟨2, 1⟩
        xy := (impl.conv_generic border.zero (image.const ⟨3, 2⟩ (0 : Int))
          ⟨⟨3, 2⟩, [1, 2, 3, 4, 5, 6]⟩ (kernels.sobel3_xy : kernel Int 3 3)).get2 ⟨2, 1⟩
        yy := (impl.conv_generic border.zero (image.const ⟨3, 2⟩ (0 : Int))
          ⟨⟨3, 2⟩, [1, 2, 3, 4, 5, 6]⟩ (kernels.sobel3_yy : kernel Int 3 3)).get2 ⟨2, 1⟩ } :=
  (hessian_eq_zero_border_conv (image.const ⟨3, 2⟩ (0 : mat2s Int)) ⟨⟨3, 2⟩, [1, 2, 3, 4, 5, 6]⟩
    (image.const ⟨3, 2⟩ (0 : Int)) (image.const ⟨3, 2⟩ (0 : Int)) (image.const ⟨3, 2⟩ (0 : Int))
    (image.allocated_const _ _ (by decide) (by decide)) rfl
    (image.allocated_const _ _ (by decide) (by decide)) rfl
    (image.allocated_const _ _ (by decide) (by decide)) rfl
    (image.allocated_const _ _ (by decide) (by decide)) rfl
    (by decide) (by decide) 2 1 (by decide) (by decide) (by decide) (by decide)).2

end TouchDetection

namespace TouchDetection

/-- The reference value of the Hessian stage on a constant image: zero in
the interior, the sums of the kernel entries that fall inside of the image on
the border. -/
theorem hessian_reference_const {T : Type} [CommRing T] (inp : image T) (c : T)
    (hw : 2 ≤ inp.shape.x) (hh : 2 ≤ inp.shape.y)
    (hc : ∀ p, image.inside inp.shape p → inp.get2 p = c) (x y : Int)
    (hx0 : 0 ≤ x) (hx1 : x < inp.shape.x) (hy0 : 0 ≤ y) (hy1 : y < inp.shape.y) :
    hessian_reference inp x y =
      if 0 < x ∧ x < inp.shape.x - 1 then
        (if 0 < y ∧ y < inp.shape.y - 1 then ⟨0, 0, 0⟩ else ⟨0, 0, -4 * c⟩)
      else if 0 < y ∧ y < inp.shape.y - 1 then ⟨-4 * c, 0, 0⟩
      else if (x = 0 ↔ y = 0) then ⟨-3 * c, c, -3 * c⟩ else ⟨-3 * c, -c, -3 * c⟩ := by
  obtain ⟨hxx, hxy, hyy⟩ := @hessian_opt.sobel3_entries T _
  have hz : ∀ a b : Int, (border.zero : border T).value inp ⟨a, b⟩ =
      if 0 ≤ a ∧ a < inp.shape.x ∧ 0 ≤ b ∧ b < inp.shape.y then c else 0 := by
    intro a b
    by_cases h : 0 ≤ a ∧ a < inp.shape.x ∧ 0 ≤ b ∧ b < inp.shape.y
    · rw [if_pos h]
      have h' : image.inside inp.shape ⟨a, b⟩ := h
      show (if image.inside inp.shape ⟨a, b⟩ then _ else _) = c
      rw [if_pos h']
      exact hc _ h
    · rw [if_neg h]
      have h' : ¬ image.inside inp.shape ⟨a, b⟩ := h
      show (if image.inside inp.shape ⟨a, b⟩ then _ else _) = 0
      rw [if_neg h']
  unfold hessian_reference
  rw [hessian_opt.corr3_expand, hessian_opt.corr3_expand, hessian_opt.corr3_expand]
  simp only [hz, hxx, hxy, hyy]
  have hxc : x = 0 ∨ (0 < x ∧ x < inp.shape.x - 1) ∨ x = inp.shape.x - 1 := by omega
  have hyc : y = 0 ∨ (0 < y ∧ y < inp.shape.y - 1) ∨ y = inp.shape.y - 1 := by omega
  rcases hxc with h1 | h1 | h1 <;> rcases hyc with h2 | h2 | h2 <;>
  · simp (disch := omega) only [if_pos, if_neg]
    congr 1 <;> ring

/-- Claim C6, refuted as stated: on the 2x2 image of constant 1 the Hessian
stage writes `(-3, 1, -3)`, not `(0, 0, 0)`, into the corner pixel `(0, 0)`. -/
theorem hessian_constant_corner_nonzero :
    (hessian (image.const ⟨2, 2⟩ (0 : mat2s Int)) (image.const ⟨2, 2⟩ (1 : Int))).get2 ⟨0, 0⟩ =
      ⟨-3, 1, -3⟩ ∧
    (hessian (image.const ⟨2, 2⟩ (0 : mat2s Int)) (image.const ⟨2, 2⟩ (1 : Int))).get2 ⟨0, 0⟩ ≠
      ⟨0, 0, 0⟩ := by
  constructor <;> decide

/-- Claim C6, amended: for every image of constant value `c`, of width and
height at least 2, the Hessian stage yields `(0, 0, 0)` at every interior
pixel; on the border the zero border policy leaves `(0, 0, -4c)` on the top
and bottom edges, `(-4c, 0, 0)` on the left and right edges and
`(-3c, c, -3c)` resp. `(-3c, -c, -3c)` at the corners (`+c` at the top left
and bottom right corner). -/
theorem hessian_constant_image {T : Type} [CommRing T] (out : image (mat2s T)) (inp : image T)
    (c : T) (ha : out.allocated) (hshape : out.shape = inp.shape)
    (hw : 2 ≤ inp.shape.x) (hh : 2 ≤ inp.shape.y)
    (hc : ∀ p, image.inside inp.shape p → inp.get2 p = c)
    (x y : Int) (hx0 : 0 ≤ x) (hx1 : x < inp.shape.x) (hy0 : 0 ≤ y) (hy1 : y < inp.shape.y) :
    (hessian out inp).get2 ⟨x, y⟩ =
      if 0 < x ∧ x < inp.shape.x - 1 then
        (if 0 < y ∧ y < inp.shape.y - 1 then ⟨0, 0, 0⟩ else ⟨0, 0, -4 * c⟩)
      else if 0 < y ∧ y < inp.shape.y - 1 then ⟨-4 * c, 0, 0⟩
      else if (x = 0 ↔ y = 0) then ⟨-3 * c, c, -3 * c⟩ else ⟨-3 * c, -c, -3 * c⟩ := by
  rw [hessian_get2 out inp ha hshape hw hh ⟨x, y⟩ ⟨hx0, hx1, hy0, hy1⟩]
  exact hessian_reference_const inp c hw hh hc x y hx0 hx1 hy0 hy1

/-- Witness of `hessian_constant_image`: the interior pixel `(1, 1)` of the
3x3 image of constant 7. -/
theorem hessian_constant_image_witness :
    (hessian (image.const ⟨3, 3⟩ (0 : mat2s Int)) (image.const ⟨3, 3⟩ (7 : Int))).get2 ⟨1, 1⟩ =
      ⟨0, 0, 0⟩ :=
  hessian_constant_image (image.const ⟨3, 3⟩ (0 : mat2s Int)) (image.const ⟨3, 3⟩ (7 : Int)) 7
    (image.allocated_const _ _ (by decide) (by decide)) rfl (by decide) (by decide)
    (fun p hp => image.get2_const _ _ p hp) 1 1 (by decide) (by decide) (by decide) (by decide)

end TouchDetection

namespace TouchDetection

namespace gfit

/-- The precision matrix `extract_params` writes, whatever it returns. -/
theorem extract_params_prec {T : Type} [LinearOrderedField T] (exp : T → T) (chi : vec6_t T)
    (scale : T) (mean : vec2 T) (prec : mat2s T) (eps : T) :
    (impl.extract_params exp chi scale mean prec eps).prec =
      ⟨-2 * chi 0, -2 * chi 1, -2 * chi 2⟩ := by
  unfold impl.extract_params
  simp only
  split <;> rfl

/-- The flag `extract_params` returns. -/
theorem extract_params_ok {T : Type} [LinearOrderedField T] (exp : T → T) (chi : vec6_t T)
    (scale : T) (mean : vec2 T) (prec : mat2s T) (eps : T) :
    (impl.extract_params exp chi scale mean prec eps).ok = true ↔
      eps < |det (⟨-2 * chi 0, -2 * chi 1, -2 * chi 2⟩ : mat2s T)| := by
  unfold impl.extract_params
  simp only
  split
  · next h => simp only [Bool.false_eq_true, false_iff, not_lt]; exact h
  · next h => simp only [true_iff]; exact not_le.mp h

/-- Claim C7, refuted as stated (the tolerance `eps` may be negative): for
`chi = (0, 0, 0, 1, 0, 0)` and `eps = -1`, `extract_params` returns true with
the precision matrix `(0, 0, 0)`, and `prec * mean` is not `(d, e) = (1, 0)`:
no mean whatsoever satisfies `prec * mean = (1, 0)`. -/
theorem extract_params_negative_eps :
    (impl.extract_params Real.exp ![0, 0, 0, 1, 0, 0] 1 ⟨0, 0⟩ ⟨1, 0, 1⟩ (-1)).ok = true ∧
    (impl.extract_params Real.exp ![0, 0, 0, 1, 0, 0] 1 ⟨0, 0⟩ ⟨1, 0, 1⟩ (-1)).prec = ⟨0, 0, 0⟩ ∧
    ¬ ((impl.extract_params Real.exp ![0, 0, 0, 1, 0, 0] 1 ⟨0, 0⟩ ⟨1, 0, 1⟩ (-1)).prec.xx *
        (impl.extract_params Real.exp ![0, 0, 0, 1, 0, 0] 1 ⟨0, 0⟩ ⟨1, 0, 1⟩ (-1)).mean.x +
       (impl.extract_params Real.exp ![0, 0, 0, 1, 0, 0] 1 ⟨0, 0⟩ ⟨1, 0, 1⟩ (-1)).prec.xy *
        (impl.extract_params Real.exp ![0, 0, 0, 1, 0, 0] 1 ⟨0, 0⟩ ⟨1, 0, 1⟩ (-1)).mean.y =
      (![0, 0, 0, 1, 0, 0] : vec6_t ℝ) 3) := by
  have hok := (extract_params_ok Real.exp ![0, 0, 0, 1, 0, 0] 1 ⟨0, 0⟩ ⟨1, 0, 1⟩ (-1)).mpr
    (by simp [det])
  refine ⟨hok, ?_, ?_⟩
  · rw [extract_params_prec]
    simp
  · rw [extract_params_prec]
    simp

/-- Claim C7, amended: for every tolerance `eps >= 0` and every coefficient
vector `chi = (a, b, c, d, e, f)` on which `extract_params` returns true, the
outputs satisfy `prec = (-2a, -2b, -2c)`, `det(prec) != 0`,
`prec * mean = (d, e)` and `scale = exp(f + (1/2) * mean^T prec mean)`. -/
theorem extract_params_outputs {T : Type} [LinearOrderedField T] (exp : T → T)
    (chi : vec6_t T) (scale : T) (mean : vec2 T) (prec : mat2s T) (eps : T)
    (heps : 0 ≤ eps)
    (hok : (impl.extract_params exp chi scale mean prec eps).ok = true) :
    (impl.extract_params exp chi scale mean prec eps).prec =
      ⟨-2 * chi 0, -2 * chi 1, -2 * chi 2⟩ ∧
    det (impl.extract_params exp chi scale mean prec eps).prec ≠ 0 ∧
    (impl.extract_params exp chi scale mean prec eps).prec.xx *
        (impl.extract_params exp chi scale mean prec eps).mean.x +
      (impl.extract_params exp chi scale mean prec eps).prec.xy *
        (impl.extract_params exp chi scale mean prec eps).mean.y = chi 3 ∧
    (impl.extract_params exp chi scale mean prec eps).prec.xy *
        (impl.extract_params exp chi scale mean prec eps).mean.x +
      (impl.extract_params exp chi scale mean prec eps).prec.yy *
        (impl.extract_params exp chi scale mean prec eps).mean.y = chi 4 ∧
    (impl.extract_params exp chi scale mean prec eps).scale =
      exp (chi 5 + (1 / 2) * xtmx (impl.extract_params exp chi scale mean prec eps).prec
        (impl.extract_params exp chi scale mean prec eps).mean) := by
  have hlt := (extract_params_ok exp chi scale mean prec eps).mp hok
  have hd : det (⟨-2 * chi 0, -2 * chi 1, -2 * chi 2⟩ : mat2s T) ≠ 0 := by
    intro h0
    rw [h0, abs_zero] at hlt
    exact absurd hlt (not_lt.mpr heps)
  have hnle : ¬ |det (⟨-2 * chi 0, -2 * chi 1, -2 * chi 2⟩ : mat2s T)| ≤ eps := not_le.mpr hlt
  unfold impl.extract_params
  simp only [if_neg hnle]
  have key1 : ∀ xx xy yy d3 d4 : T, xx * yy - xy * xy ≠ 0 →
      xx * ((yy * d3 - xy * d4) / (xx * yy - xy * xy)) +
        xy * ((xx * d4 - xy * d3) / (xx * yy - xy * xy)) = d3 := by
    intro xx xy yy d3 d4 h
    field_simp
    ring
  have key2 : ∀ xx xy yy d3 d4 : T, xx * yy - xy * xy ≠ 0 →
      xy * ((yy * d3 - xy * d4) / (xx * yy - xy * xy)) +
        yy * ((xx * d4 - xy * d3) / (xx * yy - xy * xy)) = d4 := by
    intro xx xy yy d3 d4 h
    field_simp
    ring
  refine ⟨trivial, hd, ?_, ?_, ?_⟩
  · exact key1 _ _ _ _ _ hd
  · exact key2 _ _ _ _ _ hd
  · congr 1
    ring

/-- Witness of `extract_params_outputs`: `chi = (-1, 0, -1, 2, 4, 0)`, the
coefficients of a Gaussian of precision `(2, 0, 2)` and mean `(1, 2)`. -/
theorem extract_params_outputs_witness :
    (impl.extract_params Real.exp ![-1, 0, -1, 2, 4, 0] 1 ⟨0, 0⟩ ⟨1, 0, 1⟩ (1 / 1000)).prec =
      ⟨-2 * (![-1, 0, -1, 2, 4, 0] : vec6_t ℝ) 0, -2 * (![-1, 0, -1, 2, 4, 0] : vec6_t ℝ) 1,
        -2 * (![-1, 0, -1, 2, 4, 0] : vec6_t ℝ) 2⟩ :=
  (extract_params_outputs Real.exp ![-1, 0, -1, 2, 4, 0] 1 ⟨0, 0⟩ ⟨1, 0, 1⟩ (1 / 1000)
    (by norm_num)
    ((extract_params_ok Real.exp ![-1, 0, -1, 2, 4, 0] 1 ⟨0, 0⟩ ⟨1, 0, 1⟩ (1 / 1000)).mpr
      (by simp [det]; norm_num))).1

/-- Claim C8: for every `chi` and every `eps`, `extract_params` returns false
if and only if `|det(prec)| <= eps` for `prec = (-2 chi[0], -2 chi[1], -2 chi[2])`
and `det(prec) = prec.xx * prec.yy - prec.xy^2`, that is if and only if
`|4 (chi[0] chi[2] - chi[1]^2)| <= eps`. -/
theorem extract_params_false_iff {T : Type} [LinearOrderedField T] (exp : T → T)
    (chi : vec6_t T) (scale : T) (mean : vec2 T) (prec : mat2s T) (eps : T) :
    ((impl.extract_params exp chi scale mean prec eps).ok = false ↔
      |det (⟨-2 * chi 0, -2 * chi 1, -2 * chi 2⟩ : mat2s T)| ≤ eps) ∧
    ((impl.extract_params exp chi scale mean prec eps).ok = false ↔
      |(-2 * chi 0) * (-2 * chi 2) - (-2 * chi 1) ^ 2| ≤ eps) ∧
    ((impl.extract_params exp chi scale mean prec eps).ok = false ↔
      |4 * (chi 0 * chi 2 - chi 1 ^ 2)| ≤ eps) := by
  have h := extract_params_ok exp chi scale mean prec eps
  have h1 : (impl.extract_params exp chi scale mean prec eps).ok = false ↔
      |det (⟨-2 * chi 0, -2 * chi 1, -2 * chi 2⟩ : mat2s T)| ≤ eps := by
    rw [← not_lt, ← h]
    simp
  have e1 : det (⟨-2 * chi 0, -2 * chi 1, -2 * chi 2⟩ : mat2s T) =
      (-2 * chi 0) * (-2 * chi 2) - (-2 * chi 1) ^ 2 := by
    unfold det; ring
  have e2 : (-2 * chi 0) * (-2 * chi 2) - (-2 * chi 1) ^ 2 =
      4 * (chi 0 * chi 2 - chi 1 ^ 2) := by ring
  refine ⟨h1, ?_, ?_⟩
  · rw [← e1]; exact h1
  · rw [← e2, ← e1]; exact h1

end gfit

end TouchDetection

namespace TouchDetection

namespace gfit

/-- The scaling factors `2 / w`, `2 / h` of `fit` do not vanish. -/
theorem fit_scale_ne_zero {T : Type} [LinearOrderedField T] (w : Int) (hw : 0 < w) :
    2 * (range : vec2 T).x / (w : T) ≠ 0 ∧ 2 * (range : vec2 T).y / (w : T) ≠ 0 := by
  have : (w : T) ≠ 0 := by
    have : w ≠ 0 := by omega
    exact_mod_cast this
  constructor <;> simp [range, this]

/-- Up-scaling undoes down-scaling, slot by slot. -/
theorem fit_up_down {T : Type} [Field T] (scale : vec2 T) (hx : scale.x ≠ 0)
    (hy : scale.y ≠ 0) (params : List (parameters T)) :
    fit_up scale (fit_down scale params) = params := by
  unfold fit_up fit_down
  rw [List.map_map]
  conv_rhs => rw [← List.map_id params]
  apply List.map_congr_left
  intro p _
  simp only [Function.comp, id]
  cases hv : p.valid with
  | false => simp [hv]
  | true =>
    simp only [hv, Bool.not_true, Bool.false_eq_true, if_false]
    obtain ⟨valid, scale', ⟨mx, my⟩, ⟨pxx, pxy, pyy⟩, bounds, weights⟩ := p
    simp only at hv
    subst hv
    simp only [range, parameters.mk.injEq, true_and, and_true, vec2.mk.injEq, mat2s.mk.injEq]
    refine ⟨⟨?_, ?_⟩, ?_, ?_, ?_⟩ <;> first | (field_simp; done) | (field_simp; ring)

/-- Claim C10: the coordinate scaling of `fit` is self-inverse.  For an
image shape with `w > 0` and `h > 0`, the down-scaling (with `sx = 2 / w`,
`sy = 2 / h`) followed by the up-scaling returns every slot unchanged, and
`fit` with `n_iter = 0` leaves the parameter vector (valid, scale, mean,
prec, bounds and weights of every slot) and the scratch image unchanged. -/
theorem fit_scaling_self_inverse {T : Type} [LinearOrderedField T]
    (ge_solve : mat6_t T → vec6_t T → T → Bool × vec6_t T) (exp log : T → T) (meps : T)
    (params : List (parameters T)) (data tmp : image T) (eps : T)
    (hw : 0 < data.shape.x) (hh : 0 < data.shape.y) :
    fit_up ⟨2 / (data.shape.x : T), 2 / (data.shape.y : T)⟩
      (fit_down ⟨2 / (data.shape.x : T), 2 / (data.shape.y : T)⟩ params) = params ∧
    fit ge_solve exp log meps params data tmp 0 eps = (params, tmp) := by
  have hx := (@fit_scale_ne_zero T _ data.shape.x hw).1
  have hy := (@fit_scale_ne_zero T _ data.shape.y hh).2
  have e : (⟨2 / (data.shape.x : T), 2 / (data.shape.y : T)⟩ : vec2 T) =
      ⟨2 * (range : vec2 T).x / (data.shape.x : T), 2 * (range : vec2 T).y / (data.shape.y : T)⟩ := by
    simp [range]
  constructor
  · rw [e]
    exact fit_up_down _ hx hy params
  · unfold fit
    simp only [List.range_zero, List.foldl_nil]
    rw [fit_up_down _ hx hy params]

/-- Witness of `fit_scaling_self_inverse`: one valid slot on a 72x48 image. -/
theorem fit_scaling_self_inverse_witness :
    fit (fun _ _ _ => (false, fun _ => 0)) Real.exp Real.log (2 ^ (-52 : Int))
      [{ valid := true, scale := 1, mean := ⟨30, 20⟩, prec := ⟨1, 0, 1⟩,
         bounds := ⟨25, 35, 15, 25⟩, weights := image.const ⟨11, 11⟩ 0 }]
      (image.const ⟨72, 48⟩ (1 : ℝ)) (image.const ⟨72, 48⟩ 0) 0 (1 / 1000) =
    ([{ valid := true, scale := 1, mean := ⟨30, 20⟩, prec := ⟨1, 0, 1⟩,
         bounds := ⟨25, 35, 15, 25⟩, weights := image.const ⟨11, 11⟩ 0 }],
      image.const ⟨72, 48⟩ 0) :=
  (fit_scaling_self_inverse (fun _ _ _ => (false, fun _ => 0)) Real.exp Real.log
    (2 ^ (-52 : Int)) _ (image.const ⟨72, 48⟩ (1 : ℝ)) (image.const ⟨72, 48⟩ 0) (1 / 1000)
    (by decide) (by decide)).2

end gfit

end TouchDetection

namespace TouchDetection

namespace gfit

/-- A slot that is valid after `fit_slot` went through `extract_params`: its
precision matrix, in scaled coordinates, has `|det| > eps`. -/
theorem fit_slot_valid_det {T : Type} [LinearOrderedField T]
    (ge_solve : mat6_t T → vec6_t T → T → Bool × vec6_t T) (exp log : T → T) (meps : T)
    (data : image T) (eps : T) (p : parameters T)
    (hv : (fit_slot ge_solve exp log meps data eps p).valid = true) :
    eps < |det (fit_slot ge_solve exp log meps data eps p).prec| := by
  unfold fit_slot at hv ⊢
  by_cases h1 : p.valid = true
  · simp only [h1, Bool.not_true, Bool.false_eq_true, if_false] at hv ⊢
    by_cases h2 : (ge_solve (impl.assemble_system log meps p.bounds data p.weights).1
        (impl.assemble_system log meps p.bounds data p.weights).2 eps).1 = true
    · simp only [h2, Bool.not_true, Bool.false_eq_true, if_false] at hv ⊢
      rw [extract_params_prec]
      exact (extract_params_ok _ _ _ _ _ _).mp hv
    · simp only [Bool.not_eq_true] at h2
      simp only [h2, Bool.not_false, if_true] at hv
      exact absurd hv (by simp)
  · simp only [Bool.not_eq_true] at h1
    simp only [h1, Bool.not_false, if_true] at hv
    exact absurd hv (by simp)

/-- The slots of `fit_up`: validity is kept, the precision matrix of a valid
slot is rescaled. -/
theorem fit_up_mem {T : Type} [Field T] (scale : vec2 T) (params : List (parameters T))
    (p : parameters T) (hp : p ∈ fit_up scale params) :
    ∃ q ∈ params, p.valid = q.valid ∧
      (q.valid = true → p.prec =
        ⟨q.prec.xx * scale.x * scale.x, q.prec.xy * scale.x * scale.y,
          q.prec.yy * scale.y * scale.y⟩) := by
  unfold fit_up at hp
  rw [List.mem_map] at hp
  obtain ⟨q, hq, rfl⟩ := hp
  refine ⟨q, hq, ?_, ?_⟩
  · by_cases h : q.valid = true
    · simp [h]
    · simp only [Bool.not_eq_true] at h
      simp [h]
  · intro h
    simp [h]

/-- The last round of the iterations of `fit`. -/
theorem fit_last_round {T : Type} [LinearOrderedField T]
    (ge_solve : mat6_t T → vec6_t T → T → Bool × vec6_t T) (exp log : T → T) (meps : T)
    (data : image T) (eps : T) (s0 : List (parameters T) × image T) (n : Nat) :
    ∃ ps : List (parameters T),
      ((List.range (n + 1)).foldl (fun s _ => fit_step ge_solve exp log meps data eps s) s0).1 =
        ps.map (fit_slot ge_solve exp log meps data eps) := by
  rw [List.range_succ, List.foldl_append]
  simp only [List.foldl_cons, List.foldl_nil]
  exact ⟨_, rfl⟩

/-- Claim C9, amended: for every call of `fit` with `n_iter >= 1` on an image
with `w > 0` and `h > 0`, every slot that is valid when `fit` returns has a
precision matrix with `|det(prec)| > eps * (sx * sy)^2`, `sx = 2 / w`,
`sy = 2 / h`: the determinant of the precision matrix in scaled coordinates
exceeds `eps` in absolute value.  (Neither the sign of `det(prec)` nor the
sign of `prec.xx` is checked.) -/
theorem fit_valid_abs_det {T : Type} [LinearOrderedField T]
    (ge_solve : mat6_t T → vec6_t T → T → Bool × vec6_t T) (exp log : T → T) (meps : T)
    (params : List (parameters T)) (data tmp : image T) (n_iter : Nat) (eps : T)
    (hn : 1 ≤ n_iter) (hw : 0 < data.shape.x) (hh : 0 < data.shape.y)
    (p : parameters T) (hp : p ∈ (fit ge_solve exp log meps params data tmp n_iter eps).1)
    (hv : p.valid = true) :
    eps * ((2 / (data.shape.x : T)) * (2 / (data.shape.y : T))) ^ 2 < |det p.prec| := by
  obtain ⟨n, rfl⟩ : ∃ n, n_iter = n + 1 := ⟨n_iter - 1, by omega⟩
  unfold fit at hp
  simp only at hp
  obtain ⟨ps, hps⟩ := fit_last_round ge_solve exp log meps data eps
    (fit_down ⟨2 * (range : vec2 T).x / (data.shape.x : T),
      2 * (range : vec2 T).y / (data.shape.y : T)⟩ params, tmp) n
  rw [hps] at hp
  obtain ⟨q, hq, hvq, hprec⟩ := fit_up_mem _ _ p hp
  rw [List.mem_map] at hq
  obtain ⟨q0, _, rfl⟩ := hq
  rw [hv] at hvq
  have hdet := fit_slot_valid_det ge_solve exp log meps data eps q0 hvq.symm
  rw [hprec hvq.symm]
  have hx := (@fit_scale_ne_zero T _ data.shape.x hw).1
  have hy := (@fit_scale_ne_zero T _ data.shape.y hh).2
  simp only [range, mul_one] at hx hy ⊢
  have e : det (⟨(fit_slot ge_solve exp log meps data eps q0).prec.xx * (2 / (data.shape.x : T)) *
        (2 / (data.shape.x : T)),
      (fit_slot ge_solve exp log meps data eps q0).prec.xy * (2 / (data.shape.x : T)) *
        (2 / (data.shape.y : T)),
      (fit_slot ge_solve exp log meps data eps q0).prec.yy * (2 / (data.shape.y : T)) *
        (2 / (data.shape.y : T))⟩ : mat2s T) =
      det (fit_slot ge_solve exp log meps data eps q0).prec *
        ((2 / (data.shape.x : T)) * (2 / (data.shape.y : T))) ^ 2 := by
    unfold det
    ring
  rw [e, abs_mul, abs_of_nonneg (sq_nonneg ((2 / (data.shape.x : T)) * (2 / (data.shape.y : T))))]
  have hpos : 0 < ((2 / (data.shape.x : T)) * (2 / (data.shape.y : T))) ^ 2 := by
    have : (2 / (data.shape.x : T)) * (2 / (data.shape.y : T)) ≠ 0 := mul_ne_zero hx hy
    positivity
  exact mul_lt_mul_of_pos_right hdet hpos

end gfit

end TouchDetection

namespace TouchDetection

namespace gfit

/-- The down-scaling of `fit` on the slot of the saddle test, written out. -/
theorem saddle_down :
    fit_down ⟨2 * (range : vec2 ℝ).x / ((3 : Int) : ℝ), 2 * (range : vec2 ℝ).y / ((3 : Int) : ℝ)⟩
      [(saddle_slot : parameters ℝ)] =
    [{ valid := true, scale := 1, mean := ⟨-1 / 3, -1 / 3⟩, prec := ⟨9 / 4, 0, 9 / 4⟩,
       bounds := ⟨0, 2, 0, 2⟩, weights := image.const ⟨11, 11⟩ 0 }] := by
  simp only [fit_down, saddle_slot, range, List.map_cons, List.map_nil, Bool.not_true,
    Bool.false_eq_true, if_false]
  norm_num

/-- The E-step of the saddle test: the slot keeps its parameters and all
its weights become 1. -/
theorem saddle_weights :
    ∃ (W tot : image ℝ),
      (∀ x y : Int, 0 ≤ x → x ≤ 2 → 0 ≤ y → y ≤ 2 → W.get2 ⟨x, y⟩ = 1) ∧
      impl.update_weight_maps Real.exp
        (fit_down ⟨2 * (range : vec2 ℝ).x / ((3 : Int) : ℝ),
          2 * (range : vec2 ℝ).y / ((3 : Int) : ℝ)⟩ [(saddle_slot : parameters ℝ)])
        (image.const ⟨3, 3⟩ 0) =
        ([{ valid := true, scale := 1, mean := ⟨-1 / 3, -1 / 3⟩, prec := ⟨9 / 4, 0, 9 / 4⟩,
            bounds := ⟨0, 2, 0, 2⟩, weights := W }], tot) := by
  obtain ⟨W, tot, hW, hone⟩ := update_weight_maps_single Real.exp Real.exp_pos
    ({ valid := true, scale := 1, mean := ⟨-1 / 3, -1 / 3⟩, prec := ⟨9 / 4, 0, 9 / 4⟩,
       bounds := ⟨0, 2, 0, 2⟩, weights := image.const ⟨11, 11⟩ 0 } : parameters ℝ)
    (image.const ⟨3, 3⟩ 0) rfl (by norm_num)
    (image.allocated_const _ _ (by decide) (by decide))
    (image.allocated_const _ _ (by decide) (by decide))
    (by decide) (by decide) (by decide) (by decide) (by decide) (by decide)
  refine ⟨W, tot, ?_, ?_⟩
  · intro x y hx0 hx1 hy0 hy1
    have := hone x y hx0 hx1 hy0 hy1
    simp only [sub_zero] at this
    exact this
  · rw [saddle_down]
    exact hW

end gfit

end TouchDetection

namespace TouchDetection

namespace gfit

/-- The slots of `fit_up`, without their weight images. -/
theorem fit_up_core {T : Type} [Field T] (scale : vec2 T) (p : parameters T) :
    (fit_up scale [p]).map parameters.core =
      [if p.valid = true then
        (true, p.scale, ⟨(p.mean.x + 1) / scale.x, (p.mean.y + 1) / scale.y⟩,
          ⟨p.prec.xx * scale.x * scale.x, p.prec.xy * scale.x * scale.y,
            p.prec.yy * scale.y * scale.y⟩, p.bounds)
       else p.core] := by
  unfold fit_up parameters.core
  by_cases h : p.valid = true
  · simp [h, range]
  · simp only [Bool.not_eq_true] at h
    simp [h]

theorem saddle_chi_apply {T : Type} [Field T] :
    (saddle_chi : vec6_t T) 0 = 1 ∧ (saddle_chi : vec6_t T) 1 = 0 ∧
    (saddle_chi : vec6_t T) 2 = -1 ∧ (saddle_chi : vec6_t T) 3 = 0 ∧
    (saddle_chi : vec6_t T) 4 = 0 ∧ (saddle_chi : vec6_t T) 5 = 0 :=
  ⟨rfl, rfl, rfl, rfl, rfl, rfl⟩

/-- The run of `fit` on the saddle test image: one round, one slot, the
solver returning `saddle_chi`. -/
theorem saddle_fit (eps : ℝ) (heps : eps < 4) :
    (fit (ge_solve_const saddle_chi) Real.exp Real.log (2 ^ (-52 : Int)) [saddle_slot]
      (saddle_data Real.exp (2 ^ (-52 : Int))) (image.const ⟨3, 3⟩ 0) 1 eps).1.map
        parameters.core =
      [(true, 1, ⟨3 / 2, 3 / 2⟩, ⟨-8 / 9, 0, 8 / 9⟩, ⟨0, 2, 0, 2⟩)] := by
  obtain ⟨W, tot, _, hW⟩ := saddle_weights
  have hshape : (saddle_data Real.exp (2 ^ (-52 : Int))).shape = ⟨3, 3⟩ := rfl
  obtain ⟨s0, s1, s2, s3, s4, s5⟩ := @saddle_chi_apply ℝ _
  have hdet : det (⟨-2 * (saddle_chi : vec6_t ℝ) 0, -2 * (saddle_chi : vec6_t ℝ) 1,
      -2 * (saddle_chi : vec6_t ℝ) 2⟩ : mat2s ℝ) = -4 := by
    rw [s0, s1, s2]
    unfold det
    norm_num
  have hcore := fit_slot_const saddle_chi Real.exp Real.log (2 ^ (-52 : Int))
    (saddle_data Real.exp (2 ^ (-52 : Int))) eps
    ({ valid := true, scale := 1, mean := ⟨-1 / 3, -1 / 3⟩, prec := ⟨9 / 4, 0, 9 / 4⟩,
       bounds := ⟨0, 2, 0, 2⟩, weights := W } : parameters ℝ) rfl
  have hok := (extract_params_ok Real.exp (saddle_chi : vec6_t ℝ) 1 ⟨-1 / 3, -1 / 3⟩
    ⟨9 / 4, 0, 9 / 4⟩ eps).mpr (by rw [hdet]; norm_num; exact heps)
  have hnle : ¬ |det (⟨-2 * (saddle_chi : vec6_t ℝ) 0, -2 * (saddle_chi : vec6_t ℝ) 1,
      -2 * (saddle_chi : vec6_t ℝ) 2⟩ : mat2s ℝ)| ≤ eps := by
    rw [hdet]; norm_num; exact heps
  have hex : impl.extract_params Real.exp (saddle_chi : vec6_t ℝ) 1 ⟨-1 / 3, -1 / 3⟩
      ⟨9 / 4, 0, 9 / 4⟩ eps = ⟨true, 1, ⟨0, 0⟩, ⟨-2, 0, 2⟩⟩ := by
    unfold impl.extract_params
    simp only [if_neg hnle]
    simp only [s0, s1, s2, s3, s4, s5, xtmx, det]
    norm_num
  simp only at hcore
  rw [hex] at hcore
  simp only [parameters.core, Prod.mk.injEq] at hcore
  obtain ⟨c1, c2, c3, c4, c5⟩ := hcore
  unfold fit
  simp only [hshape, List.range_succ, List.range_zero, List.nil_append, List.foldl_cons,
    List.foldl_nil, fit_step]
  rw [hW]
  simp only [List.map_cons, List.map_nil]
  rw [fit_up_core, if_pos c1, c2, c3, c4, c5]
  simp only [range, List.cons.injEq, Prod.mk.injEq, vec2.mk.injEq, mat2s.mk.injEq, and_true,
    true_and]
  norm_num

end gfit

end TouchDetection

namespace TouchDetection

namespace gfit

/-- On the saddle test the solver's answer `saddle_chi` is an exact
solution of the normal equations assembled in the M-step. -/
theorem saddle_solution :
    ∀ q ∈ (impl.update_weight_maps Real.exp
        (fit_down ⟨2 * (range : vec2 ℝ).x / ((3 : Int) : ℝ),
          2 * (range : vec2 ℝ).y / ((3 : Int) : ℝ)⟩ [(saddle_slot : parameters ℝ)])
        (image.const ⟨3, 3⟩ 0)).1,
      ∀ i, ∑ j, (impl.assemble_system Real.log (2 ^ (-52 : Int)) q.bounds
          (saddle_data Real.exp (2 ^ (-52 : Int))) q.weights).1 i j * (saddle_chi : vec6_t ℝ) j =
        (impl.assemble_system Real.log (2 ^ (-52 : Int)) q.bounds
          (saddle_data Real.exp (2 ^ (-52 : Int))) q.weights).2 i := by
  obtain ⟨W, tot, hone, hW⟩ := saddle_weights
  rw [hW]
  intro q hq
  simp only [List.mem_singleton] at hq
  subst hq
  apply assemble_system_exact
  intro ix iy hx0 hx1 hy0 hy1
  simp only at hx0 hx1 hy0 hy1
  simp only [sub_zero]
  rw [hone ix iy hx0 hx1 hy0 hy1, one_mul]
  have hin : image.inside ⟨3, 3⟩ ⟨ix, iy⟩ := by
    refine ⟨?_, ?_, ?_, ?_⟩ <;> simp only <;> omega
  unfold saddle_data
  rw [image.get2_ofFn _ _ _ hin]
  simp only [sub_add_cancel, Real.log_exp]
  rfl

end gfit

end TouchDetection

namespace TouchDetection

namespace gfit

/-- On the saddle test the normal equations assembled in the M-step have no
other solution than `saddle_chi`. -/
theorem saddle_solution_unique :
    ∀ q ∈ (impl.update_weight_maps Real.exp
        (fit_down ⟨2 * (range : vec2 ℝ).x / ((3 : Int) : ℝ),
          2 * (range : vec2 ℝ).y / ((3 : Int) : ℝ)⟩ [(saddle_slot : parameters ℝ)])
        (image.const ⟨3, 3⟩ 0)).1,
      ∀ chi : vec6_t ℝ,
        (∀ i, ∑ j, (impl.assemble_system Real.log (2 ^ (-52 : Int)) q.bounds
            (saddle_data Real.exp (2 ^ (-52 : Int))) q.weights).1 i j * chi j =
          (impl.assemble_system Real.log (2 ^ (-52 : Int)) q.bounds
            (saddle_data Real.exp (2 ^ (-52 : Int))) q.weights).2 i) →
        chi = saddle_chi := by
  intro q hq chi hchi
  have hsol := saddle_solution q hq
  obtain ⟨W, tot, hone, hW⟩ := saddle_weights
  rw [hW] at hq
  simp only [List.mem_singleton] at hq
  subst hq
  simp only at hchi hsol
  obtain ⟨s, hs, hm, _⟩ := assemble_system_eq Real.log (2 ^ (-52 : Int)) ⟨0, 2, 0, 2⟩
    (saddle_data Real.exp (2 ^ (-52 : Int))) W
  -- the difference of the two solutions is in the kernel of the matrix
  have hker : ∀ i, ∑ j, s.1 i j * ((if j = 1 then 2 else 1) * (chi j - saddle_chi j)) = 0 := by
    intro i
    have h1 := hchi i
    have h2 := hsol i
    rw [← h2] at h1
    simp only [hm] at h1
    have : ∑ j, s.1 i j * ((if j = 1 then 2 else 1) * (chi j - saddle_chi j)) =
        ∑ j, s.1 i j * (if j = 1 then 2 else 1) * chi j -
          ∑ j, s.1 i j * (if j = 1 then 2 else 1) * saddle_chi j := by
      rw [← Finset.sum_sub_distrib]
      apply Finset.sum_congr rfl
      intro j _
      ring
    rw [this, h1, sub_self]
  have hQ : ∑ i, ∑ j, ((if i = 1 then 2 else 1) * (chi i - saddle_chi i)) * s.1 i j *
      ((if j = 1 then 2 else 1) * (chi j - saddle_chi j)) = 0 := by
    apply Finset.sum_eq_zero
    intro i _
    have : ∑ j, ((if i = 1 then 2 else 1) * (chi i - saddle_chi i)) * s.1 i j *
        ((if j = 1 then 2 else 1) * (chi j - saddle_chi j)) =
        ((if i = 1 then 2 else 1) * (chi i - saddle_chi i)) *
          ∑ j, s.1 i j * ((if j = 1 then 2 else 1) * (chi j - saddle_chi j)) := by
      rw [Finset.mul_sum]
      apply Finset.sum_congr rfl
      intro j _
      ring
    rw [this, hker i, mul_zero]
  have hform := assemble_system_form Real.log (2 ^ (-52 : Int)) ⟨0, 2, 0, 2⟩
    (saddle_data Real.exp (2 ^ (-52 : Int))) W (fun j => chi j - saddle_chi j) s hs
  -- the model of the difference vanishes at the nine pixels
  have hpix : ∀ ix iy : Int, 0 ≤ ix → ix ≤ 2 → 0 ≤ iy → iy ≤ 2 →
      log_model (fun j => chi j - saddle_chi j) ((ix : ℝ) * (2 / 3) - 1)
        ((iy : ℝ) * (2 / 3) - 1) = 0 := by
    intro ix iy hx0 hx1 hy0 hy1
    have h := hform ix iy hx0 hx1 hy0 hy1
    rw [hQ] at h
    have h0 := pow_eq_zero_iff (two_ne_zero) |>.mp (le_antisymm h (sq_nonneg _))
    have hin : image.inside ⟨3, 3⟩ ⟨ix, iy⟩ := by
      refine ⟨?_, ?_, ?_, ?_⟩ <;> simp only <;> omega
    have hd : W.get2 ⟨ix - 0, iy - 0⟩ * (saddle_data Real.exp (2 ^ (-52 : Int))).get2 ⟨ix, iy⟩ ≠ 0 := by
      simp only [sub_zero]
      rw [hone ix iy hx0 hx1 hy0 hy1, one_mul]
      unfold saddle_data
      rw [image.get2_ofFn _ _ _ hin]
      have hsmall : (2 : ℝ) ^ (-52 : Int) < 1 / 9 := by
        rw [zpow_neg]
        have : (9 : ℝ) < 2 ^ (52 : Int) := by norm_num
        rw [inv_eq_one_div]
        exact one_div_lt_one_div_of_lt (by norm_num) this
      have hge : ∀ t : ℝ, -8 / 9 ≤ t → 1 / 9 ≤ Real.exp t := by
        intro t ht
        have := Real.add_one_le_exp t
        linarith
      have hq : -8 / 9 ≤ log_model (saddle_chi : vec6_t ℝ) ((ix : ℝ) * (2 / ((3 : Int) : ℝ)) - 1)
          ((iy : ℝ) * (2 / ((3 : Int) : ℝ)) - 1) := by
        obtain ⟨s0, s1, s2, s3, s4, s5⟩ := @saddle_chi_apply ℝ _
        simp only [log_model, s0, s1, s2, s3, s4, s5]
        have hx : ix = 0 ∨ ix = 1 ∨ ix = 2 := by omega
        have hy : iy = 0 ∨ iy = 1 ∨ iy = 2 := by omega
        rcases hx with rfl | rfl | rfl <;> rcases hy with rfl | rfl | rfl <;> norm_num
      have := hge _ hq
      linarith
    have hshape : (((saddle_data Real.exp (2 ^ (-52 : Int))).shape.x : Int) : ℝ) = 3 := by
      simp [saddle_data, image.ofFn]
    have hshape' : (((saddle_data Real.exp (2 ^ (-52 : Int))).shape.y : Int) : ℝ) = 3 := by
      simp [saddle_data, image.ofFn]
    simp only [bbox.xmin, bbox.ymin] at h0 hd
    rcases mul_eq_zero.mp h0 with h0 | h0
    · exact absurd h0 hd
    · rw [hshape, hshape'] at h0
      exact h0
  -- nine linear equations in the six coefficients
  have e00 := hpix 0 0 le_rfl (by norm_num) le_rfl (by norm_num)
  have e10 := hpix 1 0 (by norm_num) (by norm_num) le_rfl (by norm_num)
  have e20 := hpix 2 0 (by norm_num) le_rfl le_rfl (by norm_num)
  have e01 := hpix 0 1 le_rfl (by norm_num) (by norm_num) (by norm_num)
  have e11 := hpix 1 1 (by norm_num) (by norm_num) (by norm_num) (by norm_num)
  have e21 := hpix 2 1 (by norm_num) le_rfl (by norm_num) (by norm_num)
  have e02 := hpix 0 2 le_rfl (by norm_num) (by norm_num) le_rfl
  have e12 := hpix 1 2 (by norm_num) (by norm_num) (by norm_num) le_rfl
  have e22 := hpix 2 2 (by norm_num) le_rfl (by norm_num) le_rfl
  simp only [log_model] at e00 e10 e20 e01 e11 e21 e02 e12 e22
  norm_num at e00 e10 e20 e01 e11 e21 e02 e12 e22
  obtain ⟨s0, s1, s2, s3, s4, s5⟩ := @saddle_chi_apply ℝ _
  rw [s0, s1, s2, s3, s4, s5] at e00 e10 e20 e01 e11 e21 e02 e12 e22
  have d0 : chi 0 = 1 := by linarith only [e00, e10, e20, e01, e11, e21, e02, e12, e22]
  have d1 : chi 1 = 0 := by linarith only [e00, e10, e20, e01, e11, e21, e02, e12, e22]
  have d2 : chi 2 = -1 := by linarith only [e00, e10, e20, e01, e11, e21, e02, e12, e22]
  have d3 : chi 3 = 0 := by linarith only [e00, e10, e20, e01, e11, e21, e02, e12, e22]
  have d4 : chi 4 = 0 := by linarith only [e00, e10, e20, e01, e11, e21, e02, e12, e22]
  have d5 : chi 5 = 0 := by linarith only [e00, e10, e20, e01, e11, e21, e02, e12, e22]
  funext j
  fin_cases j
  · exact d0.trans s0.symm
  · exact d1.trans s1.symm
  · exact d2.trans s2.symm
  · exact d3.trans s3.symm
  · exact d4.trans s4.symm
  · exact d5.trans s5.symm

end gfit

end TouchDetection

namespace TouchDetection

namespace gfit

theorem machine_eps_lt_four : (2 : ℝ) ^ (-52 : Int) < 4 := by
  have : (2 : ℝ) ^ (-52 : Int) < 1 := by
    rw [zpow_neg]
    exact inv_lt_one_of_one_lt₀ (one_lt_zpow₀ (by norm_num) (by norm_num))
  linarith

/-- Claim C9, refuted as stated: `fit` run for one round (`n_iter = 1`,
`eps = 2^-52`) on a 3x3 image whose logarithm is the saddle `x^2 - y^2`, with
a slot initialised the way the pipeline does and a solver that returns
`chi = (1, 0, -1, 0, 0, 0)`, returns the slot valid with the precision matrix
`(-8/9, 0, 8/9)`, of determinant `-64/81 < 0` and with `prec.xx < 0`; and
this `chi` is the exact and only solution of the normal equations that the
M-step assembles on this input. -/
theorem fit_valid_saddle_precision :
    (fit (ge_solve_const saddle_chi) Real.exp Real.log (2 ^ (-52 : Int)) [saddle_slot]
      (saddle_data Real.exp (2 ^ (-52 : Int))) (image.const ⟨3, 3⟩ 0) 1 (2 ^ (-52 : Int))).1.map
        parameters.core =
      [(true, 1, ⟨3 / 2, 3 / 2⟩, ⟨-8 / 9, 0, 8 / 9⟩, ⟨0, 2, 0, 2⟩)] ∧
    ¬ (det (⟨-8 / 9, 0, 8 / 9⟩ : mat2s ℝ) > 2 ^ (-52 : Int) ∧ (-8 / 9 : ℝ) > 0) ∧
    det (⟨-8 / 9, 0, 8 / 9⟩ : mat2s ℝ) < 0 ∧
    (∀ q ∈ (impl.update_weight_maps Real.exp
        (fit_down ⟨2 * (range : vec2 ℝ).x / ((3 : Int) : ℝ),
          2 * (range : vec2 ℝ).y / ((3 : Int) : ℝ)⟩ [(saddle_slot : parameters ℝ)])
        (image.const ⟨3, 3⟩ 0)).1,
      ∀ i, ∑ j, (impl.assemble_system Real.log (2 ^ (-52 : Int)) q.bounds
          (saddle_data Real.exp (2 ^ (-52 : Int))) q.weights).1 i j * (saddle_chi : vec6_t ℝ) j =
        (impl.assemble_system Real.log (2 ^ (-52 : Int)) q.bounds
          (saddle_data Real.exp (2 ^ (-52 : Int))) q.weights).2 i) ∧
    (∀ q ∈ (impl.update_weight_maps Real.exp
        (fit_down ⟨2 * (range : vec2 ℝ).x / ((3 : Int) : ℝ),
          2 * (range : vec2 ℝ).y / ((3 : Int) : ℝ)⟩ [(saddle_slot : parameters ℝ)])
        (image.const ⟨3, 3⟩ 0)).1,
      ∀ chi : vec6_t ℝ,
        (∀ i, ∑ j, (impl.assemble_system Real.log (2 ^ (-52 : Int)) q.bounds
            (saddle_data Real.exp (2 ^ (-52 : Int))) q.weights).1 i j * chi j =
          (impl.assemble_system Real.log (2 ^ (-52 : Int)) q.bounds
            (saddle_data Real.exp (2 ^ (-52 : Int))) q.weights).2 i) →
        chi = saddle_chi) := by
  refine ⟨saddle_fit _ machine_eps_lt_four, ?_, ?_, saddle_solution, saddle_solution_unique⟩
  · rintro ⟨_, h⟩
    norm_num at h
  · unfold det
    norm_num

/-- Witness of `fit_valid_abs_det`: the slot returned by the run of `fit` on
the saddle test. -/
theorem fit_valid_abs_det_witness :
    ∃ p ∈ (fit (ge_solve_const saddle_chi) Real.exp Real.log (2 ^ (-52 : Int)) [saddle_slot]
      (saddle_data Real.exp (2 ^ (-52 : Int))) (image.const ⟨3, 3⟩ 0) 1 (2 ^ (-52 : Int))).1,
      p.valid = true ∧
      (2 ^ (-52 : Int) : ℝ) * ((2 / ((saddle_data Real.exp (2 ^ (-52 : Int))).shape.x : ℝ)) *
        (2 / ((saddle_data Real.exp (2 ^ (-52 : Int))).shape.y : ℝ))) ^ 2 < |det p.prec| := by
  have h := saddle_fit _ machine_eps_lt_four
  obtain ⟨p, hp⟩ : ∃ p, (fit (ge_solve_const saddle_chi) Real.exp Real.log (2 ^ (-52 : Int))
      [saddle_slot] (saddle_data Real.exp (2 ^ (-52 : Int))) (image.const ⟨3, 3⟩ 0) 1
      (2 ^ (-52 : Int))).1 = [p] := by
    have hlen := congrArg List.length h
    simp only [List.length_map, List.length_singleton] at hlen
    exact List.length_eq_one.mp hlen
  have hmem : p ∈ (fit (ge_solve_const saddle_chi) Real.exp Real.log (2 ^ (-52 : Int))
      [saddle_slot] (saddle_data Real.exp (2 ^ (-52 : Int))) (image.const ⟨3, 3⟩ 0) 1
      (2 ^ (-52 : Int))).1 := by rw [hp]; exact List.mem_singleton.mpr rfl
  have hv : p.valid = true := by
    rw [hp] at h
    simp only [List.map_cons, List.map_nil, List.cons.injEq, and_true, parameters.core,
      Prod.mk.injEq] at h
    exact h.1
  exact ⟨p, hmem, hv,
    fit_valid_abs_det (ge_solve_const saddle_chi) Real.exp Real.log (2 ^ (-52 : Int))
      [saddle_slot] (saddle_data Real.exp (2 ^ (-52 : Int))) (image.const ⟨3, 3⟩ 0) 1
      (2 ^ (-52 : Int)) le_rfl (by decide) (by decide) p hmem hv⟩

end gfit

end TouchDetection

namespace TouchDetection

namespace gfit

/-- The down-scaling of `fit` on one valid slot, written out. -/
theorem fit_down_valid {T : Type} [Field T] (scale : vec2 T) (p : parameters T)
    (hv : p.valid = true) :
    fit_down scale [p] =
      [{ p with
          mean := ⟨p.mean.x * scale.x - 1, p.mean.y * scale.y - 1⟩
          prec := ⟨p.prec.xx / (scale.x * scale.x), p.prec.xy / (scale.x * scale.y),
            p.prec.yy / (scale.y * scale.y)⟩ }] := by
  simp [fit_down, hv, range]

/-- Claim C11: the down-scaling of mean and precision in `fit` is consistent
with the pixel-coordinate mapping of the E- and M-steps.  For an image shape
with `w, h > 0`, a pixel index `(ix, iy)`, a mean `mu` and a precision `P`,
with `x' = (ix * sx - 1, iy * sy - 1)`, `mu' = (mu.x * sx - 1, mu.y * sy - 1)`
and `P' = (P.xx / sx^2, P.xy / (sx * sy), P.yy / sy^2)`, the quadratic forms
`(x' - mu')^T P' (x' - mu')` and `((ix, iy) - mu)^T P ((ix, iy) - mu)` agree,
so `gaussian_like` takes the same value in scaled and unscaled coordinates;
`(mu', P')` is what the down-scaling loop of `fit` leaves in a valid slot. -/
theorem fit_down_consistent {T : Type} [LinearOrderedField T] (exp : T → T) (w h : Int)
    (hw : 0 < w) (hh : 0 < h) (ix iy : Int) (p : parameters T) (hv : p.valid = true) :
    xtmx (⟨p.prec.xx / ((2 / (w : T)) * (2 / (w : T))), p.prec.xy / ((2 / (w : T)) * (2 / (h : T))),
        p.prec.yy / ((2 / (h : T)) * (2 / (h : T)))⟩ : mat2s T)
      ((⟨(ix : T) * (2 / (w : T)) - 1, (iy : T) * (2 / (h : T)) - 1⟩ : vec2 T) -
        ⟨p.mean.x * (2 / (w : T)) - 1, p.mean.y * (2 / (h : T)) - 1⟩) =
      xtmx p.prec ((⟨(ix : T), (iy : T)⟩ : vec2 T) - p.mean) ∧
    (∀ q ∈ fit_down ⟨2 * (range : vec2 T).x / (w : T), 2 * (range : vec2 T).y / (h : T)⟩ [p],
      impl.gaussian_like exp
        ⟨(ix : T) * (2 * (range : vec2 T).x / (w : T)) - (range : vec2 T).x,
         (iy : T) * (2 * (range : vec2 T).y / (h : T)) - (range : vec2 T).y⟩ q.mean q.prec =
      impl.gaussian_like exp ⟨(ix : T), (iy : T)⟩ p.mean p.prec) := by
  have hw' : (w : T) ≠ 0 := by
    have : w ≠ 0 := by omega
    exact_mod_cast this
  have hh' : (h : T) ≠ 0 := by
    have : h ≠ 0 := by omega
    exact_mod_cast this
  have key : xtmx (⟨p.prec.xx / ((2 / (w : T)) * (2 / (w : T))),
        p.prec.xy / ((2 / (w : T)) * (2 / (h : T))),
        p.prec.yy / ((2 / (h : T)) * (2 / (h : T)))⟩ : mat2s T)
      ((⟨(ix : T) * (2 / (w : T)) - 1, (iy : T) * (2 / (h : T)) - 1⟩ : vec2 T) -
        ⟨p.mean.x * (2 / (w : T)) - 1, p.mean.y * (2 / (h : T)) - 1⟩) =
      xtmx p.prec ((⟨(ix : T), (iy : T)⟩ : vec2 T) - p.mean) := by
    show xtmx _ (⟨_, _⟩ : vec2 T) = xtmx _ (⟨_, _⟩ : vec2 T)
    unfold xtmx
    simp only
    field_simp
    ring
  refine ⟨key, ?_⟩
  intro q hq
  rw [fit_down_valid _ p hv] at hq
  simp only [List.mem_singleton] at hq
  subst hq
  unfold impl.gaussian_like
  simp only [range, mul_one]
  rw [key]

/-- Witness of `fit_down_consistent`: the pixel `(3, 4)` of a 72x48 image
and the slot of a candidate at `(30, 20)`. -/
theorem fit_down_consistent_witness :
    xtmx (⟨(1 : ℝ) / ((2 / ((72 : Int) : ℝ)) * (2 / ((72 : Int) : ℝ))),
        0 / ((2 / ((72 : Int) : ℝ)) * (2 / ((48 : Int) : ℝ))),
        1 / ((2 / ((48 : Int) : ℝ)) * (2 / ((48 : Int) : ℝ)))⟩ : mat2s ℝ)
      ((⟨((3 : Int) : ℝ) * (2 / ((72 : Int) : ℝ)) - 1, ((4 : Int) : ℝ) * (2 / ((48 : Int) : ℝ)) - 1⟩ :
          vec2 ℝ) -
        ⟨30 * (2 / ((72 : Int) : ℝ)) - 1, 20 * (2 / ((48 : Int) : ℝ)) - 1⟩) =
      xtmx (⟨1, 0, 1⟩ : mat2s ℝ) ((⟨((3 : Int) : ℝ), ((4 : Int) : ℝ)⟩ : vec2 ℝ) - ⟨30, 20⟩) :=
  (fit_down_consistent Real.exp 72 48 (by decide) (by decide) 3 4
    { valid := true, scale := 1, mean := ⟨30, 20⟩, prec := ⟨1, 0, 1⟩,
      bounds := ⟨25, 35, 15, 25⟩, weights := image.const ⟨11, 11⟩ 0 } rfl).1

end gfit

end TouchDetection

namespace TouchDetection

namespace gfit

/-- The E-step skips an invalid slot. -/
theorem update_weight_maps_invalid {T : Type} [LinearOrderedField T] (exp : T → T)
    (params : List (parameters T)) (total : image T) (i : Nat) (q : parameters T)
    (hq : params[i]? = some q) (hv : q.valid = false) :
    (impl.update_weight_maps exp params total).1[i]? = some q := by
  unfold impl.update_weight_maps
  simp only [List.getElem?_map, hq, Option.map_some', hv, Bool.not_false, if_true]

/-- The M-step skips an invalid slot. -/
theorem fit_slot_invalid {T : Type} [LinearOrderedField T]
    (ge_solve : mat6_t T → vec6_t T → T → Bool × vec6_t T) (exp log : T → T) (meps : T)
    (data : image T) (eps : T) (q : parameters T) (hv : q.valid = false) :
    fit_slot ge_solve exp log meps data eps q = q := by
  unfold fit_slot
  simp [hv]

/-- One round of `fit` leaves an invalid slot as it is. -/
theorem fit_step_invalid {T : Type} [LinearOrderedField T]
    (ge_solve : mat6_t T → vec6_t T → T → Bool × vec6_t T) (exp log : T → T) (meps : T)
    (data : image T) (eps : T) (s : List (parameters T) × image T) (i : Nat)
    (q : parameters T) (hq : s.1[i]? = some q) (hv : q.valid = false) :
    (fit_step ge_solve exp log meps data eps s).1[i]? = some q := by
  unfold fit_step
  simp only [List.getElem?_map, update_weight_maps_invalid exp s.1 s.2 i q hq hv,
    Option.map_some', fit_slot_invalid ge_solve exp log meps data eps q hv]

/-- Later rounds of `fit` leave an invalid slot as it is. -/
theorem fit_rounds_invalid {T : Type} [LinearOrderedField T]
    (ge_solve : mat6_t T → vec6_t T → T → Bool × vec6_t T) (exp log : T → T) (meps : T)
    (data : image T) (eps : T) (s0 : List (parameters T) × image T) (k m : Nat) (i : Nat)
    (q : parameters T)
    (hq : ((List.range k).foldl (fun s _ => fit_step ge_solve exp log meps data eps s) s0).1[i]?
      = some q) (hv : q.valid = false) :
    ((List.range (k + m)).foldl (fun s _ => fit_step ge_solve exp log meps data eps s) s0).1[i]?
      = some q := by
  induction m with
  | zero => exact hq
  | succ m ih =>
    rw [← Nat.add_assoc, List.range_succ, List.foldl_append]
    simp only [List.foldl_cons, List.foldl_nil]
    exact fit_step_invalid ge_solve exp log meps data eps _ i q ih hv

theorem fit_down_invalid {T : Type} [Field T] (scale : vec2 T) (params : List (parameters T))
    (i : Nat) (q : parameters T) (hq : params[i]? = some q) (hv : q.valid = false) :
    (fit_down scale params)[i]? = some q := by
  unfold fit_down
  simp only [List.getElem?_map, hq, Option.map_some', hv, Bool.not_false, if_true]

theorem fit_up_invalid {T : Type} [Field T] (scale : vec2 T) (params : List (parameters T))
    (i : Nat) (q : parameters T) (hq : params[i]? = some q) (hv : q.valid = false) :
    (fit_up scale params)[i]? = some q := by
  unfold fit_up
  simp only [List.getElem?_map, hq, Option.map_some', hv, Bool.not_false, if_true]

/-- A slot that `fit_up` leaves invalid was invalid, and is unchanged. -/
theorem fit_up_invalid_inv {T : Type} [Field T] (scale : vec2 T) (params : List (parameters T))
    (i : Nat) (q : parameters T) (hq : (fit_up scale params)[i]? = some q)
    (hv : q.valid = false) : params[i]? = some q := by
  unfold fit_up at hq
  rw [List.getElem?_map] at hq
  cases hp : params[i]? with
  | none => rw [hp] at hq; simp at hq
  | some p =>
    rw [hp] at hq
    simp only [Option.map_some', Option.some.injEq] at hq
    by_cases hpv : p.valid = true
    · simp only [hpv, Bool.not_true, Bool.false_eq_true, if_false] at hq
      rw [← hq] at hv
      simp only at hv
      exact absurd hv (by simp)
    · simp only [Bool.not_eq_true] at hpv
      simp only [hpv, Bool.not_false, if_true] at hq
      rw [hq]

theorem fit_step_length {T : Type} [LinearOrderedField T]
    (ge_solve : mat6_t T → vec6_t T → T → Bool × vec6_t T) (exp log : T → T) (meps : T)
    (data : image T) (eps : T) (s : List (parameters T) × image T) :
    (fit_step ge_solve exp log meps data eps s).1.length = s.1.length := by
  unfold fit_step impl.update_weight_maps
  simp

theorem fit_rounds_length {T : Type} [LinearOrderedField T]
    (ge_solve : mat6_t T → vec6_t T → T → Bool × vec6_t T) (exp log : T → T) (meps : T)
    (data : image T) (eps : T) (s0 : List (parameters T) × image T) (n : Nat) :
    ((List.range n).foldl (fun s _ => fit_step ge_solve exp log meps data eps s) s0).1.length
      = s0.1.length := by
  induction n with
  | zero => rfl
  | succ n ih =>
    rw [List.range_succ, List.foldl_append]
    simp only [List.foldl_cons, List.foldl_nil]
    rw [fit_step_length, ih]

/-- Claim C12: within one call of `fit` the valid flag never goes from false
to true, whatever `ge_solve` does.  The parameter vector keeps its length; a
slot that is invalid on entry is returned unchanged (valid, scale, mean,
prec, bounds and weights); and a slot that is invalid after `k` rounds (on
entry, or because `ge_solve` or `extract_params` failed in a round) is
skipped by all later rounds and by the de-scaling: after `n >= k` rounds it
is returned as it was, with `valid = false`. -/
theorem fit_invalid_stays_invalid {T : Type} [LinearOrderedField T]
    (ge_solve : mat6_t T → vec6_t T → T → Bool × vec6_t T) (exp log : T → T) (meps : T)
    (params : List (parameters T)) (data tmp : image T) (n : Nat) (eps : T) :
    (fit ge_solve exp log meps params data tmp n eps).1.length = params.length ∧
    (∀ (i : Nat) (p : parameters T), params[i]? = some p → p.valid = false →
      (fit ge_solve exp log meps params data tmp n eps).1[i]? = some p) ∧
    (∀ (k i : Nat) (q : parameters T), k ≤ n →
      (fit ge_solve exp log meps params data tmp k eps).1[i]? = some q → q.valid = false →
      (fit ge_solve exp log meps params data tmp n eps).1[i]? = some q) := by
  have hk : ∀ (k i : Nat) (q : parameters T), k ≤ n →
      (fit ge_solve exp log meps params data tmp k eps).1[i]? = some q → q.valid = false →
      (fit ge_solve exp log meps params data tmp n eps).1[i]? = some q := by
    intro k i q hkn hq hv
    obtain ⟨m, rfl⟩ : ∃ m, n = k + m := ⟨n - k, by omega⟩
    unfold fit at hq ⊢
    simp only at hq ⊢
    have h1 := fit_up_invalid_inv _ _ i q hq hv
    exact fit_up_invalid _ _ i q
      (fit_rounds_invalid ge_solve exp log meps data eps _ k m i q h1 hv) hv
  refine ⟨?_, ?_, hk⟩
  · unfold fit
    simp only
    unfold fit_up
    rw [List.length_map, fit_rounds_length]
    unfold fit_down
    rw [List.length_map]
  · intro i p hp hv
    apply hk 0 i p (Nat.zero_le n) _ hv
    unfold fit
    simp only [List.range_zero, List.foldl_nil]
    exact fit_up_invalid _ _ i p (fit_down_invalid _ _ i p hp hv) hv

end gfit

end TouchDetection

namespace TouchDetection

namespace gfit

/-- Witness of `fit_invalid_stays_invalid`: a slot that is invalid on entry,
three rounds and a solver that always reports success. -/
theorem fit_invalid_stays_invalid_witness :
    (fit (ge_solve_const saddle_chi) Real.exp Real.log (2 ^ (-52 : Int))
      [{ valid := false, scale := 1, mean := ⟨30, 20⟩, prec := ⟨1, 0, 1⟩,
         bounds := ⟨25, 35, 15, 25⟩, weights := image.const ⟨11, 11⟩ 0 }]
      (image.const ⟨72, 48⟩ (1 : ℝ)) (image.const ⟨72, 48⟩ 0) 3 (2 ^ (-52 : Int))).1[0]? =
    some { valid := false, scale := 1, mean := ⟨30, 20⟩, prec := ⟨1, 0, 1⟩,
           bounds := ⟨25, 35, 15, 25⟩, weights := image.const ⟨11, 11⟩ 0 } :=
  (fit_invalid_stays_invalid (ge_solve_const saddle_chi) Real.exp Real.log (2 ^ (-52 : Int))
    [{ valid := false, scale := 1, mean := ⟨30, 20⟩, prec := ⟨1, 0, 1⟩,
       bounds := ⟨25, 35, 15, 25⟩, weights := image.const ⟨11, 11⟩ 0 }]
    (image.const ⟨72, 48⟩ (1 : ℝ)) (image.const ⟨72, 48⟩ 0) 3 (2 ^ (-52 : Int))).2.1 0 _ rfl rfl

/-- Claim C13: after `reserve(params, n, shape)` the parameter vector has the
length `max(old length, n)` (it never shrinks), every slot has
`valid = false`, and every slot that existed before keeps its scale, mean,
prec and bounds (and its weight image). -/
theorem reserve_grows {T : Type} [Field T] (params : List (parameters T)) (n : Nat)
    (shape : index2) :
    (reserve params n shape).length = max params.length n ∧
    (∀ q ∈ reserve params n shape, q.valid = false) ∧
    (∀ (i : Nat) (p : parameters T), params[i]? = some p →
      ∃ q, (reserve params n shape)[i]? = some q ∧ q.valid = false ∧ q.scale = p.scale ∧
        q.mean = p.mean ∧ q.prec = p.prec ∧ q.bounds = p.bounds ∧ q.weights = p.weights) := by
  refine ⟨?_, ?_, ?_⟩
  · unfold reserve
    simp only [List.length_map]
    split
    · next h =>
      rw [List.length_append, List.length_replicate]
      omega
    · next h => omega
  · intro q hq
    unfold reserve at hq
    simp only [List.mem_map] at hq
    obtain ⟨p, _, rfl⟩ := hq
    rfl
  · intro i p hp
    have hlt : i < params.length := by
      by_contra hc
      rw [List.getElem?_eq_none (by omega)] at hp
      exact absurd hp (by simp)
    refine ⟨{ p with valid := false }, ?_, rfl, rfl, rfl, rfl, rfl, rfl⟩
    unfold reserve
    simp only [List.getElem?_map]
    split
    · rw [List.getElem?_append_left hlt, hp]
      rfl
    · rw [hp]
      rfl

end gfit

end TouchDetection

namespace TouchDetection

namespace gfit

/-- The function `update_weight_maps` in terms of its three loops. -/
theorem update_weight_maps_eq {T : Type} [LinearOrderedField T] (exp : T → T)
    (params : List (parameters T)) (total : image T) (P1 : List (parameters T)) (T1 : image T)
    (hP1 : P1 = params.map (fun p =>
      if !p.valid then p else { p with weights := impl.weights_loop exp total.shape p }))
    (hT1 : T1 = P1.foldl impl.total_loop
      ({ total with data := total.data.map (fun _ => 0) } : image T)) :
    impl.update_weight_maps exp params total =
      (P1.map (fun p =>
        if !p.valid then p else { p with weights := impl.normalize_loop T1 p }), T1) := by
  subst hT1
  subst hP1
  rfl

/-- The value `update_weight_maps` computes for a pixel of a window is the
mixture term of the slot. -/
theorem mixture_term_eq {T : Type} [Field T] (exp : T → T) (shape : index2)
    (p : parameters T) (x y : Int) :
    p.scale * impl.gaussian_like exp
      ⟨(x : T) * (2 * (range : vec2 T).x / (shape.x : T)) - (range : vec2 T).x,
       (y : T) * (2 * (range : vec2 T).y / (shape.y : T)) - (range : vec2 T).y⟩ p.mean p.prec =
    mixture_term exp shape p x y := by
  unfold mixture_term impl.gaussian_like
  simp only [range, mul_one]
  congr 2
  ring

/-- The first loop of `update_weight_maps` on one slot: the weight image
holds the mixture terms of the window. -/
theorem weights_loop_spec {T : Type} [LinearOrderedField T] (exp : T → T) (shape : index2)
    (p : parameters T) (hf : slot_fits shape p) :
    image.same_layout (impl.weights_loop exp shape p) p.weights ∧
    ∀ x y, covers p.bounds x y →
      (impl.weights_loop exp shape p).get2 ⟨x - p.bounds.xmin, y - p.bounds.ymin⟩ =
        mixture_term exp shape p x y := by
  obtain ⟨h1, h2, h3, h4, haw, hwx, hwy⟩ := hf
  have h := image.foldl_window_shift p.weights haw p.bounds.xmin (p.bounds.xmax + 1)
    p.bounds.ymin (p.bounds.ymax + 1) p.bounds.xmin p.bounds.ymin le_rfl (by omega) le_rfl
    (by omega)
    (fun w ix iy => w.set2 ⟨ix - p.bounds.xmin, iy - p.bounds.ymin⟩
      (p.scale * impl.gaussian_like exp
        ⟨(ix : T) * (2 * (range : vec2 T).x / (shape.x : T)) - (range : vec2 T).x,
         (iy : T) * (2 * (range : vec2 T).y / (shape.y : T)) - (range : vec2 T).y⟩
        p.mean p.prec))
    (fun ix iy _ => mixture_term exp shape p ix iy)
    (fun _ _ _ _ _ _ _ _ => by beta_reduce; rw [mixture_term_eq])
  beta_reduce at h
  refine ⟨h.1, fun x y hc => ?_⟩
  exact h.2 x y hc.1 (by have := hc.2.1; omega) hc.2.2.1 (by have := hc.2.2.2; omega)

/-- The second loop of `update_weight_maps` on one slot adds the weights of
the slot to the pixels of its window. -/
theorem total_loop_spec {T : Type} [LinearOrderedField T] (total : image T)
    (ha : total.allocated) (p : parameters T)
    (hin : p.valid = true → 0 ≤ p.bounds.xmin ∧ p.bounds.xmax < total.shape.x ∧
      0 ≤ p.bounds.ymin ∧ p.bounds.ymax < total.shape.y) :
    image.same_layout (impl.total_loop total p) total ∧
    ∀ x y, image.inside total.shape ⟨x, y⟩ →
      (impl.total_loop total p).get2 ⟨x, y⟩ = total.get2 ⟨x, y⟩ +
        (if p.valid = true ∧ covers p.bounds x y then
          p.weights.get2 ⟨x - p.bounds.xmin, y - p.bounds.ymin⟩ else 0) := by
  unfold impl.total_loop
  by_cases hv : p.valid = true
  · obtain ⟨h1, h2, h3, h4⟩ := hin hv
    simp only [hv, Bool.not_true, Bool.false_eq_true, if_false, true_and]
    have h := image.foldl_window total ha p.bounds.xmin (p.bounds.xmax + 1) p.bounds.ymin
      (p.bounds.ymax + 1) h1 (by omega) h3 (by omega)
      (fun tot x y => tot.set2 ⟨x, y⟩
        (tot.get2 ⟨x, y⟩ + p.weights.get2 ⟨x - p.bounds.xmin, y - p.bounds.ymin⟩))
      (fun x y old => old + p.weights.get2 ⟨x - p.bounds.xmin, y - p.bounds.ymin⟩)
      (fun _ _ _ _ _ _ _ _ => rfl)
    simp only at h
    refine ⟨h.1, fun x y hxy => ?_⟩
    rw [h.2 ⟨x, y⟩ hxy]
    by_cases hc : covers p.bounds x y
    · rw [if_pos hc, if_pos]
      exact ⟨hc.1, by have := hc.2.1; simp only; omega, hc.2.2.1,
        by have := hc.2.2.2; simp only; omega⟩
    · rw [if_neg hc, if_neg, add_zero]
      rintro ⟨c1, c2, c3, c4⟩
      simp only at c1 c2 c3 c4
      exact hc ⟨c1, by omega, c3, by omega⟩
  · simp only [Bool.not_eq_true] at hv
    simp only [hv, Bool.not_false, if_true, Bool.false_eq_true, false_and, if_false, add_zero]
    exact ⟨image.same_layout_refl _, fun _ _ _ => trivial⟩

/-- The second loop of `update_weight_maps` over a list of slots. -/
theorem total_loop_foldl {T : Type} [LinearOrderedField T] (ps : List (parameters T))
    (total : image T) (ha : total.allocated)
    (hin : ∀ p ∈ ps, p.valid = true → 0 ≤ p.bounds.xmin ∧ p.bounds.xmax < total.shape.x ∧
      0 ≤ p.bounds.ymin ∧ p.bounds.ymax < total.shape.y) :
    image.same_layout (ps.foldl impl.total_loop total) total ∧
    ∀ x y, image.inside total.shape ⟨x, y⟩ →
      (ps.foldl impl.total_loop total).get2 ⟨x, y⟩ = total.get2 ⟨x, y⟩ +
        (ps.map (fun p => if p.valid = true ∧ covers p.bounds x y then
          p.weights.get2 ⟨x - p.bounds.xmin, y - p.bounds.ymin⟩ else 0)).sum := by
  induction ps generalizing total with
  | nil =>
    simp only [List.foldl_nil, List.map_nil, List.sum_nil, add_zero]
    exact ⟨image.same_layout_refl _, fun _ _ _ => trivial⟩
  | cons p ps ih =>
    obtain ⟨hl, hg⟩ := total_loop_spec total ha p (hin p (List.mem_cons_self _ _))
    have ha' := image.allocated_of_same_layout hl ha
    obtain ⟨hl2, hg2⟩ := ih (impl.total_loop total p) ha' (by
      intro q hq hv
      rw [hl.1]
      exact hin q (List.mem_cons_of_mem _ hq) hv)
    simp only [List.foldl_cons, List.map_cons, List.sum_cons]
    refine ⟨image.same_layout_trans hl2 hl, fun x y hxy => ?_⟩
    rw [hg2 x y (by rw [hl.1]; exact hxy), hg x y hxy, add_assoc]

/-- The third loop of `update_weight_maps` on one slot divides the weights
of the window by the total, where it is positive. -/
theorem normalize_loop_spec {T : Type} [LinearOrderedField T] (total : image T)
    (p : parameters T) (haw : p.weights.allocated)
    (hwx : p.bounds.xmax - p.bounds.xmin < p.weights.shape.x)
    (hwy : p.bounds.ymax - p.bounds.ymin < p.weights.shape.y) :
    ∀ x y, covers p.bounds x y →
      (impl.normalize_loop total p).get2 ⟨x - p.bounds.xmin, y - p.bounds.ymin⟩ =
        if total.get2 ⟨x, y⟩ > 0 then
          p.weights.get2 ⟨x - p.bounds.xmin, y - p.bounds.ymin⟩ / total.get2 ⟨x, y⟩
        else p.weights.get2 ⟨x - p.bounds.xmin, y - p.bounds.ymin⟩ := by
  have h := image.foldl_window_shift p.weights haw p.bounds.xmin (p.bounds.xmax + 1)
    p.bounds.ymin (p.bounds.ymax + 1) p.bounds.xmin p.bounds.ymin le_rfl (by omega) le_rfl
    (by omega)
    (fun w x y => if total.get2 ⟨x, y⟩ > 0 then
        w.set2 ⟨x - p.bounds.xmin, y - p.bounds.ymin⟩
          (w.get2 ⟨x - p.bounds.xmin, y - p.bounds.ymin⟩ / total.get2 ⟨x, y⟩)
      else w)
    (fun x y old => if total.get2 ⟨x, y⟩ > 0 then old / total.get2 ⟨x, y⟩ else old)
    (by
      intro acc x y hacc hx0' hx1' hy0' hy1'
      simp only
      split
      · rfl
      · have hin : image.inside acc.shape ⟨x - p.bounds.xmin, y - p.bounds.ymin⟩ := by
          rw [hacc.1]
          refine ⟨?_, ?_, ?_, ?_⟩ <;> simp only <;> omega
        have haa := image.allocated_of_same_layout hacc haw
        unfold image.set2 image.get2
        exact (image.set_get_self acc _ (image.ravel_nonneg hin)
          (image.ravel_toNat_lt haa hin)).symm)
  beta_reduce at h
  intro x y hc
  exact h.2 x y hc.1 (by have := hc.2.1; omega) hc.2.2.1 (by have := hc.2.2.2; omega)

end gfit

end TouchDetection

namespace TouchDetection

namespace gfit

/-- The weights of a valid slot after the first and third loop of
`update_weight_maps`: the mixture term of the slot, divided by the total
where the total is positive. -/
theorem normalize_weights_loop {T : Type} [LinearOrderedField T] (exp : T → T) (shape : index2)
    (tot : image T) (p : parameters T) (hf : slot_fits shape p) (x y : Int)
    (hc : covers p.bounds x y) :
    (impl.normalize_loop tot
      { p with weights := impl.weights_loop exp shape p }).get2
        ⟨x - p.bounds.xmin, y - p.bounds.ymin⟩ =
      if tot.get2 ⟨x, y⟩ > 0 then mixture_term exp shape p x y / tot.get2 ⟨x, y⟩
      else mixture_term exp shape p x y := by
  obtain ⟨hl, hg⟩ := weights_loop_spec exp shape p hf
  have hf' := hf
  obtain ⟨h1, h2, h3, h4, haw, hwx, hwy⟩ := hf'
  have h := normalize_loop_spec tot
    ({ valid := p.valid, scale := p.scale, mean := p.mean, prec := p.prec, bounds := p.bounds,
       weights := impl.weights_loop exp shape p } : parameters T)
    (image.allocated_of_same_layout hl haw) (by show _ < (impl.weights_loop exp shape p).shape.x; rw [hl.1]; exact hwx)
    (by show _ < (impl.weights_loop exp shape p).shape.y; rw [hl.1]; exact hwy) x y hc
  simp only at h
  rw [hg x y hc] at h
  exact h

/-- The total of `update_weight_maps`: the sum over the valid slots that
cover the pixel of their mixture terms. -/
theorem total_mixture {T : Type} [LinearOrderedField T] (exp : T → T)
    (params : List (parameters T)) (total : image T) (ha : total.allocated)
    (hf : ∀ p ∈ params, p.valid = true → slot_fits total.shape p) (x y : Int)
    (hxy : image.inside total.shape ⟨x, y⟩) :
    (impl.update_weight_maps exp params total).2.get2 ⟨x, y⟩ =
      (params.map (fun q => if q.valid = true ∧ covers q.bounds x y then
        mixture_term exp total.shape q x y else 0)).sum := by
  rw [update_weight_maps_eq exp params total _ _ rfl rfl]
  obtain ⟨ha0, hz0⟩ := filled_zero total ha
  have h := (total_loop_foldl (params.map (fun p =>
      if !p.valid then p else { p with weights := impl.weights_loop exp total.shape p }))
    ({ total with data := total.data.map (fun _ => (0 : T)) } : image T) ha0 (by
      intro p hp hv
      obtain ⟨q, hq, rfl⟩ := List.mem_map.1 hp
      by_cases hqv : q.valid = true
      · simp only [hqv, Bool.not_true, Bool.false_eq_true, if_false]
        obtain ⟨h1, h2, h3, h4, _⟩ := hf q hq hqv
        exact ⟨h1, h2, h3, h4⟩
      · simp only [Bool.not_eq_true] at hqv
        simp only [hqv, Bool.not_false, if_true] at hv
        exact absurd hv (by decide))).2 x y hxy
  simp only at h ⊢
  rw [h, hz0, zero_add, List.map_map]
  congr 1
  apply List.map_congr_left
  intro q hq
  simp only [Function.comp]
  by_cases hqv : q.valid = true
  · simp only [hqv, Bool.not_true, Bool.false_eq_true, if_false, true_and]
    by_cases hc : covers q.bounds x y
    · rw [if_pos hc, if_pos hc, (weights_loop_spec exp total.shape q (hf q hq hqv)).2 x y hc]
    · rw [if_neg hc, if_neg hc]
  · simp only [Bool.not_eq_true] at hqv
    simp only [hqv, Bool.not_false, if_true, Bool.false_eq_true, false_and, if_false]

/-- Claim C14: for a parameter vector whose valid slots have windows inside
`total` and no larger than their weight images, after
`update_weight_maps(params, total)` the image `total` holds at every pixel
`(x, y)` the sum, over the valid slots `q` whose window covers `(x, y)`, of
`scale_q * exp(-(1/2) (X - mean_q)^T prec_q (X - mean_q))` with
`X = (2x/w - 1, 2y/h - 1)`; a valid slot keeps its other fields and its
stored weight at a window pixel with positive total is its own term divided
by the total; hence the stored weights of the valid slots covering a pixel
with positive total sum to 1. -/
theorem update_weight_maps_mixture {T : Type} [LinearOrderedField T] (exp : T → T)
    (params : List (parameters T)) (total : image T) (ha : total.allocated)
    (hf : ∀ p ∈ params, p.valid = true → slot_fits total.shape p) :
    (∀ x y, image.inside total.shape ⟨x, y⟩ →
      (impl.update_weight_maps exp params total).2.get2 ⟨x, y⟩ =
        (params.map (fun q => if q.valid = true ∧ covers q.bounds x y then
          mixture_term exp total.shape q x y else 0)).sum) ∧
    (impl.update_weight_maps exp params total).1.length = params.length ∧
    (∀ (i : Nat) (p : parameters T), params[i]? = some p → p.valid = true →
      ∃ W, (impl.update_weight_maps exp params total).1[i]? = some { p with weights := W } ∧
        ∀ x y, covers p.bounds x y →
          (impl.update_weight_maps exp params total).2.get2 ⟨x, y⟩ > 0 →
          W.get2 ⟨x - p.bounds.xmin, y - p.bounds.ymin⟩ =
            mixture_term exp total.shape p x y /
              (impl.update_weight_maps exp params total).2.get2 ⟨x, y⟩) ∧
    (∀ x y, image.inside total.shape ⟨x, y⟩ →
      (impl.update_weight_maps exp params total).2.get2 ⟨x, y⟩ > 0 →
      ((impl.update_weight_maps exp params total).1.map (fun q =>
        if q.valid = true ∧ covers q.bounds x y then
          q.weights.get2 ⟨x - q.bounds.xmin, y - q.bounds.ymin⟩ else 0)).sum = 1) := by
  have htot := total_mixture exp params total ha hf
  obtain ⟨P1, hP1⟩ : ∃ P1, P1 = params.map (fun p =>
      if !p.valid then p else { p with weights := impl.weights_loop exp total.shape p }) :=
    ⟨_, rfl⟩
  obtain ⟨T1, hT1⟩ : ∃ T1, T1 = P1.foldl impl.total_loop
      ({ total with data := total.data.map (fun _ => 0) } : image T) := ⟨_, rfl⟩
  have hR := update_weight_maps_eq exp params total P1 T1 hP1 hT1
  simp only [hR] at htot ⊢
  clear hR hT1
  subst hP1
  refine ⟨htot, ?_, ?_, ?_⟩
  · simp only [List.length_map]
  · intro i p hi hv
    have hfp := hf p (List.getElem?_mem hi) hv
    refine ⟨impl.normalize_loop T1 { p with weights := impl.weights_loop exp total.shape p },
      ?_, ?_⟩
    · simp only [List.getElem?_map, hi, Option.map_some', hv, Bool.not_true, Bool.false_eq_true,
        if_false]
    · intro x y hc hpos
      rw [normalize_weights_loop exp total.shape T1 p hfp x y hc, if_pos hpos]
  · intro x y hxy hpos
    have hsum := htot x y hxy
    have e : (((params.map (fun p =>
          if !p.valid then p else
            { p with weights := impl.weights_loop exp total.shape p })).map (fun p =>
          if !p.valid then p else { p with weights := impl.normalize_loop T1 p })).map (fun q =>
        if q.valid = true ∧ covers q.bounds x y then
          q.weights.get2 ⟨x - q.bounds.xmin, y - q.bounds.ymin⟩ else 0)) =
        params.map (fun q => (if q.valid = true ∧ covers q.bounds x y then
          mixture_term exp total.shape q x y else 0) * (T1.get2 ⟨x, y⟩)⁻¹) := by
      simp only [List.map_map]
      apply List.map_congr_left
      intro q hq
      simp only [Function.comp]
      by_cases hqv : q.valid = true
      · simp only [hqv, Bool.not_true, Bool.false_eq_true, if_false, true_and]
        by_cases hc : covers q.bounds x y
        · rw [if_pos hc, if_pos hc]
          have h := normalize_weights_loop exp total.shape T1 q (hf q hq hqv) x y hc
          rw [if_pos hpos] at h
          rw [← div_eq_mul_inv, ← h]
          simp only [hqv]
        · rw [if_neg hc, if_neg hc, zero_mul]
      · simp only [Bool.not_eq_true] at hqv
        simp only [hqv, Bool.not_false, if_true, Bool.false_eq_true, false_and, if_false,
          zero_mul]
    rw [e, List.sum_map_mul_right, ← hsum]
    exact mul_inv_cancel₀ (ne_of_gt hpos)

/-- Witness of `update_weight_maps_mixture`: two overlapping valid slots on
a 3x3 image; the total at the pixel `(1, 1)`. -/
theorem update_weight_maps_mixture_witness :
    (impl.update_weight_maps Real.exp
      [saddle_slot,
       { valid := true, scale := 2, mean := ⟨0, 0⟩, prec := ⟨1, 0, 1⟩,
         bounds := ⟨1, 2, 1, 2⟩, weights := image.const ⟨11, 11⟩ 0 }]
      (image.const ⟨3, 3⟩ (0 : ℝ))).2.get2 ⟨1, 1⟩ =
    (([saddle_slot,
       { valid := true, scale := 2, mean := ⟨0, 0⟩, prec := ⟨1, 0, 1⟩,
         bounds := ⟨1, 2, 1, 2⟩, weights := image.const ⟨11, 11⟩ 0 }] : List (parameters ℝ)).map
      (fun q => if q.valid = true ∧ covers q.bounds 1 1 then
        mixture_term Real.exp (image.const ⟨3, 3⟩ (0 : ℝ)).shape q 1 1 else 0)).sum :=
  (update_weight_maps_mixture Real.exp
    [saddle_slot,
       { valid := true, scale := 2, mean := ⟨0, 0⟩, prec := ⟨1, 0, 1⟩,
         bounds := ⟨1, 2, 1, 2⟩, weights := image.const ⟨11, 11⟩ 0 }]
    (image.const ⟨3, 3⟩ (0 : ℝ)) (image.allocated_const _ _ (by decide) (by decide))
    (by
      intro p hp _
      simp only [List.mem_cons, List.mem_singleton, List.not_mem_nil, or_false] at hp
      rcases hp with rfl | rfl
      · exact ⟨by decide, by decide, by decide, by decide,
          image.allocated_const _ _ (by decide) (by decide), by decide, by decide⟩
      · exact ⟨by decide, by decide, by decide, by decide,
          image.allocated_const _ _ (by decide) (by decide), by decide, by decide⟩)).1 1 1
    ⟨by decide, by decide, by decide, by decide⟩

end gfit

end TouchDetection

namespace TouchDetection

theorem foldl_add_sum {M β : Type} [AddCommMonoid M] (g : β → M) (s0 : M) (l : List β) :
    l.foldl (fun s b => s + g b) s0 = s0 + (l.map g).sum := by
  induction l generalizing s0 with
  | nil => simp
  | cons b l ih => simp [ih, add_assoc]

namespace gfit

/-- A loop nest over a window that adds `g ix iy` to an accumulator adds the
window sum of `g`. -/
theorem foldl_window_sum {M : Type} [AddCommMonoid M] (b : bbox) (g : Int → Int → M) (s0 : M) :
    (irange b.ymin (b.ymax + 1)).foldl (fun s (iy : Int) =>
      (irange b.xmin (b.xmax + 1)).foldl (fun s (ix : Int) => s + g ix iy) s) s0 =
    s0 + window_sum b g := by
  have e : (fun (s : M) (iy : Int) =>
      (irange b.xmin (b.xmax + 1)).foldl (fun s (ix : Int) => s + g ix iy) s) =
      fun s iy => s + ((irange b.xmin (b.xmax + 1)).map (fun (ix : Int) => g ix iy)).sum := by
    funext s iy
    exact foldl_add_sum (fun (ix : Int) => g ix iy) s _
  rw [e, foldl_add_sum]
  rfl

theorem window_sum_hom {M N : Type} [AddCommMonoid M] [AddCommMonoid N] (φ : M →+ N)
    (b : bbox) (g : Int → Int → M) :
    φ (window_sum b g) = window_sum b (fun ix iy => φ (g ix iy)) := by
  unfold window_sum
  rw [map_list_sum, List.map_map]
  congr 1
  apply List.map_congr_left
  intro iy _
  simp only [Function.comp]
  rw [map_list_sum, List.map_map]
  rfl

theorem window_sum_add {M : Type} [AddCommMonoid M] (b : bbox) (f g : Int → Int → M) :
    window_sum b (fun ix iy => f ix iy + g ix iy) = window_sum b f + window_sum b g := by
  unfold window_sum
  simp only [List.sum_map_add]

theorem window_sum_mul_left {T : Type} [Semiring T] (b : bbox) (c : T) (f : Int → Int → T) :
    window_sum b (fun ix iy => c * f ix iy) = c * window_sum b f := by
  unfold window_sum
  simp only [List.sum_map_mul_left]

theorem window_sum_congr {M : Type} [AddCommMonoid M] (b : bbox) (f g : Int → Int → M)
    (h : ∀ ix iy, b.xmin ≤ ix → ix ≤ b.xmax → b.ymin ≤ iy → iy ≤ b.ymax → f ix iy = g ix iy) :
    window_sum b f = window_sum b g := by
  unfold window_sum
  congr 1
  apply List.map_congr_left
  intro iy hy
  congr 1
  apply List.map_congr_left
  intro ix hx
  rw [mem_irange] at hx hy
  exact h ix iy hx.1 (by omega) hy.1 (by omega)

/-- The entries of the system that `assemble_system` returns, as sums over
the window: `m[{i, j}] = c_j * sum d^2 phi_i phi_j` with `c_1 = 2` and
`c_j = 1` otherwise, and `rhs[i] = sum log(d + eps) d^2 phi_i`. -/
theorem assemble_system_sums {T : Type} [Field T] (log : T → T) (eps : T) (b : bbox)
    (data w : image T) :
    (∀ i j, (impl.assemble_system log eps b data w).1 i j =
      window_sum b (fun ix iy =>
        (w.get2 ⟨ix - b.xmin, iy - b.ymin⟩ * data.get2 ⟨ix, iy⟩) *
        (w.get2 ⟨ix - b.xmin, iy - b.ymin⟩ * data.get2 ⟨ix, iy⟩) *
        phi ((ix : T) * (2 / (data.shape.x : T)) - 1) ((iy : T) * (2 / (data.shape.y : T)) - 1) i *
        phi ((ix : T) * (2 / (data.shape.x : T)) - 1) ((iy : T) * (2 / (data.shape.y : T)) - 1) j)
      * (if j = 1 then 2 else 1)) ∧
    (∀ i, (impl.assemble_system log eps b data w).2 i =
      window_sum b (fun ix iy =>
        log (w.get2 ⟨ix - b.xmin, iy - b.ymin⟩ * data.get2 ⟨ix, iy⟩ + eps) *
        (w.get2 ⟨ix - b.xmin, iy - b.ymin⟩ * data.get2 ⟨ix, iy⟩) *
        (w.get2 ⟨ix - b.xmin, iy - b.ymin⟩ * data.get2 ⟨ix, iy⟩) *
        phi ((ix : T) * (2 / (data.shape.x : T)) - 1)
          ((iy : T) * (2 / (data.shape.y : T)) - 1) i)) := by
  obtain ⟨s, hs, hm, hrhs⟩ := assemble_system_eq log eps b data w
  have hpix : ∀ (s1 : mat6_t T × vec6_t T) (x y d v : T),
      impl.assemble_pixel s1 x y d v =
        s1 + ((fun i j => d * d * phi x y i * phi x y j), (fun i => v * phi x y i)) := by
    intro s1 x y d v
    obtain ⟨h1, h2⟩ := assemble_pixel_apply s1 x y d v
    refine Prod.ext ?_ ?_
    · funext i j
      exact h1 i j
    · funext i
      exact h2 i
  simp only [hpix] at hs
  rw [foldl_window_sum b (fun (ix iy : Int) =>
    (((fun i j => (w.get2 ⟨ix - b.xmin, iy - b.ymin⟩ * data.get2 ⟨ix, iy⟩) *
        (w.get2 ⟨ix - b.xmin, iy - b.ymin⟩ * data.get2 ⟨ix, iy⟩) *
        phi ((ix : T) * (2 * (range : vec2 T).x / (data.shape.x : T)) - (range : vec2 T).x)
          ((iy : T) * (2 * (range : vec2 T).y / (data.shape.y : T)) - (range : vec2 T).y) i *
        phi ((ix : T) * (2 * (range : vec2 T).x / (data.shape.x : T)) - (range : vec2 T).x)
          ((iy : T) * (2 * (range : vec2 T).y / (data.shape.y : T)) - (range : vec2 T).y) j),
      (fun i => log (w.get2 ⟨ix - b.xmin, iy - b.ymin⟩ * data.get2 ⟨ix, iy⟩ + eps) *
        (w.get2 ⟨ix - b.xmin, iy - b.ymin⟩ * data.get2 ⟨ix, iy⟩) *
        (w.get2 ⟨ix - b.xmin, iy - b.ymin⟩ * data.get2 ⟨ix, iy⟩) *
        phi ((ix : T) * (2 * (range : vec2 T).x / (data.shape.x : T)) - (range : vec2 T).x)
          ((iy : T) * (2 * (range : vec2 T).y / (data.shape.y : T)) - (range : vec2 T).y) i)) :
      mat6_t T × vec6_t T))] at hs
  have h0 : (((fun _ _ => 0), (fun _ => 0)) : mat6_t T × vec6_t T) = 0 := rfl
  rw [h0, zero_add] at hs
  constructor
  · intro i j
    rw [hm i j, hs]
    congr 1
    have := window_sum_hom (((Pi.evalAddMonoidHom (fun _ : Fin 6 => T) j).comp
      (Pi.evalAddMonoidHom (fun _ : Fin 6 => Fin 6 → T) i)).comp
      (AddMonoidHom.fst (mat6_t T) (vec6_t T))) b
    simp only [AddMonoidHom.comp_apply, AddMonoidHom.coe_fst, Pi.evalAddMonoidHom_apply] at this
    rw [this]
    simp only [range, mul_one]
  · intro i
    rw [hrhs, hs]
    have := window_sum_hom ((Pi.evalAddMonoidHom (fun _ : Fin 6 => T) i).comp
      (AddMonoidHom.snd (mat6_t T) (vec6_t T))) b
    simp only [AddMonoidHom.comp_apply, AddMonoidHom.coe_snd, Pi.evalAddMonoidHom_apply] at this
    rw [this]
    simp only [range, mul_one]

end gfit

end TouchDetection

namespace TouchDetection

namespace gfit

/-- The residual of the assembled system at `chi` is the window sum of
`d^2 phi_i (model - log(d + eps))`. -/
theorem assemble_system_residual {T : Type} [Field T] (log : T → T) (eps : T) (b : bbox)
    (data w : image T) (chi : vec6_t T) (i : Fin 6) :
    ∑ j, (impl.assemble_system log eps b data w).1 i j * chi j -
        (impl.assemble_system log eps b data w).2 i =
      window_sum b (fun ix iy =>
        (w.get2 ⟨ix - b.xmin, iy - b.ymin⟩ * data.get2 ⟨ix, iy⟩) *
        (w.get2 ⟨ix - b.xmin, iy - b.ymin⟩ * data.get2 ⟨ix, iy⟩) *
        phi ((ix : T) * (2 / (data.shape.x : T)) - 1) ((iy : T) * (2 / (data.shape.y : T)) - 1) i *
        (log_model chi ((ix : T) * (2 / (data.shape.x : T)) - 1)
            ((iy : T) * (2 / (data.shape.y : T)) - 1) -
          log (w.get2 ⟨ix - b.xmin, iy - b.ymin⟩ * data.get2 ⟨ix, iy⟩ + eps))) := by
  obtain ⟨hm, hrhs⟩ := assemble_system_sums log eps b data w
  have key : (fun (ix iy : Int) =>
        (w.get2 ⟨ix - b.xmin, iy - b.ymin⟩ * data.get2 ⟨ix, iy⟩) *
        (w.get2 ⟨ix - b.xmin, iy - b.ymin⟩ * data.get2 ⟨ix, iy⟩) *
        phi ((ix : T) * (2 / (data.shape.x : T)) - 1) ((iy : T) * (2 / (data.shape.y : T)) - 1) i *
        (log_model chi ((ix : T) * (2 / (data.shape.x : T)) - 1)
            ((iy : T) * (2 / (data.shape.y : T)) - 1) -
          log (w.get2 ⟨ix - b.xmin, iy - b.ymin⟩ * data.get2 ⟨ix, iy⟩ + eps))) =
      fun ix iy =>
        chi 0 * (fun (ix iy : Int) =>
          (w.get2 ⟨ix - b.xmin, iy - b.ymin⟩ * data.get2 ⟨ix, iy⟩) *
          (w.get2 ⟨ix - b.xmin, iy - b.ymin⟩ * data.get2 ⟨ix, iy⟩) *
          phi ((ix : T) * (2 / (data.shape.x : T)) - 1)
            ((iy : T) * (2 / (data.shape.y : T)) - 1) i *
          phi ((ix : T) * (2 / (data.shape.x : T)) - 1)
            ((iy : T) * (2 / (data.shape.y : T)) - 1) 0) ix iy +
        ((2 * chi 1) * (fun (ix iy : Int) =>
          (w.get2 ⟨ix - b.xmin, iy - b.ymin⟩ * data.get2 ⟨ix, iy⟩) *
          (w.get2 ⟨ix - b.xmin, iy - b.ymin⟩ * data.get2 ⟨ix, iy⟩) *
          phi ((ix : T) * (2 / (data.shape.x : T)) - 1)
            ((iy : T) * (2 / (data.shape.y : T)) - 1) i *
          phi ((ix : T) * (2 / (data.shape.x : T)) - 1)
            ((iy : T) * (2 / (data.shape.y : T)) - 1) 1) ix iy +
        (chi 2 * (fun (ix iy : Int) =>
          (w.get2 ⟨ix - b.xmin, iy - b.ymin⟩ * data.get2 ⟨ix, iy⟩) *
          (w.get2 ⟨ix - b.xmin, iy - b.ymin⟩ * data.get2 ⟨ix, iy⟩) *
          phi ((ix : T) * (2 / (data.shape.x : T)) - 1)
            ((iy : T) * (2 / (data.shape.y : T)) - 1) i *
          phi ((ix : T) * (2 / (data.shape.x : T)) - 1)
            ((iy : T) * (2 / (data.shape.y : T)) - 1) 2) ix iy +
        (chi 3 * (fun (ix iy : Int) =>
          (w.get2 ⟨ix - b.xmin, iy - b.ymin⟩ * data.get2 ⟨ix, iy⟩) *
          (w.get2 ⟨ix - b.xmin, iy - b.ymin⟩ * data.get2 ⟨ix, iy⟩) *
          phi ((ix : T) * (2 / (data.shape.x : T)) - 1)
            ((iy : T) * (2 / (data.shape.y : T)) - 1) i *
          phi ((ix : T) * (2 / (data.shape.x : T)) - 1)
            ((iy : T) * (2 / (data.shape.y : T)) - 1) 3) ix iy +
        (chi 4 * (fun (ix iy : Int) =>
          (w.get2 ⟨ix - b.xmin, iy - b.ymin⟩ * data.get2 ⟨ix, iy⟩) *
          (w.get2 ⟨ix - b.xmin, iy - b.ymin⟩ * data.get2 ⟨ix, iy⟩) *
          phi ((ix : T) * (2 / (data.shape.x : T)) - 1)
            ((iy : T) * (2 / (data.shape.y : T)) - 1) i *
          phi ((ix : T) * (2 / (data.shape.x : T)) - 1)
            ((iy : T) * (2 / (data.shape.y : T)) - 1) 4) ix iy +
        (chi 5 * (fun (ix iy : Int) =>
          (w.get2 ⟨ix - b.xmin, iy - b.ymin⟩ * data.get2 ⟨ix, iy⟩) *
          (w.get2 ⟨ix - b.xmin, iy - b.ymin⟩ * data.get2 ⟨ix, iy⟩) *
          phi ((ix : T) * (2 / (data.shape.x : T)) - 1)
            ((iy : T) * (2 / (data.shape.y : T)) - 1) i *
          phi ((ix : T) * (2 / (data.shape.x : T)) - 1)
            ((iy : T) * (2 / (data.shape.y : T)) - 1) 5) ix iy +
        (-1) * (fun (ix iy : Int) =>
          log (w.get2 ⟨ix - b.xmin, iy - b.ymin⟩ * data.get2 ⟨ix, iy⟩ + eps) *
          (w.get2 ⟨ix - b.xmin, iy - b.ymin⟩ * data.get2 ⟨ix, iy⟩) *
          (w.get2 ⟨ix - b.xmin, iy - b.ymin⟩ * data.get2 ⟨ix, iy⟩) *
          phi ((ix : T) * (2 / (data.shape.x : T)) - 1)
            ((iy : T) * (2 / (data.shape.y : T)) - 1) i) ix iy))))) := by
    funext ix iy
    obtain ⟨p0, p1, p2, p3, p4, p5⟩ := phi_apply ((ix : T) * (2 / (data.shape.x : T)) - 1)
      ((iy : T) * (2 / (data.shape.y : T)) - 1)
    simp only [log_model, p0, p1, p2, p3, p4, p5]
    ring
  rw [key]
  simp only [window_sum_add, window_sum_mul_left]
  rw [Fin.sum_univ_six]
  simp only [hm, hrhs, Fin.reduceEq, if_true, if_false, Fin.isValue]
  ring

/-- The model is affine in each coefficient: changing `chi k` to `t` adds
`(t - chi k) c_k phi_k`, with `c_1 = 2` and `c_k = 1` otherwise. -/
theorem log_model_update {T : Type} [Field T] (chi : vec6_t T) (k : Fin 6) (t x y : T) :
    log_model (Function.update chi k t) x y =
      log_model chi x y + (t - chi k) * ((if k = 1 then 2 else 1) * phi x y k) := by
  obtain ⟨p0, p1, p2, p3, p4, p5⟩ := phi_apply x y
  fin_cases k <;>
  · simp only [log_model, Function.update, Fin.mk_zero, Fin.mk_one, Fin.reduceFinMk, Fin.reduceEq,
      Fin.isValue, dite_eq_ite, if_true, if_false, eq_rec_constant, p0, p1, p2, p3, p4, p5]
    ring

/-- The objective along the `k`-th coordinate line through `chi` is a
quadratic in the step, with linear coefficient `2 c_k` times the residual of
the `k`-th equation of the assembled system. -/
theorem objective_update {T : Type} [Field T] (log : T → T) (eps : T) (b : bbox)
    (data w : image T) (chi : vec6_t T) (k : Fin 6) (t : T) :
    objective log eps b data w (Function.update chi k t) =
      objective log eps b data w chi +
      (t - chi k) * (2 * (if k = 1 then 2 else 1)) *
        (∑ j, (impl.assemble_system log eps b data w).1 k j * chi j -
          (impl.assemble_system log eps b data w).2 k) +
      (t - chi k) ^ 2 * (if k = 1 then 2 else 1) ^ 2 *
        window_sum b (fun ix iy =>
          (w.get2 ⟨ix - b.xmin, iy - b.ymin⟩ * data.get2 ⟨ix, iy⟩) ^ 2 *
          phi ((ix : T) * (2 / (data.shape.x : T)) - 1)
            ((iy : T) * (2 / (data.shape.y : T)) - 1) k ^ 2) := by
  rw [assemble_system_residual]
  unfold objective
  simp only [log_model_update]
  rw [← window_sum_mul_left, ← window_sum_mul_left, ← window_sum_add, ← window_sum_add]
  congr 1
  funext ix iy
  ring

/-- The derivative of the objective along the `k`-th coordinate line at
`chi` is `2 c_k` times the residual of the `k`-th equation. -/
theorem objective_hasDerivAt (log : ℝ → ℝ) (eps : ℝ) (b : bbox) (data w : image ℝ)
    (chi : vec6_t ℝ) (k : Fin 6) :
    HasDerivAt (fun t => objective log eps b data w (Function.update chi k t))
      (2 * (if k = 1 then 2 else 1) *
        (∑ j, (impl.assemble_system log eps b data w).1 k j * chi j -
          (impl.assemble_system log eps b data w).2 k)) (chi k) := by
  have e : (fun t => objective log eps b data w (Function.update chi k t)) = fun t =>
      objective log eps b data w chi +
      (t - chi k) * (2 * (if k = 1 then 2 else 1)) *
        (∑ j, (impl.assemble_system log eps b data w).1 k j * chi j -
          (impl.assemble_system log eps b data w).2 k) +
      (t - chi k) ^ 2 * (if k = 1 then 2 else 1) ^ 2 *
        window_sum b (fun ix iy =>
          (w.get2 ⟨ix - b.xmin, iy - b.ymin⟩ * data.get2 ⟨ix, iy⟩) ^ 2 *
          phi ((ix : ℝ) * (2 / (data.shape.x : ℝ)) - 1)
            ((iy : ℝ) * (2 / (data.shape.y : ℝ)) - 1) k ^ 2) := by
    funext t
    exact objective_update log eps b data w chi k t
  rw [e]
  have h1 : HasDerivAt (fun t : ℝ => t - chi k) 1 (chi k) := (hasDerivAt_id (chi k)).sub_const _
  have h2 := ((h1.mul_const (2 * (if k = 1 then (2 : ℝ) else 1))).mul_const
    (∑ j, (impl.assemble_system log eps b data w).1 k j * chi j -
      (impl.assemble_system log eps b data w).2 k)).const_add (objective log eps b data w chi)
  have h3 := ((h1.pow 2).mul_const ((if k = 1 then (2 : ℝ) else 1) ^ 2)).mul_const
    (window_sum b (fun ix iy =>
      (w.get2 ⟨ix - b.xmin, iy - b.ymin⟩ * data.get2 ⟨ix, iy⟩) ^ 2 *
      phi ((ix : ℝ) * (2 / (data.shape.x : ℝ)) - 1)
        ((iy : ℝ) * (2 / (data.shape.y : ℝ)) - 1) k ^ 2))
  have h4 := h2.add h3
  simp only [sub_self, one_mul, Nat.cast_ofNat, Nat.reduceSub, pow_one, mul_zero, zero_mul,
    add_zero] at h4
  exact h4

/-- Claim C15: the system `(m, rhs)` built by `assemble_system` is the
normal-equations system of the weighted least-squares fit: with
`J(chi) = sum over the window of d^2 (log(d + eps) - model_chi(x, y))^2`,
`d = w * I`, a vector `chi` satisfies `sum_j m[{i, j}] * chi[j] = rhs[i]`
for all `i` if and only if every partial derivative of `J` vanishes at
`chi`, that is, the gradient of `J` vanishes at `chi`. -/
theorem assemble_system_normal_equations (log : ℝ → ℝ) (eps : ℝ) (b : bbox)
    (data w : image ℝ) (chi : vec6_t ℝ) :
    (∀ i, ∑ j, (impl.assemble_system log eps b data w).1 i j * chi j =
      (impl.assemble_system log eps b data w).2 i) ↔
    ∀ k, HasDerivAt (fun t => objective log eps b data w (Function.update chi k t)) 0
      (chi k) := by
  constructor
  · intro h k
    have hd := objective_hasDerivAt log eps b data w chi k
    rw [h k, sub_self, mul_zero] at hd
    exact hd
  · intro h i
    have hd := objective_hasDerivAt log eps b data w chi i
    have hz := hd.unique (h i)
    have hc : (2 : ℝ) * (if i = 1 then 2 else 1) ≠ 0 := by
      split <;> norm_num
    exact sub_eq_zero.1 ((mul_eq_zero.1 hz).resolve_left hc)

end gfit

end TouchDetection

namespace TouchDetection

/-- A loop `for (i = 0; i < n; ++i) img[i] = g i`: the shape and the size of
the buffer are kept and the element `i < n` of the buffer holds `g i`. -/
theorem image.foldl_set_linear {T : Type} [Zero T] (img : image T) (n : Int) (g : Int → T) :
    ((irange 0 n).foldl (fun acc i => acc.set i (g i)) img).shape = img.shape ∧
    ((irange 0 n).foldl (fun acc i => acc.set i (g i)) img).data.length = img.data.length ∧
    ∀ i, 0 ≤ i → i < n → i.toNat < img.data.length →
      ((irange 0 n).foldl (fun acc i => acc.set i (g i)) img).get i = g i := by
  by_cases h0 : 0 ≤ n
  swap
  · rw [@irange_of_le 0 n (by omega)]
    exact ⟨rfl, rfl, fun i hi hlt => by omega⟩
  have h := foldl_irange_inv
    (fun (k : Int) (acc : image T) => acc.shape = img.shape ∧
      acc.data.length = img.data.length ∧
      ∀ i, 0 ≤ i → i < k → i.toNat < img.data.length → acc.get i = g i)
    (fun acc i => acc.set i (g i)) img 0 n h0 ⟨rfl, rfl, fun i hi hlt => by omega⟩
    (by
      intro k acc hk0 hkn ⟨hs, hl, hg⟩
      refine ⟨?_, ?_, ?_⟩
      · rw [image.shape_set, hs]
      · rw [image.length_set, hl]
      · intro i hi hlt hil
        by_cases hik : i = k
        · subst hik
          exact image.get_set_eq acc i (g i) hi (by omega)
        · rw [image.get_set_ne acc k i (g k) (Ne.symm hik)]
          exact hg i hi (by omega) hil)
  exact h

end TouchDetection

namespace TouchDetection

/-- A loop whose body may fail, over the elements of a list: an invariant
indexed by the number of elements processed that every iteration keeps (in
particular no iteration fails) holds at the end. -/
theorem foldl_option_inv {σ β : Type} (P : Nat → σ → Prop) (step : σ → β → Option σ)
    (L : List β) (s0 : σ) (h0 : P 0 s0)
    (hstep : ∀ (k : Nat) (b : β) (s : σ), L[k]? = some b → P k s →
      ∃ s', step s b = some s' ∧ P (k + 1) s') :
    ∃ s', L.foldl (fun acc b => acc.bind (fun s => step s b)) (some s0) = some s' ∧
      P L.length s' := by
  induction L generalizing P s0 with
  | nil => exact ⟨s0, rfl, h0⟩
  | cons b L ih =>
    obtain ⟨s1, hs1, hP1⟩ := hstep 0 b s0 (by simp) h0
    obtain ⟨s', hs', hP'⟩ := ih (fun k s => P (k + 1) s) s1 hP1 (by
      intro k c s hk hP
      exact hstep (k + 1) c s (by simpa using hk) hP)
    refine ⟨s', ?_, hP'⟩
    have e : ((some s0).bind fun s => step s b) = some s1 := hs1
    rw [List.foldl_cons, e]
    exact hs'

theorem getElem?_irange {lo hi : Int} {k : Nat} {b : Int} (h : (irange lo hi)[k]? = some b) :
    b = lo + k ∧ lo + k < hi := by
  unfold irange at h
  rw [List.getElem?_map] at h
  cases hr : (List.range (hi - lo).toNat)[k]? with
  | none => rw [hr] at h; simp at h
  | some m =>
    rw [hr] at h
    simp only [Option.map_some', Option.some.injEq] at h
    obtain ⟨hlt, hm⟩ := List.getElem?_eq_some_iff.1 hr
    simp only [List.length_range] at hlt
    simp only [List.getElem_range] at hm
    subst hm
    constructor
    · exact h.symm
    · omega

theorem vector_at_update_eq {α : Type} (v : List α) (k : Nat) (f : α → α) (h : k < v.length) :
    vector_at_update v k f = some (v.set k (f v[k])) := by
  unfold vector_at_update
  rw [List.getElem?_eq_getElem h]

theorem countP_take_succ {β : Type} (L : List β) (p : β → Bool) (k : Nat) (b : β)
    (h : L[k]? = some b) :
    (L.take (k + 1)).countP p = (L.take k).countP p + (if p b then 1 else 0) := by
  rw [List.take_succ, h, List.countP_append]
  simp [List.countP_cons]

namespace main

/-- The incoherence term `1 - coherence^2` of a pixel with non-negative
eigenvalues is non-negative. -/
theorem incoherence_nonneg {T : Type} [LinearOrderedField T] (ev1 ev2 : T) (h1 : 0 ≤ ev1)
    (h2 : 0 ≤ ev2) :
    0 ≤ 1 - (if ev1 + ev2 ≠ 0 then (ev1 - ev2) / (ev1 + ev2) else 1) *
      (if ev1 + ev2 ≠ 0 then (ev1 - ev2) / (ev1 + ev2) else 1) := by
  by_cases h : ev1 + ev2 ≠ 0
  · rw [if_pos h]
    have hpos : 0 < ev1 + ev2 := lt_of_le_of_ne (add_nonneg h1 h2) (Ne.symm h)
    have e : (ev1 - ev2) / (ev1 + ev2) * ((ev1 - ev2) / (ev1 + ev2)) =
        ((ev1 - ev2) * (ev1 - ev2)) / ((ev1 + ev2) * (ev1 + ev2)) := by
      rw [div_mul_div_comm]
    rw [e, sub_nonneg, div_le_one (mul_pos hpos hpos)]
    nlinarith [mul_nonneg h1 h2]
  · rw [if_neg h]
    norm_num

/-- The score `v / (1 + v)` of a non-negative `v` lies in `[0, 1)`. -/
theorem squash_range {T : Type} [LinearOrderedField T] (v : T) (hv : 0 ≤ v) :
    0 ≤ v / (1 + v) ∧ v / (1 + v) < 1 := by
  have hpos : 0 < 1 + v := by linarith
  exact ⟨div_nonneg hv hpos.le, (div_lt_one hpos).2 (by linarith)⟩

end main

end TouchDetection

namespace TouchDetection

namespace main

/-- The first loop of the component score stage: no access fails, and the
entry of every label holds the number of pixels with the label and a
non-negative incoherence when the eigenvalues of these pixels are
non-negative. -/
theorem cstats_pixel_loop {T : Type} [LinearOrderedField T] (img_lbl : image Nat)
    (img_pp : image T) (img_stev : image (vec2 T)) (N : Nat)
    (hsmall : prod img_pp.shape < 65536) (hlbl : ∀ i, img_lbl.get i ≤ N) :
    ∃ cs, (irange 0 (prod img_pp.shape)).foldl
        (fun (acc : Option (List (component_stats T))) i =>
          acc.bind (fun cstats => cstats_pixel img_lbl img_pp img_stev cstats i))
        (some (List.replicate N ⟨0, 0, 0, 0⟩)) = some cs ∧
      cs.length = N ∧
      ∀ l, 1 ≤ l → l ≤ N → ∃ s, cs[l - 1]? = some s ∧
        s.size = (irange 0 (prod img_pp.shape)).countP (fun i => decide (img_lbl.get i = l)) ∧
        ((∀ i, 0 ≤ i → i < prod img_pp.shape → img_lbl.get i = l →
          0 ≤ (img_stev.get i).x ∧ 0 ≤ (img_stev.get i).y) → 0 ≤ s.incoherence) := by
  have h := foldl_option_inv
    (fun (k : Nat) (cs : List (component_stats T)) => cs.length = N ∧
      ∀ l, 1 ≤ l → l ≤ N → ∃ s, cs[l - 1]? = some s ∧
        s.size = ((irange 0 (prod img_pp.shape)).take k).countP
          (fun i => decide (img_lbl.get i = l)) ∧
        ((∀ i, 0 ≤ i → i < prod img_pp.shape → img_lbl.get i = l →
          0 ≤ (img_stev.get i).x ∧ 0 ≤ (img_stev.get i).y) → 0 ≤ s.incoherence))
    (fun cstats i => cstats_pixel img_lbl img_pp img_stev cstats i)
    (irange 0 (prod img_pp.shape)) (List.replicate N ⟨0, 0, 0, 0⟩)
    (by
      refine ⟨List.length_replicate _ _, fun l h1 hN => ⟨⟨0, 0, 0, 0⟩, ?_, ?_, fun _ => le_rfl⟩⟩
      · rw [List.getElem?_replicate, if_pos (by omega)]
      · simp)
    (by
      intro k b cs hb ⟨hlen, hinv⟩
      obtain ⟨hbk, hbn⟩ := getElem?_irange hb
      have hk : (k : Int) < 65536 := by omega
      by_cases hz : img_lbl.get b = 0
      · refine ⟨cs, by unfold cstats_pixel; simp only [hz, if_true], hlen, ?_⟩
        intro l h1 hN
        obtain ⟨s, hs, hsize, hinc⟩ := hinv l h1 hN
        refine ⟨s, hs, ?_, hinc⟩
        rw [countP_take_succ _ _ k b hb, hsize]
        have : ¬ img_lbl.get b = l := by omega
        simp only [this, decide_False, Bool.false_eq_true, if_false, add_zero]
      · have hlt : img_lbl.get b - 1 < cs.length := by
          have := hlbl b
          omega
        refine ⟨_, by unfold cstats_pixel; simp only [hz, if_false]; exact vector_at_update_eq _ _ _ hlt,
          by rw [List.length_set]; exact hlen, ?_⟩
        intro l h1 hN
        obtain ⟨s, hs, hsize, hinc⟩ := hinv l h1 hN
        rw [countP_take_succ _ _ k b hb]
        by_cases hl : img_lbl.get b = l
        · subst hl
          have hs' : cs[img_lbl.get b - 1] = s := by
            rw [List.getElem?_eq_getElem hlt] at hs
            exact Option.some.inj hs
          refine ⟨_, by rw [List.getElem?_set_self hlt], ?_, ?_⟩
          · simp only [hs', decide_True, if_true]
            have hle : ((irange 0 (prod img_pp.shape)).take k).countP
                (fun i => decide (img_lbl.get i = img_lbl.get b)) ≤ k :=
              le_trans (List.countP_le_length _) (by rw [List.length_take]; exact Nat.min_le_left _ _)
            rw [hsize]
            exact Nat.mod_eq_of_lt (by omega)
          · intro hev
            simp only [hs']
            obtain ⟨e1, e2⟩ := hev b (by omega) (by omega) rfl
            exact add_nonneg (hinc hev) (incoherence_nonneg _ _ e1 e2)
        · refine ⟨s, ?_, ?_, hinc⟩
          · rw [List.getElem?_set_ne (by omega)]
            exact hs
          · simp only [hl, decide_False, Bool.false_eq_true, if_false, add_zero]
            exact hsize)
  obtain ⟨cs, hcs, hlen, hinv⟩ := h
  refine ⟨cs, hcs, hlen, ?_⟩
  intro l h1 hN
  obtain ⟨s, hs, hsize, hinc⟩ := hinv l h1 hN
  refine ⟨s, hs, ?_, hinc⟩
  rw [hsize, List.take_length]

/-- The loop over the maximas of the component score stage: no access fails
and only the field `maximas` of the entries changes. -/
theorem cstats_maxima_loop {T : Type} (img_lbl : image Nat) (maximas : List Int) (N : Nat)
    (hlbl : ∀ i, img_lbl.get i ≤ N) (cs : List (component_stats T)) (hlen : cs.length = N) :
    ∃ cs', maximas.foldl (fun (acc : Option (List (component_stats T))) m =>
        acc.bind (fun cstats => cstats_maxima img_lbl cstats m)) (some cs) = some cs' ∧
      cs'.length = N ∧
      ∀ (j : Nat) (s : component_stats T), cs[j]? = some s →
        ∃ s', cs'[j]? = some s' ∧ s'.size = s.size ∧ s'.incoherence = s.incoherence := by
  have h := foldl_option_inv
    (fun (_ : Nat) (cs' : List (component_stats T)) => cs'.length = N ∧
      ∀ (j : Nat) (s : component_stats T), cs[j]? = some s →
        ∃ s', cs'[j]? = some s' ∧ s'.size = s.size ∧ s'.incoherence = s.incoherence)
    (fun cstats m => cstats_maxima img_lbl cstats m) maximas cs
    ⟨hlen, fun j s hs => ⟨s, hs, rfl, rfl⟩⟩
    (by
      intro k m cs1 _ ⟨hlen1, hinv⟩
      by_cases hz : img_lbl.get m > 0
      · have hlt : img_lbl.get m - 1 < cs1.length := by
          have := hlbl m
          omega
        refine ⟨_, by beta_reduce; unfold cstats_maxima; rw [if_pos hz]; exact vector_at_update_eq _ _ _ hlt,
          by rw [List.length_set]; exact hlen1, ?_⟩
        intro j s hs
        obtain ⟨s1, hs1, h1, h2⟩ := hinv j s hs
        by_cases hj : img_lbl.get m - 1 = j
        · subst hj
          have e : cs1[img_lbl.get m - 1] = s1 := by
            rw [List.getElem?_eq_getElem hlt] at hs1
            exact Option.some.inj hs1
          exact ⟨_, by rw [List.getElem?_set_self hlt], by simp only [e]; exact h1,
            by simp only [e]; exact h2⟩
        · exact ⟨s1, by rw [List.getElem?_set_ne hj]; exact hs1, h1, h2⟩
      · exact ⟨cs1, by beta_reduce; unfold cstats_maxima; rw [if_neg hz], hlen1, hinv⟩)
  obtain ⟨cs', h1, h2, h3⟩ := h
  exact ⟨cs', h1, h2, h3⟩

/-- The last loop of the component score stage: no access fails and the
entry `i` of `cscore` is the score of the entry `i` of `cstats`. -/
theorem cscore_loop {T : Type} [Field T] (cstats : List (component_stats T)) (N : Nat)
    (hlen : cstats.length = N) :
    ∃ cscore, (List.range N).foldl (fun (acc : Option (List T)) (i : Nat) =>
        acc.bind (fun cscore =>
          match cstats[i]? with
          | some stats => vector_at_update cscore i (fun _ => cscore_of stats)
          | none => none)) (some (List.replicate N 0)) = some cscore ∧
      cscore.length = N ∧
      ∀ (j : Nat) (s : component_stats T), cstats[j]? = some s →
        cscore[j]? = some (cscore_of s) := by
  have h := foldl_option_inv
    (fun (k : Nat) (cscore : List T) => cscore.length = N ∧
      ∀ (j : Nat) (s : component_stats T), j < k → cstats[j]? = some s →
        cscore[j]? = some (cscore_of s))
    (fun cscore (i : Nat) =>
      match cstats[i]? with
      | some stats => vector_at_update cscore i (fun _ => cscore_of stats)
      | none => none)
    (List.range N) (List.replicate N 0)
    ⟨List.length_replicate _ _, fun j s hj _ => by omega⟩
    (by
      intro k b cscore hb ⟨hlen1, hinv⟩
      obtain ⟨hkN, hbk⟩ := List.getElem?_eq_some_iff.1 hb
      simp only [List.length_range] at hkN
      simp only [List.getElem_range] at hbk
      subst hbk
      have hlt : k < cstats.length := by omega
      have hlt1 : k < cscore.length := by omega
      refine ⟨cscore.set k (cscore_of cstats[k]), ?_, by rw [List.length_set]; exact hlen1, ?_⟩
      · simp only [List.getElem?_eq_getElem hlt]
        exact vector_at_update_eq _ _ _ hlt1
      · intro j s hj hs
        by_cases hjk : k = j
        · subst hjk
          rw [List.getElem?_eq_getElem hlt] at hs
          rw [List.getElem?_set_self hlt1, Option.some.inj hs]
        · rw [List.getElem?_set_ne hjk]
          exact hinv j s (by omega) hs)
  obtain ⟨cscore, h1, h2, h3⟩ := h
  refine ⟨cscore, h1, h2, ?_⟩
  intro j s hs
  have hj : j < cstats.length := (List.getElem?_eq_some_iff.1 hs).1
  exact h3 j s (by rw [List.length_range]; omega) hs

end main

end TouchDetection

namespace TouchDetection

namespace main

/-- Claim C16: for a frame of fewer than `2^16` pixels (the buffers of
`main` have 72 x 48 pixels) whose labels lie in `[0, num_labels]`, the
component score stage yields a `cscore` of exactly `num_labels` entries; for
every label `l` in `[1, num_labels]` the entry `cstats[l-1].size` is the
number of pixels with label `l` and `cscore[l-1] = v / (1 + v)` with
`v = 100 * incoherence / size^2 * (maximas > 0 ? 1 / maximas : 0)`; when the
component has size at least 1 and its pixels have non-negative
structure-tensor eigenvalues, `0 <= cscore[l-1] < 1`. -/
theorem component_score_range {T : Type} [LinearOrderedField T] (img_lbl : image Nat)
    (img_pp : image T) (img_stev : image (vec2 T)) (maximas : List Int) (num_labels : Nat)
    (hsmall : prod img_pp.shape < 65536) (hlbl : ∀ i, img_lbl.get i ≤ num_labels) :
    ∃ cstats cscore,
      component_score img_lbl img_pp img_stev maximas num_labels = some (cstats, cscore) ∧
      cscore.length = num_labels ∧
      ∀ l, 1 ≤ l → l ≤ num_labels → ∃ (s : component_stats T) (v : T),
        cstats[l - 1]? = some s ∧
        s.size = (irange 0 (prod img_pp.shape)).countP (fun i => decide (img_lbl.get i = l)) ∧
        v = 100 * s.incoherence / (s.size : T) ^ 2 *
          (if s.maximas > 0 then 1 / (s.maximas : T) else 0) ∧
        cscore[l - 1]? = some (v / (1 + v)) ∧
        (1 ≤ s.size →
          (∀ i, 0 ≤ i → i < prod img_pp.shape → img_lbl.get i = l →
            0 ≤ (img_stev.get i).x ∧ 0 ≤ (img_stev.get i).y) →
          0 ≤ v / (1 + v) ∧ v / (1 + v) < 1) := by
  obtain ⟨cs1, hcs1, hlen1, hinv1⟩ :=
    cstats_pixel_loop img_lbl img_pp img_stev num_labels hsmall hlbl
  obtain ⟨cs2, hcs2, hlen2, hinv2⟩ :=
    @cstats_maxima_loop T img_lbl maximas num_labels hlbl cs1 hlen1
  obtain ⟨cscore, hsc, hlen3, hinv3⟩ := cscore_loop cs2 num_labels hlen2
  refine ⟨cs2, cscore, ?_, hlen3, ?_⟩
  · unfold component_score
    simp only [hcs1, hcs2]
    show Option.map _ _ = _
    rw [hsc]
    rfl
  · intro l h1 hN
    obtain ⟨s1, hs1, hsize1, hinc1⟩ := hinv1 l h1 hN
    obtain ⟨s, hs, hsize, hinc⟩ := hinv2 (l - 1) s1 hs1
    have hcount : s.size < 65536 := by
      rw [hsize, hsize1]
      have h := @List.countP_le_length Int (fun i => decide (img_lbl.get i = l))
        (irange 0 (prod img_pp.shape))
      have hl : (irange 0 (prod img_pp.shape)).length = (prod img_pp.shape).toNat := by
        simp [irange]
      omega
    have hmod : (s.size * s.size) % 2 ^ 32 = s.size * s.size := by
      apply Nat.mod_eq_of_lt
      have : s.size * s.size ≤ 65535 * 65535 := Nat.mul_le_mul (by omega) (by omega)
      omega
    have hv : cscore_of s =
        100 * s.incoherence / (s.size : T) ^ 2 *
            (if s.maximas > 0 then 1 / (s.maximas : T) else 0) /
          (1 + 100 * s.incoherence / (s.size : T) ^ 2 *
            (if s.maximas > 0 then 1 / (s.maximas : T) else 0)) := by
      unfold cscore_of
      simp only [hmod, Nat.cast_mul, sq, mul_div_assoc]
    refine ⟨s, _, hs, by rw [hsize, hsize1], rfl, by rw [hinv3 (l - 1) s hs, hv], ?_⟩
    intro _ hev
    apply squash_range
    have hi : 0 ≤ s.incoherence := by rw [hinc]; exact hinc1 hev
    have hm : (0 : T) ≤ (if s.maximas > 0 then 1 / (s.maximas : T) else 0) := by
      split
      · exact div_nonneg zero_le_one (Nat.cast_nonneg _)
      · exact le_rfl
    exact mul_nonneg (div_nonneg (mul_nonneg (by norm_num) hi) (sq_nonneg _)) hm

/-- Witness of `component_score_range`: a 2 x 1 frame with one component
of two pixels and one maximum. -/
theorem component_score_range_witness :
    ∃ cstats cscore,
      component_score (⟨⟨2, 1⟩, [1, 1]⟩ : image Nat) (⟨⟨2, 1⟩, [1, 2]⟩ : image ℚ)
        (⟨⟨2, 1⟩, [⟨3, 1⟩, ⟨1, 1⟩]⟩ : image (vec2 ℚ)) [1] 1 = some (cstats, cscore) ∧
      cscore.length = 1 ∧
      ∀ l, 1 ≤ l → l ≤ 1 → ∃ (s : component_stats ℚ) (v : ℚ),
        cstats[l - 1]? = some s ∧
        s.size = (irange 0 (prod (⟨⟨2, 1⟩, [1, 2]⟩ : image ℚ).shape)).countP
          (fun i => decide ((⟨⟨2, 1⟩, [1, 1]⟩ : image Nat).get i = l)) ∧
        v = 100 * s.incoherence / (s.size : ℚ) ^ 2 *
          (if s.maximas > 0 then 1 / (s.maximas : ℚ) else 0) ∧
        cscore[l - 1]? = some (v / (1 + v)) ∧
        (1 ≤ s.size →
          (∀ i, 0 ≤ i → i < prod (⟨⟨2, 1⟩, [1, 2]⟩ : image ℚ).shape →
            (⟨⟨2, 1⟩, [1, 1]⟩ : image Nat).get i = l →
            0 ≤ ((⟨⟨2, 1⟩, [⟨3, 1⟩, ⟨1, 1⟩]⟩ : image (vec2 ℚ)).get i).x ∧
            0 ≤ ((⟨⟨2, 1⟩, [⟨3, 1⟩, ⟨1, 1⟩]⟩ : image (vec2 ℚ)).get i).y) →
          0 ≤ v / (1 + v) ∧ v / (1 + v) < 1) :=
  component_score_range (⟨⟨2, 1⟩, [1, 1]⟩ : image Nat) (⟨⟨2, 1⟩, [1, 2]⟩ : image ℚ)
    (⟨⟨2, 1⟩, [⟨3, 1⟩, ⟨1, 1⟩]⟩ : image (vec2 ℚ)) [1] 1 (by decide) (by
      intro i
      unfold image.get
      split
      · rw [List.getD_eq_getElem?_getD]
        rcases h : i.toNat with _ | _ | n
        · simp
        · simp
        · simp
      · exact Nat.zero_le _)

end main

end TouchDetection

namespace TouchDetection

namespace main

/-- Claim C17: the threshold 0.6 partitions the labelled pixels between the
two distance transforms: at a pixel with label 0 neither `wdt_inc_bin` nor
`wdt_exc_bin` holds; at a pixel with a label in `[1, cscore.size()]` exactly
one of them holds, `wdt_inc_bin` when the score of the label exceeds 0.6 and
`wdt_exc_bin` otherwise; and at a pixel where `wdt_mask` holds neither seed
predicate holds. -/
theorem wdt_partition {T : Type} [LinearOrderedField T] (img_pp : image T)
    (img_lbl : image Nat) (cscore : List T) (i : Int) :
    (img_lbl.get i = 0 →
      wdt_inc_bin img_lbl cscore i = some false ∧ wdt_exc_bin img_lbl cscore i = some false) ∧
    (img_lbl.get i > 0 → img_lbl.get i ≤ cscore.length →
      ∃ c, cscore[img_lbl.get i - 1]? = some c ∧
        wdt_inc_bin img_lbl cscore i = some (decide (c > 6 / 10)) ∧
        wdt_exc_bin img_lbl cscore i = some (decide (c ≤ 6 / 10)) ∧
        ((wdt_inc_bin img_lbl cscore i = some true ∧ wdt_exc_bin img_lbl cscore i = some false) ∨
         (wdt_inc_bin img_lbl cscore i = some false ∧
          wdt_exc_bin img_lbl cscore i = some true))) ∧
    (wdt_mask img_pp img_lbl i = true →
      img_lbl.get i = 0 ∧ wdt_inc_bin img_lbl cscore i = some false ∧
        wdt_exc_bin img_lbl cscore i = some false) := by
  have hzero : img_lbl.get i = 0 →
      wdt_inc_bin img_lbl cscore i = some false ∧ wdt_exc_bin img_lbl cscore i = some false := by
    intro h
    unfold wdt_inc_bin wdt_exc_bin
    simp only [h, gt_iff_lt, lt_self_iff_false, if_false, and_self]
  refine ⟨hzero, ?_, ?_⟩
  · intro hpos hle
    have hlt : img_lbl.get i - 1 < cscore.length := by omega
    refine ⟨cscore[img_lbl.get i - 1], List.getElem?_eq_getElem hlt, ?_⟩
    have hi : wdt_inc_bin img_lbl cscore i =
        some (decide (cscore[img_lbl.get i - 1] > 6 / 10)) := by
      unfold wdt_inc_bin th_inc
      rw [if_pos hpos, List.getElem?_eq_getElem hlt]
      rfl
    have he : wdt_exc_bin img_lbl cscore i =
        some (decide (cscore[img_lbl.get i - 1] ≤ 6 / 10)) := by
      unfold wdt_exc_bin th_inc
      rw [if_pos hpos, List.getElem?_eq_getElem hlt]
      rfl
    refine ⟨hi, he, ?_⟩
    rw [hi, he]
    by_cases hc : cscore[img_lbl.get i - 1] > 6 / 10
    · left
      have hc' : ¬ cscore[img_lbl.get i - 1] ≤ 6 / 10 := not_le.2 hc
      simp only [hc, hc', decide_True, decide_False, and_self]
    · right
      have hc' : cscore[img_lbl.get i - 1] ≤ 6 / 10 := not_lt.1 hc
      simp only [hc, hc', decide_True, decide_False, and_self]
  · intro hm
    unfold wdt_mask at hm
    simp only [Bool.and_eq_true, decide_eq_true_eq] at hm
    exact ⟨hm.2, hzero hm.2⟩

end main

end TouchDetection

namespace TouchDetection

/-- The image `parser::on_heatmap` appends: its shape is the latched
dimension and the element at the position of a payload byte `v` holds
`1 - (v - z_min) / (z_max - z_min)`. -/
theorem parser.on_heatmap_get {T : Type} [Field T] (p : parser T) (data : List Nat) :
    ∃ img : image T, (p.on_heatmap data).m_data = p.m_data ++ [img] ∧
      (p.on_heatmap data).m_dim = p.m_dim ∧
      img.shape = ⟨(p.m_dim.width : Int), (p.m_dim.height : Int)⟩ ∧
      ∀ (i v : Nat), data[i]? = some v → i < p.m_dim.width * p.m_dim.height →
        img.get (i : Int) =
          1 - (((v : Int) - (p.m_dim.z_min : Int) : Int) : T) /
            ((((p.m_dim.z_max : Int) - (p.m_dim.z_min : Int) : Int)) : T) := by
  refine ⟨_, rfl, rfl, ?_, ?_⟩
  · exact (image.foldl_set_linear _ _ _).1
  · intro i v hv hi
    obtain ⟨hlt, hget⟩ := List.getElem?_eq_some_iff.1 hv
    have h := (image.foldl_set_linear
      (image.const ⟨(p.m_dim.width : Int), (p.m_dim.height : Int)⟩ (0 : T)) (data.length : Int)
      (fun (i : Int) => 1 - ((((data.getD i.toNat 0 : Nat) : Int) - (p.m_dim.z_min : Int) : Int) : T) /
        ((((p.m_dim.z_max : Int) - (p.m_dim.z_min : Int) : Int)) : T))).2.2 (i : Int)
      (by omega) (by omega) (by
        simp only [image.const, List.length_replicate, Int.toNat_natCast]
        have : ((p.m_dim.width : Int) * (p.m_dim.height : Int)).toNat =
            p.m_dim.width * p.m_dim.height := by
          rw [← Nat.cast_mul, Int.toNat_natCast]
        omega)
    simp only [Int.toNat_natCast] at h
    rw [List.getD_eq_getElem?_getD, hv, Option.getD_some] at h
    exact h

/-- Claim C18: for every latched dimension with `z_min < z_max` and every
payload byte `v`, `on_heatmap` appends an image of the latched shape that
holds `1 - (v - z_min) / (z_max - z_min)` at the position of the byte, the
difference being a difference of integers; for `z_min <= v <= z_max` the
stored value lies in `[0, 1]`, `v = z_min` is mapped to 1 and `v = z_max`
to 0. -/
theorem parser.on_heatmap_normalised {T : Type} [LinearOrderedField T] (p : parser T)
    (dim : ipts_heatmap_dim) (data : List Nat) (hz : dim.z_min < dim.z_max) :
    ∃ img : image T, ((p.on_heatmap_dim dim).on_heatmap data).m_data = p.m_data ++ [img] ∧
      img.shape = ⟨(dim.width : Int), (dim.height : Int)⟩ ∧
      ∀ (i v : Nat), data[i]? = some v → i < dim.width * dim.height →
        img.get (i : Int) = 1 - ((v : T) - (dim.z_min : T)) / ((dim.z_max : T) - (dim.z_min : T)) ∧
        (dim.z_min ≤ v → v ≤ dim.z_max → 0 ≤ img.get (i : Int) ∧ img.get (i : Int) ≤ 1) ∧
        (v = dim.z_min → img.get (i : Int) = 1) ∧
        (v = dim.z_max → img.get (i : Int) = 0) := by
  obtain ⟨img, hdata, -, hshape, hget⟩ := parser.on_heatmap_get (p.on_heatmap_dim dim) data
  refine ⟨img, hdata, hshape, ?_⟩
  intro i v hv hi
  have hval := hget i v hv hi
  simp only [parser.on_heatmap_dim] at hval
  push_cast at hval
  have hpos : (0 : T) < (dim.z_max : T) - (dim.z_min : T) := by
    have : (dim.z_min : T) < (dim.z_max : T) := by exact_mod_cast hz
    linarith
  refine ⟨hval, ?_, ?_, ?_⟩
  · intro h1 h2
    have h1' : (dim.z_min : T) ≤ (v : T) := by exact_mod_cast h1
    have h2' : (v : T) ≤ (dim.z_max : T) := by exact_mod_cast h2
    rw [hval]
    constructor
    · rw [sub_nonneg, div_le_one hpos]
      linarith
    · have : 0 ≤ ((v : T) - (dim.z_min : T)) / ((dim.z_max : T) - (dim.z_min : T)) :=
        div_nonneg (by linarith) hpos.le
      linarith
  · intro h
    rw [hval, h, sub_self, zero_div, sub_zero]
  · intro h
    rw [hval, h, div_self (ne_of_gt hpos), sub_self]

/-- Witness of `parser.on_heatmap_normalised`: the dimension
`(3, 1, 10, 210)` and the payload `(10, 110, 210)`. -/
theorem parser.on_heatmap_normalised_witness :
    ∃ img : image ℚ,
      (((⟨[], ⟨0, 0, 0, 0⟩⟩ : parser ℚ).on_heatmap_dim ⟨3, 1, 10, 210⟩).on_heatmap
        [10, 110, 210]).m_data = [] ++ [img] ∧
      img.shape = ⟨((3 : Nat) : Int), ((1 : Nat) : Int)⟩ ∧
      ∀ (i v : Nat), [10, 110, 210][i]? = some v → i < 3 * 1 →
        img.get (i : Int) = 1 - ((v : ℚ) - ((10 : Nat) : ℚ)) / (((210 : Nat) : ℚ) - ((10 : Nat) : ℚ)) ∧
        (10 ≤ v → v ≤ 210 → 0 ≤ img.get (i : Int) ∧ img.get (i : Int) ≤ 1) ∧
        (v = 10 → img.get (i : Int) = 1) ∧
        (v = 210 → img.get (i : Int) = 0) :=
  parser.on_heatmap_normalised (⟨[], ⟨0, 0, 0, 0⟩⟩ : parser ℚ) ⟨3, 1, 10, 210⟩ [10, 110, 210]
    (by decide)

end TouchDetection

namespace TouchDetection

namespace main

theorem filter_weight_top {T : Type} [Field T] (exp : T → T) (sigma : T) :
    filter_weight exp sigma ⊤ = 0 := rfl

theorem filter_weight_coe {T : Type} [Field T] (exp : T → T) (sigma a : T) :
    filter_weight exp sigma (a : WithTop T) = exp (-(a / sigma) * (a / sigma)) := rfl

theorem filter_weight_nonneg (d : WithTop ℝ) : 0 ≤ filter_weight Real.exp 1 d := by
  cases d with
  | top => exact le_of_eq (filter_weight_top Real.exp 1).symm
  | coe a => rw [filter_weight_coe]; exact (Real.exp_pos _).le

/-- Claim C19: the filter stage writes `img_flt[i] = img_pp[i] * w` with
`w = w_in / (w_in + w_ex)` when `w_in + w_ex > 0` and `w = 0` otherwise,
where `w_in = exp(-d_in^2)`, `w_ex = exp(-d_ex^2)` and an infinite distance
gives the weight 0; `w` lies in `[0, 1]`, and for finite non-negative
distances `w < 1/2` exactly when `d_ex < d_in`. -/
theorem filter_soft (img_flt img_pp : image ℝ) (img_dm1 img_dm2 : image (WithTop ℝ)) (i : Int)
    (h0 : 0 ≤ i) (hi : i < prod img_pp.shape) (hlen : i.toNat < img_flt.data.length) :
    (filter Real.exp img_flt img_pp img_dm1 img_dm2).get i =
      img_pp.get i * filter_w Real.exp (img_dm1.get i) (img_dm2.get i) ∧
    (∀ d_in d_ex : WithTop ℝ, filter_w Real.exp d_in d_ex =
      if filter_weight Real.exp 1 d_in + filter_weight Real.exp 1 d_ex > 0 then
        filter_weight Real.exp 1 d_in /
          (filter_weight Real.exp 1 d_in + filter_weight Real.exp 1 d_ex)
      else 0) ∧
    filter_weight Real.exp 1 ⊤ = 0 ∧
    (∀ a : ℝ, filter_weight Real.exp 1 (a : WithTop ℝ) = Real.exp (-a ^ 2)) ∧
    (∀ d_in d_ex : WithTop ℝ, 0 ≤ filter_w Real.exp d_in d_ex ∧
      filter_w Real.exp d_in d_ex ≤ 1) ∧
    (∀ a b : ℝ, 0 ≤ a → 0 ≤ b →
      (filter_w Real.exp (a : WithTop ℝ) (b : WithTop ℝ) < 1 / 2 ↔ b < a)) := by
  have hW : ∀ a : ℝ, filter_weight Real.exp 1 (a : WithTop ℝ) = Real.exp (-a ^ 2) := by
    intro a
    rw [filter_weight_coe]
    congr 1
    ring
  refine ⟨?_, fun _ _ => rfl, rfl, hW, ?_, ?_⟩
  · exact (image.foldl_set_linear img_flt (prod img_pp.shape)
      (fun i => img_pp.get i * filter_w Real.exp (img_dm1.get i) (img_dm2.get i))).2.2 i h0 hi hlen
  · intro d_in d_ex
    have h1 := filter_weight_nonneg d_in
    have h2 := filter_weight_nonneg d_ex
    unfold filter_w
    simp only
    split
    · next hpos =>
      exact ⟨div_nonneg h1 hpos.le, (div_le_one hpos).2 (by linarith)⟩
    · exact ⟨le_rfl, zero_le_one⟩
  · intro a b ha hb
    have hpa := Real.exp_pos (-a ^ 2)
    have hpb := Real.exp_pos (-b ^ 2)
    unfold filter_w
    simp only [hW]
    rw [if_pos (by linarith), div_lt_iff₀ (by linarith)]
    constructor
    · intro h
      have h' : Real.exp (-a ^ 2) < Real.exp (-b ^ 2) := by linarith
      rw [Real.exp_lt_exp] at h'
      have h'' : b ^ 2 < a ^ 2 := by linarith
      exact lt_of_pow_lt_pow_left₀ 2 ha h''
    · intro h
      have h' : b ^ 2 < a ^ 2 := pow_lt_pow_left₀ h hb (by norm_num)
      have h'' : Real.exp (-a ^ 2) < Real.exp (-b ^ 2) := Real.exp_lt_exp.2 (by linarith)
      linarith

/-- Witness of `filter_soft`: a single pixel at distance 2 from the included
and 1 from the excluded components. -/
theorem filter_soft_witness :
    (filter Real.exp (image.const ⟨1, 1⟩ 0) (image.const ⟨1, 1⟩ 1)
      (image.const ⟨1, 1⟩ ((2 : ℝ) : WithTop ℝ))
      (image.const ⟨1, 1⟩ ((1 : ℝ) : WithTop ℝ))).get 0 =
    (image.const ⟨1, 1⟩ (1 : ℝ)).get 0 * filter_w Real.exp
      ((image.const ⟨1, 1⟩ ((2 : ℝ) : WithTop ℝ)).get 0)
      ((image.const ⟨1, 1⟩ ((1 : ℝ) : WithTop ℝ)).get 0) :=
  (filter_soft (image.const ⟨1, 1⟩ 0) (image.const ⟨1, 1⟩ 1)
    (image.const ⟨1, 1⟩ ((2 : ℝ) : WithTop ℝ))
    (image.const ⟨1, 1⟩ ((1 : ℝ) : WithTop ℝ)) 0 (by decide) (by decide) (by decide)).1

end main

end TouchDetection

namespace TouchDetection

theorem mat2s.add_def {T : Type} [Add T] (a b : mat2s T) :
    a + b = ⟨a.xx + b.xx, a.xy + b.xy, a.yy + b.yy⟩ := rfl

theorem mat2s.zero_def {T : Type} [Zero T] : (0 : mat2s T) = ⟨0, 0, 0⟩ := rfl

theorem mat2s.hmul_def {T : Type} [Mul T] (a : mat2s T) (s : T) :
    a * s = ⟨a.xx * s, a.xy * s, a.yy * s⟩ := rfl

/-- The quadratic form of a sum of matrices is the sum of the quadratic
forms. -/
theorem xtmx_sum {T : Type} [CommRing T] {ι : Type} (s : Finset ι) (f : ι → mat2s T)
    (v : vec2 T) : xtmx (∑ i ∈ s, f i) v = ∑ i ∈ s, xtmx (f i) v := by
  classical
  induction s using Finset.induction_on with
  | empty =>
    simp only [Finset.sum_empty, mat2s.zero_def, xtmx]
    ring
  | insert hi ih =>
    rw [Finset.sum_insert hi, Finset.sum_insert hi, ← ih, mat2s.add_def]
    simp only [xtmx]
    ring

/-- A symmetric matrix with a non-negative quadratic form has
`t^2 - 4 d >= 0` and non-negative eigenvalues. -/
theorem eigenvalues_nonneg_of_psd (m : mat2s ℝ) (h : ∀ v : vec2 ℝ, 0 ≤ xtmx m v) :
    0 ≤ (m.xx + m.yy) * (m.xx + m.yy) - 4 * det m ∧
    0 ≤ (eigenvalues Real.sqrt m).1 ∧ 0 ≤ (eigenvalues Real.sqrt m).2 := by
  have hxx : 0 ≤ m.xx := by
    have := h ⟨1, 0⟩
    simp only [xtmx] at this
    linarith
  have hyy : 0 ≤ m.yy := by
    have := h ⟨0, 1⟩
    simp only [xtmx] at this
    linarith
  have hdet : 0 ≤ det m := by
    unfold det
    by_contra hneg
    rw [not_le] at hneg
    have h1 := h ⟨m.yy, -m.xy⟩
    have h2 := h ⟨m.xy, -(m.xx + 1)⟩
    simp only [xtmx] at h1 h2
    rcases eq_or_lt_of_le hyy with h0 | hpos
    · rw [← h0] at hneg h2
      have hxy : 0 < m.xy * m.xy := by linarith
      nlinarith [mul_nonneg hxx hxy.le]
    · have : 0 ≤ m.yy * (m.xx * m.yy - m.xy * m.xy) := by nlinarith
      nlinarith
  have hdisc : 0 ≤ (m.xx + m.yy) * (m.xx + m.yy) - 4 * det m := by
    unfold det
    nlinarith [sq_nonneg (m.xx - m.yy), sq_nonneg m.xy]
  refine ⟨hdisc, ?_, ?_⟩
  · unfold eigenvalues
    simp only
    have := Real.sqrt_nonneg ((m.xx + m.yy) * (m.xx + m.yy) - 4 * det m)
    linarith
  · unfold eigenvalues
    simp only
    have hs : Real.sqrt ((m.xx + m.yy) * (m.xx + m.yy) - 4 * det m) ≤ m.xx + m.yy := by
      rw [Real.sqrt_le_iff]
      exact ⟨by linarith, by nlinarith⟩
    linarith

/-- The entries of the kernel of `kernels::gaussian` are non-negative. -/
theorem gaussian_entry_nonneg (Nx Ny : Nat) (sigma : ℝ) (i j : Nat) (hi : i < Nx) (hj : j < Ny) :
    0 ≤ (kernels.gaussian Real.exp (l2norm Real.sqrt) Nx Ny sigma).get2 ⟨i, j⟩ := by
  have h := gaussian_spec Real.exp (l2norm Real.sqrt) Nx Ny sigma
  simp only at h
  rw [h i j hi hj]
  exact div_nonneg (Real.exp_pos _).le
    (Finset.sum_nonneg (fun _ _ => Finset.sum_nonneg (fun _ _ => (Real.exp_pos _).le)))

/-- Every read of the output of `structure_tensor_prep` through the extend
border is an outer product `{gx^2, gx gy, gy^2}`. -/
theorem structure_tensor_prep_form {T : Type} [Field T] (out : image (mat2s T)) (inp : image T)
    (hw : 0 < out.shape.x) (hh : 0 < out.shape.y) (q : index2) :
    ∃ gx gy : T, (border.extend : border (mat2s T)).value (structure_tensor_prep out inp) q =
      ⟨gx * gx, gx * gy, gy * gy⟩ := by
  have h1 := @clamp_mem q.x 0 (out.shape.x - 1) (by omega)
  have h2 := @clamp_mem q.y 0 (out.shape.y - 1) (by omega)
  have hin : image.inside out.shape
      ⟨clamp q.x 0 (out.shape.x - 1), clamp q.y 0 (out.shape.y - 1)⟩ := by
    refine ⟨?_, ?_, ?_, ?_⟩ <;> simp only <;> omega
  have e := image.get2_ofFn out.shape (fun x y =>
    (⟨(impl.conv_generic border.extend (image.const inp.shape (0 : T)) inp
          (kernels.sobel3_x : kernel T 3 3)).get2 ⟨x, y⟩ *
        (impl.conv_generic border.extend (image.const inp.shape (0 : T)) inp
          (kernels.sobel3_x : kernel T 3 3)).get2 ⟨x, y⟩,
      (impl.conv_generic border.extend (image.const inp.shape (0 : T)) inp
          (kernels.sobel3_x : kernel T 3 3)).get2 ⟨x, y⟩ *
        (impl.conv_generic border.extend (image.const inp.shape (0 : T)) inp
          (kernels.sobel3_y : kernel T 3 3)).get2 ⟨x, y⟩,
      (impl.conv_generic border.extend (image.const inp.shape (0 : T)) inp
          (kernels.sobel3_y : kernel T 3 3)).get2 ⟨x, y⟩ *
        (impl.conv_generic border.extend (image.const inp.shape (0 : T)) inp
          (kernels.sobel3_y : kernel T 3 3)).get2 ⟨x, y⟩⟩ : mat2s T))
    ⟨clamp q.x 0 (out.shape.x - 1), clamp q.y 0 (out.shape.y - 1)⟩ hin
  exact ⟨_, _, e⟩

/-- Claim C20: every pixel of the blurred structure tensor (the per-pixel
outer products `{Gx^2, Gx Gy, Gy^2}` convolved with the kernel of
`kernels::gaussian`, extend border) is positive semi-definite, so with
`t = xx + yy` and `d = xx yy - xy^2` the discriminant `t^2 - 4 d` is
non-negative and both eigenvalues `(t ± sqrt(t^2 - 4 d)) / 2` are
non-negative (exact arithmetic). -/
theorem structure_tensor_psd (inp : image ℝ) (out1 out2 : image (mat2s ℝ)) (Nx Ny : Nat)
    (sigma : ℝ) (hshape : out2.shape = out1.shape) (ha : out2.allocated) (p : index2)
    (hp : image.inside out1.shape p) :
    (∀ v : vec2 ℝ, 0 ≤ xtmx ((impl.conv_generic border.extend out2
      (structure_tensor_prep out1 inp)
      (kernels.gaussian Real.exp (l2norm Real.sqrt) Nx Ny sigma)).get2 p) v) ∧
    0 ≤ (((impl.conv_generic border.extend out2 (structure_tensor_prep out1 inp)
        (kernels.gaussian Real.exp (l2norm Real.sqrt) Nx Ny sigma)).get2 p).xx +
      ((impl.conv_generic border.extend out2 (structure_tensor_prep out1 inp)
        (kernels.gaussian Real.exp (l2norm Real.sqrt) Nx Ny sigma)).get2 p).yy) *
      (((impl.conv_generic border.extend out2 (structure_tensor_prep out1 inp)
        (kernels.gaussian Real.exp (l2norm Real.sqrt) Nx Ny sigma)).get2 p).xx +
      ((impl.conv_generic border.extend out2 (structure_tensor_prep out1 inp)
        (kernels.gaussian Real.exp (l2norm Real.sqrt) Nx Ny sigma)).get2 p).yy) -
      4 * det ((impl.conv_generic border.extend out2 (structure_tensor_prep out1 inp)
        (kernels.gaussian Real.exp (l2norm Real.sqrt) Nx Ny sigma)).get2 p) ∧
    0 ≤ (eigenvalues Real.sqrt ((impl.conv_generic border.extend out2
      (structure_tensor_prep out1 inp)
      (kernels.gaussian Real.exp (l2norm Real.sqrt) Nx Ny sigma)).get2 p)).1 ∧
    0 ≤ (eigenvalues Real.sqrt ((impl.conv_generic border.extend out2
      (structure_tensor_prep out1 inp)
      (kernels.gaussian Real.exp (l2norm Real.sqrt) Nx Ny sigma)).get2 p)).2 := by
  have hw : 0 < out1.shape.x := by have := hp.1; have := hp.2.1; omega
  have hh : 0 < out1.shape.y := by have := hp.2.2.1; have := hp.2.2.2; omega
  have hpsd : ∀ v : vec2 ℝ, 0 ≤ xtmx ((impl.conv_generic border.extend out2
      (structure_tensor_prep out1 inp)
      (kernels.gaussian Real.exp (l2norm Real.sqrt) Nx Ny sigma)).get2 p) v := by
    intro v
    have hspec := (impl.conv_generic_spec border.extend out2 (structure_tensor_prep out1 inp)
      (kernels.gaussian Real.exp (l2norm Real.sqrt) Nx Ny sigma) hshape ha).2 p hp
    rw [hspec, xtmx_sum]
    apply Finset.sum_nonneg
    intro ix hix
    rw [xtmx_sum]
    apply Finset.sum_nonneg
    intro iy hiy
    obtain ⟨gx, gy, hg⟩ := structure_tensor_prep_form out1 inp hw hh
      ⟨p.x - impl.half Nx + ix, p.y - impl.half Ny + iy⟩
    have hk := gaussian_entry_nonneg Nx Ny sigma ix iy (Finset.mem_range.1 hix)
      (Finset.mem_range.1 hiy)
    rw [hg, mat2s.hmul_def]
    simp only [xtmx]
    have e : gx * gx * (kernels.gaussian Real.exp (l2norm Real.sqrt) Nx Ny sigma).get2
          ⟨(ix : Int), (iy : Int)⟩ * v.x * v.x +
        2 * (gx * gy * (kernels.gaussian Real.exp (l2norm Real.sqrt) Nx Ny sigma).get2
          ⟨(ix : Int), (iy : Int)⟩) * v.x * v.y +
        gy * gy * (kernels.gaussian Real.exp (l2norm Real.sqrt) Nx Ny sigma).get2
          ⟨(ix : Int), (iy : Int)⟩ * v.y * v.y =
        (kernels.gaussian Real.exp (l2norm Real.sqrt) Nx Ny sigma).get2
          ⟨(ix : Int), (iy : Int)⟩ * (gx * v.x + gy * v.y) ^ 2 := by ring
    rw [e]
    exact mul_nonneg hk (sq_nonneg _)
  exact ⟨hpsd, eigenvalues_nonneg_of_psd _ hpsd⟩

/-- Witness of `structure_tensor_psd`: a 3x3 image, the 5x5 kernel of
`sigma = 1` of the pipeline and the pixel `(1, 1)`. -/
theorem structure_tensor_psd_witness :
    0 ≤ (eigenvalues Real.sqrt ((impl.conv_generic border.extend (image.const ⟨3, 3⟩ 0)
      (structure_tensor_prep (image.const ⟨3, 3⟩ 0) (image.const ⟨3, 3⟩ (1 : ℝ)))
      (kernels.gaussian Real.exp (l2norm Real.sqrt) 5 5 1)).get2 ⟨1, 1⟩)).2 :=
  (structure_tensor_psd (image.const ⟨3, 3⟩ (1 : ℝ)) (image.const ⟨3, 3⟩ 0)
    (image.const ⟨3, 3⟩ 0) 5 5 1 rfl (image.allocated_const _ _ (by decide) (by decide)) ⟨1, 1⟩
    ⟨by decide, by decide, by decide, by decide⟩).2.2.2

end TouchDetection

namespace TouchDetection

namespace gfit

/-- The system `assemble_system` builds depends on the weight image only
through its pixels in the window. -/
theorem assemble_system_congr {T : Type} [Field T] (log : T → T) (eps : T) (b : bbox)
    (data w1 w2 : image T)
    (h : ∀ x y, covers b x y → w1.get2 ⟨x - b.xmin, y - b.ymin⟩ = w2.get2 ⟨x - b.xmin, y - b.ymin⟩) :
    impl.assemble_system log eps b data w1 = impl.assemble_system log eps b data w2 := by
  obtain ⟨hm1, hr1⟩ := assemble_system_sums log eps b data w1
  obtain ⟨hm2, hr2⟩ := assemble_system_sums log eps b data w2
  refine Prod.ext ?_ ?_
  · funext i j
    rw [hm1 i j, hm2 i j]
    congr 1
    apply window_sum_congr
    intro ix iy h1 h2 h3 h4
    rw [h ix iy ⟨h1, h2, h3, h4⟩]
  · funext i
    rw [hr1 i, hr2 i]
    apply window_sum_congr
    intro ix iy h1 h2 h3 h4
    rw [h ix iy ⟨h1, h2, h3, h4⟩]

/-- The third loop of `update_weight_maps` keeps the layout of the weight
image. -/
theorem normalize_loop_layout {T : Type} [LinearOrderedField T] (total : image T)
    (p : parameters T) (haw : p.weights.allocated)
    (hwx : p.bounds.xmax - p.bounds.xmin < p.weights.shape.x)
    (hwy : p.bounds.ymax - p.bounds.ymin < p.weights.shape.y) :
    image.same_layout (impl.normalize_loop total p) p.weights := by
  have h := image.foldl_window_shift p.weights haw p.bounds.xmin (p.bounds.xmax + 1)
    p.bounds.ymin (p.bounds.ymax + 1) p.bounds.xmin p.bounds.ymin le_rfl (by omega) le_rfl
    (by omega)
    (fun w x y => if total.get2 ⟨x, y⟩ > 0 then
        w.set2 ⟨x - p.bounds.xmin, y - p.bounds.ymin⟩
          (w.get2 ⟨x - p.bounds.xmin, y - p.bounds.ymin⟩ / total.get2 ⟨x, y⟩)
      else w)
    (fun x y old => if total.get2 ⟨x, y⟩ > 0 then old / total.get2 ⟨x, y⟩ else old)
    (by
      intro acc x y hacc hx0' hx1' hy0' hy1'
      simp only
      split
      · rfl
      · have hin : image.inside acc.shape ⟨x - p.bounds.xmin, y - p.bounds.ymin⟩ := by
          rw [hacc.1]
          refine ⟨?_, ?_, ?_, ?_⟩ <;> simp only <;> omega
        have haa := image.allocated_of_same_layout hacc haw
        unfold image.set2 image.get2
        exact (image.set_get_self acc _ (image.ravel_nonneg hin)
          (image.ravel_toNat_lt haa hin)).symm)
  exact h.1

/-- A slot with the bounds of a fitting slot and a weight image of the same
layout fits as well. -/
theorem slot_fits_of_layout {T : Type} (shape : index2) (p q : parameters T)
    (hb : q.bounds = p.bounds) (hl : image.same_layout q.weights p.weights)
    (hf : slot_fits shape p) : slot_fits shape q := by
  obtain ⟨h1, h2, h3, h4, haw, hwx, hwy⟩ := hf
  unfold slot_fits
  rw [hb, hl.1]
  exact ⟨h1, h2, h3, h4, image.allocated_of_same_layout hl haw, hwx, hwy⟩

/-- The image `total` keeps its layout in `update_weight_maps`. -/
theorem update_weight_maps_total_layout {T : Type} [LinearOrderedField T] (exp : T → T)
    (params : List (parameters T)) (total : image T) (ha : total.allocated)
    (hf : ∀ p ∈ params, p.valid = true → slot_fits total.shape p) :
    image.same_layout (impl.update_weight_maps exp params total).2 total := by
  rw [update_weight_maps_eq exp params total _ _ rfl rfl]
  obtain ⟨ha0, -⟩ := filled_zero total ha
  have h := (total_loop_foldl (params.map (fun p =>
      if !p.valid then p else { p with weights := impl.weights_loop exp total.shape p }))
    ({ total with data := total.data.map (fun _ => (0 : T)) } : image T) ha0 (by
      intro p hp hv
      obtain ⟨q, hq, rfl⟩ := List.mem_map.1 hp
      by_cases hqv : q.valid = true
      · simp only [hqv, Bool.not_true, Bool.false_eq_true, if_false]
        obtain ⟨h1, h2, h3, h4, _⟩ := hf q hq hqv
        exact ⟨h1, h2, h3, h4⟩
      · simp only [Bool.not_eq_true] at hqv
        simp only [hqv, Bool.not_false, if_true] at hv
        exact absurd hv (by decide))).1
  exact ⟨h.1, by rw [h.2]; simp⟩

/-- The slots after `update_weight_maps`: a valid slot keeps its other
fields and the layout of its weight image, and the weights of its window are
its terms divided by the sum of the terms of the valid covering slots, where
the sum is positive. -/
theorem update_weight_maps_slot {T : Type} [LinearOrderedField T] (exp : T → T)
    (params : List (parameters T)) (total : image T) (ha : total.allocated)
    (hf : ∀ p ∈ params, p.valid = true → slot_fits total.shape p) (i : Nat)
    (p : parameters T) (hp : params[i]? = some p) (hv : p.valid = true) :
    ∃ W, (impl.update_weight_maps exp params total).1[i]? = some { p with weights := W } ∧
      image.same_layout W p.weights ∧
      ∀ x y, covers p.bounds x y → W.get2 ⟨x - p.bounds.xmin, y - p.bounds.ymin⟩ =
        if (params.map (fun q => if q.valid = true ∧ covers q.bounds x y then
            mixture_term exp total.shape q x y else 0)).sum > 0 then
          mixture_term exp total.shape p x y /
            (params.map (fun q => if q.valid = true ∧ covers q.bounds x y then
              mixture_term exp total.shape q x y else 0)).sum
        else mixture_term exp total.shape p x y := by
  have hfp := hf p (List.getElem?_mem hp) hv
  have htot := total_mixture exp params total ha hf
  obtain ⟨P1, hP1⟩ : ∃ P1, P1 = params.map (fun p =>
      if !p.valid then p else { p with weights := impl.weights_loop exp total.shape p }) :=
    ⟨_, rfl⟩
  obtain ⟨T1, hT1⟩ : ∃ T1, T1 = P1.foldl impl.total_loop
      ({ total with data := total.data.map (fun _ => 0) } : image T) := ⟨_, rfl⟩
  have hR := update_weight_maps_eq exp params total P1 T1 hP1 hT1
  simp only [hR] at htot ⊢
  clear hR hT1
  subst hP1
  obtain ⟨hl1, -⟩ := weights_loop_spec exp total.shape p hfp
  obtain ⟨h1, h2, h3, h4, haw, hwx, hwy⟩ := hfp
  refine ⟨impl.normalize_loop T1 { p with weights := impl.weights_loop exp total.shape p },
    ?_, ?_, ?_⟩
  · simp only [List.getElem?_map, hp, Option.map_some', hv, Bool.not_true, Bool.false_eq_true,
      if_false]
  · exact image.same_layout_trans
      (normalize_loop_layout T1 { p with weights := impl.weights_loop exp total.shape p }
        (image.allocated_of_same_layout hl1 haw)
        (by show _ < (impl.weights_loop exp total.shape p).shape.x; rw [hl1.1]; exact hwx)
        (by show _ < (impl.weights_loop exp total.shape p).shape.y; rw [hl1.1]; exact hwy)) hl1
  · intro x y hc
    have hin : image.inside total.shape ⟨x, y⟩ :=
      ⟨le_trans h1 hc.1, lt_of_le_of_lt hc.2.1 h2, le_trans h3 hc.2.2.1,
        lt_of_le_of_lt hc.2.2.2 h4⟩
    rw [normalize_weights_loop exp total.shape T1 p ⟨h1, h2, h3, h4, haw, hwx, hwy⟩ x y hc,
      htot x y hin]

end gfit

end TouchDetection

namespace TouchDetection

namespace gfit

/-- A map over the slots whose effect on the fields other than the weight
image depends only on these fields respects their equality. -/
theorem map_core_congr {T : Type} (f g : parameters T → parameters T)
    (h : ∀ p q, p.core = q.core → (f p).core = (g q).core) (ps qs : List (parameters T))
    (hc : ps.map parameters.core = qs.map parameters.core) :
    (ps.map f).map parameters.core = (qs.map g).map parameters.core := by
  induction ps generalizing qs with
  | nil =>
    cases qs with
    | nil => rfl
    | cons q qs => simp at hc
  | cons p ps ih =>
    cases qs with
    | nil => simp at hc
    | cons q qs =>
      simp only [List.map_cons, List.cons.injEq] at hc ⊢
      exact ⟨h p q hc.1, ih qs hc.2⟩

/-- Slots at the same index of two vectors that agree on the fields other
than the weight image. -/
theorem core_getElem {T : Type} (ps qs : List (parameters T))
    (hc : ps.map parameters.core = qs.map parameters.core) (i : Nat) :
    (ps[i]? = none ∧ qs[i]? = none) ∨
    ∃ p q, ps[i]? = some p ∧ qs[i]? = some q ∧ p.core = q.core := by
  have h : (ps.map parameters.core)[i]? = (qs.map parameters.core)[i]? := by rw [hc]
  rw [List.getElem?_map, List.getElem?_map] at h
  cases hp : ps[i]? with
  | none =>
    cases hq : qs[i]? with
    | none => exact Or.inl ⟨rfl, rfl⟩
    | some q => rw [hp, hq] at h; simp at h
  | some p =>
    cases hq : qs[i]? with
    | none => rw [hp, hq] at h; simp at h
    | some q =>
      rw [hp, hq] at h
      simp only [Option.map_some', Option.some.injEq] at h
      exact Or.inr ⟨p, q, rfl, rfl, h⟩

/-- The sum of the terms of the valid covering slots depends on the slots
only through the fields other than the weight image. -/
theorem mixture_sum_core {T : Type} [Field T] (exp : T → T) (shape : index2)
    (ps qs : List (parameters T)) (hc : ps.map parameters.core = qs.map parameters.core)
    (x y : Int) :
    (ps.map (fun q => if q.valid = true ∧ covers q.bounds x y then
        mixture_term exp shape q x y else 0)).sum =
    (qs.map (fun q => if q.valid = true ∧ covers q.bounds x y then
        mixture_term exp shape q x y else 0)).sum := by
  have e : ∀ L : List (parameters T),
      L.map (fun q => if q.valid = true ∧ covers q.bounds x y then
        mixture_term exp shape q x y else 0) =
      (L.map parameters.core).map (fun c =>
        if c.1 = true ∧ covers c.2.2.2.2 x y then
          c.2.1 * exp (-(1 / 2) * xtmx c.2.2.2.1
            ((⟨(x : T) * (2 / (shape.x : T)) - 1, (y : T) * (2 / (shape.y : T)) - 1⟩ : vec2 T) -
              c.2.2.1))
        else 0) := by
    intro L
    rw [List.map_map]
    rfl
  rw [e ps, e qs, hc]

/-- The M-step on two slots that agree on the fields other than the weight
image and yield the same system. -/
theorem fit_slot_core_congr {T : Type} [LinearOrderedField T]
    (ge_solve : mat6_t T → vec6_t T → T → Bool × vec6_t T) (exp log : T → T) (meps : T)
    (data : image T) (eps : T) (p q : parameters T) (hc : p.core = q.core)
    (hs : impl.assemble_system log meps p.bounds data p.weights =
      impl.assemble_system log meps q.bounds data q.weights) :
    (fit_slot ge_solve exp log meps data eps p).core =
      (fit_slot ge_solve exp log meps data eps q).core := by
  obtain ⟨pv, ps, pm, pp, pb, pw⟩ := p
  obtain ⟨qv, qs, qm, qp, qb, qw⟩ := q
  simp only [parameters.core, Prod.mk.injEq] at hc
  obtain ⟨rfl, rfl, rfl, rfl, rfl⟩ := hc
  simp only at hs
  unfold fit_slot
  simp only [hs]
  split
  · rfl
  · split
    · rfl
    · rfl

end gfit

end TouchDetection

namespace TouchDetection

namespace gfit

/-- The M-step keeps the bounds and the weight image of a slot. -/
theorem fit_slot_bounds_weights {T : Type} [LinearOrderedField T]
    (ge_solve : mat6_t T → vec6_t T → T → Bool × vec6_t T) (exp log : T → T) (meps : T)
    (data : image T) (eps : T) (p : parameters T) :
    (fit_slot ge_solve exp log meps data eps p).bounds = p.bounds ∧
    (fit_slot ge_solve exp log meps data eps p).weights = p.weights := by
  unfold fit_slot
  dsimp only
  split
  · exact ⟨rfl, rfl⟩
  · split
    · exact ⟨rfl, rfl⟩
    · exact ⟨rfl, rfl⟩

/-- One round of `fit` keeps the layout of the scratch image and the windows
of the valid slots inside of the images. -/
theorem fit_step_fits {T : Type} [LinearOrderedField T]
    (ge_solve : mat6_t T → vec6_t T → T → Bool × vec6_t T) (exp log : T → T) (meps : T)
    (data : image T) (eps : T) (ps : List (parameters T)) (tmp : image T)
    (ha : tmp.allocated) (hf : fits_all tmp.shape ps) :
    image.same_layout (fit_step ge_solve exp log meps data eps (ps, tmp)).2 tmp ∧
    fits_all tmp.shape (fit_step ge_solve exp log meps data eps (ps, tmp)).1 := by
  refine ⟨update_weight_maps_total_layout exp ps tmp ha hf, ?_⟩
  intro p' hp' hv'
  unfold fit_step at hp'
  simp only at hp'
  obtain ⟨i, hi⟩ := List.getElem?_of_mem hp'
  rw [List.getElem?_map] at hi
  have hlen : (impl.update_weight_maps exp ps tmp).1.length = ps.length := by
    have := congrArg List.length (update_weight_maps_core exp ps tmp)
    simpa using this
  cases hE : (impl.update_weight_maps exp ps tmp).1[i]? with
  | none => rw [hE] at hi; simp at hi
  | some pE =>
    rw [hE] at hi
    simp only [Option.map_some', Option.some.injEq] at hi
    have hil : i < ps.length := by
      rw [← hlen]
      exact (List.getElem?_eq_some_iff.1 hE).1
    have hp : ps[i]? = some ps[i] := List.getElem?_eq_getElem hil
    by_cases hv : ps[i].valid = true
    · obtain ⟨W, hW, hl, -⟩ := update_weight_maps_slot exp ps tmp ha hf i ps[i] hp hv
      rw [hE] at hW
      obtain rfl := Option.some.inj hW
      obtain ⟨hb, hw⟩ := fit_slot_bounds_weights ge_solve exp log meps data eps
        { ps[i] with weights := W }
      rw [hi] at hb hw
      exact slot_fits_of_layout tmp.shape ps[i] p' hb (by rw [hw]; exact hl)
        (hf ps[i] (List.getElem?_mem hp) hv)
    · rw [Bool.not_eq_true] at hv
      have h := update_weight_maps_invalid exp ps tmp i ps[i] hp hv
      rw [hE] at h
      rw [Option.some.inj h, fit_slot_invalid ge_solve exp log meps data eps ps[i] hv] at hi
      rw [← hi, hv] at hv'
      exact absurd hv' (by decide)

/-- One round of `fit` on two parameter vectors that agree on the fields
other than the weight images, with scratch images of one shape: the
resulting vectors agree on these fields. -/
theorem fit_step_core {T : Type} [LinearOrderedField T]
    (ge_solve : mat6_t T → vec6_t T → T → Bool × vec6_t T) (exp log : T → T) (meps : T)
    (data : image T) (eps : T) (ps qs : List (parameters T)) (t1 t2 : image T)
    (hc : ps.map parameters.core = qs.map parameters.core) (hs : t1.shape = t2.shape)
    (ha1 : t1.allocated) (ha2 : t2.allocated) (hf1 : fits_all t1.shape ps)
    (hf2 : fits_all t2.shape qs) :
    (fit_step ge_solve exp log meps data eps (ps, t1)).1.map parameters.core =
      (fit_step ge_solve exp log meps data eps (qs, t2)).1.map parameters.core := by
  apply List.ext_getElem?
  intro i
  unfold fit_step
  simp only [List.getElem?_map]
  rcases core_getElem ps qs hc i with ⟨hp, hq⟩ | ⟨p, q, hp, hq, hpq⟩
  · have h1 : (impl.update_weight_maps exp ps t1).1[i]? = none := by
      have hl := congrArg List.length (update_weight_maps_core exp ps t1)
      simp only [List.length_map] at hl
      rw [List.getElem?_eq_none_iff] at hp ⊢
      omega
    have h2 : (impl.update_weight_maps exp qs t2).1[i]? = none := by
      have hl := congrArg List.length (update_weight_maps_core exp qs t2)
      simp only [List.length_map] at hl
      rw [List.getElem?_eq_none_iff] at hq ⊢
      omega
    rw [h1, h2]
  · have hvq : p.valid = q.valid := congrArg Prod.fst hpq
    have hbq : p.bounds = q.bounds := congrArg (fun c => c.2.2.2.2) hpq
    by_cases hv : p.valid = true
    · have hv2 : q.valid = true := by rw [← hvq]; exact hv
      obtain ⟨W1, hW1, -, hg1⟩ := update_weight_maps_slot exp ps t1 ha1 hf1 i p hp hv
      obtain ⟨W2, hW2, -, hg2⟩ := update_weight_maps_slot exp qs t2 ha2 hf2 i q hq hv2
      rw [hW1, hW2]
      simp only [Option.map_some', Option.some.injEq]
      have hmt : ∀ x y, mixture_term exp t1.shape p x y = mixture_term exp t2.shape q x y := by
        intro x y
        have h1 : p.scale = q.scale := congrArg (fun c => c.2.1) hpq
        have h2 : p.mean = q.mean := congrArg (fun c => c.2.2.1) hpq
        have h3 : p.prec = q.prec := congrArg (fun c => c.2.2.2.1) hpq
        unfold mixture_term
        rw [h1, h2, h3, hs]
      apply fit_slot_core_congr
      · exact hpq
      · show impl.assemble_system log meps p.bounds data W1 =
          impl.assemble_system log meps q.bounds data W2
        rw [← hbq]
        apply assemble_system_congr
        intro x y hcov
        have h2 := hg2 x y (by rw [← hbq]; exact hcov)
        rw [← hbq] at h2
        rw [hg1 x y hcov, h2, mixture_sum_core exp t1.shape ps qs hc x y, hmt x y, hs]
    · rw [Bool.not_eq_true] at hv
      have hv2 : q.valid = false := by rw [← hvq]; exact hv
      rw [update_weight_maps_invalid exp ps t1 i p hp hv,
        update_weight_maps_invalid exp qs t2 i q hq hv2]
      simp only [Option.map_some', Option.some.injEq]
      rw [fit_slot_invalid ge_solve exp log meps data eps p hv,
        fit_slot_invalid ge_solve exp log meps data eps q hv2]
      exact hpq

end gfit

end TouchDetection

namespace TouchDetection

namespace gfit

/-- The down-scaling loop of `fit` acts on the fields other than the weight
image, and keeps the bounds, the validity and the weight images. -/
theorem fit_down_core_congr {T : Type} [Field T] (scale : vec2 T) (ps qs : List (parameters T))
    (hc : ps.map parameters.core = qs.map parameters.core) :
    (fit_down scale ps).map parameters.core = (fit_down scale qs).map parameters.core := by
  unfold fit_down
  refine map_core_congr _ _ ?_ ps qs hc
  intro p q hpq
  obtain ⟨pv, ps, pm, pp, pb, pw⟩ := p
  obtain ⟨qv, qs, qm, qp, qb, qw⟩ := q
  simp only [parameters.core, Prod.mk.injEq] at hpq
  obtain ⟨rfl, rfl, rfl, rfl, rfl⟩ := hpq
  dsimp only
  split <;> rfl

theorem fit_up_core_congr {T : Type} [Field T] (scale : vec2 T) (ps qs : List (parameters T))
    (hc : ps.map parameters.core = qs.map parameters.core) :
    (fit_up scale ps).map parameters.core = (fit_up scale qs).map parameters.core := by
  unfold fit_up
  refine map_core_congr _ _ ?_ ps qs hc
  intro p q hpq
  obtain ⟨pv, ps, pm, pp, pb, pw⟩ := p
  obtain ⟨qv, qs, qm, qp, qb, qw⟩ := q
  simp only [parameters.core, Prod.mk.injEq] at hpq
  obtain ⟨rfl, rfl, rfl, rfl, rfl⟩ := hpq
  dsimp only
  split <;> rfl

theorem fit_down_fits {T : Type} [Field T] (scale : vec2 T) (shape : index2)
    (ps : List (parameters T)) (hf : fits_all shape ps) : fits_all shape (fit_down scale ps) := by
  intro p' hp' hv'
  unfold fit_down at hp'
  obtain ⟨p, hp, rfl⟩ := List.mem_map.1 hp'
  by_cases hv : p.valid = true
  · simp only [hv, Bool.not_true, Bool.false_eq_true, if_false]
    exact hf p hp hv
  · rw [Bool.not_eq_true] at hv
    simp only [hv, Bool.not_false, if_true] at hv'
    exact absurd hv' (by decide)

/-- The rounds of `fit` on two parameter vectors that agree on the fields
other than the weight images, with scratch images of one shape. -/
theorem fit_rounds_core {T : Type} [LinearOrderedField T]
    (ge_solve : mat6_t T → vec6_t T → T → Bool × vec6_t T) (exp log : T → T) (meps : T)
    (data : image T) (eps : T) (ps qs : List (parameters T)) (t1 t2 : image T)
    (hc : ps.map parameters.core = qs.map parameters.core) (hs : t1.shape = t2.shape)
    (ha1 : t1.allocated) (ha2 : t2.allocated) (hf1 : fits_all t1.shape ps)
    (hf2 : fits_all t2.shape qs) (n : Nat) :
    ((List.range n).foldl (fun s _ => fit_step ge_solve exp log meps data eps s)
        (ps, t1)).1.map parameters.core =
      ((List.range n).foldl (fun s _ => fit_step ge_solve exp log meps data eps s)
        (qs, t2)).1.map parameters.core ∧
    image.same_layout ((List.range n).foldl
      (fun s _ => fit_step ge_solve exp log meps data eps s) (ps, t1)).2 t1 ∧
    image.same_layout ((List.range n).foldl
      (fun s _ => fit_step ge_solve exp log meps data eps s) (qs, t2)).2 t2 ∧
    fits_all t1.shape ((List.range n).foldl
      (fun s _ => fit_step ge_solve exp log meps data eps s) (ps, t1)).1 ∧
    fits_all t2.shape ((List.range n).foldl
      (fun s _ => fit_step ge_solve exp log meps data eps s) (qs, t2)).1 := by
  induction n with
  | zero =>
    exact ⟨hc, image.same_layout_refl _, image.same_layout_refl _, hf1, hf2⟩
  | succ n ih =>
    obtain ⟨ihc, il1, il2, if1, if2⟩ := ih
    rw [List.range_succ, List.foldl_append, List.foldl_append]
    simp only [List.foldl_cons, List.foldl_nil]
    generalize (List.range n).foldl (fun s _ => fit_step ge_solve exp log meps data eps s)
      (ps, t1) = S1 at ihc il1 if1 ⊢
    generalize (List.range n).foldl (fun s _ => fit_step ge_solve exp log meps data eps s)
      (qs, t2) = S2 at ihc il2 if2 ⊢
    obtain ⟨P1, T1⟩ := S1
    obtain ⟨P2, T2⟩ := S2
    simp only at ihc il1 il2 if1 if2
    have hT1 := image.allocated_of_same_layout il1 ha1
    have hT2 := image.allocated_of_same_layout il2 ha2
    have hf1' : fits_all T1.shape P1 := by rw [il1.1]; exact if1
    have hf2' : fits_all T2.shape P2 := by rw [il2.1]; exact if2
    obtain ⟨l1, g1⟩ := fit_step_fits ge_solve exp log meps data eps P1 T1 hT1 hf1'
    obtain ⟨l2, g2⟩ := fit_step_fits ge_solve exp log meps data eps P2 T2 hT2 hf2'
    refine ⟨fit_step_core ge_solve exp log meps data eps P1 P2 T1 T2 ihc
      (by rw [il1.1, il2.1, hs]) hT1 hT2 hf1' hf2',
      image.same_layout_trans l1 il1, image.same_layout_trans l2 il2, ?_, ?_⟩
    · rw [← il1.1]; exact g1
    · rw [← il2.1]; exact g2

/-- Claim C21: the fitted parameters do not depend on scratch state left by
earlier frames.  For every `n_iter`, every data image and every two calls of
`fit` whose parameter vectors agree on valid, scale, mean, prec and bounds
of every slot (the windows of the valid slots inside of the scratch image,
which has the shape of the data image in `main`, and no larger than the
weight images) but differ arbitrarily in the contents of `tmp` and of the
weight images of the slots, the resulting valid, scale, mean and prec (and
bounds) of every slot are identical. -/
theorem fit_scratch_independent {T : Type} [LinearOrderedField T]
    (ge_solve : mat6_t T → vec6_t T → T → Bool × vec6_t T) (exp log : T → T) (meps : T)
    (ps qs : List (parameters T)) (data tmp1 tmp2 : image T) (n_iter : Nat) (eps : T)
    (hc : ps.map parameters.core = qs.map parameters.core) (hs : tmp1.shape = tmp2.shape)
    (ha1 : tmp1.allocated) (ha2 : tmp2.allocated) (hf1 : fits_all tmp1.shape ps)
    (hf2 : fits_all tmp2.shape qs) :
    (fit ge_solve exp log meps ps data tmp1 n_iter eps).1.length =
      (fit ge_solve exp log meps qs data tmp2 n_iter eps).1.length ∧
    ∀ (i : Nat) (p q : parameters T),
      (fit ge_solve exp log meps ps data tmp1 n_iter eps).1[i]? = some p →
      (fit ge_solve exp log meps qs data tmp2 n_iter eps).1[i]? = some q →
      p.valid = q.valid ∧ p.scale = q.scale ∧ p.mean = q.mean ∧ p.prec = q.prec ∧
        p.bounds = q.bounds := by
  have hcore : (fit ge_solve exp log meps ps data tmp1 n_iter eps).1.map parameters.core =
      (fit ge_solve exp log meps qs data tmp2 n_iter eps).1.map parameters.core := by
    unfold fit
    dsimp only
    apply fit_up_core_congr
    exact (fit_rounds_core ge_solve exp log meps data eps _ _ tmp1 tmp2
      (fit_down_core_congr _ ps qs hc) hs ha1 ha2 (fit_down_fits _ _ ps hf1)
      (fit_down_fits _ _ qs hf2) n_iter).1
  refine ⟨by simpa using congrArg List.length hcore, ?_⟩
  intro i p q hp hq
  rcases core_getElem _ _ hcore i with ⟨h1, -⟩ | ⟨p', q', hp', hq', hpq⟩
  · rw [hp] at h1
    exact absurd h1 (by simp)
  · rw [hp] at hp'
    rw [hq] at hq'
    obtain rfl := Option.some.inj hp'
    obtain rfl := Option.some.inj hq'
    simp only [parameters.core, Prod.mk.injEq] at hpq
    exact hpq

/-- Witness of `fit_scratch_independent`: the slot of a 3x3 image with two
different weight images and two different scratch images. -/
theorem fit_scratch_independent_witness :
    (fit (ge_solve_const saddle_chi) Real.exp Real.log (2 ^ (-52 : Int)) [saddle_slot]
        (image.const ⟨3, 3⟩ 1) (image.const ⟨3, 3⟩ 0) 3 (2 ^ (-52 : Int))).1.length =
      (fit (ge_solve_const saddle_chi) Real.exp Real.log (2 ^ (-52 : Int))
        [⟨true, 1, ⟨1, 1⟩, ⟨1, 0, 1⟩, ⟨0, 2, 0, 2⟩, image.const ⟨11, 11⟩ 5⟩]
        (image.const ⟨3, 3⟩ 1) (image.const ⟨3, 3⟩ (7 : ℝ)) 3 (2 ^ (-52 : Int))).1.length :=
  (fit_scratch_independent (ge_solve_const saddle_chi) Real.exp Real.log (2 ^ (-52 : Int))
    [saddle_slot] [⟨true, 1, ⟨1, 1⟩, ⟨1, 0, 1⟩, ⟨0, 2, 0, 2⟩, image.const ⟨11, 11⟩ 5⟩]
    (image.const ⟨3, 3⟩ 1) (image.const ⟨3, 3⟩ 0) (image.const ⟨3, 3⟩ (7 : ℝ)) 3
    (2 ^ (-52 : Int)) rfl rfl (image.allocated_const _ _ (by decide) (by decide))
    (image.allocated_const _ _ (by decide) (by decide))
    (by
      intro p hp _
      rw [List.mem_singleton] at hp
      subst hp
      exact ⟨by decide, by decide, by decide, by decide,
        image.allocated_const _ _ (by decide) (by decide), by decide, by decide⟩)
    (by
      intro p hp _
      rw [List.mem_singleton] at hp
      subst hp
      exact ⟨by decide, by decide, by decide, by decide,
        image.allocated_const _ _ (by decide) (by decide), by decide, by decide⟩)).1

end gfit

end TouchDetection

namespace TouchDetection

namespace main

/-- The initialisation loop of the Gaussian fitting stage, run for the
first `k` maximas: the length is kept, the slots below `k` are initialised
and the other slots are unchanged. -/
theorem init_loop_spec {T : Type} [Field T] (shape : index2) (maximas : List Int)
    (g : List (gfit.parameters T)) (k : Nat) (hk : k ≤ g.length) :
    ((List.range k).foldl (fun (g : List (gfit.parameters T)) (i : Nat) =>
      match g[i]? with
      | some p => g.set i (init_slot shape (maximas.getD i 0) p)
      | none => g) g).length = g.length ∧
    ∀ (j : Nat) (p : gfit.parameters T), g[j]? = some p →
      ((List.range k).foldl (fun (g : List (gfit.parameters T)) (i : Nat) =>
        match g[i]? with
        | some p => g.set i (init_slot shape (maximas.getD i 0) p)
        | none => g) g)[j]? =
        some (if j < k then init_slot shape (maximas.getD j 0) p else p) := by
  induction k with
  | zero =>
    refine ⟨rfl, fun j p hp => ?_⟩
    simp only [List.range_zero, List.foldl_nil, Nat.not_lt_zero, if_false]
    exact hp
  | succ k ih =>
    obtain ⟨hlen, hget⟩ := ih (by omega)
    rw [List.range_succ, List.foldl_append]
    simp only [List.foldl_cons, List.foldl_nil]
    have hkl : k < g.length := by omega
    have hgk := hget k g[k] (List.getElem?_eq_getElem hkl)
    rw [if_neg (lt_irrefl k)] at hgk
    rw [hgk]
    simp only
    refine ⟨by rw [List.length_set, hlen], fun j p hp => ?_⟩
    by_cases hjk : k = j
    · subst hjk
      rw [List.getElem?_set_self (by rw [hlen]; exact hkl), if_pos (Nat.lt_succ_self k)]
      rw [List.getElem?_eq_getElem hkl] at hp
      rw [Option.some.inj hp]
    · rw [List.getElem?_set_ne hjk, hget j p hp]
      by_cases hlt : j < k
      · rw [if_pos hlt, if_pos (by omega)]
      · rw [if_neg hlt, if_neg (by omega)]

/-- The window of a maximum at a pixel of the image. -/
theorem window_spec (shape : index2) (x y : Int) (hx0 : 0 ≤ x) (hx1 : x < shape.x)
    (hy0 : 0 ≤ y) (hy1 : y < shape.y) :
    (window shape x y).xmin = max (x - 5) 0 ∧ (window shape x y).xmax = min (x + 5) (shape.x - 1) ∧
    (window shape x y).ymin = max (y - 5) 0 ∧ (window shape x y).ymax = min (y + 5) (shape.y - 1) ∧
    0 ≤ (window shape x y).xmin ∧ (window shape x y).xmin ≤ x ∧ x ≤ (window shape x y).xmax ∧
    (window shape x y).xmax ≤ shape.x - 1 ∧
    0 ≤ (window shape x y).ymin ∧ (window shape x y).ymin ≤ y ∧ y ≤ (window shape x y).ymax ∧
    (window shape x y).ymax ≤ shape.y - 1 ∧
    (window shape x y).xmax - (window shape x y).xmin ≤ 10 ∧
    (window shape x y).ymax - (window shape x y).ymin ≤ 10 := by
  have h5 : Int.tdiv (gfwindow.x - 1) 2 = 5 := by decide
  have h5' : Int.tdiv (gfwindow.y - 1) 2 = 5 := by decide
  simp only [window, h5, h5']
  refine ⟨trivial, trivial, trivial, trivial, ?_, ?_, ?_, ?_, ?_, ?_, ?_, ?_, ?_, ?_⟩ <;> omega

/-- The position `unravel(shape, m)` of a linear index inside of the image
is a pixel of the image. -/
theorem unravel_inside (shape : index2) (m : Int) (hw : 1 ≤ shape.x) (h0 : 0 ≤ m)
    (h1 : m < prod shape) : image.inside shape (unravel shape m) := by
  unfold prod at h1
  have hpos : (0 : Int) < shape.x := by omega
  refine ⟨Int.emod_nonneg _ (by omega), Int.emod_lt_of_pos _ hpos, Int.ediv_nonneg h0 (by omega),
    ?_⟩
  show m / shape.x < shape.y
  rw [Int.ediv_lt_iff_lt_mul hpos, mul_comm]
  exact h1

/-- The slots of `reserve`: a slot that existed is kept with `valid = false`,
a new slot is the fresh slot. -/
theorem reserve_getElem {T : Type} [Field T] (params : List (gfit.parameters T)) (n : Nat)
    (shape : index2) (i : Nat) (hi : i < max params.length n) :
    (gfit.reserve params n shape).length = max params.length n ∧
    ∃ q, (gfit.reserve params n shape)[i]? = some q ∧ q.valid = false ∧
      ((∃ p, params[i]? = some p ∧ q.weights = p.weights) ∨ q.weights = image.const shape 0) := by
  unfold gfit.reserve
  by_cases hn : n > params.length
  · simp only [hn, if_true, List.length_map, List.length_append, List.length_replicate,
      List.getElem?_map]
    refine ⟨by omega, ?_⟩
    by_cases hlt : i < params.length
    · rw [List.getElem?_append_left hlt, List.getElem?_eq_getElem hlt]
      exact ⟨_, rfl, rfl, Or.inl ⟨_, rfl, rfl⟩⟩
    · rw [List.getElem?_append_right (by omega), List.getElem?_replicate,
        if_pos (by omega)]
      exact ⟨_, rfl, rfl, Or.inr rfl⟩
  · simp only [hn, if_false, List.length_map, List.getElem?_map]
    have hlt : i < params.length := by omega
    refine ⟨by omega, ?_⟩
    rw [List.getElem?_eq_getElem hlt]
    exact ⟨_, rfl, rfl, Or.inl ⟨_, rfl, rfl⟩⟩

/-- The slots after the initialisation loop of the Gaussian fitting stage:
the slot of the maximum `i` is initialised, the slots beyond the maximas are
invalid; the weight images are those of `reserve`. -/
theorem gaussian_fitting_init_spec {T : Type} [Field T] (gfparams : List (gfit.parameters T))
    (maximas : List Int) (shape : index2) :
    (gaussian_fitting_init gfparams maximas shape).length =
      max gfparams.length maximas.length ∧
    ∀ i, i < max gfparams.length maximas.length →
      ∃ q, (gfit.reserve gfparams maximas.length gfwindow)[i]? = some q ∧ q.valid = false ∧
        (gaussian_fitting_init gfparams maximas shape)[i]? =
          some (if i < maximas.length then init_slot shape (maximas.getD i 0) q else q) := by
  have hl := fun i hi => (reserve_getElem gfparams maximas.length gfwindow i hi)
  have hlen : (gfit.reserve gfparams maximas.length gfwindow).length =
      max gfparams.length maximas.length := by
    unfold gfit.reserve
    by_cases hn : maximas.length > gfparams.length
    · simp only [hn, if_true, List.length_map, List.length_append, List.length_replicate]
      omega
    · simp only [hn, if_false, List.length_map]
      omega
  obtain ⟨h1, h2⟩ := init_loop_spec shape maximas
    (gfit.reserve gfparams maximas.length gfwindow) maximas.length (by rw [hlen]; omega)
  refine ⟨by unfold gaussian_fitting_init; rw [h1, hlen], fun i hi => ?_⟩
  obtain ⟨-, q, hq, hv, -⟩ := hl i hi
  exact ⟨q, hq, hv, h2 i q hq⟩

end main

end TouchDetection

namespace TouchDetection

/-- A list whose elements satisfying `p` all sit at indices below `n` has at
most `n` elements satisfying `p`. -/
theorem countP_le_of_index {α : Type} (L : List α) (p : α → Bool) (n : Nat)
    (h : ∀ (j : Nat) (a : α), L[j]? = some a → p a = true → j < n) : L.countP p ≤ n := by
  rw [← List.take_append_drop n L, List.countP_append]
  have h1 : (L.take n).countP p ≤ n :=
    le_trans (List.countP_le_length _) (by rw [List.length_take]; exact Nat.min_le_left _ _)
  have h2 : (L.drop n).countP p = 0 := by
    rw [List.countP_eq_zero]
    intro a ha hpa
    obtain ⟨j, hj⟩ := List.getElem?_of_mem ha
    rw [List.getElem?_drop] at hj
    have := h (n + j) a hj hpa
    omega
  omega

namespace gfit

/-- The vector `fit` returns has the length of the vector it is given. -/
theorem fit_length {T : Type} [LinearOrderedField T]
    (ge_solve : mat6_t T → vec6_t T → T → Bool × vec6_t T) (exp log : T → T) (meps : T)
    (params : List (parameters T)) (data tmp : image T) (n : Nat) (eps : T) :
    (fit ge_solve exp log meps params data tmp n eps).1.length = params.length := by
  unfold fit
  simp only [fit_up, List.length_map]
  rw [fit_rounds_length]
  simp only [fit_down, List.length_map]

/-- A slot that is invalid when `fit` is called is returned as it is. -/
theorem fit_invalid_entry {T : Type} [LinearOrderedField T]
    (ge_solve : mat6_t T → vec6_t T → T → Bool × vec6_t T) (exp log : T → T) (meps : T)
    (params : List (parameters T)) (data tmp : image T) (n : Nat) (eps : T) (i : Nat)
    (p : parameters T) (hp : params[i]? = some p) (hv : p.valid = false) :
    (fit ge_solve exp log meps params data tmp n eps).1[i]? = some p := by
  unfold fit
  apply fit_up_invalid _ _ i p _ hv
  have h := fit_rounds_invalid ge_solve exp log meps data eps
    (fit_down ⟨2 * (range : vec2 T).x / (data.shape.x : T),
      2 * (range : vec2 T).y / (data.shape.y : T)⟩ params, tmp) 0 n i p
    (fit_down_invalid _ _ i p hp hv) hv
  rw [Nat.zero_add] at h
  exact h

/-- A slot that is valid when `fit` returns was valid when `fit` was
called. -/
theorem fit_valid_was_valid {T : Type} [LinearOrderedField T]
    (ge_solve : mat6_t T → vec6_t T → T → Bool × vec6_t T) (exp log : T → T) (meps : T)
    (params : List (parameters T)) (data tmp : image T) (n : Nat) (eps : T) (i : Nat)
    (q : parameters T)
    (hq : (fit ge_solve exp log meps params data tmp n eps).1[i]? = some q)
    (hv : q.valid = true) : ∃ p, params[i]? = some p ∧ p.valid = true := by
  have hi : i < params.length := by
    rw [← fit_length ge_solve exp log meps params data tmp n eps]
    exact (List.getElem?_eq_some_iff.1 hq).1
  refine ⟨params[i], List.getElem?_eq_getElem hi, ?_⟩
  by_contra hne
  rw [Bool.not_eq_true] at hne
  have h := fit_invalid_entry ge_solve exp log meps params data tmp n eps i params[i]
    (List.getElem?_eq_getElem hi) hne
  rw [hq] at h
  rw [Option.some.inj h] at hv
  rw [hv] at hne
  exact absurd hne (by decide)

end gfit

namespace main

/-- Claim C22: after the Gaussian fitting stage (`reserve`, the
initialisation of one slot per fine maximum, `fit`) the number of slots with
`valid = true`, which is the number of fitted Gaussians collected, is at
most the number of fine maxima, whatever the parameter vector held from
earlier frames; a frame with no fine maxima yields an empty list of fitted
Gaussians. -/
theorem gaussian_fitting_valid_count {T : Type} [LinearOrderedField T]
    (ge_solve : gfit.mat6_t T → gfit.vec6_t T → T → Bool × gfit.vec6_t T) (exp log : T → T)
    (meps : T) (gfparams : List (gfit.parameters T)) (maximas : List Int)
    (img_pp img_flt img_gftmp : image T) (eps : T) :
    (gaussian_fitting ge_solve exp log meps gfparams maximas img_pp img_flt img_gftmp eps).1.countP
      (fun p => p.valid) ≤ maximas.length ∧
    (fitted_gaussians
      (gaussian_fitting ge_solve exp log meps gfparams maximas img_pp img_flt img_gftmp
        eps).1).length ≤ maximas.length ∧
    (maximas = [] → fitted_gaussians
      (gaussian_fitting ge_solve exp log meps gfparams maximas img_pp img_flt img_gftmp eps).1 =
        []) := by
  have hcount : (gaussian_fitting ge_solve exp log meps gfparams maximas img_pp img_flt img_gftmp
      eps).1.countP (fun p => p.valid) ≤ maximas.length := by
    refine countP_le_of_index _ _ _ ?_
    intro j q hq hv
    unfold gaussian_fitting at hq
    obtain ⟨p, hp, hpv⟩ := gfit.fit_valid_was_valid ge_solve exp log meps _ img_flt img_gftmp 3
      eps j q hq hv
    obtain ⟨hlen, hslot⟩ := gaussian_fitting_init_spec gfparams maximas img_pp.shape
    have hj : j < max gfparams.length maximas.length := by
      rw [← hlen]
      exact (List.getElem?_eq_some_iff.1 hp).1
    obtain ⟨q0, -, hq0v, hq0⟩ := hslot j hj
    by_contra hnlt
    rw [if_neg hnlt, hp] at hq0
    rw [Option.some.inj hq0, hq0v] at hpv
    exact absurd hpv (by decide)
  have hlen : (fitted_gaussians
      (gaussian_fitting ge_solve exp log meps gfparams maximas img_pp img_flt img_gftmp
        eps).1).length ≤ maximas.length := by
    unfold fitted_gaussians
    rw [List.length_map, ← List.countP_eq_length_filter]
    exact hcount
  refine ⟨hcount, hlen, ?_⟩
  intro hm
  have h0 : maximas.length = 0 := by rw [hm]; rfl
  exact List.eq_nil_of_length_eq_zero (by omega)

end main

end TouchDetection

namespace TouchDetection

namespace gfit

/-- Claim C23: for every bounding box, data image and weight image,
`assemble_system` produces `rhs[i] = sum over the window of
log(d + eps) * d^2 * phi_i` and `m[{i, j}] = c_j * sum over the window of
d^2 * phi_i * phi_j`, with `phi = (x^2, x y, y^2, x, y, 1)`, `d = w * data`,
`c_1 = 2` and `c_j = 1` for `j != 1`; so the entries `m[{k, 1}]` carry the
factor 2, `m[{k, 1}] = 2 * m[{1, k}]` for `k != 1`, and `m[{i, j}] = m[{j, i}]`
whenever `i != 1` and `j != 1`. -/
theorem assemble_system_entries {T : Type} [Field T] (log : T → T) (eps : T) (b : bbox)
    (data w : image T) :
    (∀ i, (impl.assemble_system log eps b data w).2 i =
      window_sum b (fun ix iy =>
        log (w.get2 ⟨ix - b.xmin, iy - b.ymin⟩ * data.get2 ⟨ix, iy⟩ + eps) *
        (w.get2 ⟨ix - b.xmin, iy - b.ymin⟩ * data.get2 ⟨ix, iy⟩) ^ 2 *
        phi ((ix : T) * (2 / (data.shape.x : T)) - 1)
          ((iy : T) * (2 / (data.shape.y : T)) - 1) i)) ∧
    (∀ i j, (impl.assemble_system log eps b data w).1 i j =
      (if j = 1 then 2 else 1) * window_sum b (fun ix iy =>
        (w.get2 ⟨ix - b.xmin, iy - b.ymin⟩ * data.get2 ⟨ix, iy⟩) ^ 2 *
        phi ((ix : T) * (2 / (data.shape.x : T)) - 1)
          ((iy : T) * (2 / (data.shape.y : T)) - 1) i *
        phi ((ix : T) * (2 / (data.shape.x : T)) - 1)
          ((iy : T) * (2 / (data.shape.y : T)) - 1) j)) ∧
    (∀ k, k ≠ 1 → (impl.assemble_system log eps b data w).1 k 1 =
      2 * (impl.assemble_system log eps b data w).1 1 k) ∧
    (∀ i j, i ≠ 1 → j ≠ 1 → (impl.assemble_system log eps b data w).1 i j =
      (impl.assemble_system log eps b data w).1 j i) := by
  obtain ⟨hm, hrhs⟩ := assemble_system_sums log eps b data w
  refine ⟨?_, ?_, ?_, ?_⟩
  · intro i
    rw [hrhs i]
    apply window_sum_congr
    intro ix iy _ _ _ _
    ring
  · intro i j
    rw [hm i j, mul_comm]
    congr 1
    apply window_sum_congr
    intro ix iy _ _ _ _
    ring
  · intro k hk
    rw [hm k 1, hm 1 k, if_pos rfl, if_neg hk, mul_one, mul_comm]
    congr 1
    apply window_sum_congr
    intro ix iy _ _ _ _
    ring
  · intro i j hi hj
    rw [hm i j, hm j i, if_neg hi, if_neg hj]
    congr 1
    apply window_sum_congr
    intro ix iy _ _ _ _
    ring

end gfit

end TouchDetection

namespace TouchDetection

namespace main

/-- Claim C24: for every image shape with `w >= 1` and `h >= 1` and every
fine maximum at a pixel `(x, y)` inside the image, the sampling window
computed in `main` satisfies `0 <= xmin <= x <= xmax <= w-1`,
`0 <= ymin <= y <= ymax <= h-1`, `xmax - xmin <= 10` and `ymax - ymin <= 10`;
hence every position `(ix, iy)` of the window, at which `update_weight_maps`
and `assemble_system` access `data`, `total` and
`weights[{ix - xmin, iy - ymin}]` for that slot, is inside the image resp.
the 11x11 weight image, and the slot index `i < maximas.size()` is inside
the parameter vector after `reserve`.  The maximum is given by its linear
index `m` in `[0, w * h)`, which makes `h >= 1`; the slots held from earlier
frames have 11x11 weight images, as `reserve` creates them. -/
theorem window_inside {T : Type} [Field T] (gfparams : List (gfit.parameters T))
    (maximas : List Int) (shape : index2) (i : Nat) (m : Int) (hw : 1 ≤ shape.x)
    (hm : maximas[i]? = some m) (h0 : 0 ≤ m) (h1 : m < prod shape)
    (hold : ∀ p ∈ gfparams, p.weights.allocated ∧ p.weights.shape = gfwindow) :
    i < (gfit.reserve gfparams maximas.length gfwindow).length ∧
    ∃ p, (gaussian_fitting_init gfparams maximas shape)[i]? = some p ∧ p.valid = true ∧
      p.bounds = ⟨max ((unravel shape m).x - 5) 0, min ((unravel shape m).x + 5) (shape.x - 1),
        max ((unravel shape m).y - 5) 0, min ((unravel shape m).y + 5) (shape.y - 1)⟩ ∧
      0 ≤ p.bounds.xmin ∧ p.bounds.xmin ≤ (unravel shape m).x ∧
      (unravel shape m).x ≤ p.bounds.xmax ∧ p.bounds.xmax ≤ shape.x - 1 ∧
      0 ≤ p.bounds.ymin ∧ p.bounds.ymin ≤ (unravel shape m).y ∧
      (unravel shape m).y ≤ p.bounds.ymax ∧ p.bounds.ymax ≤ shape.y - 1 ∧
      p.bounds.xmax - p.bounds.xmin ≤ 10 ∧ p.bounds.ymax - p.bounds.ymin ≤ 10 ∧
      p.weights.allocated ∧ p.weights.shape = ⟨11, 11⟩ ∧
      ∀ ix iy, gfit.covers p.bounds ix iy →
        image.inside shape ⟨ix, iy⟩ ∧
        image.inside p.weights.shape ⟨ix - p.bounds.xmin, iy - p.bounds.ymin⟩ := by
  have hi : i < maximas.length := (List.getElem?_eq_some_iff.1 hm).1
  obtain ⟨hlen, hslot⟩ := gaussian_fitting_init_spec gfparams maximas shape
  have hi' : i < max gfparams.length maximas.length := by omega
  obtain ⟨hrl, q, hq, hqv, hqw⟩ := reserve_getElem gfparams maximas.length gfwindow i hi'
  obtain ⟨q', hq', -, hp⟩ := hslot i hi'
  rw [hq] at hq'
  obtain rfl := Option.some.inj hq'
  rw [if_pos hi, List.getD_eq_getElem?_getD, hm, Option.getD_some] at hp
  obtain ⟨hx0, hx1, hy0, hy1⟩ := unravel_inside shape m hw h0 h1
  obtain ⟨e1, e2, e3, e4, b1, b2, b3, b4, b5, b6, b7, b8, b9, b10⟩ :=
    window_spec shape (unravel shape m).x (unravel shape m).y hx0 hx1 hy0 hy1
  have hwa : q.weights.allocated ∧ q.weights.shape = (⟨11, 11⟩ : index2) := by
    rcases hqw with ⟨p, hp, hw⟩ | hw
    · rw [hw]
      exact hold p (List.getElem?_mem hp)
    · rw [hw]
      exact ⟨image.allocated_const _ _ (by decide) (by decide), rfl⟩
  refine ⟨by rw [hrl]; exact hi', init_slot shape m q, hp, rfl, ?_, b1, b2, b3, b4, b5, b6, b7, b8,
    b9, b10, hwa.1, hwa.2, ?_⟩
  · show window shape (unravel shape m).x (unravel shape m).y = _
    rw [← e1, ← e2, ← e3, ← e4]
  · intro ix iy hc
    have hws : (init_slot shape m q).weights.shape = (⟨11, 11⟩ : index2) := hwa.2
    have c1 : (window shape (unravel shape m).x (unravel shape m).y).xmin ≤ ix := hc.1
    have c2 : ix ≤ (window shape (unravel shape m).x (unravel shape m).y).xmax := hc.2.1
    have c3 : (window shape (unravel shape m).x (unravel shape m).y).ymin ≤ iy := hc.2.2.1
    have c4 : iy ≤ (window shape (unravel shape m).x (unravel shape m).y).ymax := hc.2.2.2
    rw [hws]
    refine ⟨⟨?_, ?_, ?_, ?_⟩, ⟨?_, ?_, ?_, ?_⟩⟩
    · show 0 ≤ ix
      omega
    · show ix < shape.x
      omega
    · show 0 ≤ iy
      omega
    · show iy < shape.y
      omega
    · show 0 ≤ ix - (window shape (unravel shape m).x (unravel shape m).y).xmin
      omega
    · show ix - (window shape (unravel shape m).x (unravel shape m).y).xmin < 11
      omega
    · show 0 ≤ iy - (window shape (unravel shape m).x (unravel shape m).y).ymin
      omega
    · show iy - (window shape (unravel shape m).x (unravel shape m).y).ymin < 11
      omega

/-- Witness of `window_inside`: the maximum of linear index 75 (the pixel
`(3, 1)`) of a 72 x 48 image, and an empty parameter vector. -/
theorem window_inside_witness :
    0 < (gfit.reserve ([] : List (gfit.parameters ℚ)) [75].length gfwindow).length :=
  (window_inside ([] : List (gfit.parameters ℚ)) [75] ⟨72, 48⟩ 0 75 (by decide) rfl
    (by decide) (by decide) (fun p hp => absurd hp (List.not_mem_nil p))).1

end main

end TouchDetection

namespace TouchDetection

namespace gfit

/-- The outputs of `extract_params` on the coefficients of the logarithm of
a Gaussian `alpha * exp(-(1/2)(X - mu)^T P (X - mu))` with `det P != 0`. -/
theorem extract_params_gaussian (alpha : ℝ) (mu : vec2 ℝ) (P : mat2s ℝ) (eps : ℝ)
    (scale0 : ℝ) (mean0 : vec2 ℝ) (prec0 : mat2s ℝ) (halpha : 0 < alpha)
    (hdet : det P ≠ 0) (hok : eps < |det P|) :
    impl.extract_params Real.exp
      ![-P.xx / 2, -P.xy / 2, -P.yy / 2, P.xx * mu.x + P.xy * mu.y, P.xy * mu.x + P.yy * mu.y,
        Real.log alpha - (1 / 2) * xtmx P mu] scale0 mean0 prec0 eps =
      { ok := true, scale := alpha, mean := mu, prec := P } := by
  have hp : (⟨-2 * (-P.xx / 2), -2 * (-P.xy / 2), -2 * (-P.yy / 2)⟩ : mat2s ℝ) = P := by
    cases P
    simp only [mat2s.mk.injEq]
    refine ⟨?_, ?_, ?_⟩ <;> ring
  unfold impl.extract_params
  simp only [Matrix.cons_val_zero, Matrix.cons_val_one, Matrix.head_cons, Matrix.cons_val_two,
    Matrix.tail_cons, Matrix.cons_val_three, Matrix.cons_val_four]
  rw [hp, if_neg (not_le.2 hok)]
  have h5 : (![-P.xx / 2, -P.xy / 2, -P.yy / 2, P.xx * mu.x + P.xy * mu.y,
      P.xy * mu.x + P.yy * mu.y, Real.log alpha - (1 / 2) * xtmx P mu] : vec6_t ℝ) 5 =
      Real.log alpha - (1 / 2) * xtmx P mu := rfl
  have hx : (P.yy * (P.xx * mu.x + P.xy * mu.y) - P.xy * (P.xy * mu.x + P.yy * mu.y)) / det P =
      mu.x := by
    rw [div_eq_iff hdet]
    unfold det
    ring
  have hy : (P.xx * (P.xy * mu.x + P.yy * mu.y) - P.xy * (P.xx * mu.x + P.xy * mu.y)) / det P =
      mu.y := by
    rw [div_eq_iff hdet]
    unfold det
    ring
  have e : ∀ a : ℝ, -2 * (-a / 2) = a := fun a => by ring
  simp only [e]
  rw [h5, hx, hy]
  have hmu : ({ x := mu.x, y := mu.y } : vec2 ℝ) = mu := rfl
  simp only [hmu]
  have he : Real.exp (Real.log alpha - 1 / 2 * xtmx P mu + xtmx P mu / 2) = alpha := by
    rw [show Real.log alpha - 1 / 2 * xtmx P mu + xtmx P mu / 2 = Real.log alpha by ring,
      Real.exp_log halpha]
  rw [he]

/-- Claim C25, refuted as stated (the tolerance `eps` may be negative): for
`eps = -1`, `alpha = 1`, `mu = (1, 0)` and `P = (0, 0, 0)` one has
`|det P| > eps`, and `extract_params` on the coefficients of the claim
returns true, but not with `mean = mu`. -/
theorem extract_params_inverse_negative_eps :
    (-1 : ℝ) < |det (⟨0, 0, 0⟩ : mat2s ℝ)| ∧
    (impl.extract_params Real.exp
      ![-(0 : ℝ) / 2, -(0 : ℝ) / 2, -(0 : ℝ) / 2, 0 * 1 + 0 * 0, 0 * 1 + 0 * 0,
        Real.log 1 - (1 / 2) * xtmx (⟨0, 0, 0⟩ : mat2s ℝ) ⟨1, 0⟩] 1 ⟨0, 0⟩ ⟨1, 0, 1⟩ (-1)).ok =
      true ∧
    (impl.extract_params Real.exp
      ![-(0 : ℝ) / 2, -(0 : ℝ) / 2, -(0 : ℝ) / 2, 0 * 1 + 0 * 0, 0 * 1 + 0 * 0,
        Real.log 1 - (1 / 2) * xtmx (⟨0, 0, 0⟩ : mat2s ℝ) ⟨1, 0⟩] 1 ⟨0, 0⟩ ⟨1, 0, 1⟩ (-1)).mean ≠
      ⟨1, 0⟩ := by
  refine ⟨by simp [det], ?_, ?_⟩
  · rw [extract_params_ok]
    simp [det]
  · unfold impl.extract_params
    norm_num [det]

/-- Claim C25, amended: `extract_params` inverts the log-quadratic
parametrisation of a Gaussian for a non-negative tolerance: for every
`eps >= 0`, `alpha > 0`, mean `mu` and symmetric precision `P` with
`|det P| > eps`, applied to `chi = (-P.xx/2, -P.xy/2, -P.yy/2, (P mu).x,
(P mu).y, log(alpha) - (1/2) mu^T P mu)` it returns true with `prec = P`,
`mean = mu` and `scale = alpha`. -/
theorem extract_params_inverse (alpha : ℝ) (mu : vec2 ℝ) (P : mat2s ℝ) (eps : ℝ)
    (scale0 : ℝ) (mean0 : vec2 ℝ) (prec0 : mat2s ℝ) (heps : 0 ≤ eps) (halpha : 0 < alpha)
    (hP : eps < |det P|) :
    (impl.extract_params Real.exp
      ![-P.xx / 2, -P.xy / 2, -P.yy / 2, P.xx * mu.x + P.xy * mu.y, P.xy * mu.x + P.yy * mu.y,
        Real.log alpha - (1 / 2) * xtmx P mu] scale0 mean0 prec0 eps).ok = true ∧
    (impl.extract_params Real.exp
      ![-P.xx / 2, -P.xy / 2, -P.yy / 2, P.xx * mu.x + P.xy * mu.y, P.xy * mu.x + P.yy * mu.y,
        Real.log alpha - (1 / 2) * xtmx P mu] scale0 mean0 prec0 eps).prec = P ∧
    (impl.extract_params Real.exp
      ![-P.xx / 2, -P.xy / 2, -P.yy / 2, P.xx * mu.x + P.xy * mu.y, P.xy * mu.x + P.yy * mu.y,
        Real.log alpha - (1 / 2) * xtmx P mu] scale0 mean0 prec0 eps).mean = mu ∧
    (impl.extract_params Real.exp
      ![-P.xx / 2, -P.xy / 2, -P.yy / 2, P.xx * mu.x + P.xy * mu.y, P.xy * mu.x + P.yy * mu.y,
        Real.log alpha - (1 / 2) * xtmx P mu] scale0 mean0 prec0 eps).scale = alpha := by
  have hdet : det P ≠ 0 := by
    intro h
    rw [h, abs_zero] at hP
    linarith
  rw [extract_params_gaussian alpha mu P eps scale0 mean0 prec0 halpha hdet hP]
  exact ⟨rfl, rfl, rfl, rfl⟩

/-- Witness of `extract_params_inverse`: the unit Gaussian centred at
`(1, 2)` with the tolerance `2^-52`. -/
theorem extract_params_inverse_witness :
    (impl.extract_params Real.exp
      ![-(1 : ℝ) / 2, -(0 : ℝ) / 2, -(1 : ℝ) / 2, 1 * 1 + 0 * 2, 0 * 1 + 1 * 2,
        Real.log 1 - (1 / 2) * xtmx (⟨1, 0, 1⟩ : mat2s ℝ) ⟨1, 2⟩] 1 ⟨0, 0⟩ ⟨1, 0, 1⟩
        (2 ^ (-52 : Int))).mean = ⟨1, 2⟩ :=
  (extract_params_inverse 1 ⟨1, 2⟩ ⟨1, 0, 1⟩ (2 ^ (-52 : Int)) 1 ⟨0, 0⟩ ⟨1, 0, 1⟩
    (by positivity) one_pos (by
      have h : det (⟨1, 0, 1⟩ : mat2s ℝ) = 1 := by simp [det]
      rw [h, abs_one]
      exact zpow_lt_one_of_neg₀ (by norm_num) (by norm_num))).2.2.1

end gfit

end TouchDetection

namespace TouchDetection

namespace hessian_opt

/-- The loop over the rows of the optimised Hessian is the loop `rows_run`
with the action `block inp`. -/
theorem rows_eq_rows_run {T : Type} [Ring T] (inp : image T) (fuel : Nat)
    (s : image (mat2s T) × Int) :
    rows inp fuel s = rows_run (block inp) inp.shape fuel s := by
  induction fuel generalizing s with
  | zero => rfl
  | succ fuel ih =>
    obtain ⟨out, i⟩ := s
    simp only [rows, rows_run]
    split
    · exact ih _
    · rfl

/-- The optimised Hessian is the run of its nine regions with the action
`block inp`. -/
theorem hessian_eq_run {T : Type} [Ring T] (out : image (mat2s T)) (inp : image T) :
    hessian out inp = run (block inp) inp.shape out := by
  unfold hessian run
  simp only [rows_eq_rows_run]

/-- A `for (; i < hi; ++i)` loop running one kind of block along the row
`y`, for an invariant `Q` of the state and the running index. -/
theorem run_row_inv {σ : Type} (blk : List (Int × Int) → σ → Int → σ) (shape : index2)
    (Q : σ → Int → Prop) (hw : 2 ≤ shape.x)
    (hblk : ∀ taps s x y, 0 ≤ x → x < shape.x → 0 ≤ y → y < shape.y → region shape x y taps →
      Q s (y * shape.x + x) → Q (blk taps s (y * shape.x + x)) (y * shape.x + x + 1))
    (s : σ) (taps : List (Int × Int)) (y : Int) (hy0 : 0 ≤ y) (hy1 : y < shape.y)
    (hcase : (y = 0 ∧ taps = taps_top shape) ∨
      (0 < y ∧ y < shape.y - 1 ∧ taps = taps_center shape) ∨
      (y = shape.y - 1 ∧ taps = taps_bot shape))
    (hs : Q s (y * shape.x + 1)) :
    Q ((irange (y * shape.x + 1) (y * shape.x + (shape.x - 1))).foldl (blk taps) s)
      (y * shape.x + (shape.x - 1)) := by
  refine foldl_irange_inv (fun i s => Q s i) (blk taps) s _ _ (by omega) hs ?_
  intro i s hi0 hi1 hsi
  have e : i = y * shape.x + (i - y * shape.x) := by ring
  have hr : region shape (i - y * shape.x) y taps := by
    rcases hcase with ⟨h1, rfl⟩ | ⟨h1, h2, rfl⟩ | ⟨h1, rfl⟩
    · right; left
      exact ⟨by omega, by omega, h1, rfl⟩
    · right; right; right; right; left
      exact ⟨by omega, by omega, h1, h2, rfl⟩
    · right; right; right; right; right; right; right; left
      exact ⟨by omega, by omega, h1, rfl⟩
  have h := hblk taps s (i - y * shape.x) y (by omega) (by omega) hy0 hy1 hr
    (by rw [← e]; exact hsi)
  rw [← e] at h
  exact h

/-- The loop over the rows `0 < y < n - 1`, for an invariant `Q` of the
state and the running index. -/
theorem rows_run_inv {σ : Type} (blk : List (Int × Int) → σ → Int → σ) (shape : index2)
    (Q : σ → Int → Prop) (hw : 2 ≤ shape.x)
    (hblk : ∀ taps s x y, 0 ≤ x → x < shape.x → 0 ≤ y → y < shape.y → region shape x y taps →
      Q s (y * shape.x + x) → Q (blk taps s (y * shape.x + x)) (y * shape.x + x + 1))
    (fuel : Nat) :
    ∀ (s : σ) (y : Int), 1 ≤ y → y ≤ shape.y - 1 →
      (shape.y - 1 - y).toNat ≤ fuel → Q s (y * shape.x) →
      (rows_run blk shape fuel (s, y * shape.x)).2 = (shape.y - 1) * shape.x ∧
      Q (rows_run blk shape fuel (s, y * shape.x)).1 ((shape.y - 1) * shape.x) := by
  induction fuel with
  | zero =>
    intro s y hy0 hy1 hf hs
    have hy : y = shape.y - 1 := by omega
    subst hy
    exact ⟨rfl, hs⟩
  | succ fuel ih =>
    intro s y hy0 hy1 hf hs
    by_cases hlast : y = shape.y - 1
    · subst hlast
      have hc : ¬ ((shape.y - 1) * shape.x < shape.x * (shape.y - 1)) := by
        rw [mul_comm]; exact lt_irrefl _
      simp only [rows_run, if_neg hc]
      exact ⟨trivial, hs⟩
    · have hylt : y < shape.y - 1 := by omega
      have hc : y * shape.x < shape.x * (shape.y - 1) := by
        rw [mul_comm]
        exact Int.mul_lt_mul_of_pos_left hylt (by omega)
      simp only [rows_run, if_pos hc]
      -- x = 0
      have h1 := hblk (taps_left shape) s 0 y le_rfl (by omega) (by omega) (by omega)
        (by right; right; right; left; exact ⟨rfl, by omega, hylt, rfl⟩)
        (by rw [add_zero]; exact hs)
      rw [add_zero] at h1
      -- 0 < x < n - 1
      have e1 : y * shape.x + 1 + shape.x - 2 = y * shape.x + (shape.x - 1) := by ring
      have h2 := run_row_inv blk shape Q hw hblk _ (taps_center shape) y (by omega) (by omega)
        (by right; left; exact ⟨by omega, hylt, rfl⟩) h1
      have e2 : max (y * shape.x + 1) (y * shape.x + (shape.x - 1)) =
          y * shape.x + (shape.x - 1) := max_eq_right (by omega)
      -- x = n - 1
      have h3 := hblk (taps_right shape) _ (shape.x - 1) y (by omega) (by omega) (by omega)
        (by omega)
        (by right; right; right; right; right; left; exact ⟨rfl, by omega, hylt, rfl⟩) h2
      have e3 : y * shape.x + (shape.x - 1) + 1 = (y + 1) * shape.x := by ring
      rw [e1, e2, e3]
      rw [e3] at h3
      exact ih _ (y + 1) (by omega) (by omega) (by omega) h3

/-- The run of the nine regions of the optimised Hessian, for an invariant
`Q` of the state and the running index that every block keeps: the running
index visits `0, 1, ..., w * h - 1` in order. -/
theorem run_inv {σ : Type} (blk : List (Int × Int) → σ → Int → σ) (shape : index2)
    (Q : σ → Int → Prop) (hw : 2 ≤ shape.x) (hh : 2 ≤ shape.y)
    (hblk : ∀ taps s x y, 0 ≤ x → x < shape.x → 0 ≤ y → y < shape.y → region shape x y taps →
      Q s (y * shape.x + x) → Q (blk taps s (y * shape.x + x)) (y * shape.x + x + 1))
    (s0 : σ) (h0 : Q s0 0) : Q (run blk shape s0) (shape.x * shape.y) := by
  -- x = 0, y = 0
  have h1 := hblk (taps_top_left shape) s0 0 0 le_rfl (by omega) le_rfl (by omega)
    (by left; exact ⟨rfl, rfl, rfl⟩) (by simp only [zero_mul, add_zero]; exact h0)
  simp only [zero_mul, add_zero, zero_add] at h1
  -- 0 < x < n - 1, y = 0
  have h2 := run_row_inv blk shape Q hw hblk _ (taps_top shape) 0 le_rfl (by omega)
    (by left; exact ⟨rfl, rfl⟩) (by rw [zero_mul, zero_add]; exact h1)
  simp only [zero_mul, zero_add] at h2
  have e2 : max (1 : Int) (shape.x - 1) = shape.x - 1 := max_eq_right (by omega)
  -- x = n - 1, y = 0
  have h3 := hblk (taps_top_right shape) _ (shape.x - 1) 0 (by omega) (by omega) le_rfl
    (by omega) (by right; right; left; exact ⟨rfl, rfl, rfl⟩)
    (by rw [zero_mul, zero_add]; exact h2)
  rw [zero_mul, zero_add] at h3
  have e3 : shape.x - 1 + 1 = 1 * shape.x := by ring
  rw [e3] at h3
  -- 0 < y < n - 1
  have hfuel : (shape.y - 1 - 1).toNat ≤ (shape.x * (shape.y - 1)).toNat := by
    have : shape.y - 1 ≤ shape.x * (shape.y - 1) := by nlinarith
    omega
  obtain ⟨h4i, h4⟩ := rows_run_inv blk shape Q hw hblk _ _ 1 le_rfl (by omega) hfuel h3
  -- x = 0, y = n - 1
  have h5 := hblk (taps_bot_left shape) _ 0 (shape.y - 1) le_rfl (by omega) (by omega)
    (by omega) (by right; right; right; right; right; right; left; exact ⟨rfl, rfl, rfl⟩)
    (by rw [add_zero]; exact h4)
  rw [add_zero] at h5
  -- 0 < x < n - 1, y = n - 1
  have h6 := run_row_inv blk shape Q hw hblk _ (taps_bot shape) (shape.y - 1)
    (by omega) (by omega) (by right; right; exact ⟨rfl, rfl⟩) h5
  have e6 : (shape.y - 1) * shape.x + (shape.x - 1) = prod shape - 1 := by
    unfold prod; ring
  have e6' : max ((shape.y - 1) * shape.x + 1) (prod shape - 1) = prod shape - 1 := by
    apply max_eq_right
    rw [← e6]; omega
  -- x = n - 1, y = n - 1
  have h7 := hblk (taps_bot_right shape) _ (shape.x - 1) (shape.y - 1) (by omega) (by omega)
    (by omega) (by omega)
    (by right; right; right; right; right; right; right; right; exact ⟨rfl, rfl, rfl⟩) h6
  have e7 : (shape.y - 1) * shape.x + (shape.x - 1) + 1 = shape.x * shape.y := by ring
  rw [e7] at h7
  rw [e6] at h7
  unfold run
  simp only [zero_add, e2, e3, h4i, e6']
  exact h7

/-- The reads of a block of the optimised Hessian run at the pixel `(x, y)`
stay inside of the buffer. -/
theorem region_reads (shape : index2) (hw : 2 ≤ shape.x) (hh : 2 ≤ shape.y)
    (taps : List (Int × Int)) (x y : Int) (hx1 : x < shape.x) (hy0 : 0 ≤ y)
    (hy1 : y < shape.y) (hr : region shape x y taps) :
    ∀ r ∈ taps.map (fun sk => y * shape.x + x + sk.1), 0 ≤ r ∧ r < shape.x * shape.y := by
  have hD : 0 ≤ y * shape.x := mul_nonneg hy0 (by omega)
  have hC : y * shape.x + shape.x ≤ shape.x * shape.y := by nlinarith
  have hA : 0 < y → shape.x ≤ y * shape.x := by
    intro h
    nlinarith
  have hB : y < shape.y - 1 → y * shape.x + 2 * shape.x ≤ shape.x * shape.y := by
    intro h
    nlinarith
  intro r hrm
  rcases hr with ⟨h1, h2, rfl⟩ | ⟨h1, h2, h3, rfl⟩ | ⟨h1, h2, rfl⟩ | ⟨h1, h2, h3, rfl⟩ |
    ⟨h1, h2, h3, h4, rfl⟩ | ⟨h1, h2, h3, rfl⟩ | ⟨h1, h2, rfl⟩ | ⟨h1, h2, h3, rfl⟩ | ⟨h1, h2, rfl⟩ <;>
  · simp only [taps_top_left, taps_top, taps_top_right, taps_left, taps_center, taps_right,
      taps_bot_left, taps_bot, taps_bot_right, s_left, s_center, s_right, s_top, s_top_left,
      s_top_right, s_bot, s_bot_left, s_bot_right, stride, List.map_cons, List.map_nil,
      List.mem_cons, List.mem_singleton, List.not_mem_nil, or_false, neg_neg] at hrm
    have hA' := hA
    have hB' := hB
    omega

/-- The accesses of the optimised Hessian: the blocks write the indices
`0, 1, ..., w * h - 1` in this order and read inside of `[0, w * h)`. -/
theorem access_log_spec (shape : index2) (hw : 2 ≤ shape.x) (hh : 2 ≤ shape.y) :
    (access_log shape).map access.write = irange 0 (shape.x * shape.y) ∧
    ∀ a ∈ access_log shape, ∀ r ∈ a.reads, 0 ≤ r ∧ r < shape.x * shape.y := by
  refine run_inv (fun taps log i => log ++ [⟨taps.map (fun sk => i + sk.1), i⟩]) shape
    (fun log i => log.map access.write = irange 0 i ∧
      ∀ a ∈ log, ∀ r ∈ a.reads, 0 ≤ r ∧ r < shape.x * shape.y) hw hh ?_ []
    ⟨by rw [irange_of_le le_rfl]; rfl, fun a ha => absurd ha (List.not_mem_nil a)⟩
  intro taps log x y hx0 hx1 hy0 hy1 hr ⟨hlog, hreads⟩
  have hD : 0 ≤ y * shape.x := mul_nonneg hy0 (by omega)
  refine ⟨?_, ?_⟩
  · rw [List.map_append, hlog, irange_succ (by omega)]
    rfl
  · intro a ha
    rw [List.mem_append, List.mem_singleton] at ha
    rcases ha with ha | rfl
    · exact hreads a ha
    · exact region_reads shape hw hh taps x y hx1 hy0 hy1 hr

end hessian_opt

end TouchDetection

namespace TouchDetection

/-- Claim C26: for every image shape with width and height at least 2, the
optimised `hessian<border::zero, f32>` (the run of its nine regions with the
action `block`, which reads `in[i + s]` for the strides `s` of its groups
and writes `out[i]`) reads the input only at linear indices in `[0, w * h)`
and writes every output index in `[0, w * h)` exactly once: the running
index visits `0, 1, ..., w * h - 1` in order across the nine regions, so no
access is out of range. -/
theorem hessian_accesses {T : Type} [Ring T] (out : image (mat2s T)) (inp : image T)
    (hw : 2 ≤ inp.shape.x) (hh : 2 ≤ inp.shape.y) :
    hessian out inp = hessian_opt.run (hessian_opt.block inp) inp.shape out ∧
    (∀ taps (o : image (mat2s T)) i, hessian_opt.block inp taps o i =
      o.set i ((taps.map (fun sk => (inp.get (i + sk.1), sk.2))).foldl
        (fun h (vk : T × Int) =>
          ⟨h.xx + vk.1 * (kernels.sobel3_xx : kernel T 3 3).get vk.2,
           h.xy + vk.1 * (kernels.sobel3_xy : kernel T 3 3).get vk.2,
           h.yy + vk.1 * (kernels.sobel3_yy : kernel T 3 3).get vk.2⟩) ⟨0, 0, 0⟩)) ∧
    (hessian_opt.access_log inp.shape).map hessian_opt.access.write =
      irange 0 (inp.shape.x * inp.shape.y) ∧
    (∀ a ∈ hessian_opt.access_log inp.shape, ∀ r ∈ a.reads,
      0 ≤ r ∧ r < inp.shape.x * inp.shape.y) ∧
    (∀ a ∈ hessian_opt.access_log inp.shape, 0 ≤ a.write ∧ a.write < inp.shape.x * inp.shape.y) := by
  obtain ⟨h1, h2⟩ := hessian_opt.access_log_spec inp.shape hw hh
  refine ⟨hessian_opt.hessian_eq_run out inp, ?_, h1, h2, ?_⟩
  · intro taps o i
    unfold hessian_opt.block
    rw [List.foldl_map]
    rfl
  · intro a ha
    have hm : a.write ∈ (hessian_opt.access_log inp.shape).map hessian_opt.access.write :=
      List.mem_map_of_mem _ ha
    rw [h1, mem_irange] at hm
    exact hm

/-- Witness of `hessian_accesses`: the writes on a 2 x 2 image. -/
theorem hessian_accesses_witness :
    (hessian_opt.access_log (image.const ⟨2, 2⟩ (0 : Int)).shape).map hessian_opt.access.write =
      irange 0 ((image.const ⟨2, 2⟩ (0 : Int)).shape.x * (image.const ⟨2, 2⟩ (0 : Int)).shape.y) :=
  (hessian_accesses (image.const ⟨2, 2⟩ (0 : mat2s Int)) (image.const ⟨2, 2⟩ (0 : Int))
    (by decide) (by decide)).2.2.1

end TouchDetection

namespace TouchDetection

/-- The reference value of the Hessian stage at an interior pixel of an
image sampled from a quadratic polynomial. -/
theorem hessian_reference_quadratic {T : Type} [CommRing T] (inp : image T) (A B C D E F : T)
    (hf : ∀ p, image.inside inp.shape p →
      inp.get2 p = A * (p.x : T) ^ 2 + 2 * B * (p.x : T) * (p.y : T) + C * (p.y : T) ^ 2 +
        D * (p.x : T) + E * (p.y : T) + F)
    (x y : Int) (hx0 : 1 ≤ x) (hx1 : x ≤ inp.shape.x - 2) (hy0 : 1 ≤ y)
    (hy1 : y ≤ inp.shape.y - 2) :
    hessian_reference inp x y = ⟨8 * A, 8 * B, 8 * C⟩ := by
  obtain ⟨hxx, hxy, hyy⟩ := @hessian_opt.sobel3_entries T _
  have hz : ∀ a b : Int, (border.zero : border T).value inp ⟨a, b⟩ =
      if 0 ≤ a ∧ a < inp.shape.x ∧ 0 ≤ b ∧ b < inp.shape.y then
        A * (a : T) ^ 2 + 2 * B * (a : T) * (b : T) + C * (b : T) ^ 2 + D * (a : T) +
          E * (b : T) + F
      else 0 := by
    intro a b
    by_cases h : 0 ≤ a ∧ a < inp.shape.x ∧ 0 ≤ b ∧ b < inp.shape.y
    · rw [if_pos h]
      have h' : image.inside inp.shape ⟨a, b⟩ := h
      show (if image.inside inp.shape ⟨a, b⟩ then _ else _) = _
      rw [if_pos h']
      exact hf _ h
    · rw [if_neg h]
      have h' : ¬ image.inside inp.shape ⟨a, b⟩ := h
      show (if image.inside inp.shape ⟨a, b⟩ then _ else _) = 0
      rw [if_neg h']
  unfold hessian_reference
  rw [hessian_opt.corr3_expand, hessian_opt.corr3_expand, hessian_opt.corr3_expand]
  simp only [hz]
  simp (disch := omega) only [if_pos]
  obtain ⟨a0, a1, a2, a3, a4, a5, a6, a7, a8⟩ := hxx
  obtain ⟨b0, b1, b2, b3, b4, b5, b6, b7, b8⟩ := hxy
  obtain ⟨c0, c1, c2, c3, c4, c5, c6, c7, c8⟩ := hyy
  simp only [a0, a1, a2, a3, a4, a5, a6, a7, a8, b0, b1, b2, b3, b4, b5, b6, b7, b8,
    c0, c1, c2, c3, c4, c5, c6, c7, c8, mat2s.mk.injEq]
  push_cast
  refine ⟨?_, ?_, ?_⟩ <;> ring

/-- Claim C27: for every image sampled from a quadratic polynomial
`f(x, y) = A x^2 + 2 B x y + C y^2 + D x + E y + F` and every interior pixel
(`1 <= x <= w-2`, `1 <= y <= h-2`), `hessian<border::zero, f32>` outputs
exactly `(xx, xy, yy) = (8A, 8B, 8C)`, 4 times the Hessian
`(f_xx, f_xy, f_yy) = (2A, 2B, 2C)` with the same factor on all three
components; in particular it is zero on affine images at interior pixels. -/
theorem hessian_quadratic {T : Type} [CommRing T] (out : image (mat2s T)) (inp : image T)
    (A B C D E F : T) (ha : out.allocated) (hshape : out.shape = inp.shape)
    (hf : ∀ p, image.inside inp.shape p →
      inp.get2 p = A * (p.x : T) ^ 2 + 2 * B * (p.x : T) * (p.y : T) + C * (p.y : T) ^ 2 +
        D * (p.x : T) + E * (p.y : T) + F)
    (x y : Int) (hx0 : 1 ≤ x) (hx1 : x ≤ inp.shape.x - 2) (hy0 : 1 ≤ y)
    (hy1 : y ≤ inp.shape.y - 2) :
    (hessian out inp).get2 ⟨x, y⟩ = ⟨8 * A, 8 * B, 8 * C⟩ ∧
    (hessian out inp).get2 ⟨x, y⟩ = ⟨4 * (2 * A), 4 * (2 * B), 4 * (2 * C)⟩ ∧
    (A = 0 → B = 0 → C = 0 → (hessian out inp).get2 ⟨x, y⟩ = ⟨0, 0, 0⟩) := by
  have h : (hessian out inp).get2 ⟨x, y⟩ = ⟨8 * A, 8 * B, 8 * C⟩ := by
    rw [hessian_get2 out inp ha hshape (by omega) (by omega) ⟨x, y⟩
      ⟨by simp only; omega, by simp only; omega, by simp only; omega, by simp only; omega⟩]
    exact hessian_reference_quadratic inp A B C D E F hf x y hx0 hx1 hy0 hy1
  refine ⟨h, ?_, ?_⟩
  · rw [h]
    simp only [mat2s.mk.injEq]
    refine ⟨?_, ?_, ?_⟩ <;> ring
  · intro hA hB hC
    rw [h, hA, hB, hC]
    simp only [mul_zero]

/-- Witness of `hessian_quadratic`: the 3x3 image sampled from
`x^2 + 2 * 2 x y + 3 y^2 + 4 x + 5 y + 6` and its interior pixel `(1, 1)`. -/
theorem hessian_quadratic_witness :
    (hessian (image.const ⟨3, 3⟩ (0 : mat2s Int))
      (image.ofFn ⟨3, 3⟩ (fun x y => 1 * x ^ 2 + 2 * 2 * x * y + 3 * y ^ 2 + 4 * x + 5 * y + 6))).get2
        ⟨1, 1⟩ = ⟨8 * 1, 8 * 2, 8 * 3⟩ :=
  (hessian_quadratic (image.const ⟨3, 3⟩ (0 : mat2s Int))
    (image.ofFn ⟨3, 3⟩ (fun x y => 1 * x ^ 2 + 2 * 2 * x * y + 3 * y ^ 2 + 4 * x + 5 * y + 6))
    1 2 3 4 5 6 (image.allocated_const _ _ (by decide) (by decide)) rfl
    (fun p hp => by
      rw [image.get2_ofFn ⟨3, 3⟩ _ p hp]
      simp only [Int.cast_id])
    1 1 (by decide) (by decide) (by decide) (by decide)).1

end TouchDetection

namespace TouchDetection

namespace main

/-- Claim C28: for every pixel `i` the ridge measure
`img_rdg[i] = max(ev1, 0) + max(ev2, 0)` is non-negative, and therefore the
objective `img_obj[i] = 1.1 * img_pp[i] - 0.9 * img_rdg[i]` is positive only
where `img_pp[i] > 0`: every foreground pixel of the labelling
(`img_obj[i] > 0`) has a strictly positive preprocessed value. -/
theorem objective_positive {T : Type} [LinearOrderedField T] (sqrt : T → T)
    (img_pp img_rdg img_obj : image T) (img_m2_2 : image (mat2s T)) (i : Int)
    (h0 : 0 ≤ i) (hi : i < prod img_pp.shape)
    (hm : img_m2_2.data.length = (prod img_pp.shape).toNat)
    (hr : img_rdg.data.length = (prod img_pp.shape).toNat)
    (ho : img_obj.data.length = (prod img_pp.shape).toNat) :
    (ridge_measure sqrt img_rdg img_m2_2).get i =
      max (eigenvalues sqrt (img_m2_2.get i)).1 0 + max (eigenvalues sqrt (img_m2_2.get i)).2 0 ∧
    0 ≤ (ridge_measure sqrt img_rdg img_m2_2).get i ∧
    (objective img_obj img_pp (ridge_measure sqrt img_rdg img_m2_2)).get i =
      11 / 10 * img_pp.get i - 9 / 10 * (ridge_measure sqrt img_rdg img_m2_2).get i ∧
    ((objective img_obj img_pp (ridge_measure sqrt img_rdg img_m2_2)).get i > 0 →
      img_pp.get i > 0) := by
  have hrdg : (ridge_measure sqrt img_rdg img_m2_2).get i =
      max (eigenvalues sqrt (img_m2_2.get i)).1 0 +
        max (eigenvalues sqrt (img_m2_2.get i)).2 0 :=
    (image.foldl_set_linear img_rdg (img_m2_2.data.length : Int)
      (fun i => max (eigenvalues sqrt (img_m2_2.get i)).1 0 +
        max (eigenvalues sqrt (img_m2_2.get i)).2 0)).2.2 i h0 (by omega) (by omega)
  have hnn : 0 ≤ (ridge_measure sqrt img_rdg img_m2_2).get i := by
    rw [hrdg]
    exact add_nonneg (le_max_right _ _) (le_max_right _ _)
  have hobj : (objective img_obj img_pp (ridge_measure sqrt img_rdg img_m2_2)).get i =
      11 / 10 * img_pp.get i - 9 / 10 * (ridge_measure sqrt img_rdg img_m2_2).get i :=
    (image.foldl_set_linear img_obj (prod img_pp.shape)
      (fun i => 11 / 10 * img_pp.get i -
        9 / 10 * (ridge_measure sqrt img_rdg img_m2_2).get i)).2.2 i h0 hi (by omega)
  refine ⟨hrdg, hnn, hobj, ?_⟩
  intro hpos
  rw [hobj] at hpos
  by_contra hle
  rw [not_lt] at hle
  have h1 : 11 / 10 * img_pp.get i ≤ 0 :=
    mul_nonpos_of_nonneg_of_nonpos (by norm_num) hle
  have h2 : 0 ≤ 9 / 10 * (ridge_measure sqrt img_rdg img_m2_2).get i :=
    mul_nonneg (by norm_num) hnn
  linarith

/-- Witness of `objective_positive`: a frame of one pixel. -/
theorem objective_positive_witness :
    0 ≤ (ridge_measure Real.sqrt (image.const ⟨1, 1⟩ 0)
      (image.const ⟨1, 1⟩ (⟨1, 0, -1⟩ : mat2s ℝ))).get 0 :=
  (objective_positive Real.sqrt (image.const ⟨1, 1⟩ 1) (image.const ⟨1, 1⟩ 0)
    (image.const ⟨1, 1⟩ 0) (image.const ⟨1, 1⟩ (⟨1, 0, -1⟩ : mat2s ℝ)) 0 (by decide) (by decide)
    rfl rfl rfl).2.1

end main

end TouchDetection

namespace TouchDetection

namespace main

/-- The first loop of the component score stage leaves the field `maximas`
of every entry at zero. -/
theorem cstats_pixel_loop_maximas {T : Type} [LinearOrderedField T] (img_lbl : image Nat)
    (img_pp : image T) (img_stev : image (vec2 T)) (N : Nat)
    (hlbl : ∀ i, img_lbl.get i ≤ N) (cs : List (component_stats T))
    (hcs : (irange 0 (prod img_pp.shape)).foldl
        (fun (acc : Option (List (component_stats T))) i =>
          acc.bind (fun cstats => cstats_pixel img_lbl img_pp img_stev cstats i))
        (some (List.replicate N ⟨0, 0, 0, 0⟩)) = some cs) :
    ∀ (j : Nat) (s : component_stats T), cs[j]? = some s → s.maximas = 0 := by
  have h := foldl_option_inv
    (fun (_ : Nat) (cs : List (component_stats T)) => cs.length = N ∧
      ∀ (j : Nat) (s : component_stats T), cs[j]? = some s → s.maximas = 0)
    (fun cstats i => cstats_pixel img_lbl img_pp img_stev cstats i)
    (irange 0 (prod img_pp.shape)) (List.replicate N ⟨0, 0, 0, 0⟩)
    (by
      refine ⟨List.length_replicate _ _, fun j s hs => ?_⟩
      rw [List.getElem?_replicate] at hs
      split at hs
      · rw [← Option.some.inj hs]
      · exact absurd hs (by simp))
    (by
      intro k b cs1 _ ⟨hlen, hinv⟩
      by_cases hz : img_lbl.get b = 0
      · exact ⟨cs1, by beta_reduce; unfold cstats_pixel; simp only [hz, if_true], hlen, hinv⟩
      · have hlt : img_lbl.get b - 1 < cs1.length := by
          have := hlbl b
          omega
        refine ⟨_, (by
          beta_reduce
          unfold cstats_pixel
          simp only [hz, if_false]
          exact vector_at_update_eq _ _ _ hlt), by rw [List.length_set]; exact hlen, ?_⟩
        intro j s hs
        by_cases hj : img_lbl.get b - 1 = j
        · subst hj
          rw [List.getElem?_set_self hlt] at hs
          rw [← Option.some.inj hs]
          exact hinv _ cs1[img_lbl.get b - 1] (List.getElem?_eq_getElem hlt)
        · rw [List.getElem?_set_ne hj] at hs
          exact hinv j s hs)
  obtain ⟨cs', h1, -, h3⟩ := h
  rw [hcs] at h1
  rw [Option.some.inj h1]
  exact h3

/-- The loop over the maximas of the component score stage keeps the field
`maximas` of a label that no maximum carries. -/
theorem cstats_maxima_loop_none {T : Type} (img_lbl : image Nat) (maximas : List Int) (N : Nat)
    (hlbl : ∀ i, img_lbl.get i ≤ N) (cs cs' : List (component_stats T)) (hlen : cs.length = N)
    (hcs : maximas.foldl (fun (acc : Option (List (component_stats T))) m =>
        acc.bind (fun cstats => cstats_maxima img_lbl cstats m)) (some cs) = some cs') :
    ∀ (j : Nat) (s s' : component_stats T), cs[j]? = some s → cs'[j]? = some s' →
      (∀ m ∈ maximas, img_lbl.get m ≠ j + 1) → s'.maximas = s.maximas := by
  have h := foldl_option_inv
    (fun (_ : Nat) (cs1 : List (component_stats T)) => cs1.length = N ∧
      ∀ (j : Nat) (s : component_stats T), cs[j]? = some s →
        ∃ s', cs1[j]? = some s' ∧
          ((∀ m ∈ maximas, img_lbl.get m ≠ j + 1) → s'.maximas = s.maximas))
    (fun cstats m => cstats_maxima img_lbl cstats m) maximas cs
    ⟨hlen, fun j s hs => ⟨s, hs, fun _ => rfl⟩⟩
    (by
      intro k m cs1 hm ⟨hlen1, hinv⟩
      have hmem : m ∈ maximas := List.getElem?_mem hm
      by_cases hz : img_lbl.get m > 0
      · have hlt : img_lbl.get m - 1 < cs1.length := by
          have := hlbl m
          omega
        refine ⟨_, (by
          beta_reduce
          unfold cstats_maxima
          rw [if_pos hz]
          exact vector_at_update_eq _ _ _ hlt), by rw [List.length_set]; exact hlen1, ?_⟩
        intro j s hs
        obtain ⟨s1, hs1, h1⟩ := hinv j s hs
        by_cases hj : img_lbl.get m - 1 = j
        · subst hj
          refine ⟨_, by rw [List.getElem?_set_self hlt], fun hno => ?_⟩
          exact absurd (by omega) (hno m hmem)
        · exact ⟨s1, by rw [List.getElem?_set_ne hj]; exact hs1, h1⟩
      · exact ⟨cs1, by beta_reduce; unfold cstats_maxima; rw [if_neg hz], hlen1, hinv⟩)
  obtain ⟨cs'', h1, -, h3⟩ := h
  rw [hcs] at h1
  obtain rfl := Option.some.inj h1
  intro j s s' hs hs' hno
  obtain ⟨s1, hs1, h⟩ := h3 j s hs
  rw [hs'] at hs1
  rw [Option.some.inj hs1]
  exact h hno

/-- The score of a component without maximas is zero. -/
theorem cscore_of_no_maximas {T : Type} [Field T] (s : component_stats T)
    (h : s.maximas = 0) : cscore_of s = 0 := by
  unfold cscore_of
  simp only [h, gt_iff_lt, lt_self_iff_false, if_false, mul_zero, zero_div]

/-- The score of a component of non-negative incoherence exceeds the
threshold 0.6 exactly when it has maximas and
`100 * incoherence / (size^2 * maximas) > 1.5`. -/
theorem cscore_of_included {T : Type} [LinearOrderedField T] (s : component_stats T)
    (hinc : 0 ≤ s.incoherence) (hsize : s.size < 65536) :
    cscore_of s > 6 / 10 ↔
      s.maximas > 0 ∧ 100 * s.incoherence / ((s.size : T) ^ 2 * (s.maximas : T)) > 3 / 2 := by
  by_cases hm : s.maximas = 0
  · rw [cscore_of_no_maximas s hm]
    constructor
    · intro h
      norm_num at h
    · intro h
      omega
  · have hpos : s.maximas > 0 := Nat.pos_of_ne_zero hm
    have hmod : (s.size * s.size) % 2 ^ 32 = s.size * s.size := by
      apply Nat.mod_eq_of_lt
      have : s.size * s.size ≤ 65535 * 65535 := Nat.mul_le_mul (by omega) (by omega)
      omega
    have hv : cscore_of s =
        100 * s.incoherence / ((s.size : T) ^ 2 * (s.maximas : T)) /
          (1 + 100 * s.incoherence / ((s.size : T) ^ 2 * (s.maximas : T))) := by
      unfold cscore_of
      simp only [hmod, Nat.cast_mul, hpos, if_true]
      have e : 100 * (s.incoherence / ((s.size : T) * (s.size : T))) * (1 / (s.maximas : T)) =
          100 * s.incoherence / ((s.size : T) ^ 2 * (s.maximas : T)) := by
        rw [sq, mul_div_assoc, mul_assoc, div_mul_div_comm, mul_one]
      rw [e]
    have hnn : 0 ≤ 100 * s.incoherence / ((s.size : T) ^ 2 * (s.maximas : T)) :=
      div_nonneg (mul_nonneg (by norm_num) hinc)
        (mul_nonneg (sq_nonneg _) (Nat.cast_nonneg _))
    have hone : 0 < 1 + 100 * s.incoherence / ((s.size : T) ^ 2 * (s.maximas : T)) := by
      linarith
    rw [hv, gt_iff_lt, lt_div_iff₀ hone]
    constructor
    · intro h
      exact ⟨hpos, by linarith⟩
    · intro h
      have := h.2
      linarith

end main

end TouchDetection

namespace TouchDetection

namespace main

/-- Claim C29: for every label whose component contains no coarse local
maximum the field `maximas` is 0 and the component score is exactly 0,
whatever its size and incoherence, so `wdt_exc_bin` holds and `wdt_inc_bin`
fails on all its pixels; more generally, for a component whose pixels have
non-negative structure-tensor eigenvalues, `wdt_inc_bin` holds on its pixels
if and only if `maximas > 0` and
`100 * incoherence / (size^2 * maximas) > 1.5`.  The frame has fewer than
`2^16` pixels (the buffers of `main` have 72 x 48 pixels) and its labels lie
in `[0, num_labels]`. -/
theorem component_included_iff {T : Type} [LinearOrderedField T] (img_lbl : image Nat)
    (img_pp : image T) (img_stev : image (vec2 T)) (maximas : List Int) (num_labels : Nat)
    (hsmall : prod img_pp.shape < 65536) (hlbl : ∀ i, img_lbl.get i ≤ num_labels) :
    ∃ cstats cscore,
      component_score img_lbl img_pp img_stev maximas num_labels = some (cstats, cscore) ∧
      ∀ l, 1 ≤ l → l ≤ num_labels → ∃ s : component_stats T, cstats[l - 1]? = some s ∧
        ((∀ m ∈ maximas, img_lbl.get m ≠ l) → s.maximas = 0) ∧
        (s.maximas = 0 → cscore[l - 1]? = some 0 ∧
          ∀ i, img_lbl.get i = l → wdt_exc_bin img_lbl cscore i = some true ∧
            wdt_inc_bin img_lbl cscore i = some false) ∧
        ((∀ i, 0 ≤ i → i < prod img_pp.shape → img_lbl.get i = l →
            0 ≤ (img_stev.get i).x ∧ 0 ≤ (img_stev.get i).y) →
          ∀ i, img_lbl.get i = l →
            (wdt_inc_bin img_lbl cscore i = some true ↔
              s.maximas > 0 ∧
                100 * s.incoherence / ((s.size : T) ^ 2 * (s.maximas : T)) > 3 / 2)) := by
  obtain ⟨cs1, hcs1, hlen1, hinv1⟩ :=
    cstats_pixel_loop img_lbl img_pp img_stev num_labels hsmall hlbl
  obtain ⟨cs2, hcs2, hlen2, hinv2⟩ :=
    @cstats_maxima_loop T img_lbl maximas num_labels hlbl cs1 hlen1
  obtain ⟨cscore, hsc, hlen3, hinv3⟩ := cscore_loop cs2 num_labels hlen2
  refine ⟨cs2, cscore, ?_, ?_⟩
  · unfold component_score
    simp only [hcs1, hcs2]
    show Option.map _ _ = _
    rw [hsc]
    rfl
  intro l h1 hN
  obtain ⟨s1, hs1, hsize1, hinc1⟩ := hinv1 l h1 hN
  obtain ⟨s, hs, hsize, hinc⟩ := hinv2 (l - 1) s1 hs1
  have hscore : cscore[l - 1]? = some (cscore_of s) := hinv3 (l - 1) s hs
  -- the lambdas on the pixels of the component
  have hbin : ∀ i, img_lbl.get i = l →
      wdt_inc_bin img_lbl cscore i = some (decide (cscore_of s > 6 / 10)) ∧
      wdt_exc_bin img_lbl cscore i = some (decide (cscore_of s ≤ 6 / 10)) := by
    intro i hi
    have hl : l > 0 := by omega
    unfold wdt_inc_bin wdt_exc_bin th_inc
    simp only [hi, hl, if_true, hscore, Option.map_some', and_self]
  refine ⟨s, hs, ?_, ?_, ?_⟩
  · intro hno
    have h0 := cstats_pixel_loop_maximas img_lbl img_pp img_stev num_labels hlbl cs1 hcs1
      (l - 1) s1 hs1
    have h := cstats_maxima_loop_none img_lbl maximas num_labels hlbl cs1 cs2 hlen1 hcs2
      (l - 1) s1 s hs1 hs (fun m hm => by have := hno m hm; omega)
    rw [h, h0]
  · intro hm
    have hz := cscore_of_no_maximas s hm
    rw [hz] at hscore
    refine ⟨hscore, fun i hi => ?_⟩
    obtain ⟨hi1, hi2⟩ := hbin i hi
    rw [hi1, hi2, hz]
    have e1 : ¬ ((0 : T) > 6 / 10) := by norm_num
    have e2 : (0 : T) ≤ 6 / 10 := by norm_num
    simp only [e1, e2, decide_True, decide_False, and_self]
  · intro hev i hi
    have hnn : 0 ≤ s.incoherence := by rw [hinc]; exact hinc1 hev
    have hcount : s.size < 65536 := by
      rw [hsize, hsize1]
      have h := @List.countP_le_length Int (fun i => decide (img_lbl.get i = l))
        (irange 0 (prod img_pp.shape))
      have hl : (irange 0 (prod img_pp.shape)).length = (prod img_pp.shape).toNat := by
        simp [irange]
      omega
    rw [(hbin i hi).1, ← cscore_of_included s hnn hcount]
    simp only [Option.some.injEq, decide_eq_true_eq]

/-- Witness of `component_included_iff`: a 2 x 1 frame with one component
of two pixels and no maximum. -/
theorem component_included_iff_witness :
    ∃ cstats cscore,
      component_score (⟨⟨2, 1⟩, [1, 1]⟩ : image Nat) (⟨⟨2, 1⟩, [1, 2]⟩ : image ℚ)
        (⟨⟨2, 1⟩, [⟨3, 1⟩, ⟨1, 1⟩]⟩ : image (vec2 ℚ)) [] 1 = some (cstats, cscore) ∧
      cscore[0]? = some 0 := by
  obtain ⟨cstats, cscore, h, hl⟩ := component_included_iff (⟨⟨2, 1⟩, [1, 1]⟩ : image Nat)
    (⟨⟨2, 1⟩, [1, 2]⟩ : image ℚ) (⟨⟨2, 1⟩, [⟨3, 1⟩, ⟨1, 1⟩]⟩ : image (vec2 ℚ)) [] 1
    (by decide) (by
      intro i
      unfold image.get
      split
      · rw [List.getD_eq_getElem?_getD]
        rcases h : i.toNat with _ | _ | n
        · simp
        · simp
        · simp
      · exact Nat.zero_le _)
  obtain ⟨s, -, h1, h2, -⟩ := hl 1 le_rfl le_rfl
  exact ⟨cstats, cscore, h, (h2 (h1 (fun m hm => absurd hm (List.not_mem_nil m)))).1⟩

end main

end TouchDetection

namespace TouchDetection

namespace gfit

/-- The outputs of `extract_params` when it fails. -/
theorem extract_params_fail {T : Type} [LinearOrderedField T] (exp : T → T) (chi : vec6_t T)
    (scale : T) (mean : vec2 T) (prec : mat2s T) (eps : T)
    (h : |det (⟨-2 * chi 0, -2 * chi 1, -2 * chi 2⟩ : mat2s T)| ≤ eps) :
    impl.extract_params exp chi scale mean prec eps =
      { ok := false, scale := scale, mean := mean,
        prec := ⟨-2 * chi 0, -2 * chi 1, -2 * chi 2⟩ } := by
  unfold impl.extract_params
  simp only
  rw [if_pos h]

/-- The M-step on a valid slot whose system `ge_solve` solves and whose
solution `extract_params` rejects. -/
theorem fit_slot_extract_fail {T : Type} [LinearOrderedField T]
    (ge_solve : mat6_t T → vec6_t T → T → Bool × vec6_t T) (exp log : T → T) (meps : T)
    (data : image T) (eps : T) (p : parameters T) (hv : p.valid = true)
    (hs : (ge_solve (impl.assemble_system log meps p.bounds data p.weights).1
      (impl.assemble_system log meps p.bounds data p.weights).2 eps).1 = true)
    (hd : |det (⟨-2 * (ge_solve (impl.assemble_system log meps p.bounds data p.weights).1
          (impl.assemble_system log meps p.bounds data p.weights).2 eps).2 0,
        -2 * (ge_solve (impl.assemble_system log meps p.bounds data p.weights).1
          (impl.assemble_system log meps p.bounds data p.weights).2 eps).2 1,
        -2 * (ge_solve (impl.assemble_system log meps p.bounds data p.weights).1
          (impl.assemble_system log meps p.bounds data p.weights).2 eps).2 2⟩ : mat2s T)| ≤ eps) :
    fit_slot ge_solve exp log meps data eps p =
      { valid := false, scale := p.scale, mean := p.mean,
        prec := ⟨-2 * (ge_solve (impl.assemble_system log meps p.bounds data p.weights).1
          (impl.assemble_system log meps p.bounds data p.weights).2 eps).2 0,
        -2 * (ge_solve (impl.assemble_system log meps p.bounds data p.weights).1
          (impl.assemble_system log meps p.bounds data p.weights).2 eps).2 1,
        -2 * (ge_solve (impl.assemble_system log meps p.bounds data p.weights).1
          (impl.assemble_system log meps p.bounds data p.weights).2 eps).2 2⟩,
        bounds := p.bounds, weights := p.weights } := by
  unfold fit_slot
  simp only [hv, hs, Bool.not_true, Bool.false_eq_true, if_false]
  rw [extract_params_fail exp _ p.scale p.mean p.prec eps hd]

/-- Claim C30: `extract_params` is not atomic on failure: for every `chi`
with `|det(prec)| <= eps` it returns false, leaves `scale` and `mean`
unchanged and has `prec` overwritten by `(-2 chi[0], -2 chi[1], -2 chi[2])`.
Consequently a slot that is valid after `k` rounds of `fit` and is
invalidated by `extract_params` in the next round is returned by `fit` with
`valid = false`, the scale and the mean it had after round `k` (the mean in
scaled coordinates) and the rejected matrix of the scaled coordinates as
`prec`. -/
theorem extract_params_not_atomic {T : Type} [LinearOrderedField T]
    (ge_solve : mat6_t T → vec6_t T → T → Bool × vec6_t T) (exp log : T → T) (meps : T)
    (params : List (parameters T)) (data tmp : image T) (eps : T) (k n i : Nat)
    (p0 : parameters T) (hk : k < n)
    (h0 : ((List.range k).foldl (fun s _ => fit_step ge_solve exp log meps data eps s)
      (fit_down ⟨2 * (range : vec2 T).x / (data.shape.x : T),
        2 * (range : vec2 T).y / (data.shape.y : T)⟩ params, tmp)).1[i]? = some p0)
    (hv : p0.valid = true) :
    (∀ (chi : vec6_t T) (scale : T) (mean : vec2 T) (prec : mat2s T),
      |det (⟨-2 * chi 0, -2 * chi 1, -2 * chi 2⟩ : mat2s T)| ≤ eps →
      (impl.extract_params exp chi scale mean prec eps).ok = false ∧
      (impl.extract_params exp chi scale mean prec eps).scale = scale ∧
      (impl.extract_params exp chi scale mean prec eps).mean = mean ∧
      (impl.extract_params exp chi scale mean prec eps).prec =
        ⟨-2 * chi 0, -2 * chi 1, -2 * chi 2⟩) ∧
    ∃ W : image T,
      (impl.update_weight_maps exp
        ((List.range k).foldl (fun s _ => fit_step ge_solve exp log meps data eps s)
          (fit_down ⟨2 * (range : vec2 T).x / (data.shape.x : T),
            2 * (range : vec2 T).y / (data.shape.y : T)⟩ params, tmp)).1
        ((List.range k).foldl (fun s _ => fit_step ge_solve exp log meps data eps s)
          (fit_down ⟨2 * (range : vec2 T).x / (data.shape.x : T),
            2 * (range : vec2 T).y / (data.shape.y : T)⟩ params, tmp)).2).1[i]? =
        some { p0 with weights := W } ∧
      ((ge_solve (impl.assemble_system log meps p0.bounds data W).1
          (impl.assemble_system log meps p0.bounds data W).2 eps).1 = true →
        |det (⟨-2 * (ge_solve (impl.assemble_system log meps p0.bounds data W).1
              (impl.assemble_system log meps p0.bounds data W).2 eps).2 0,
            -2 * (ge_solve (impl.assemble_system log meps p0.bounds data W).1
              (impl.assemble_system log meps p0.bounds data W).2 eps).2 1,
            -2 * (ge_solve (impl.assemble_system log meps p0.bounds data W).1
              (impl.assemble_system log meps p0.bounds data W).2 eps).2 2⟩ : mat2s T)| ≤ eps →
        (fit ge_solve exp log meps params data tmp n eps).1[i]? =
          some (⟨false, p0.scale, p0.mean,
            ⟨-2 * (ge_solve (impl.assemble_system log meps p0.bounds data W).1
              (impl.assemble_system log meps p0.bounds data W).2 eps).2 0,
            -2 * (ge_solve (impl.assemble_system log meps p0.bounds data W).1
              (impl.assemble_system log meps p0.bounds data W).2 eps).2 1,
            -2 * (ge_solve (impl.assemble_system log meps p0.bounds data W).1
              (impl.assemble_system log meps p0.bounds data W).2 eps).2 2⟩,
            p0.bounds, W⟩ : parameters T)) := by
  constructor
  · intro chi scale mean prec h
    rw [extract_params_fail exp chi scale mean prec eps h]
    exact ⟨rfl, rfl, rfl, rfl⟩
  generalize hS : (List.range k).foldl (fun s _ => fit_step ge_solve exp log meps data eps s)
      (fit_down ⟨2 * (range : vec2 T).x / (data.shape.x : T),
        2 * (range : vec2 T).y / (data.shape.y : T)⟩ params, tmp) = S at h0
  -- the slot after the E-step
  have hE : ∃ W : image T,
      (impl.update_weight_maps exp S.1 S.2).1[i]? = some { p0 with weights := W } := by
    unfold impl.update_weight_maps
    simp only [List.getElem?_map, h0, Option.map_some', hv, Bool.not_true, Bool.false_eq_true,
      if_false]
    exact ⟨_, rfl⟩
  obtain ⟨W, hW⟩ := hE
  refine ⟨W, hW, ?_⟩
  intro hs hd
  -- round k + 1
  have hstep : ((List.range (k + 1)).foldl
      (fun s _ => fit_step ge_solve exp log meps data eps s)
      (fit_down ⟨2 * (range : vec2 T).x / (data.shape.x : T),
        2 * (range : vec2 T).y / (data.shape.y : T)⟩ params, tmp)).1[i]? =
      some (⟨false, p0.scale, p0.mean,
        ⟨-2 * (ge_solve (impl.assemble_system log meps p0.bounds data W).1
          (impl.assemble_system log meps p0.bounds data W).2 eps).2 0,
        -2 * (ge_solve (impl.assemble_system log meps p0.bounds data W).1
          (impl.assemble_system log meps p0.bounds data W).2 eps).2 1,
        -2 * (ge_solve (impl.assemble_system log meps p0.bounds data W).1
          (impl.assemble_system log meps p0.bounds data W).2 eps).2 2⟩,
        p0.bounds, W⟩ : parameters T) := by
    rw [List.range_succ, List.foldl_append, hS]
    simp only [List.foldl_cons, List.foldl_nil]
    unfold fit_step
    simp only [List.getElem?_map, hW, Option.map_some']
    rw [fit_slot_extract_fail ge_solve exp log meps data eps { p0 with weights := W } hv hs hd]
  obtain ⟨m, rfl⟩ : ∃ m, n = (k + 1) + m := ⟨n - (k + 1), by omega⟩
  have hrounds := fit_rounds_invalid ge_solve exp log meps data eps _ (k + 1) m i _ hstep rfl
  unfold fit
  exact fit_up_invalid _ _ i _ hrounds rfl

/-- Witness of `extract_params_not_atomic`: one round of `fit` on the slot
of a 3x3 image, with a solver that returns `chi = 0`, for which the matrix
`(0, 0, 0)` is rejected. -/
theorem extract_params_not_atomic_witness :
    ∃ W : image ℝ,
      (fit (ge_solve_const (fun _ => 0)) Real.exp Real.log (2 ^ (-52 : Int)) [saddle_slot]
        (image.const ⟨3, 3⟩ 1) (image.const ⟨3, 3⟩ 0) 1 (2 ^ (-52 : Int))).1[0]? =
      some (⟨false, 1,
        ⟨1 * (2 * 1 / ((3 : Int) : ℝ)) - 1, 1 * (2 * 1 / ((3 : Int) : ℝ)) - 1⟩,
        ⟨-2 * 0, -2 * 0, -2 * 0⟩, ⟨0, 2, 0, 2⟩, W⟩ : parameters ℝ) := by
  obtain ⟨-, W, -, h⟩ := extract_params_not_atomic (ge_solve_const (fun _ => 0)) Real.exp Real.log
    (2 ^ (-52 : Int)) [saddle_slot] (image.const ⟨3, 3⟩ (1 : ℝ)) (image.const ⟨3, 3⟩ 0)
    (2 ^ (-52 : Int)) 0 1 0
    ⟨true, 1,
      ⟨1 * (2 * 1 / ((3 : Int) : ℝ)) - 1, 1 * (2 * 1 / ((3 : Int) : ℝ)) - 1⟩,
      ⟨1 / ((2 * 1 / ((3 : Int) : ℝ)) * (2 * 1 / ((3 : Int) : ℝ))),
        0 / ((2 * 1 / ((3 : Int) : ℝ)) * (2 * 1 / ((3 : Int) : ℝ))),
        1 / ((2 * 1 / ((3 : Int) : ℝ)) * (2 * 1 / ((3 : Int) : ℝ)))⟩,
      ⟨0, 2, 0, 2⟩, image.const ⟨11, 11⟩ 0⟩
    (by decide) rfl rfl
  exact ⟨W, h rfl (by
    simp only [ge_solve_const, mul_zero, det, sub_self, abs_zero]
    positivity)⟩

end gfit

end TouchDetection
